import Mathlib

/-!
# Lexical scanner of the C preprocessor (`cpp/lex.c`)

A shallow embedding of the table-driven scanner: the rule list `fsm`, the
table builder `expandlex`, the buffer routines `fillbuf`, `trigraph`,
`foldline`, `setsource`, and the scan loop `gettokens`, followed by the
properties established about them.

Conventions.  Pointers into the input buffer are offsets from `inb`; the
buffer itself is a function from offsets to bytes.  `runelen` is the constant
`1` in the source and is written `1` here.  `error (FATAL, ...)` ends the run.
-/

namespace Lex

/-! ## Constants and enumerations declared in `cpp.h` -/

/-- Modelled from the spec: the capacity `INS` of a file input buffer, a
constant of `cpp.h`, whose eighth is the refill chunk. -/
def INS : Nat := 32768

/-- Modelled from the spec: `EOB`, the sentinel byte of `cpp.h` meaning
"buffer chunk exhausted, ask for more". -/
def EOB : Nat := 0xFE

/-- Modelled from the spec: `EOFC`, the sentinel byte of `cpp.h` meaning
"true end of input". -/
def EOFC : Nat := 0xFD

/-! Modelled from the spec: the closed enumeration `toktype` of `cpp.h`, in
its declaration order (the names are the ones `lex.c` uses). -/

def END : Nat := 0
def UNCLASS : Nat := 1
def NAME : Nat := 2
def NUMBER : Nat := 3
def STRING : Nat := 4
def CCON : Nat := 5
def NL : Nat := 6
def WS : Nat := 7
def DSHARP : Nat := 8
def EQ : Nat := 9
def NEQ : Nat := 10
def LEQ : Nat := 11
def GEQ : Nat := 12
def LSH : Nat := 13
def RSH : Nat := 14
def LAND : Nat := 15
def LOR : Nat := 16
def PPLUS : Nat := 17
def MMINUS : Nat := 18
def ARROW : Nat := 19
def SBRA : Nat := 20
def SKET : Nat := 21
def LP : Nat := 22
def RP : Nat := 23
def DOT : Nat := 24
def AND : Nat := 25
def STAR : Nat := 26
def PLUS : Nat := 27
def MINUS : Nat := 28
def TILDE : Nat := 29
def NOT : Nat := 30
def SLASH : Nat := 31
def PCT : Nat := 32
def LT : Nat := 33
def GT : Nat := 34
def CIRC : Nat := 35
def OR : Nat := 36
def QUEST : Nat := 37
def COLON : Nat := 38
def ASGN : Nat := 39
def COMMA : Nat := 40
def SHARP : Nat := 41
def SEMIC : Nat := 42
def CBRA : Nat := 43
def CKET : Nat := 44
def ASPLUS : Nat := 45
def ASMINUS : Nat := 46
def ASSTAR : Nat := 47
def ASSLASH : Nat := 48
def ASPCT : Nat := 49
def ASCIRC : Nat := 50
def ASLSH : Nat := 51
def ASRSH : Nat := 52
def ASOR : Nat := 53
def ASAND : Nat := 54
def ELLIPS : Nat := 55

/-- Severity of a diagnostic handed to `error`. -/
inductive errtype where
  | WARNING
  | ERROR
  | FATAL
  deriving DecidableEq, Repr

/-! ## Encoding of the finite state machine (`lex.c`, lines 35-92) -/

def MAXSTATE : Nat := 32

/-- The macro `ACT(tok,act)`: token type in the upper bits, action below. -/
def ACT (tok act : Nat) : Nat := (tok <<< 7) + act

/-- The marker bit `QBSBIT` (octal 0100). -/
def QBSBIT : Nat := 0o100

/-- The macro `GETACT(st)`. -/
def GETACT (st : Nat) : Nat := (st >>> 7) &&& 0x1ff

def C_WS : Nat := 1
def C_ALPH : Nat := 2
def C_NUM : Nat := 3
def C_EOF : Nat := 4
def C_XX : Nat := 5

def START : Nat := 0
def NUM1 : Nat := 1
def NUM2 : Nat := 2
def NUM3 : Nat := 3
def ID1 : Nat := 4
def ST1 : Nat := 5
def ST2 : Nat := 6
def ST3 : Nat := 7
def COM1 : Nat := 8
def COM2 : Nat := 9
def COM3 : Nat := 10
def COM4 : Nat := 11
def CC1 : Nat := 12
def CC2 : Nat := 13
def WS1 : Nat := 14
def PLUS1 : Nat := 15
def MINUS1 : Nat := 16
def STAR1 : Nat := 17
def SLASH1 : Nat := 18
def PCT1 : Nat := 19
def SHARP1 : Nat := 20
def CIRC1 : Nat := 21
def GT1 : Nat := 22
def GT2 : Nat := 23
def LT1 : Nat := 24
def LT2 : Nat := 25
def OR1 : Nat := 26
def AND1 : Nat := 27
def ASG1 : Nat := 28
def NOT1 : Nat := 29
def DOTS1 : Nat := 30
def S_SELF : Nat := 32
def S_SELFB : Nat := 33
def S_EOF : Nat := 34
def S_NL : Nat := 35
def S_EOFSTR : Nat := 36
def S_STNL : Nat := 37
def S_COMNL : Nat := 38
def S_EOFCOM : Nat := 39
def S_COMMENT : Nat := 40
def S_EOB : Nat := 41
def S_WS : Nat := 42
def S_NAME : Nat := 43

/-- One line of `fsm[]`: in state `state`, on one of the triggers `ch` (the
non-zero entries of the four-byte array), enter `nextstate`. -/
structure fsmRule where
  state : Nat
  ch : List Nat
  nextstate : Nat

/-- The rule list `fsm[]`, in declaration order (the closing `-1` entry is the
end of the list).  Character literals are written as their byte values. -/
def fsm : List fsmRule := [
  fsmRule.mk START [C_XX] (ACT UNCLASS S_SELF),
  fsmRule.mk START [32, 9, 11] (WS1),
  fsmRule.mk START [C_NUM] (NUM1),
  fsmRule.mk START [46] (NUM3),
  fsmRule.mk START [C_ALPH] (ID1),
  fsmRule.mk START [76] (ST1),
  fsmRule.mk START [34] (ST2),
  fsmRule.mk START [39] (CC1),
  fsmRule.mk START [47] (COM1),
  fsmRule.mk START [EOFC] (S_EOF),
  fsmRule.mk START [10] (S_NL),
  fsmRule.mk START [45] (MINUS1),
  fsmRule.mk START [43] (PLUS1),
  fsmRule.mk START [60] (LT1),
  fsmRule.mk START [62] (GT1),
  fsmRule.mk START [61] (ASG1),
  fsmRule.mk START [33] (NOT1),
  fsmRule.mk START [38] (AND1),
  fsmRule.mk START [124] (OR1),
  fsmRule.mk START [35] (SHARP1),
  fsmRule.mk START [37] (PCT1),
  fsmRule.mk START [91] (ACT SBRA S_SELF),
  fsmRule.mk START [93] (ACT SKET S_SELF),
  fsmRule.mk START [40] (ACT LP S_SELF),
  fsmRule.mk START [41] (ACT RP S_SELF),
  fsmRule.mk START [42] (STAR1),
  fsmRule.mk START [44] (ACT COMMA S_SELF),
  fsmRule.mk START [63] (ACT QUEST S_SELF),
  fsmRule.mk START [58] (ACT COLON S_SELF),
  fsmRule.mk START [59] (ACT SEMIC S_SELF),
  fsmRule.mk START [123] (ACT CBRA S_SELF),
  fsmRule.mk START [125] (ACT CKET S_SELF),
  fsmRule.mk START [126] (ACT TILDE S_SELF),
  fsmRule.mk START [94] (CIRC1),
  fsmRule.mk NUM1 [C_XX] (ACT NUMBER S_SELFB),
  fsmRule.mk NUM1 [C_NUM, C_ALPH, 46] (NUM1),
  fsmRule.mk NUM1 [69, 101] (NUM2),
  fsmRule.mk NUM1 [95] (ACT NUMBER S_SELFB),
  fsmRule.mk NUM2 [C_XX] (ACT NUMBER S_SELFB),
  fsmRule.mk NUM2 [43, 45] (NUM1),
  fsmRule.mk NUM2 [C_NUM, C_ALPH] (NUM1),
  fsmRule.mk NUM2 [95] (ACT NUMBER S_SELFB),
  fsmRule.mk NUM3 [C_XX] (ACT DOT S_SELFB),
  fsmRule.mk NUM3 [46] (DOTS1),
  fsmRule.mk NUM3 [C_NUM] (NUM1),
  fsmRule.mk DOTS1 [C_XX] (ACT UNCLASS S_SELFB),
  fsmRule.mk DOTS1 [C_NUM] (NUM1),
  fsmRule.mk DOTS1 [46] (ACT ELLIPS S_SELF),
  fsmRule.mk ID1 [C_XX] (ACT NAME S_NAME),
  fsmRule.mk ID1 [C_ALPH, C_NUM] (ID1),
  fsmRule.mk ST1 [C_XX] (ACT NAME S_NAME),
  fsmRule.mk ST1 [C_ALPH, C_NUM] (ID1),
  fsmRule.mk ST1 [34] (ST2),
  fsmRule.mk ST1 [39] (CC1),
  fsmRule.mk ST2 [C_XX] (ST2),
  fsmRule.mk ST2 [34] (ACT STRING S_SELF),
  fsmRule.mk ST2 [92] (ST3),
  fsmRule.mk ST2 [10] (S_STNL),
  fsmRule.mk ST2 [EOFC] (S_EOFSTR),
  fsmRule.mk ST3 [C_XX] (ST2),
  fsmRule.mk ST3 [10] (S_STNL),
  fsmRule.mk ST3 [EOFC] (S_EOFSTR),
  fsmRule.mk CC1 [C_XX] (CC1),
  fsmRule.mk CC1 [39] (ACT CCON S_SELF),
  fsmRule.mk CC1 [92] (CC2),
  fsmRule.mk CC1 [10] (S_STNL),
  fsmRule.mk CC1 [EOFC] (S_EOFSTR),
  fsmRule.mk CC2 [C_XX] (CC1),
  fsmRule.mk CC2 [10] (S_STNL),
  fsmRule.mk CC2 [EOFC] (S_EOFSTR),
  fsmRule.mk COM1 [C_XX] (ACT SLASH S_SELFB),
  fsmRule.mk COM1 [61] (ACT ASSLASH S_SELF),
  fsmRule.mk COM1 [42] (COM2),
  fsmRule.mk COM1 [47] (COM4),
  fsmRule.mk COM2 [C_XX] (COM2),
  fsmRule.mk COM2 [10] (S_COMNL),
  fsmRule.mk COM2 [42] (COM3),
  fsmRule.mk COM2 [EOFC] (S_EOFCOM),
  fsmRule.mk COM3 [C_XX] (COM2),
  fsmRule.mk COM3 [10] (S_COMNL),
  fsmRule.mk COM3 [42] (COM3),
  fsmRule.mk COM3 [47] (S_COMMENT),
  fsmRule.mk COM4 [C_XX] (COM4),
  fsmRule.mk COM4 [10] (S_NL),
  fsmRule.mk COM4 [EOFC] (S_EOFCOM),
  fsmRule.mk WS1 [C_XX] (S_WS),
  fsmRule.mk WS1 [32, 9, 11] (WS1),
  fsmRule.mk MINUS1 [C_XX] (ACT MINUS S_SELFB),
  fsmRule.mk MINUS1 [45] (ACT MMINUS S_SELF),
  fsmRule.mk MINUS1 [61] (ACT ASMINUS S_SELF),
  fsmRule.mk MINUS1 [62] (ACT ARROW S_SELF),
  fsmRule.mk PLUS1 [C_XX] (ACT PLUS S_SELFB),
  fsmRule.mk PLUS1 [43] (ACT PPLUS S_SELF),
  fsmRule.mk PLUS1 [61] (ACT ASPLUS S_SELF),
  fsmRule.mk LT1 [C_XX] (ACT LT S_SELFB),
  fsmRule.mk LT1 [60] (LT2),
  fsmRule.mk LT1 [61] (ACT LEQ S_SELF),
  fsmRule.mk LT2 [C_XX] (ACT LSH S_SELFB),
  fsmRule.mk LT2 [61] (ACT ASLSH S_SELF),
  fsmRule.mk GT1 [C_XX] (ACT GT S_SELFB),
  fsmRule.mk GT1 [62] (GT2),
  fsmRule.mk GT1 [61] (ACT GEQ S_SELF),
  fsmRule.mk GT2 [C_XX] (ACT RSH S_SELFB),
  fsmRule.mk GT2 [61] (ACT ASRSH S_SELF),
  fsmRule.mk ASG1 [C_XX] (ACT ASGN S_SELFB),
  fsmRule.mk ASG1 [61] (ACT EQ S_SELF),
  fsmRule.mk NOT1 [C_XX] (ACT NOT S_SELFB),
  fsmRule.mk NOT1 [61] (ACT NEQ S_SELF),
  fsmRule.mk AND1 [C_XX] (ACT AND S_SELFB),
  fsmRule.mk AND1 [38] (ACT LAND S_SELF),
  fsmRule.mk AND1 [61] (ACT ASAND S_SELF),
  fsmRule.mk OR1 [C_XX] (ACT OR S_SELFB),
  fsmRule.mk OR1 [124] (ACT LOR S_SELF),
  fsmRule.mk OR1 [61] (ACT ASOR S_SELF),
  fsmRule.mk SHARP1 [C_XX] (ACT SHARP S_SELFB),
  fsmRule.mk SHARP1 [35] (ACT DSHARP S_SELF),
  fsmRule.mk PCT1 [C_XX] (ACT PCT S_SELFB),
  fsmRule.mk PCT1 [61] (ACT ASPCT S_SELF),
  fsmRule.mk STAR1 [C_XX] (ACT STAR S_SELFB),
  fsmRule.mk STAR1 [61] (ACT ASSTAR S_SELF),
  fsmRule.mk CIRC1 [C_XX] (ACT CIRC S_SELFB),
  fsmRule.mk CIRC1 [61] (ACT ASCIRC S_SELF)
]

/-! ## The big table and its construction (`lex.c`, lines 295-406) -/

/-- The array `short bigfsm[256][MAXSTATE]`: first index the byte, second the
state. -/
abbrev Table := Nat → Nat → Int

/-- Assign `bigfsm[c][s] = v`. -/
def Table.put (t : Table) (c s : Nat) (v : Int) : Table :=
  fun c' s' => if c' = c ∧ s' = s then v else t c' s'

/-- The table as the C runtime provides it before `expandlex`: all zero. -/
def zeroTable : Table := fun _ _ => 0

/-- Bitwise complement `~n` of a C integer. -/
def cnot (n : Int) : Int := -n - 1

/-- The expression `x & ~QBSBIT` on a C integer: bit 6 is cleared. -/
def clearQBS (x : Int) : Int :=
  if 0 ≤ x then ((x.toNat - (x.toNat &&& QBSBIT) : Nat) : Int)
  else cnot (((cnot x).toNat ||| QBSBIT : Nat) : Int)

/-- A counted loop `for (j = lo; j < lo + n; j++) body`. -/
def forRange {α : Type} (lo : Nat) : Nat → (Nat → α → α) → α → α
  | 0, _, a => a
  | n + 1, body, a => forRange (lo + 1) n body (body lo a)

/-- The value stored for a rule target: `~nstate` when `nstate >= S_SELF`. -/
def encode (nextstate : Nat) : Int :=
  if nextstate ≥ S_SELF then cnot nextstate else nextstate

/-- The body of the rule pass of `expandlex` for one trigger `ch[i]` of the
rule `fp`. -/
def expandTrigger (fp : fsmRule) (ch : Nat) (t : Table) : Table :=
  let nstate : Int := encode fp.nextstate
  if ch = C_XX then
    forRange 0 256 (fun j t => t.put j fp.state nstate) t
  else if ch = C_ALPH then
    forRange 0 257 (fun j t =>
      if (97 ≤ j ∧ j ≤ 122) ∨ (65 ≤ j ∧ j ≤ 90) ∨ j = 95 then t.put j fp.state nstate else t) t
  else if ch = C_NUM then
    forRange 48 10 (fun j t => t.put j fp.state nstate) t
  else
    t.put ch fp.state nstate

/-- The rule pass of `expandlex`: every rule in order, every trigger in order. -/
def expandRules (rules : List fsmRule) (t : Table) : Table :=
  rules.foldl (fun t fp => fp.ch.foldl (fun t ch => expandTrigger fp ch t) t) t

/-- The post-pass of `expandlex` for one state `i`. -/
def expandSpecial (i : Nat) (t : Table) : Table :=
  let t1 := forRange 0 0xFF (fun j t =>
    if j = 63 ∨ j = 92 then
      let t' := if t j i > 0 then t.put j i (cnot (t j i)) else t
      t'.put j i (clearQBS (t' j i))
    else t) t
  let t2 := t1.put EOB i (cnot S_EOB)
  if t2 EOFC i ≥ 0 then t2.put EOFC i (cnot S_EOF) else t2

/-- The function `expandlex`, as a transformer of the global table. -/
def expandlex (t : Table) : Table :=
  forRange 0 MAXSTATE expandSpecial (expandRules fsm t)

/-- The function `fixlex`; `cplusplus` is the global `Cplusplus != 0`. -/
def fixlex (cplusplus : Bool) (t : Table) : Table :=
  if cplusplus then t else t.put 47 COM1 (t 120 COM1)

/-- The global `bigfsm` as `gettokens` finds it: `expandlex` has run on the
zero-initialised array, then `fixlex`. -/
def bigfsm (cplusplus : Bool) : Table := fixlex cplusplus (expandlex zeroTable)

/-! ### A closed form of the table -/

/-- Whether the trigger `ch` of a rule covers the byte `c`. -/
def trigger (c ch : Nat) : Bool :=
  bif Nat.beq ch C_XX then Nat.blt c 256
  else bif Nat.beq ch C_ALPH then
    (Nat.ble 97 c && Nat.ble c 122) || (Nat.ble 65 c && Nat.ble c 90) || Nat.beq c 95
  else bif Nat.beq ch C_NUM then Nat.ble 48 c && Nat.blt c 58
  else Nat.beq c ch

/-- The rules of `fsm[]` for the state `s`, in declaration order. -/
def rowRules (s : Nat) : List fsmRule := fsm.filter (fun fp => Nat.beq fp.state s)

/-- The target of the last rule of the list one of whose triggers covers the
byte `c`, if any. -/
def rowHit (c : Nat) : List fsmRule → Option Nat
  | [] => none
  | fp :: rest =>
    match rowHit c rest with
    | some n => some n
    | none => bif fp.ch.any (trigger c) then some fp.nextstate else none

/-- The entry after the rule pass: the last rule that writes it decides. -/
def ruleEntry (c s : Nat) (base : Int) : Int :=
  match rowHit c (rowRules s) with
  | some n => encode n
  | none => base

/-- What the post-pass does to the entry `v` of byte `c` (for a state below
`MAXSTATE`). -/
def special (c : Nat) (v : Int) : Int :=
  bif Nat.beq c EOB then cnot S_EOB
  else bif Nat.beq c EOFC then (if v ≥ 0 then cnot S_EOF else v)
  else bif Nat.beq c 63 || Nat.beq c 92 then clearQBS (if v > 0 then cnot v else v)
  else v

/-- Closed form of `expandlex t`. -/
def expanded (t : Table) (c s : Nat) : Int :=
  bif Nat.blt s MAXSTATE then special c (ruleEntry c s (t c s)) else ruleEntry c s (t c s)

/-- Closed form of `bigfsm`. -/
def entry (cplusplus : Bool) (c s : Nat) : Int :=
  bif !cplusplus && Nat.beq c 47 && Nat.beq s COM1 then expanded zeroTable 120 COM1
  else expanded zeroTable c s

/-- One rule of the rule pass, seen from the entry of byte `c` and state `s`. -/
def hitStep (c s : Nat) (acc : Option Nat) (fp : fsmRule) : Option Nat :=
  if fp.state = s ∧ fp.ch.any (trigger c) = true then some fp.nextstate else acc

/-! ## Tokens, sources and buffers (types of `cpp.h`; `lex.c`, lines 583-688) -/

/-- Modelled from the spec: the `Token` of `cpp.h`: type, flags, hideset
handle, whitespace-prefix length, length, and the start `t` of its text as an
offset into the input buffer. -/
structure Token where
  type : Nat
  flag : Nat
  hideset : Nat
  wslen : Nat
  len : Nat
  t : Nat
  deriving DecidableEq, Repr

/-- Modelled from the spec: the `Source` of `cpp.h`, restricted to the fields
the scanner touches.  `inb` is the contents of the buffer (offset to byte),
`inp` the read cursor, `inl` the end of the valid bytes, `lineinc` the pending
line increment, `fd` the file handle: `none` for a string source, otherwise
the bytes the file still holds. -/
structure Source where
  inb : Nat → Nat
  inp : Nat
  inl : Nat
  lineinc : Nat
  fd : Option (List Nat)

/-- The byte `inb[i]`, an `unsigned char`. -/
def Source.byte (s : Source) (i : Nat) : Nat := s.inb i % 256

/-- A diagnostic as handed to `error`: its severity and its message. -/
abbrev Diag := errtype × String

/-- The library function `memmove (dst, src, n)` on a buffer. -/
def memmove (m : Nat → Nat) (dst src n : Nat) : Nat → Nat :=
  fun i => if dst ≤ i ∧ i < dst + n then m (src + (i - dst)) else m i

/-- The assignment `m[k] = v`. -/
def poke (m : Nat → Nat) (k v : Nat) : Nat → Nat :=
  fun i => if i = k then v else m i

/-- The four assignments `inl[0] = inl[1] = inl[2] = inl[3] = v`. -/
def sentinels (m : Nat → Nat) (inl v : Nat) : Nat → Nat :=
  fun i => if inl ≤ i ∧ i < inl + 4 then v else m i

/-- The effect of `fread (inl, 1, INS/8, fd)` on the buffer when it delivers
the bytes `chunk`. -/
def fread (m : Nat → Nat) (inl : Nat) (chunk : List Nat) : Nat → Nat :=
  fun i => if inl ≤ i ∧ i < inl + chunk.length then chunk.getD (i - inl) 0 else m i

/-- The function `fillbuf`.  The result is `none` when it raises the FATAL
"Input buffer overflow"; otherwise the source after the call and whether the
call returned `EOF`.  A read delivers the next `INS/8` bytes of the file, or
what is left of it. -/
def fillbuf (s : Source) : Option (Source × Bool) :=
  if s.inl + INS / 8 > INS then none
  else
    let chunk : List Nat := match s.fd with
      | none => []
      | some rest => rest.take (INS / 8)
    let n := chunk.length
    let m1 := fread s.inb s.inl chunk
    let m2 := if m1 s.inp % 256 = EOB then poke m1 s.inp EOFC else m1
    let inl := s.inl + n
    let fd := s.fd.map (fun rest => rest.drop (INS / 8))
    if n = 0 then
      some ({ s with inb := sentinels (sentinels m2 inl EOB) inl EOFC, inl := inl, fd := fd }, true)
    else
      some ({ s with inb := sentinels m2 inl EOB, inl := inl, fd := fd }, false)

/-- The loop `while (s->inp + d >= s->inl && fillbuf (s) != EOF) ;` of
`trigraph` (`d = 2`) and `foldline` (`d = 1`).  Every pass that goes on makes
`inl` larger, so `inp + d + 1 - inl` passes are enough: with that many the
first case is reached only when the loop condition is false. -/
def refill (d : Nat) : Nat → Source → Option Source
  | 0, s => some s
  | k + 1, s =>
    if s.inp + d ≥ s.inl then
      match fillbuf s with
      | none => none
      | some (s1, true) => some s1
      | some (s1, false) => refill d k s1
    else some s

/-- The `switch` of `trigraph`: the replacement of the third byte of a
trigraph, `0` when there is none. -/
def trigraphChar (c : Nat) : Nat :=
  if c = 61 then 35
  else if c = 40 then 91
  else if c = 47 then 92
  else if c = 41 then 93
  else if c = 39 then 94
  else if c = 60 then 123
  else if c = 33 then 124
  else if c = 62 then 125
  else if c = 45 then 126
  else 0

/-- The function `trigraph`: `none` when a refill raises FATAL, otherwise the
source after the call and the value returned. -/
def trigraph (s : Source) : Option (Source × Nat) :=
  match refill 2 (s.inp + 3 - s.inl) s with
  | none => none
  | some s =>
    if s.byte (s.inp + 1) ≠ 63 then some (s, 0)
    else
      let c := trigraphChar (s.byte (s.inp + 2))
      if c ≠ 0 then
        some ({ s with
                inb := memmove (poke s.inb s.inp c) (s.inp + 1) (s.inp + 3) (s.inl - s.inp + 2),
                inl := s.inl - 2 }, c)
      else some (s, c)

/-- The function `foldline`: `none` when a refill raises FATAL, otherwise the
source after the call and the value returned. -/
def foldline (s : Source) : Option (Source × Nat) :=
  match refill 1 (s.inp + 2 - s.inl) s with
  | none => none
  | some s =>
    if s.byte (s.inp + 1) = 10 then
      some ({ s with inb := memmove s.inb s.inp (s.inp + 2) (s.inl - s.inp + 3),
                     inl := s.inl - 2 }, 1)
    else some (s, 0)

/-- The library function `strlen` on the bytes of a C string. -/
def strlen (str : List Nat) : Nat := (str.takeWhile (fun b => b % 256 ≠ 0)).length

/-- The function `setsource`, without the fields of the source the scanner
does not touch.  `str` is the string argument (`none` for `NULL`) and `heap`
what the freshly allocated buffer holds before it is written. -/
def setsource (fd : Option (List Nat)) (str : Option (List Nat)) (heap : Nat → Nat) : Source :=
  match str with
  | some str =>
    let len := strlen str
    { inb := fun i => if i < len then str.getD i 0 else if i < len + 2 then EOB else heap i,
      inp := 0, inl := len, lineinc := 0, fd := fd }
  | none =>
    { inb := fun i => if i < 2 then EOB else heap i,
      inp := 0, inl := 0, lineinc := 0, fd := fd }

/-! ## The scan loop (`lex.c`, lines 419-580) -/

/-- The variables of `gettokens` at the head of its inner loop: the source,
the cursor `ip`, the state, the start `t` and the `wslen` of the token being
scanned (`tp`), the tokens appended so far by this call, `nmac`, and the
diagnostics reported so far. -/
structure Scan where
  s : Source
  ip : Nat
  state : Nat
  t : Nat
  wslen : Nat
  row : List Token
  nmac : Nat
  diags : List Diag

/-- How a call of `gettokens` ends: it returns `nmac`, having appended `row`
to the token row, or a FATAL error ends the run. -/
inductive Outcome where
  | returned (nmac : Nat) (row : List Token) (s : Source) (diags : List Diag)
  | fatal (row : List Token) (s : Source) (diags : List Diag)

/-- One pass of the inner loop either goes on or ends the call. -/
inductive Step where
  | next (st : Scan)
  | done (o : Outcome)

/-- The token `tp` is finished with type `type` at cursor `ip` (`tp->len = ip -
tp->t; tp++; goto continue2`), and the next token is set up. -/
def emit (st : Scan) (ip type : Nat) : Scan :=
  { st with
    ip := ip, state := START, t := ip, wslen := 0,
    row := st.row ++ [{ type := type, flag := 0, hideset := 0, wslen := st.wslen,
                        len := ip - st.t, t := st.t }] }

/-- The plain continuation `ip += runelen; continue` with the new state. -/
def advance (st : Scan) (state : Nat) : Step :=
  .next { st with ip := st.ip + 1, state := state }

/-- The named cases of `switch (state & 0177)`; `dflt` is what the `default`
case does.  `st.state` still holds `oldstate`, `code` is the value of `state`
after `state = ~state`, and `trp` holds the tokens the row had before the
call. -/
def switchOn (quicklook : Nat → Nat → Nat) (trp : List Token) (st : Scan) (code : Nat)
    (dflt : Step) : Step :=
  let a := code &&& 0o177
  if a = S_SELF then .next (emit st (st.ip + 1) (GETACT code))
  else if a = S_SELFB then .next (emit st st.ip (GETACT code))
  else if a = S_NAME then
    let len := st.ip - st.t
    let look := quicklook (st.s.byte st.t) (if len > 1 then st.s.byte (st.t + 1) else 0)
    .next (emit { st with nmac := st.nmac ||| look } st.ip NAME)
  else if a = S_WS then
    .next { st with wslen := st.ip - st.t, t := st.ip, state := START }
  else if a = S_EOB then
    match fillbuf { st.s with inp := st.ip } with
    | none => .done (.fatal st.row { st.s with inp := st.ip }
                (st.diags ++ [(errtype.FATAL, "Input buffer overflow")]))
    | some (s1, _) => .next { st with s := s1 }
  else if a = S_EOF then
    let warn : List Diag :=
      if (trp ++ st.row) ≠ [] ∧ ((trp ++ st.row).getLast?.map Token.type) ≠ some NL
          ∧ st.s.fd ≠ none
      then [(errtype.WARNING, "No newline at end of file")] else []
    .done (.returned st.nmac
      (st.row ++ [{ type := END, flag := 0, hideset := 0, wslen := st.wslen, len := 0, t := st.t }])
      { st.s with inp := st.ip } (st.diags ++ warn))
  else if a = S_STNL ∨ a = S_NL then
    let err : List Diag :=
      if a = S_STNL then [(errtype.ERROR, "Unterminated string or char const")] else []
    .done (.returned st.nmac
      (st.row ++ [{ type := NL, flag := 0, hideset := 0, wslen := 0, len := 1, t := st.ip }])
      { st.s with lineinc := st.s.lineinc + 1, inp := st.ip + 1 } (st.diags ++ err))
  else if a = S_EOFSTR then
    .done (.fatal st.row st.s (st.diags ++ [(errtype.FATAL, "EOF in string or char constant")]))
  else if a = S_COMNL then
    let s1 := { st.s with lineinc := st.s.lineinc + 1 }
    let ip := st.ip + 1
    if ip ≥ 7 * INS / 8 then
      .next { st with
        s := { s1 with inb := memmove s1.inb st.t ip (4 + s1.inl - ip),
                       inl := s1.inl - (ip - st.t) },
        ip := st.t + 1, state := COM2 }
    else .next { st with s := s1, ip := ip, state := COM2 }
  else if a = S_EOFCOM ∨ a = S_COMMENT then
    let warn : List Diag :=
      if a = S_EOFCOM then [(errtype.WARNING, "EOF inside comment")] else []
    let ip := if a = S_EOFCOM then st.ip else st.ip + 1
    let inb := if ip = 0 then st.s.inb else poke st.s.inb (ip - 1) 32
    .next { st with s := { st.s with inb := inb }, ip := ip, t := ip, wslen := 1,
                    state := START, diags := st.diags ++ warn }
  else dflt

/-- The `default` case of the switch when it is entered from the table: a
continuation whose marker bit is clear goes on; a marked one asks `trigraph`
or `foldline`, and on "no match" re-enters the switch (`goto reswitch`) with
the marker removed, where the `default` case can only go on. -/
def dfltCase (quicklook : Nat → Nat → Nat) (trp : List Token) (st : Scan) (c code : Nat) : Step :=
  if code &&& QBSBIT = 0 then advance st code
  else
    let code1 := code - (code &&& QBSBIT)
    let s1 := { st.s with inp := st.ip }
    if c = 63 then
      match trigraph s1 with
      | none => .done (.fatal st.row s1 (st.diags ++ [(errtype.FATAL, "Input buffer overflow")]))
      | some (s2, r) =>
        if r ≠ 0 then .next { st with s := s2 }
        else switchOn quicklook trp { st with s := s2 } code1 (advance { st with s := s2 } code1)
    else if c = 92 then
      match foldline s1 with
      | none => .done (.fatal st.row s1 (st.diags ++ [(errtype.FATAL, "Input buffer overflow")]))
      | some (s2, r) =>
        if r ≠ 0 then .next { st with s := { s2 with lineinc := s2.lineinc + 1 } }
        else switchOn quicklook trp { st with s := s2 } code1 (advance { st with s := s2 } code1)
    else
      advance { st with s := s1, diags := st.diags ++ [(errtype.WARNING, "Lexical botch in cpp")] }
        code1

/-- One pass of the inner loop `for (;;)` of `gettokens`, over the table `T`. -/
def step (T : Table) (quicklook : Nat → Nat → Nat) (trp : List Token) (st : Scan) : Step :=
  let c := st.s.byte st.ip
  let e := T c st.state
  if e ≥ 0 then advance st e.toNat
  else
    let code := (cnot e).toNat
    switchOn quicklook trp st code (dfltCase quicklook trp st c code)

/-- The inner loop, run for at most `fuel` passes; `none` when they do not
suffice. -/
def scanLoop (T : Table) (quicklook : Nat → Nat → Nat) (trp : List Token) :
    Nat → Scan → Option Outcome
  | 0, _ => none
  | fuel + 1, st =>
    match step T quicklook trp st with
    | .done o => some o
    | .next st1 => scanLoop T quicklook trp fuel st1

/-- The prologue of `gettokens`: what `reset` does to the source before the
first token; `none` when `fillbuf` raises FATAL. -/
def rewind (s : Source) (reset : Bool) : Option Source :=
  if reset then
    let s := { s with lineinc := 0 }
    if s.inp ≥ s.inl then
      match fillbuf { s with inl := 0 } with
      | none => none
      | some (s1, _) => some { s1 with inp := 0 }
    else if s.inp ≥ 3 * INS / 4 then
      some { s with inb := memmove s.inb 0 s.inp (4 + s.inl - s.inp),
                    inl := s.inl - s.inp, inp := 0 }
    else some s
  else some s

/-- The variables of `gettokens` when its loop is entered on the source `s`. -/
def Scan.init (s : Source) : Scan :=
  { s := s, ip := s.inp, state := START, t := s.inp, wslen := 0, row := [], nmac := 0,
    diags := [] }

/-- The function `gettokens (trp, reset)` on the current source `s`, over the
table `T`, with the macro `quicklook` of `cpp.h` as a parameter; `trp` holds
the tokens of the row before `trp->lp`.  `none` when `fuel` passes of the loop
do not suffice. -/
def gettokens (T : Table) (quicklook : Nat → Nat → Nat) (fuel : Nat) (s : Source)
    (trp : List Token) (reset : Bool) : Option Outcome :=
  match rewind s reset with
  | none => some (.fatal [] s [(errtype.FATAL, "Input buffer overflow")])
  | some s1 => scanLoop T quicklook trp fuel (Scan.init s1)

/-- The text of a token: the `len` bytes of the buffer from its start. -/
def Token.text (m : Nat → Nat) (tok : Token) : List Nat :=
  (List.range tok.len).map (fun i => m (tok.t + i) % 256)

/-! ## What the proofs use of the table -/

/-- The token types stored with `S_SELF` and `S_SELFB` are never `END`, `NL`
or `NAME`. -/
def typeOK (code : Nat) : Bool :=
  GETACT code != END && GETACT code != NL && GETACT code != NAME

/-- What `good` says of a continuation entry `k`. -/
def ContOK (c k : Nat) : Prop :=
  0 < k ∧ k < 31 ∧ k ≠ 18 ∧ c ≠ 253 ∧ c ≠ 254 ∧ c ≠ 10 ∧ c ≠ 63 ∧ c ≠ 92

instance (c k : Nat) : Decidable (ContOK c k) := by unfold ContOK; infer_instance

/-- What `good` says of a marked entry with complement `code`. -/
def MarkedOK (c s code : Nat) : Prop :=
  (c = 63 ∨ c = 92) ∧
  ((0 < code - (code &&& QBSBIT) ∧ code - (code &&& QBSBIT) < 31
      ∧ code - (code &&& QBSBIT) ≠ 18
      ∧ (code - (code &&& QBSBIT)) &&& 0o177 = code - (code &&& QBSBIT)) ∨
    ((((code - (code &&& QBSBIT)) &&& 0o177 = S_SELF) ∨
        ((((code - (code &&& QBSBIT)) &&& 0o177 = S_SELFB) ∨
          ((code - (code &&& QBSBIT)) &&& 0o177 = S_NAME) ∨
          ((code - (code &&& QBSBIT)) &&& 0o177 = S_WS)) ∧ s ≠ START))
      ∧ (code - (code &&& QBSBIT)) &&& QBSBIT = 0
      ∧ (((code - (code &&& QBSBIT)) &&& 0o177 = S_SELF ∨
          (code - (code &&& QBSBIT)) &&& 0o177 = S_SELFB) →
            typeOK (code - (code &&& QBSBIT)) = true)))

instance (c s code : Nat) : Decidable (MarkedOK c s code) := by unfold MarkedOK; infer_instance

/-- What `good` says of an unmarked negative entry with complement `code`. -/
def NamedOK (c s code : Nat) : Prop :=
  (32 ≤ code &&& 0o177 ∧ code &&& 0o177 ≤ 43 ∧ c ≠ 63 ∧ c ≠ 92) ∧
  (code &&& 0o177 = S_SELF → c ≠ 253 ∧ c ≠ 254 ∧ c ≠ 10) ∧
  (code &&& 0o177 = S_SELF ∨ code &&& 0o177 = S_SELFB → typeOK code = true) ∧
  (code &&& 0o177 = S_SELFB ∨ code &&& 0o177 = S_NAME ∨ code &&& 0o177 = S_WS
      → s ≠ START ∧ c ≠ 254) ∧
  (code &&& 0o177 = S_EOB ↔ c = 254) ∧
  (code &&& 0o177 = S_EOF ∨ code &&& 0o177 = S_EOFSTR ∨ code &&& 0o177 = S_EOFCOM → c = 253) ∧
  (c = 253 → code &&& 0o177 = S_EOF ∨ code &&& 0o177 = S_EOFSTR ∨ code &&& 0o177 = S_EOFCOM
      ∨ code &&& 0o177 = S_SELFB ∨ code &&& 0o177 = S_NAME ∨ code &&& 0o177 = S_WS) ∧
  (code &&& 0o177 = S_NL ∨ code &&& 0o177 = S_STNL ∨ code &&& 0o177 = S_COMNL → c = 10) ∧
  (code &&& 0o177 = S_STNL ∨ code &&& 0o177 = S_COMNL ∨ code &&& 0o177 = S_EOFSTR
      ∨ code &&& 0o177 = S_EOFCOM ∨ code &&& 0o177 = S_COMMENT → s ≠ START) ∧
  (code &&& 0o177 = S_COMMENT → c = 47)

instance (c s code : Nat) : Decidable (NamedOK c s code) := by unfold NamedOK; infer_instance

/-- The properties of a table entry `e` for the byte `c` in the state `s` that
the proofs about the scan loop rest on, as one decidable check.  With `code`
the complement of a negative entry and `a` its action bits: a continuation
goes to a state in `1 .. 30` other than `SLASH1` and never stands on a
sentinel, a newline, `?` or backslash; the marker bit is set on `?` and
backslash only, and what is left without it is a continuation or one of the
token-ending actions; every other negative entry is a named action, standing
only on the bytes and in the states that the rules give it; and the token
types stored with `S_SELF` and `S_SELFB` are never `END`, `NL` or `NAME`. -/
def good (c s : Nat) (e : Int) : Bool :=
  if s = SLASH1 ∨ s = 31 then true
  else
    match e with
    | Int.ofNat k => decide (ContOK c k)
    | Int.negSucc code =>
      if code &&& QBSBIT ≠ 0 then decide (MarkedOK c s code) else decide (NamedOK c s code)

/-! ## One pass of the loop, case by case -/

/-- The source `s2` is the source of `st`, or what `trigraph` or `foldline`
left of it when it found no match at the cursor. -/
def Base (st : Scan) (s2 : Source) : Prop :=
  s2 = st.s
  ∨ (st.s.byte st.ip = 63 ∧ trigraph { st.s with inp := st.ip } = some (s2, 0))
  ∨ (st.s.byte st.ip = 92 ∧ foldline { st.s with inp := st.ip } = some (s2, 0))

/-- The passes of the inner loop of `gettokens`, one constructor for each
thing a pass can do in a state the scanner can be in. -/
inductive StepR (quicklook : Nat → Nat → Nat) (trp : List Token) (st : Scan) : Step → Prop
  | cont (s2 : Source) (k : Nat) (hb : Base st s2) (hk : 0 < k ∧ k < 31 ∧ k ≠ 18)
      (hc : st.s.byte st.ip ≠ 253 ∧ st.s.byte st.ip ≠ 254 ∧ st.s.byte st.ip ≠ 10) :
      StepR quicklook trp st (.next { st with s := s2, ip := st.ip + 1, state := k })
  | self (s2 : Source) (code : Nat) (hb : Base st s2) (ht : typeOK code = true)
      (hc : st.s.byte st.ip ≠ 253 ∧ st.s.byte st.ip ≠ 254 ∧ st.s.byte st.ip ≠ 10) :
      StepR quicklook trp st (.next (emit { st with s := s2 } (st.ip + 1) (GETACT code)))
  | selfb (s2 : Source) (code : Nat) (hb : Base st s2) (ht : typeOK code = true)
      (hs : st.state ≠ START) (hc : st.s.byte st.ip ≠ 254) :
      StepR quicklook trp st (.next (emit { st with s := s2 } st.ip (GETACT code)))
  | name (s2 : Source) (hb : Base st s2) (hs : st.state ≠ START) (hc : st.s.byte st.ip ≠ 254) :
      StepR quicklook trp st (.next (emit
        { st with
          s := s2,
          nmac := (st.nmac |||
            quicklook (s2.byte st.t) (if st.ip - st.t > 1 then s2.byte (st.t + 1) else 0)) }
        st.ip NAME))
  | ws (s2 : Source) (hb : Base st s2) (hs : st.state ≠ START) (hc : st.s.byte st.ip ≠ 254) :
      StepR quicklook trp st
        (.next { st with s := s2, wslen := st.ip - st.t, t := st.ip, state := START })
  | eobFatal (hc : st.s.byte st.ip = 254) (hf : fillbuf { st.s with inp := st.ip } = none) :
      StepR quicklook trp st (.done (.fatal st.row { st.s with inp := st.ip }
        (st.diags ++ [(errtype.FATAL, "Input buffer overflow")])))
  | eob (s1 : Source) (b : Bool) (hc : st.s.byte st.ip = 254)
      (hf : fillbuf { st.s with inp := st.ip } = some (s1, b)) :
      StepR quicklook trp st (.next { st with s := s1 })
  | eof (warn : List Diag) (hc : st.s.byte st.ip = 253)
      (hw : ∀ d ∈ warn, d = (errtype.WARNING, "No newline at end of file")) :
      StepR quicklook trp st (.done (.returned st.nmac
        (st.row ++ [{ type := END, flag := 0, hideset := 0, wslen := st.wslen, len := 0,
                      t := st.t }])
        { st.s with inp := st.ip } (st.diags ++ warn)))
  | nl (err : List Diag) (hc : st.s.byte st.ip = 10)
      (he : ∀ d ∈ err, d = (errtype.ERROR, "Unterminated string or char const")) :
      StepR quicklook trp st (.done (.returned st.nmac
        (st.row ++ [{ type := NL, flag := 0, hideset := 0, wslen := 0, len := 1, t := st.ip }])
        { st.s with lineinc := st.s.lineinc + 1, inp := st.ip + 1 } (st.diags ++ err)))
  | eofstr (hc : st.s.byte st.ip = 253) :
      StepR quicklook trp st (.done (.fatal st.row st.s
        (st.diags ++ [(errtype.FATAL, "EOF in string or char constant")])))
  | comnl (hc : st.s.byte st.ip = 10) (hs : st.state ≠ START) (hlt : st.ip + 1 < 7 * INS / 8) :
      StepR quicklook trp st (.next { st with
        s := { st.s with lineinc := st.s.lineinc + 1 }, ip := st.ip + 1, state := COM2 })
  | compact (hc : st.s.byte st.ip = 10) (hs : st.state ≠ START) (hge : st.ip + 1 ≥ 7 * INS / 8) :
      StepR quicklook trp st (.next { st with
        s := { st.s with
               lineinc := st.s.lineinc + 1,
               inb := memmove st.s.inb st.t (st.ip + 1) (4 + st.s.inl - (st.ip + 1)),
               inl := st.s.inl - (st.ip + 1 - st.t) },
        ip := st.t + 1, state := COM2 })
  | eofcom (hc : st.s.byte st.ip = 253) (hs : st.state ≠ START) :
      StepR quicklook trp st (.next { st with
        s := { st.s with inb := if st.ip = 0 then st.s.inb else poke st.s.inb (st.ip - 1) 32 },
        t := st.ip, wslen := 1, state := START,
        diags := st.diags ++ [(errtype.WARNING, "EOF inside comment")] })
  | comment (hc : st.s.byte st.ip = 47) (hs : st.state ≠ START) :
      StepR quicklook trp st (.next { st with
        s := { st.s with inb := poke st.s.inb st.ip 32 },
        ip := st.ip + 1, t := st.ip + 1, wslen := 1, state := START })
  | tri (s2 : Source) (r : Nat) (hc : st.s.byte st.ip = 63)
      (hf : trigraph { st.s with inp := st.ip } = some (s2, r)) (hr : r ≠ 0) :
      StepR quicklook trp st (.next { st with s := s2 })
  | fold (s2 : Source) (r : Nat) (hc : st.s.byte st.ip = 92)
      (hf : foldline { st.s with inp := st.ip } = some (s2, r)) (hr : r ≠ 0) :
      StepR quicklook trp st (.next { st with s := { s2 with lineinc := s2.lineinc + 1 } })
  | escFatal
      (hf : (st.s.byte st.ip = 63 ∧ trigraph { st.s with inp := st.ip } = none)
          ∨ (st.s.byte st.ip = 92 ∧ foldline { st.s with inp := st.ip } = none)) :
      StepR quicklook trp st (.done (.fatal st.row { st.s with inp := st.ip }
        (st.diags ++ [(errtype.FATAL, "Input buffer overflow")])))

/-! ## Well-formed sources and the invariant of the loop -/

/-- A sentinel byte. -/
def sent (b : Nat) : Prop := b = EOB ∨ b = EOFC

/-- The cursor `ip` stands in a buffer that ends in sentinels: it is at most at
`inl`, where two sentinel bytes stand; or it is one past `inl` on a sentinel
(the cursor after the compaction of a long comment whose newline was the last
byte), which is `EOFC` once the state is `START` again. -/
def Buf (s : Source) (ip state : Nat) : Prop :=
  (ip ≤ s.inl ∧ sent (s.byte s.inl) ∧ sent (s.byte (s.inl + 1)))
  ∨ (ip = s.inl + 1 ∧ sent (s.byte ip) ∧ (state = START → s.byte ip = EOFC))

/-- A source as `setsource` makes it and `gettokens` leaves it. -/
def Source.wf (s : Source) : Prop := Buf s s.inp START

/-- The invariant of the inner loop of `gettokens`. -/
structure Inv (st : Scan) : Prop where
  state_lt : st.state < 31
  state_ne : st.state ≠ SLASH1
  t_eq : st.state = START → st.ip = st.t
  t_lt : st.state ≠ START → st.t < st.ip
  buf : Buf st.s st.ip st.state
  row : ∀ tok ∈ st.row, tok.t + tok.len ≤ st.t ∧ tok.type ≠ NL ∧ tok.type ≠ END
    ∧ (tok.type = NAME → 1 ≤ tok.len)

/-- The source `s1` is `s` after refills: the line count is the same, the valid
bytes are a prefix of the new valid bytes, a string source keeps its length,
and if anything was done the four sentinels are in place. -/
def Grown (s s1 : Source) : Prop :=
  s1.lineinc = s.lineinc ∧ s.inl ≤ s1.inl
  ∧ (∀ i, i < s.inl → s1.inb i = s.inb i)
  ∧ (s.fd = none → s1.fd = none ∧ s1.inl = s.inl)
  ∧ (s1.inb = s.inb ∧ s1.inl = s.inl ∨ ∀ i, s1.inl ≤ i → i < s1.inl + 4 → sent (s1.byte i))

/-- The measure that every pass of the loop on a string source makes smaller:
the bytes left, whether the cursor stands on `EOB`, and whether a token has
been begun. -/
def measure (st : Scan) : Nat :=
  4 * (st.s.inl + 2 - st.ip) + (if st.s.byte st.ip = EOB then 2 else 0)
    + (if st.state = START then 0 else 1)

/-! ## The value returned -/

/-- The call `quicklook (tp->t[0], tp->len > 1 ? tp->t[1] : 0)` for a token of
the buffer `m`. -/
def nameLook (quicklook : Nat → Nat → Nat) (m : Nat → Nat) (tok : Token) : Nat :=
  quicklook (m tok.t % 256) (if tok.len > 1 then m (tok.t + 1) % 256 else 0)

/-- The bitwise OR of `quicklook` over the `NAME` tokens of a row. -/
def nmacOf (quicklook : Nat → Nat → Nat) (m : Nat → Nat) : List Token → Nat
  | [] => 0
  | tok :: rest =>
    (if tok.type = NAME then nameLook quicklook m tok else 0) ||| nmacOf quicklook m rest

/-! ## Buffers that hold a given text -/

/-- The buffer `m` holds the bytes `l` from the offset `p` on. -/
def Holds (m : Nat → Nat) (p : Nat) (l : List Nat) : Prop :=
  ∀ j, j < l.length → m (p + j) = l.getD j 0

/-- A byte string as a C string can hold it: every element is a byte and none
is NUL. -/
def CString (l : List Nat) : Prop := ∀ b ∈ l, b < 256 ∧ b ≠ 0

/-- The string source `setsource (name, NULL, str)`. -/
def strsource (str : List Nat) (heap : Nat → Nat) : Source := setsource none (some str) heap

/-! ## Views of a call -/

/-- The tokens a call appended before it ended. -/
def Outcome.row : Outcome → List Token
  | .returned _ row _ _ => row
  | .fatal row _ _ => row

/-- The call `gettokens (trp, reset)` on the source `src` begins with the token
`tok`: after two passes of the loop `tok` is the only token of the row, and
the scan of the next token begins at the offset `ip` in the state `START`; and
whatever way the call ends, `tok` is the first token it appended. -/
def BeginsWith (T : Table) (quicklook : Nat → Nat → Nat) (trp : List Token) (src : Source)
    (reset : Bool) (tok : Token) (ip : Nat) : Prop :=
  (∀ n, gettokens T quicklook (n + 2) src trp reset
      = scanLoop T quicklook trp n ⟨src, ip, START, ip, 0, [tok], 0, []⟩)
  ∧ (∀ n o, gettokens T quicklook n src trp reset = some o → ∃ more, o.row = tok :: more)

/-! ## Well-formed entries and the states a call passes through -/

/-- The complement of a negative entry with the marker bit removed
(`state &= ~QBSBIT`). -/
def unmarked (code : Nat) : Nat := code - (code &&& QBSBIT)

/-- The entry `e` of the byte `b` is well formed: it is a continuation state
below `MAXSTATE`; or it is negative, the low seven bits of its complement
without the marker are one of the twelve action codes or, when the marker is
set, a state below `MAXSTATE`, and the marker is set only when `b` is `?` or
backslash. -/
def WellFormed (b : Nat) (e : Int) : Prop :=
  (0 ≤ e ∧ e < MAXSTATE)
  ∨ (e < 0
      ∧ ((S_SELF ≤ unmarked (cnot e).toNat &&& 0o177 ∧ unmarked (cnot e).toNat &&& 0o177 ≤ S_NAME)
          ∨ ((cnot e).toNat &&& QBSBIT ≠ 0 ∧ unmarked (cnot e).toNat &&& 0o177 < MAXSTATE))
      ∧ ((cnot e).toNat &&& QBSBIT ≠ 0 → b = 63 ∨ b = 92))

/-- The states of the inner loop that a run from `st0` passes through. -/
inductive Reach (T : Table) (quicklook : Nat → Nat → Nat) (trp : List Token) (st0 : Scan) :
    Scan → Prop
  | start : Reach T quicklook trp st0 st0
  | pass (st st1 : Scan) (h : Reach T quicklook trp st0 st)
      (hs : step T quicklook trp st = .next st1) : Reach T quicklook trp st0 st1

/-- The diagnostics reported by the time a call ends. -/
def Outcome.diags : Outcome → List Diag
  | .returned _ _ _ d => d
  | .fatal _ _ d => d

/-- The diagnostic of the last branch of the `default` case of the switch. -/
def botch : Diag := (errtype.WARNING, "Lexical botch in cpp")

/-! ## The override rule, as the specification words it -/

/-- Modelled from the spec: the bytes a trigger stands for.  The wildcard
class is all 256 byte values, the alphabetic class is `[a-zA-Z_]`, the digit
class is `[0-9]`, and every other trigger is the literal byte. -/
def covers (ch b : Nat) : Prop :=
  if ch = C_XX then b < 256
  else if ch = C_ALPH then (97 ≤ b ∧ b ≤ 122) ∨ (65 ≤ b ∧ b ≤ 90) ∨ b = 95
  else if ch = C_NUM then 48 ≤ b ∧ b ≤ 57
  else b = ch

instance (ch b : Nat) : Decidable (covers ch b) := by unfold covers; infer_instance

/-- Modelled from the spec: the rules for the state `s` one of whose triggers
stands for the byte `b`, in declaration order. -/
def matching (rules : List fsmRule) (s b : Nat) : List fsmRule :=
  rules.filter (fun fp => decide (fp.state = s ∧ ∃ ch ∈ fp.ch, covers ch b))

/-- Modelled from the spec: how a target is stored, itself when it is a state
and complemented when it is an action. -/
def stored (n : Nat) : Int := if n < S_SELF then (n : Int) else cnot (n : Int)

/-- Modelled from the spec: the entry for `(s, b)` under the override rule:
the last matching rule decides, and without one the entry is `0`. -/
def lastRuleEntry (s b : Nat) : Int :=
  match (matching fsm s b).getLast? with
  | some fp => stored fp.nextstate
  | none => 0

/-! ## The substitutions with bounds-checked indexing -/

/-- The size in bytes of the buffer that `setsource` allocates for the string
`str`: `domalloc (len + 4)`. -/
def strsize (str : List Nat) : Nat := strlen str + 4

/-- The call `memmove (dst, src, n)` in a buffer of `size` bytes with
bounds-checked indexing: `none` when a byte of the source range or of the
destination range lies outside `0 .. size - 1`. -/
def memmoveIn (size : Nat) (m : Nat → Nat) (dst src n : Nat) : Option (Nat → Nat) :=
  if n = 0 ∨ (dst + n ≤ size ∧ src + n ≤ size) then some (memmove m dst src n) else none

/-- The function `trigraph` after its refill loop, in a buffer of `size` bytes
with bounds-checked indexing: `none` when one of the accesses `s->inp[1]`,
`s->inp[2]`, `*s->inp = c` or a byte of the `memmove` is out of range. -/
def trigraphIn (size : Nat) (s : Source) : Option (Source × Nat) :=
  if s.inp + 1 ≥ size then none
  else if s.byte (s.inp + 1) ≠ 63 then some (s, 0)
  else if s.inp + 2 ≥ size then none
  else
    let c := trigraphChar (s.byte (s.inp + 2))
    if c ≠ 0 then
      match memmoveIn size (poke s.inb s.inp c) (s.inp + 1) (s.inp + 3) (s.inl - s.inp + 2) with
      | none => none
      | some m => some ({ s with inb := m, inl := s.inl - 2 }, c)
    else some (s, c)

/-- The function `foldline` after its refill loop, in a buffer of `size` bytes
with bounds-checked indexing: `none` when the access `s->inp[1]` or a byte of
the `memmove` is out of range. -/
def foldlineIn (size : Nat) (s : Source) : Option (Source × Nat) :=
  if s.inp + 1 ≥ size then none
  else if s.byte (s.inp + 1) = 10 then
    match memmoveIn size s.inb s.inp (s.inp + 2) (s.inl - s.inp + 3) with
    | none => none
    | some m => some ({ s with inb := m, inl := s.inl - 2 }, 1)
  else some (s, 0)

/-! ## Literals -/

/-- An opening quote `qt` and the state `L` of the literal that it opens. -/
def Quote (qt L : Nat) : Prop := (qt = 34 ∧ L = ST2) ∨ (qt = 39 ∧ L = CC1)

/-- A byte that can stand in the body of a literal opened by `qt` without
ending it or asking for a substitution: not the quote, `?`, backslash, newline
or a sentinel byte. -/
def Plain (qt c : Nat) : Prop :=
  c < 256 ∧ c ≠ 0 ∧ c ≠ qt ∧ c ≠ 92 ∧ c ≠ 63 ∧ c ≠ 10 ∧ c ≠ 253 ∧ c ≠ 254

/-! ## A comment that reaches the compaction threshold -/

/-- The text of a comment of one line of 28669 bytes `a` whose newline stands
at the offset `7 * INS / 8 - 1`, closed on the next line and followed by the
identifier `foo` and a newline. -/
def longComment : List Nat :=
  47 :: 42 :: (List.replicate 28669 97 ++ [10, 42, 47, 102, 111, 111, 10])

/-- What a call shows of its outcome: whether it returned, the tokens it
appended, the diagnostics, and the pending line increment. -/
def Outcome.view : Outcome → Bool × List Token × List Diag × Nat
  | .returned _ row s d => (true, row, d, s.lineinc)
  | .fatal row s d => (false, row, d, s.lineinc)

/-! ## Identifiers and file sources -/

/-- A byte of an identifier: a digit, a letter or `_`. -/
def Word (c : Nat) : Prop :=
  (48 ≤ c ∧ c ≤ 57) ∨ (97 ≤ c ∧ c ≤ 122) ∨ (65 ≤ c ∧ c ≤ 90) ∨ c = 95

/-- A byte that can begin an identifier: a letter or `_`. -/
def Alpha (c : Nat) : Prop := (97 ≤ c ∧ c ≤ 122) ∨ (65 ≤ c ∧ c ≤ 90) ∨ c = 95

/-- The file source `setsource (name, fd, NULL)` for a file that holds the
bytes `content`. -/
def filesource (content : List Nat) (heap : Nat → Nat) : Source :=
  setsource (some content) none heap

/-! ## Runs that differ by a substitution -/

/-- Two sources are alike for the scanner: the valid bytes end at the same
offset, the file is the same, the buffers agree on the valid bytes and on the
two bytes after them, and the pending line increment of the first is that of
the second plus `k`.  The cursor `inp` and the bytes behind the sentinels are
left out. -/
def Alike (k : Nat) (a b : Source) : Prop :=
  a.inl = b.inl ∧ a.fd = b.fd ∧ a.lineinc = b.lineinc + k
    ∧ ∀ i, i < b.inl + 2 → a.inb i = b.inb i

/-- Two states of the loop that are the same but for their sources, which are
alike, and for the value `nmac` gathered from `quicklook`. -/
def Scan.alike (k : Nat) (x y : Scan) : Prop :=
  Alike k x.s y.s ∧ x.ip = y.ip ∧ x.state = y.state ∧ x.t = y.t ∧ x.wslen = y.wslen
    ∧ x.row = y.row ∧ x.diags = y.diags

/-- The source as a call leaves it. -/
def Outcome.src : Outcome → Source
  | .returned _ _ s _ => s
  | .fatal _ s _ => s

/-- The tokens that a call appended, each with its type, its length, the bytes
of its text and the length of its whitespace prefix. -/
def Outcome.tokens (o : Outcome) : List (Nat × Nat × List Nat × Nat) :=
  o.row.map (fun tok => (tok.type, tok.len, Token.text o.src.inb tok, tok.wslen))

/-- What the caller sees of a call, the value `nmac` apart: whether it returned
(`false` after a FATAL error), the tokens appended, and the diagnostics. -/
def Outcome.seen : Outcome → Bool × List (Nat × Nat × List Nat × Nat) × List Diag
  | .returned nmac row s d => (true, (Outcome.returned nmac row s d).tokens, d)
  | .fatal row s d => (false, (Outcome.fatal row s d).tokens, d)

/-- Two outcomes show the same to the caller, and the pending line increment of
the first is that of the second plus `k`. -/
def Outcome.alike (k : Nat) (oa ob : Outcome) : Prop :=
  oa.seen = ob.seen ∧ oa.src.lineinc = ob.src.lineinc + k

/-- Two passes of the loop have alike results. -/
inductive Step.alike (k : Nat) : Step → Step → Prop
  | next (x y : Scan) (h : Scan.alike k x y) : Step.alike k (.next x) (.next y)
  | done (oa ob : Outcome) (h : Outcome.alike k oa ob) : Step.alike k (.done oa) (.done ob)

/-! ## The prefix before a substitution -/

/-- A byte on which no pass of the loop ends the line, asks for a substitution
or meets the end of the buffer: not a newline, `?`, backslash or a sentinel
byte. -/
def Quiet (b : Nat) : Prop := b ≠ 10 ∧ b ≠ 63 ∧ b ≠ 92 ∧ b ≠ 253 ∧ b ≠ 254

/-- A byte of a string free of NUL and of the sentinel bytes. -/
def Clean (c : Nat) : Prop := c < 256 ∧ c ≠ 0 ∧ c ≠ 253 ∧ c ≠ 254

/-- A byte of a string free of NUL, the sentinel bytes, newline, `?` and
backslash. -/
def Inert (c : Nat) : Prop := Clean c ∧ c ≠ 10 ∧ c ≠ 63 ∧ c ≠ 92

/-- Two runs before a substitution at the offset `L`: the variables of the
loop are the same and the cursor is not past `L`; below `L` the buffers agree
and hold quiet bytes; from `L` on the first holds `ta` and the second `tb`,
each followed by the two sentinels at the end of the valid bytes. -/
structure Pre (L : Nat) (ta tb : List Nat) (x y : Scan) : Prop where
  ip : x.ip = y.ip
  state : x.state = y.state
  t : x.t = y.t
  wslen : x.wslen = y.wslen
  row : x.row = y.row
  nmac : x.nmac = y.nmac
  diags : x.diags = y.diags
  le : y.ip ≤ L
  agree : ∀ i, i < L → x.s.inb i = y.s.inb i
  quiet : ∀ i, i < L → Quiet (y.s.byte i)
  holdsa : Holds x.s.inb L (ta ++ [254, 254])
  holdsb : Holds y.s.inb L (tb ++ [254, 254])
  inla : x.s.inl = L + ta.length
  inlb : y.s.inl = L + tb.length
  fd : x.s.fd = y.s.fd
  lineinc : x.s.lineinc = y.s.lineinc

/-- Modelled from the spec: the nine trigraphs, the third byte of each with its
replacement: `=` to `#`, `(` to `[`, `/` to backslash, `)` to `]`, the single
quote to `^`, `<` to the opening brace, `!` to `|`, `>` to the closing brace,
`-` to `~`. -/
def trigraphs : List (Nat × Nat) :=
  [(61, 35), (40, 91), (47, 92), (41, 93), (39, 94), (60, 123), (33, 124), (62, 125), (45, 126)]

instance (c : Nat) : Decidable (Clean c) := by unfold Clean; infer_instance

instance (c : Nat) : Decidable (Inert c) := by unfold Inert; infer_instance

instance (l : List Nat) : Decidable (CString l) := by unfold CString; infer_instance

/-! ## The closed form of the table is the table -/

theorem Table.put_apply (t : Table) (c s : Nat) (v : Int) (c' s' : Nat) :
    t.put c s v c' s' = if c' = c ∧ s' = s then v else t c' s' := rfl

theorem forRange_put (cond : Nat → Prop) [DecidablePred cond] (f : Nat → Int → Int) (i : Nat) :
    ∀ (n lo : Nat) (t : Table) (c s : Nat),
      forRange lo n (fun j t => if cond j then t.put j i (f j (t j i)) else t) t c s
        = if s = i ∧ lo ≤ c ∧ c < lo + n ∧ cond c then f c (t c i) else t c s := by
  intro n
  induction n with
  | zero => intro lo t c s; simp [forRange]; omega
  | succ n ih =>
    intro lo t c s
    rw [forRange, ih]
    by_cases hcl : c = lo
    · subst hcl
      have e1 : ¬ (s = i ∧ c + 1 ≤ c ∧ c < c + 1 + n ∧ cond c) := by omega
      rw [if_neg e1]
      by_cases hc : cond c
      · simp only [hc, if_true, Table.put_apply, true_and, and_true]
        have : c < c + (n + 1) := by omega
        simp [this]
      · simp [hc]
    · have e2 : (if cond lo then t.put lo i (f lo (t lo i)) else t) c = t c := by
        funext s'
        by_cases hc : cond lo
        · simp [hc, Table.put_apply, hcl]
        · simp [hc]
      rw [e2]
      have e3 : (s = i ∧ lo + 1 ≤ c ∧ c < lo + 1 + n ∧ cond c)
          ↔ (s = i ∧ lo ≤ c ∧ c < lo + (n + 1) ∧ cond c) := by
        constructor
        · rintro ⟨a, b, d, e⟩; exact ⟨a, by omega, by omega, e⟩
        · rintro ⟨a, b, d, e⟩; exact ⟨a, by omega, by omega, e⟩
      simp only [e3]

theorem trigger_C_XX (c : Nat) : trigger c C_XX = decide (c < 256) := by
  rw [Bool.eq_iff_iff]; unfold trigger
  simp only [Nat.beq_refl, cond_true, Nat.blt_eq, decide_eq_true_eq]

theorem trigger_C_ALPH (c : Nat) : trigger c C_ALPH
    = decide ((97 ≤ c ∧ c ≤ 122) ∨ (65 ≤ c ∧ c ≤ 90) ∨ c = 95) := by
  have h1 : Nat.beq C_ALPH C_XX = false := rfl
  rw [Bool.eq_iff_iff]; unfold trigger
  simp only [h1, Nat.beq_refl, cond_true, cond_false, Nat.ble_eq, Nat.beq_eq, Bool.or_eq_true,
    Bool.and_eq_true, decide_eq_true_eq, or_assoc]

theorem trigger_C_NUM (c : Nat) : trigger c C_NUM = decide (48 ≤ c ∧ c < 58) := by
  have h1 : Nat.beq C_NUM C_XX = false := rfl
  have h2 : Nat.beq C_NUM C_ALPH = false := rfl
  rw [Bool.eq_iff_iff]; unfold trigger
  simp only [h1, h2, Nat.beq_refl, cond_true, cond_false, Nat.ble_eq, Nat.blt_eq,
    Bool.and_eq_true, decide_eq_true_eq]

theorem trigger_byte (c ch : Nat) (h1 : ch ≠ C_XX) (h2 : ch ≠ C_ALPH) (h3 : ch ≠ C_NUM) :
    trigger c ch = decide (c = ch) := by
  have e1 : Nat.beq ch C_XX = false := by
    cases h : Nat.beq ch C_XX
    · rfl
    · exact absurd (Nat.eq_of_beq_eq_true h) h1
  have e2 : Nat.beq ch C_ALPH = false := by
    cases h : Nat.beq ch C_ALPH
    · rfl
    · exact absurd (Nat.eq_of_beq_eq_true h) h2
  have e3 : Nat.beq ch C_NUM = false := by
    cases h : Nat.beq ch C_NUM
    · rfl
    · exact absurd (Nat.eq_of_beq_eq_true h) h3
  rw [Bool.eq_iff_iff]; unfold trigger
  simp only [e1, e2, e3, cond_false, Nat.beq_eq, decide_eq_true_eq]

theorem expandTrigger_apply (fp : fsmRule) (ch : Nat) (t : Table) (c s : Nat) :
    expandTrigger fp ch t c s
      = if s = fp.state ∧ trigger c ch = true then encode fp.nextstate else t c s := by
  unfold expandTrigger
  by_cases h1 : ch = C_XX
  · subst h1
    have := forRange_put (fun _ => True) (fun _ _ => encode fp.nextstate) fp.state 256 0 t c s
    simp only [if_true] at this
    rw [if_pos rfl, this, trigger_C_XX]
    simp only [decide_eq_true_eq, Nat.zero_le, true_and, and_true, Nat.zero_add]
  · rw [if_neg h1]
    by_cases h2 : ch = C_ALPH
    · subst h2
      have := forRange_put (fun j => (97 ≤ j ∧ j ≤ 122) ∨ (65 ≤ j ∧ j ≤ 90) ∨ j = 95)
        (fun _ _ => encode fp.nextstate) fp.state 257 0 t c s
      rw [if_pos rfl, this, trigger_C_ALPH]
      simp only [decide_eq_true_eq]
      have e : (s = fp.state ∧ 0 ≤ c ∧ c < 0 + 257 ∧
            ((97 ≤ c ∧ c ≤ 122) ∨ (65 ≤ c ∧ c ≤ 90) ∨ c = 95))
          ↔ (s = fp.state ∧ ((97 ≤ c ∧ c ≤ 122) ∨ (65 ≤ c ∧ c ≤ 90) ∨ c = 95)) := by
        constructor
        · rintro ⟨a, _, _, d⟩; exact ⟨a, d⟩
        · rintro ⟨a, d⟩; exact ⟨a, by omega, by omega, d⟩
      simp only [e]
    · rw [if_neg h2]
      by_cases h3 : ch = C_NUM
      · subst h3
        have := forRange_put (fun _ => True) (fun _ _ => encode fp.nextstate) fp.state 10 48 t c s
        simp only [if_true] at this
        rw [if_pos rfl, this, trigger_C_NUM]
        simp only [decide_eq_true_eq, and_true]
      · rw [if_neg h3, trigger_byte c ch h1 h2 h3, Table.put_apply]
        simp only [decide_eq_true_eq, and_comm]

theorem expandChs_apply (fp : fsmRule) (chs : List Nat) (t : Table) (c s : Nat) :
    chs.foldl (fun t ch => expandTrigger fp ch t) t c s
      = if s = fp.state ∧ chs.any (trigger c) = true then encode fp.nextstate else t c s := by
  induction chs generalizing t with
  | nil => simp
  | cons ch rest ih =>
    rw [List.foldl_cons, ih, expandTrigger_apply]
    by_cases h : s = fp.state
    · by_cases h2 : trigger c ch = true
      · simp [h, h2]
      · simp [h, h2]
    · simp [h]

theorem foldl_hitStep (c s : Nat) (rules : List fsmRule) (a : Option Nat) :
    rules.foldl (hitStep c s) a
      = match rules.foldl (hitStep c s) none with
        | some n => some n
        | none => a := by
  induction rules generalizing a with
  | nil => rfl
  | cons fp rest ih =>
    rw [List.foldl_cons, List.foldl_cons, ih (hitStep c s a fp), ih (hitStep c s none fp)]
    cases h : rest.foldl (hitStep c s) none with
    | some n => rfl
    | none =>
      simp only [hitStep]
      by_cases h2 : fp.state = s ∧ fp.ch.any (trigger c) = true
      · rw [if_pos h2, if_pos h2]
      · rw [if_neg h2, if_neg h2]

theorem rowHit_filter (c s : Nat) (rules : List fsmRule) :
    rowHit c (rules.filter (fun fp => Nat.beq fp.state s))
      = rules.foldl (hitStep c s) none := by
  induction rules with
  | nil => rfl
  | cons fp rest ih =>
    rw [List.foldl_cons, foldl_hitStep, ← ih]
    by_cases h : fp.state = s
    · have hb : Nat.beq fp.state s = true := by rw [Nat.beq_eq]; exact h
      rw [List.filter_cons]
      simp only [hb, if_true]
      rw [rowHit]
      cases h1 : rowHit c (List.filter (fun fp => Nat.beq fp.state s) rest) with
      | some n => rfl
      | none =>
        simp only [hitStep, h, true_and]
        cases h2 : fp.ch.any (trigger c) <;> simp
    · have hb : Nat.beq fp.state s = false := by
        cases hq : Nat.beq fp.state s
        · rfl
        · exact absurd (Nat.eq_of_beq_eq_true hq) h
      rw [List.filter_cons]
      simp only [hb, Bool.false_eq_true, if_false]
      cases h1 : rowHit c (List.filter (fun fp => Nat.beq fp.state s) rest) with
      | some n => rfl
      | none => simp only [hitStep, h, false_and, if_false]

theorem expandRules_apply (rules : List fsmRule) (t : Table) (c s : Nat) :
    expandRules rules t c s
      = match rules.foldl (hitStep c s) none with
        | some n => encode n
        | none => t c s := by
  induction rules generalizing t with
  | nil => rfl
  | cons fp rest ih =>
    have e : expandRules (fp :: rest) t
        = expandRules rest (fp.ch.foldl (fun t ch => expandTrigger fp ch t) t) := rfl
    rw [e, ih, List.foldl_cons, foldl_hitStep c s rest (hitStep c s none fp)]
    cases h : rest.foldl (hitStep c s) none with
    | some n => rfl
    | none =>
      simp only [expandChs_apply, hitStep]
      by_cases h2 : fp.state = s ∧ fp.ch.any (trigger c) = true
      · rw [if_pos h2, if_pos ⟨h2.1.symm, h2.2⟩]
      · rw [if_neg h2, if_neg (fun h3 => h2 ⟨h3.1.symm, h3.2⟩)]

theorem cond_beq {α : Type} (c k : Nat) (a b : α) :
    (bif Nat.beq c k then a else b) = if c = k then a else b := by
  by_cases h : c = k
  · subst h; rw [Nat.beq_refl, if_pos rfl]; rfl
  · have hb : Nat.beq c k = false := by
      cases hq : Nat.beq c k
      · rfl
      · exact absurd (Nat.eq_of_beq_eq_true hq) h
    rw [hb, if_neg h]; rfl

theorem special_eq (c : Nat) (v : Int) : special c v =
    if c = 254 then cnot S_EOB
    else if c = 253 then (if v ≥ 0 then cnot S_EOF else v)
    else if c = 63 ∨ c = 92 then clearQBS (if v > 0 then cnot v else v)
    else v := by
  unfold special
  rw [cond_beq, cond_beq]
  show (if c = 254 then _ else if c = 253 then _ else _) = _
  by_cases h1 : c = 254
  · rw [if_pos h1, if_pos h1]
  · rw [if_neg h1, if_neg h1]
    by_cases h2 : c = 253
    · rw [if_pos h2, if_pos h2]
    · rw [if_neg h2, if_neg h2]
      by_cases h3 : c = 63
      · subst h3; rfl
      · by_cases h4 : c = 92
        · subst h4; rfl
        · have e3 : Nat.beq c 63 = false := by
            cases hq : Nat.beq c 63
            · rfl
            · exact absurd (Nat.eq_of_beq_eq_true hq) h3
          have e4 : Nat.beq c 92 = false := by
            cases hq : Nat.beq c 92
            · rfl
            · exact absurd (Nat.eq_of_beq_eq_true hq) h4
          have e5 : ¬ (c = 63 ∨ c = 92) := by
            rintro (h | h)
            · exact h3 h
            · exact h4 h
          rw [e3, e4, if_neg e5]
          rfl

theorem expandSpecial_apply (i : Nat) (t : Table) (c s : Nat) :
    expandSpecial i t c s = if s = i then special c (t c s) else t c s := by
  have hbody : (fun (j : Nat) (t : Table) =>
      if j = 63 ∨ j = 92 then
        let t' := if t j i > 0 then t.put j i (cnot (t j i)) else t
        t'.put j i (clearQBS (t' j i))
      else t)
      = (fun (j : Nat) (t : Table) => if j = 63 ∨ j = 92 then
          t.put j i ((fun _ v => clearQBS (if v > 0 then cnot v else v)) j (t j i)) else t) := by
    funext j t
    by_cases hj : j = 63 ∨ j = 92
    · rw [if_pos hj, if_pos hj]
      funext c' s'
      by_cases hv : t j i > 0
      · simp only [hv, if_true, Table.put_apply, and_self]
        by_cases hcs : c' = j ∧ s' = i
        · simp only [hcs, and_self, if_true]
        · simp only [hcs, if_false]
      · simp only [hv, if_false]
    · rw [if_neg hj, if_neg hj]
  have hloop : forRange 0 0xFF (fun (j : Nat) (t : Table) =>
      if j = 63 ∨ j = 92 then
        let t' := if t j i > 0 then t.put j i (cnot (t j i)) else t
        t'.put j i (clearQBS (t' j i))
      else t) t
      = fun c s => if s = i ∧ (c = 63 ∨ c = 92)
          then clearQBS (if t c i > 0 then cnot (t c i) else t c i) else t c s := by
    funext c s
    rw [hbody, forRange_put (fun j => j = 63 ∨ j = 92)
      (fun _ v => clearQBS (if v > 0 then cnot v else v)) i 0xFF 0 t c s]
    have e : (s = i ∧ 0 ≤ c ∧ c < 0 + 255 ∧ (c = 63 ∨ c = 92)) ↔ (s = i ∧ (c = 63 ∨ c = 92)) := by
      constructor
      · rintro ⟨a, _, _, d⟩; exact ⟨a, d⟩
      · rintro ⟨a, d⟩; exact ⟨a, by omega, by omega, d⟩
    simp only [e]
  unfold expandSpecial
  rw [hloop, special_eq]
  simp only [Table.put_apply, EOB, EOFC]
  generalize cnot (S_EOB : Int) = a
  generalize cnot (S_EOF : Int) = b
  have n1 : ¬ ((253 : Nat) = 254) := by decide
  have n2 : ¬ ((253 : Nat) = 63 ∨ (253 : Nat) = 92) := by decide
  simp only [n1, n2, false_and, and_false, if_false]
  by_cases hs : s = i
  · subst hs
    by_cases h1 : c = 254
    · subst h1
      by_cases hv : t 253 s ≥ 0 <;> simp [Table.put_apply, hv]
    · by_cases h2 : c = 253
      · subst h2
        by_cases hv : t 253 s ≥ 0 <;> simp [Table.put_apply, hv]
      · by_cases hv : t 253 s ≥ 0 <;> simp [Table.put_apply, hv, h1, h2]
  · by_cases hv : t 253 i ≥ 0 <;> simp [Table.put_apply, hv, hs]

theorem forRange_expandSpecial (n lo : Nat) (t : Table) (c s : Nat) :
    forRange lo n expandSpecial t c s
      = if lo ≤ s ∧ s < lo + n then special c (t c s) else t c s := by
  induction n generalizing lo t with
  | zero =>
    have : ¬ (lo ≤ s ∧ s < lo + 0) := by omega
    rw [if_neg this]; rfl
  | succ n ih =>
    rw [forRange, ih, expandSpecial_apply]
    by_cases h : s = lo
    · subst h
      have e1 : ¬ (s + 1 ≤ s ∧ s < s + 1 + n) := by omega
      have e2 : s ≤ s ∧ s < s + (n + 1) := by omega
      rw [if_neg e1, if_pos rfl, if_pos e2]
    · by_cases h2 : lo + 1 ≤ s ∧ s < lo + 1 + n
      · have e2 : lo ≤ s ∧ s < lo + (n + 1) := by omega
        rw [if_pos h2, if_neg h, if_pos e2]
      · have e2 : ¬ (lo ≤ s ∧ s < lo + (n + 1)) := by omega
        rw [if_neg h2, if_neg h, if_neg e2]

theorem expandRules_fsm (t : Table) (c s : Nat) :
    expandRules fsm t c s = ruleEntry c s (t c s) := by
  rw [expandRules_apply, ruleEntry, rowRules, rowHit_filter]

theorem expandlex_apply (t : Table) (c s : Nat) : expandlex t c s = expanded t c s := by
  unfold expandlex expanded
  rw [forRange_expandSpecial, expandRules_fsm]
  by_cases h : s < MAXSTATE
  · have hb : Nat.blt s MAXSTATE = true := by rw [Nat.blt_eq]; exact h
    rw [hb, if_pos ⟨Nat.zero_le _, by omega⟩]; rfl
  · have hb : Nat.blt s MAXSTATE = false := by
      cases hq : Nat.blt s MAXSTATE
      · rfl
      · rw [Nat.blt_eq] at hq; exact absurd hq h
    rw [hb, if_neg (by omega)]; rfl

/-- The table `bigfsm` is given by the closed form `entry`. -/
theorem bigfsm_eq (cplusplus : Bool) : bigfsm cplusplus = entry cplusplus := by
  funext c s
  unfold bigfsm entry fixlex
  cases cplusplus with
  | true =>
    simp only [if_true, Bool.not_true, Bool.false_and, cond_false]
    exact expandlex_apply _ _ _
  | false =>
    simp only [Bool.false_eq_true, if_false, Bool.not_false, Bool.true_and, Table.put_apply]
    by_cases h : c = 47 ∧ s = COM1
    · rw [if_pos h, h.1, h.2, expandlex_apply]; rfl
    · rw [if_neg h, expandlex_apply]
      by_cases h1 : c = 47
      · have h2 : s ≠ COM1 := fun h2 => h ⟨h1, h2⟩
        have hb : Nat.beq s COM1 = false := by
          cases hq : Nat.beq s COM1
          · rfl
          · exact absurd (Nat.eq_of_beq_eq_true hq) h2
        rw [hb, Bool.and_false]; rfl
      · have hb : Nat.beq c 47 = false := by
          cases hq : Nat.beq c 47
          · rfl
          · exact absurd (Nat.eq_of_beq_eq_true hq) h1
        rw [hb, Bool.false_and]; rfl

/-! ## Facts about the entries of the table -/

set_option maxRecDepth 1000000 in
theorem good_true : ∀ c < 256, ∀ s < 32, good c s (entry true c s) = true := by decide!

theorem entry_false (c s : Nat) (h : ¬ (c = 47 ∧ s = COM1)) :
    entry false c s = entry true c s := by
  unfold entry
  by_cases h1 : c = 47
  · have h2 : s ≠ COM1 := fun h2 => h ⟨h1, h2⟩
    have hb : Nat.beq s COM1 = false := by
      cases hq : Nat.beq s COM1
      · rfl
      · exact absurd (Nat.eq_of_beq_eq_true hq) h2
    simp only [hb, Bool.and_false, Bool.not_true, Bool.not_false, cond_false]
  · have hb : Nat.beq c 47 = false := by
      cases hq : Nat.beq c 47
      · rfl
      · exact absurd (Nat.eq_of_beq_eq_true hq) h1
    simp only [hb, Bool.and_false, Bool.false_and, Bool.not_true, Bool.not_false, cond_false]

/-- Every entry of the table, whatever `Cplusplus` is, passes the check
`good`. -/
theorem good_entry (cplusplus : Bool) (c s : Nat) (hc : c < 256) (hs : s < 32) :
    good c s (entry cplusplus c s) = true := by
  cases cplusplus with
  | true => exact good_true c hc s hs
  | false =>
    by_cases h : c = 47 ∧ s = COM1
    · rw [h.1, h.2]; decide!
    · rw [entry_false c s h]; exact good_true c hc s hs

/-- The shape of every entry of the table for a state the scanner can be in. -/
theorem entry_cases (cplusplus : Bool) (c s : Nat) (hc : c < 256) (hs : s < 31)
    (hs18 : s ≠ SLASH1) :
    (∃ k : Nat, entry cplusplus c s = Int.ofNat k ∧ ContOK c k)
    ∨ (∃ code : Nat, entry cplusplus c s = Int.negSucc code ∧ code &&& QBSBIT ≠ 0
        ∧ MarkedOK c s code)
    ∨ (∃ code : Nat, entry cplusplus c s = Int.negSucc code ∧ code &&& QBSBIT = 0
        ∧ NamedOK c s code) := by
  have hg := good_entry cplusplus c s hc (by omega)
  have h31 : ¬ (s = SLASH1 ∨ s = 31) := by
    rintro (h | h)
    · exact hs18 h
    · omega
  unfold good at hg
  rw [if_neg h31] at hg
  cases he : entry cplusplus c s with
  | ofNat k =>
    left
    rw [he] at hg
    exact ⟨k, rfl, of_decide_eq_true hg⟩
  | negSucc code =>
    right
    rw [he] at hg
    have hg : (if code &&& QBSBIT ≠ 0 then decide (MarkedOK c s code)
        else decide (NamedOK c s code)) = true := hg
    by_cases hm : code &&& QBSBIT = 0
    · right
      have hm2 : ¬ (code &&& QBSBIT ≠ 0) := fun h => h hm
      rw [if_neg hm2] at hg
      exact ⟨code, rfl, hm, of_decide_eq_true hg⟩
    · left
      have hm2 : code &&& QBSBIT ≠ 0 := hm
      rw [if_pos hm2] at hg
      exact ⟨code, rfl, hm, of_decide_eq_true hg⟩

/-! ## One pass of the loop, case by case -/

theorem land_127_64 (code : Nat) : (code &&& 0o177) &&& QBSBIT = code &&& QBSBIT := by
  rw [Nat.land_assoc]; rfl

/-- A marked code is none of the named cases of the switch. -/
theorem switchOn_marked (q : Nat → Nat → Nat) (trp : List Token) (st : Scan) (code : Nat)
    (d : Step) (hm : code &&& QBSBIT ≠ 0) : switchOn q trp st code d = d := by
  have key : ∀ a : Nat, a &&& QBSBIT = 0 → code &&& 0o177 ≠ a := by
    intro a ha h
    apply hm
    rw [← land_127_64, h, ha]
  unfold switchOn
  have h1 := key S_SELF (by decide)
  have h2 := key S_SELFB (by decide)
  have h3 := key S_NAME (by decide)
  have h4 := key S_WS (by decide)
  have h5 := key S_EOB (by decide)
  have h6 := key S_EOF (by decide)
  have h7 := key S_STNL (by decide)
  have h8 := key S_NL (by decide)
  have h9 := key S_EOFSTR (by decide)
  have h10 := key S_COMNL (by decide)
  have h11 := key S_EOFCOM (by decide)
  have h12 := key S_COMMENT (by decide)
  dsimp only
  rw [if_neg h1, if_neg h2, if_neg h3, if_neg h4, if_neg h5, if_neg h6,
    if_neg (not_or.mpr ⟨h7, h8⟩), if_neg h9, if_neg h10, if_neg (not_or.mpr ⟨h11, h12⟩)]

/-- A plain state is none of the named cases of the switch. -/
theorem switchOn_state (q : Nat → Nat → Nat) (trp : List Token) (st : Scan) (code : Nat)
    (d : Step) (hm : code &&& 0o177 = code) (hlt : code < 32) : switchOn q trp st code d = d := by
  have key : ∀ a : Nat, 32 ≤ a → code &&& 0o177 ≠ a := by
    intro a ha h
    rw [hm] at h
    omega
  unfold switchOn
  have h1 := key S_SELF (by decide)
  have h2 := key S_SELFB (by decide)
  have h3 := key S_NAME (by decide)
  have h4 := key S_WS (by decide)
  have h5 := key S_EOB (by decide)
  have h6 := key S_EOF (by decide)
  have h7 := key S_STNL (by decide)
  have h8 := key S_NL (by decide)
  have h9 := key S_EOFSTR (by decide)
  have h10 := key S_COMNL (by decide)
  have h11 := key S_EOFCOM (by decide)
  have h12 := key S_COMMENT (by decide)
  dsimp only
  rw [if_neg h1, if_neg h2, if_neg h3, if_neg h4, if_neg h5, if_neg h6,
    if_neg (not_or.mpr ⟨h7, h8⟩), if_neg h9, if_neg h10, if_neg (not_or.mpr ⟨h11, h12⟩)]

/-- The four token-ending cases of the switch, entered with the source `s2`. -/
theorem switchOn_tok (q : Nat → Nat → Nat) (trp : List Token) (st : Scan) (s2 : Source)
    (code : Nat) (d : Step) (hb : Base st s2)
    (hcase : code &&& 0o177 = S_SELF ∨ code &&& 0o177 = S_SELFB ∨ code &&& 0o177 = S_NAME
      ∨ code &&& 0o177 = S_WS)
    (hself : code &&& 0o177 = S_SELF → typeOK code = true ∧
      (st.s.byte st.ip ≠ 253 ∧ st.s.byte st.ip ≠ 254 ∧ st.s.byte st.ip ≠ 10))
    (hselfb : code &&& 0o177 = S_SELFB → typeOK code = true)
    (hnot : code &&& 0o177 ≠ S_SELF → st.state ≠ START ∧ st.s.byte st.ip ≠ 254) :
    StepR q trp st (switchOn q trp { st with s := s2 } code d) := by
  unfold switchOn
  dsimp only
  rcases hcase with h | h | h | h
  · rw [if_pos h]
    exact StepR.self s2 code hb (hself h).1 (hself h).2
  · have n1 : code &&& 0o177 ≠ S_SELF := by rw [h]; decide
    rw [if_neg n1, if_pos h]
    exact StepR.selfb s2 code hb (hselfb h) (hnot n1).1 (hnot n1).2
  · have n1 : code &&& 0o177 ≠ S_SELF := by rw [h]; decide
    have n2 : code &&& 0o177 ≠ S_SELFB := by rw [h]; decide
    rw [if_neg n1, if_neg n2, if_pos h]
    exact StepR.name s2 hb (hnot n1).1 (hnot n1).2
  · have n1 : code &&& 0o177 ≠ S_SELF := by rw [h]; decide
    have n2 : code &&& 0o177 ≠ S_SELFB := by rw [h]; decide
    have n3 : code &&& 0o177 ≠ S_NAME := by rw [h]; decide
    rw [if_neg n1, if_neg n2, if_neg n3, if_pos h]
    exact StepR.ws s2 hb (hnot n1).1 (hnot n1).2

/-- The switch on an unmarked negative entry of the table. -/
theorem switchOn_named (q : Nat → Nat → Nat) (trp : List Token) (st : Scan) (code : Nat)
    (d : Step) (hn : NamedOK (st.s.byte st.ip) st.state code) :
    StepR q trp st (switchOn q trp st code d) := by
  obtain ⟨⟨hlo, hhi, -, -⟩, hself, htype, htok, heob, heof, -, hnl, hst, hcom⟩ := hn
  by_cases h4 : code &&& 0o177 = S_SELF ∨ code &&& 0o177 = S_SELFB ∨ code &&& 0o177 = S_NAME
      ∨ code &&& 0o177 = S_WS
  · refine switchOn_tok q trp st st.s code d (Or.inl rfl) h4 ?_ ?_ ?_
    · intro h; exact ⟨htype (Or.inl h), hself h⟩
    · intro h; exact htype (Or.inr h)
    · intro h
      rcases h4 with h' | h' | h' | h'
      · exact absurd h' h
      · exact htok (Or.inl h')
      · exact htok (Or.inr (Or.inl h'))
      · exact htok (Or.inr (Or.inr h'))
  · have n1 : code &&& 0o177 ≠ S_SELF := fun h => h4 (Or.inl h)
    have n2 : code &&& 0o177 ≠ S_SELFB := fun h => h4 (Or.inr (Or.inl h))
    have n3 : code &&& 0o177 ≠ S_NAME := fun h => h4 (Or.inr (Or.inr (Or.inl h)))
    have n4 : code &&& 0o177 ≠ S_WS := fun h => h4 (Or.inr (Or.inr (Or.inr h)))
    unfold switchOn
    dsimp only
    rw [if_neg n1, if_neg n2, if_neg n3, if_neg n4]
    by_cases h5 : code &&& 0o177 = S_EOB
    · rw [if_pos h5]
      have hc := heob.mp h5
      cases hf : fillbuf { st.s with inp := st.ip } with
      | none => exact StepR.eobFatal hc hf
      | some p =>
        obtain ⟨s1, b⟩ := p
        exact StepR.eob s1 b hc hf
    · rw [if_neg h5]
      by_cases h6 : code &&& 0o177 = S_EOF
      · rw [if_pos h6]
        exact StepR.eof _ (heof (Or.inl h6)) (by
          intro d hd
          split at hd
          · exact List.mem_singleton.mp hd
          · exact absurd hd (List.not_mem_nil d))
      · rw [if_neg h6]
        by_cases h7 : code &&& 0o177 = S_STNL ∨ code &&& 0o177 = S_NL
        · rw [if_pos h7]
          refine StepR.nl _ (hnl ?_) (by
            intro d hd
            split at hd
            · exact List.mem_singleton.mp hd
            · exact absurd hd (List.not_mem_nil d))
          rcases h7 with h | h
          · exact Or.inr (Or.inl h)
          · exact Or.inl h
        · rw [if_neg h7]
          by_cases h8 : code &&& 0o177 = S_EOFSTR
          · rw [if_pos h8]
            exact StepR.eofstr (heof (Or.inr (Or.inl h8)))
          · rw [if_neg h8]
            by_cases h9 : code &&& 0o177 = S_COMNL
            · rw [if_pos h9]
              have hc := hnl (Or.inr (Or.inr h9))
              have hs := hst (Or.inr (Or.inl h9))
              by_cases hge : st.ip + 1 ≥ 7 * INS / 8
              · rw [if_pos hge]
                exact StepR.compact hc hs hge
              · rw [if_neg hge]
                exact StepR.comnl hc hs (by omega)
            · rw [if_neg h9]
              by_cases h10 : code &&& 0o177 = S_EOFCOM
              · rw [if_pos (Or.inl h10)]
                have hc := heof (Or.inr (Or.inr h10))
                have hs := hst (Or.inr (Or.inr (Or.inr (Or.inl h10))))
                simp only [h10, if_true]
                exact StepR.eofcom hc hs
              · by_cases h11 : code &&& 0o177 = S_COMMENT
                · rw [if_pos (Or.inr h11)]
                  have hc := hcom h11
                  have hs := hst (Or.inr (Or.inr (Or.inr (Or.inr h11))))
                  have n10 : S_COMMENT ≠ S_EOFCOM := by decide
                  simp only [h11, n10, if_false, Nat.add_one_ne_zero, Nat.add_sub_cancel,
                    List.append_nil]
                  exact StepR.comment hc hs
                · exfalso
                  have : code &&& 0o177 < 44 := by omega
                  unfold S_SELF at n1
                  unfold S_SELFB at n2
                  unfold S_NAME at n3
                  unfold S_WS at n4
                  unfold S_EOB at h5
                  unfold S_EOF at h6
                  unfold S_STNL S_NL at h7
                  unfold S_EOFSTR at h8
                  unfold S_COMNL at h9
                  unfold S_EOFCOM at h10
                  unfold S_COMMENT at h11
                  omega

theorem cnot_negSucc (n : Nat) : (cnot (Int.negSucc n)).toNat = n := by
  unfold cnot
  rw [Int.neg_negSucc]
  have : ((n + 1 : Nat) : Int) - 1 = (n : Int) := by omega
  rw [this]
  rfl

theorem not_negSucc_ge (n : Nat) : ¬ (Int.negSucc n ≥ 0) := by
  have := Int.negSucc_lt_zero n
  omega

theorem Source.byte_lt (s : Source) (i : Nat) : s.byte i < 256 :=
  Nat.mod_lt _ (by decide)

/-- What is left of a marked entry, after `trigraph` or `foldline` found no
match and left the source `s2`. -/
theorem reswitch_spec (q : Nat → Nat → Nat) (trp : List Token) (st : Scan) (s2 : Source)
    (code : Nat) (hb : Base st s2) (hm : MarkedOK (st.s.byte st.ip) st.state code) :
    StepR q trp st (switchOn q trp { st with s := s2 } (code - (code &&& QBSBIT))
      (advance { st with s := s2 } (code - (code &&& QBSBIT)))) := by
  obtain ⟨hc, hm⟩ := hm
  have hc' : st.s.byte st.ip ≠ 253 ∧ st.s.byte st.ip ≠ 254 ∧ st.s.byte st.ip ≠ 10 := by
    rcases hc with h | h <;> rw [h] <;> decide
  rcases hm with ⟨h0, h31, h18, hland⟩ | ⟨hcase, -, htype⟩
  · rw [switchOn_state q trp _ _ _ hland (by omega)]
    exact StepR.cont s2 _ hb ⟨h0, h31, h18⟩ hc'
  · refine switchOn_tok q trp st s2 _ _ hb ?_ ?_ ?_ ?_
    · rcases hcase with h | ⟨h | h | h, -⟩
      · exact Or.inl h
      · exact Or.inr (Or.inl h)
      · exact Or.inr (Or.inr (Or.inl h))
      · exact Or.inr (Or.inr (Or.inr h))
    · intro h; exact ⟨htype (Or.inl h), hc'⟩
    · intro h; exact htype (Or.inr h)
    · intro h
      rcases hcase with h' | ⟨-, h'⟩
      · exact absurd h' h
      · exact ⟨h', hc'.2.1⟩

/-- Every pass of the loop, from a state the scanner can be in, is one of the
cases of `StepR`. -/
theorem step_spec (cplusplus : Bool) (q : Nat → Nat → Nat) (trp : List Token) (st : Scan)
    (hs : st.state < 31) (h18 : st.state ≠ SLASH1) :
    StepR q trp st (step (entry cplusplus) q trp st) := by
  unfold step
  dsimp only
  rcases entry_cases cplusplus (st.s.byte st.ip) st.state (st.s.byte_lt st.ip) hs h18 with
    ⟨k, he, h0, h31, hk18, h253, h254, h10, -, -⟩ | ⟨code, he, hm, hok⟩ | ⟨code, he, hm, hok⟩
  · have hge : Int.ofNat k ≥ 0 := Int.ofNat_nonneg k
    rw [he, if_pos hge]
    exact StepR.cont st.s k (Or.inl rfl) ⟨h0, h31, hk18⟩ ⟨h253, h254, h10⟩
  · rw [he, if_neg (not_negSucc_ge code), cnot_negSucc, switchOn_marked q trp st code _ hm]
    unfold dfltCase
    dsimp only
    rw [if_neg hm]
    rcases hok.1 with hc | hc
    · rw [if_pos hc]
      cases hf : trigraph { st.s with inp := st.ip } with
      | none => exact StepR.escFatal (Or.inl ⟨hc, hf⟩)
      | some p =>
        obtain ⟨s2, r⟩ := p
        dsimp only
        by_cases hr : r ≠ 0
        · rw [if_pos hr]
          exact StepR.tri s2 r hc hf hr
        · rw [if_neg hr]
          have hr0 : r = 0 := by omega
          subst hr0
          exact reswitch_spec q trp st s2 code (Or.inr (Or.inl ⟨hc, hf⟩)) hok
    · have hc63 : st.s.byte st.ip ≠ 63 := by rw [hc]; decide
      rw [if_neg hc63, if_pos hc]
      cases hf : foldline { st.s with inp := st.ip } with
      | none => exact StepR.escFatal (Or.inr ⟨hc, hf⟩)
      | some p =>
        obtain ⟨s2, r⟩ := p
        dsimp only
        by_cases hr : r ≠ 0
        · rw [if_pos hr]
          exact StepR.fold s2 r hc hf hr
        · rw [if_neg hr]
          have hr0 : r = 0 := by omega
          subst hr0
          exact reswitch_spec q trp st s2 code (Or.inr (Or.inr ⟨hc, hf⟩)) hok
  · rw [he, if_neg (not_negSucc_ge code), cnot_negSucc]
    exact switchOn_named q trp st code _ hok

/-! ## The buffer routines -/

theorem poke_apply (m : Nat → Nat) (k v i : Nat) : poke m k v i = if i = k then v else m i := rfl

theorem sentinels_apply (m : Nat → Nat) (inl v i : Nat) :
    sentinels m inl v i = if inl ≤ i ∧ i < inl + 4 then v else m i := rfl

theorem memmove_apply (m : Nat → Nat) (dst src n i : Nat) :
    memmove m dst src n i = if dst ≤ i ∧ i < dst + n then m (src + (i - dst)) else m i := rfl

theorem fread_apply (m : Nat → Nat) (inl : Nat) (chunk : List Nat) (i : Nat) :
    fread m inl chunk i
      = if inl ≤ i ∧ i < inl + chunk.length then chunk.getD (i - inl) 0 else m i := rfl

theorem sent_EOB : sent EOB := Or.inl rfl

theorem sent_EOFC : sent EOFC := Or.inr rfl

theorem Grown.refl (s : Source) : Grown s s :=
  ⟨rfl, Nat.le_refl _, fun _ _ => rfl, fun h => ⟨h, rfl⟩, Or.inl ⟨rfl, rfl⟩⟩

theorem Grown.trans {s s1 s2 : Source} (h1 : Grown s s1) (h2 : Grown s1 s2) : Grown s s2 := by
  obtain ⟨b1, c1, d1, e1, f1⟩ := h1
  obtain ⟨b2, c2, d2, e2, f2⟩ := h2
  refine ⟨b2.trans b1, Nat.le_trans c1 c2, ?_, ?_, ?_⟩
  · intro i hi
    rw [d2 i (by omega), d1 i hi]
  · intro h
    have := e1 h
    have := e2 this.1
    exact ⟨this.1, by omega⟩
  · rcases f2 with ⟨h, h'⟩ | h
    · rcases f1 with ⟨g, g'⟩ | g
      · exact Or.inl ⟨h.trans g, h'.trans g'⟩
      · right
        intro i hi1 hi2
        have := g i (by omega) (by omega)
        unfold Source.byte at this ⊢
        rw [h]; exact this
    · exact Or.inr h

/-- What `fillbuf` does when the cursor stands on a byte that is not `EOB`,
below `inl`. -/
theorem fillbuf_grown (s s1 : Source) (b : Bool) (hlt : s.inp < s.inl)
    (hb : s.byte s.inp ≠ EOB) (hf : fillbuf s = some (s1, b)) :
    Grown s s1 ∧ s1.inp = s.inp
      ∧ (∀ i, s1.inl ≤ i → i < s1.inl + 4 → s1.inb i = if b then EOFC else EOB)
      ∧ (b = false → s.inl < s1.inl) := by
  unfold fillbuf at hf
  by_cases hov : s.inl + INS / 8 > INS
  · rw [if_pos hov] at hf; cases hf
  · rw [if_neg hov] at hf
    dsimp only at hf
    generalize hch : (match s.fd with
      | none => ([] : List Nat)
      | some rest => rest.take (INS / 8)) = chunk at hf
    have hm1 : fread s.inb s.inl chunk s.inp = s.inb s.inp := by
      rw [fread_apply, if_neg (by omega)]
    have hb2 : ¬ (fread s.inb s.inl chunk s.inp % 256 = EOB) := by rw [hm1]; exact hb
    rw [if_neg hb2] at hf
    by_cases hn : chunk.length = 0
    · rw [if_pos hn] at hf
      injection hf with hf
      injection hf with h1 h2
      subst h1 h2
      refine ⟨⟨rfl, Nat.le_add_right _ _, ?_, ?_, Or.inr ?_⟩, rfl, ?_, ?_⟩
      · intro i hi
        show sentinels (sentinels (fread s.inb s.inl chunk) _ EOB) _ EOFC i = s.inb i
        rw [sentinels_apply, if_neg (by omega), sentinels_apply, if_neg (by omega), fread_apply,
          if_neg (by omega)]
      · intro h
        refine ⟨by show Option.map _ s.fd = none; rw [h]; rfl, ?_⟩
        show s.inl + chunk.length = s.inl
        omega
      · intro i h1 h2
        show sent (sentinels (sentinels (fread s.inb s.inl chunk) _ EOB) _ EOFC i % 256)
        rw [sentinels_apply, if_pos ⟨h1, h2⟩]
        exact sent_EOFC
      · intro i h1 h2
        show sentinels (sentinels (fread s.inb s.inl chunk) _ EOB) _ EOFC i = _
        rw [sentinels_apply, if_pos ⟨h1, h2⟩]; rfl
      · intro h; cases h
    · rw [if_neg hn] at hf
      injection hf with hf
      injection hf with h1 h2
      subst h1 h2
      have hfd : s.fd ≠ none := by
        intro h
        rw [h] at hch
        apply hn
        rw [← hch]; rfl
      refine ⟨⟨rfl, Nat.le_add_right _ _, ?_, ?_, Or.inr ?_⟩, rfl, ?_, ?_⟩
      · intro i hi
        show sentinels (fread s.inb s.inl chunk) _ EOB i = s.inb i
        rw [sentinels_apply, if_neg (by omega), fread_apply, if_neg (by omega)]
      · intro h; exact absurd h hfd
      · intro i h1 h2
        show sent (sentinels (fread s.inb s.inl chunk) _ EOB i % 256)
        rw [sentinels_apply, if_pos ⟨h1, h2⟩]
        exact sent_EOB
      · intro i h1 h2
        show sentinels (fread s.inb s.inl chunk) _ EOB i = _
        rw [sentinels_apply, if_pos ⟨h1, h2⟩]; rfl
      · intro _
        show s.inl < s.inl + chunk.length
        omega

/-- What the refill loop of `trigraph` and `foldline` does when the cursor
stands on a byte that is not `EOB`, below `inl`: with fuel enough, either the
lookahead is in the valid bytes or the four sentinels are `EOFC`. -/
theorem refill_grown (d : Nat) : ∀ (k : Nat) (s s1 : Source), s.inp < s.inl →
    s.byte s.inp ≠ EOB → s.inp + d + 1 ≤ s.inl + k → refill d k s = some s1 →
    Grown s s1 ∧ s1.inp = s.inp
      ∧ (s1.inp + d < s1.inl ∨ ∀ i, s1.inl ≤ i → i < s1.inl + 4 → s1.inb i = EOFC) := by
  intro k
  induction k with
  | zero =>
    intro s s1 hlt hb hk hr
    simp only [refill, Option.some.injEq] at hr
    subst hr
    exact ⟨Grown.refl s, rfl, Or.inl (by omega)⟩
  | succ k ih =>
    intro s s1 hlt hb hk hr
    rw [refill] at hr
    by_cases hc : s.inp + d ≥ s.inl
    · rw [if_pos hc] at hr
      cases hf : fillbuf s with
      | none => rw [hf] at hr; cases hr
      | some p =>
        obtain ⟨s', b⟩ := p
        rw [hf] at hr
        obtain ⟨hg, hinp, hsent, hgrow⟩ := fillbuf_grown s s' b hlt hb hf
        cases b with
        | true =>
          simp only [Option.some.injEq] at hr
          subst hr
          exact ⟨hg, hinp, Or.inr (fun i h1 h2 => by rw [hsent i h1 h2]; rfl)⟩
        | false =>
          dsimp only at hr
          have hlt' : s'.inp < s'.inl := by
            have := hgrow rfl
            omega
          have hb' : s'.byte s'.inp ≠ EOB := by
            unfold Source.byte
            rw [hinp, hg.2.2.1 s.inp hlt]
            exact hb
          have hk' : s'.inp + d + 1 ≤ s'.inl + k := by
            have := hgrow rfl
            omega
          obtain ⟨hg2, hinp2, hres⟩ := ih s' s1 hlt' hb' hk' hr
          exact ⟨hg.trans hg2, hinp2.trans hinp, hres⟩
    · rw [if_neg hc] at hr
      simp only [Option.some.injEq] at hr
      subst hr
      exact ⟨Grown.refl s, rfl, Or.inl (by omega)⟩

theorem trigraphChar_EOFC : trigraphChar 253 = 0 := by decide

/-- What `trigraph` does when the cursor stands on a byte that is not `EOB`,
below `inl`: after the refills it reports no match and changes nothing else,
or the lookahead is in the valid bytes and the substitution is made. -/
theorem trigraph_spec (s s2 : Source) (r : Nat) (hlt : s.inp < s.inl)
    (hb : s.byte s.inp ≠ EOB) (h : trigraph s = some (s2, r)) :
    ∃ s1, Grown s s1 ∧ s1.inp = s.inp ∧
      ((r = 0 ∧ s2 = s1) ∨
        (r ≠ 0 ∧ s1.inp + 2 < s1.inl ∧ s1.byte (s1.inp + 1) = 63
          ∧ trigraphChar (s1.byte (s1.inp + 2)) = r
          ∧ s2 = { s1 with
              inb := memmove (poke s1.inb s1.inp r) (s1.inp + 1) (s1.inp + 3)
                (s1.inl - s1.inp + 2),
              inl := s1.inl - 2 })) := by
  unfold trigraph at h
  cases hr : refill 2 (s.inp + 3 - s.inl) s with
  | none => rw [hr] at h; cases h
  | some s1 =>
    rw [hr] at h
    dsimp only at h
    obtain ⟨hg, hinp, hres⟩ := refill_grown 2 _ s s1 hlt hb (by omega) hr
    refine ⟨s1, hg, hinp, ?_⟩
    by_cases h63 : s1.byte (s1.inp + 1) ≠ 63
    · rw [if_pos h63] at h
      injection h with h
      injection h with h1 h2
      exact Or.inl ⟨h2.symm, h1.symm⟩
    · rw [if_neg h63] at h
      have h63' : s1.byte (s1.inp + 1) = 63 := by omega
      by_cases hc : trigraphChar (s1.byte (s1.inp + 2)) ≠ 0
      · rw [if_pos hc] at h
        injection h with h
        injection h with h1 h2
        right
        have hin : s1.inp + 2 < s1.inl := by
          rcases hres with h | h
          · exact h
          · by_contra hge
            have hlt1 : s1.inp < s1.inl := by have := hg.2.1; omega
            by_cases h1' : s1.inp + 1 < s1.inl
            · have : s1.inb (s1.inp + 2) = EOFC := h _ (by omega) (by omega)
              apply hc
              unfold Source.byte
              rw [this]; rfl
            · have : s1.inb (s1.inp + 1) = EOFC := h _ (by omega) (by omega)
              unfold Source.byte at h63'
              rw [this] at h63'
              revert h63'; decide
        refine ⟨by rw [← h2]; exact hc, hin, h63', h2, ?_⟩
        rw [← h1, ← h2]
      · rw [if_neg hc] at h
        injection h with h
        injection h with h1 h2
        have : trigraphChar (s1.byte (s1.inp + 2)) = 0 := by omega
        exact Or.inl ⟨by rw [← h2]; exact this, h1.symm⟩

/-- What `foldline` does when the cursor stands on a byte that is not `EOB`,
below `inl`. -/
theorem foldline_spec (s s2 : Source) (r : Nat) (hlt : s.inp < s.inl)
    (hb : s.byte s.inp ≠ EOB) (h : foldline s = some (s2, r)) :
    ∃ s1, Grown s s1 ∧ s1.inp = s.inp ∧
      ((r = 0 ∧ s2 = s1) ∨
        (r = 1 ∧ s1.inp + 1 < s1.inl ∧ s1.byte (s1.inp + 1) = 10
          ∧ s2 = { s1 with
              inb := memmove s1.inb s1.inp (s1.inp + 2) (s1.inl - s1.inp + 3),
              inl := s1.inl - 2 })) := by
  unfold foldline at h
  cases hr : refill 1 (s.inp + 2 - s.inl) s with
  | none => rw [hr] at h; cases h
  | some s1 =>
    rw [hr] at h
    dsimp only at h
    obtain ⟨hg, hinp, hres⟩ := refill_grown 1 _ s s1 hlt hb (by omega) hr
    refine ⟨s1, hg, hinp, ?_⟩
    by_cases h10 : s1.byte (s1.inp + 1) = 10
    · rw [if_pos h10] at h
      injection h with h
      injection h with h1 h2
      right
      have hin : s1.inp + 1 < s1.inl := by
        rcases hres with h | h
        · exact h
        · by_contra hge
          have hlt1 : s1.inp < s1.inl := by have := hg.2.1; omega
          have : s1.inb (s1.inp + 1) = EOFC := h _ (by omega) (by omega)
          unfold Source.byte at h10
          rw [this] at h10
          revert h10; decide
      exact ⟨h2.symm, hin, h10, h1.symm⟩
    · rw [if_neg h10] at h
      injection h with h
      injection h with h1 h2
      exact Or.inl ⟨h2.symm, h1.symm⟩

/-- What `fillbuf` does, with no assumption on the cursor. -/
theorem fillbuf_any (s s1 : Source) (b : Bool) (hf : fillbuf s = some (s1, b)) :
    s1.lineinc = s.lineinc ∧ s.inl ≤ s1.inl ∧ s1.inp = s.inp
      ∧ (∀ i, s1.inl ≤ i → i < s1.inl + 4 → s1.inb i = if b then EOFC else EOB)
      ∧ (∀ i, i < s.inl → i ≠ s.inp → s1.inb i = s.inb i)
      ∧ (b = true → s1.inl = s.inl)
      ∧ (b = false → s.inl < s1.inl)
      ∧ (s.fd = none → s1.fd = none ∧ b = true
          ∧ (s.byte s.inp = EOB → s1.inb s.inp = EOFC)) := by
  unfold fillbuf at hf
  by_cases hov : s.inl + INS / 8 > INS
  · rw [if_pos hov] at hf; cases hf
  · rw [if_neg hov] at hf
    dsimp only at hf
    generalize hch : (match s.fd with
      | none => ([] : List Nat)
      | some rest => rest.take (INS / 8)) = chunk at hf
    generalize hm2 : (if fread s.inb s.inl chunk s.inp % 256 = EOB
      then poke (fread s.inb s.inl chunk) s.inp EOFC else fread s.inb s.inl chunk) = m2 at hf
    have hm2i : ∀ i, i < s.inl → i ≠ s.inp → m2 i = s.inb i := by
      intro i h1 h2
      rw [← hm2]
      split
      · rw [poke_apply, if_neg h2, fread_apply, if_neg (by omega)]
      · rw [fread_apply, if_neg (by omega)]
    by_cases hn : chunk.length = 0
    · rw [if_pos hn] at hf
      injection hf with hf
      injection hf with h1 h2
      subst h1 h2
      refine ⟨rfl, Nat.le_add_right _ _, rfl, ?_, ?_, ?_, ?_, ?_⟩
      · intro i h1 h2
        show sentinels (sentinels m2 _ EOB) _ EOFC i = _
        rw [sentinels_apply, if_pos ⟨h1, h2⟩]; rfl
      · intro i h1 h2
        show sentinels (sentinels m2 _ EOB) _ EOFC i = _
        rw [sentinels_apply, if_neg (by omega), sentinels_apply, if_neg (by omega)]
        exact hm2i i h1 h2
      · intro _
        show s.inl + chunk.length = s.inl
        omega
      · intro h; cases h
      · intro h
        refine ⟨by show Option.map _ s.fd = none; rw [h]; rfl, rfl, ?_⟩
        intro hb
        show sentinels (sentinels m2 _ EOB) _ EOFC s.inp = _
        rw [sentinels_apply]
        split
        · rfl
        · rw [sentinels_apply]
          split
          · omega
          · rw [← hm2]
            have hl : chunk.length = 0 := hn
            have e : fread s.inb s.inl chunk s.inp = s.inb s.inp := by
              rw [fread_apply, if_neg (by omega)]
            have hb' : s.inb s.inp % 256 = EOB := hb
            rw [e, if_pos hb', poke_apply, if_pos rfl]
    · rw [if_neg hn] at hf
      injection hf with hf
      injection hf with h1 h2
      subst h1 h2
      have hfd : s.fd ≠ none := by
        intro h
        rw [h] at hch
        apply hn
        rw [← hch]; rfl
      refine ⟨rfl, Nat.le_add_right _ _, rfl, ?_, ?_, ?_, ?_, ?_⟩
      · intro i h1 h2
        show sentinels m2 _ EOB i = _
        rw [sentinels_apply, if_pos ⟨h1, h2⟩]; rfl
      · intro i h1 h2
        show sentinels m2 _ EOB i = _
        rw [sentinels_apply, if_neg (by omega)]
        exact hm2i i h1 h2
      · intro h; cases h
      · intro _
        show s.inl < s.inl + chunk.length
        omega
      · intro h; exact absurd h hfd

theorem sent_byte_of_eq {s : Source} {i v : Nat} (h : s.inb i = v) (hv : sent v) :
    sent (s.byte i) := by
  unfold Source.byte
  rw [h]
  rcases hv with h | h <;> rw [h]
  · exact Or.inl rfl
  · exact Or.inr rfl

/-- After `fillbuf` the cursor is again in a buffer that ends in sentinels. -/
theorem fillbuf_buf (s s1 : Source) (b : Bool) (state : Nat) (hf : fillbuf s = some (s1, b))
    (hip : s.inp ≤ s.inl + 1) : Buf s1 s.inp state := by
  obtain ⟨-, hle, -, hsent, -, hb, hbf, -⟩ := fillbuf_any s s1 b hf
  have hs : ∀ i, s1.inl ≤ i → i < s1.inl + 4 → sent (s1.byte i) := by
    intro i h1 h2
    refine sent_byte_of_eq (hsent i h1 h2) ?_
    cases b
    · exact sent_EOB
    · exact sent_EOFC
  by_cases h : s.inp ≤ s1.inl
  · exact Or.inl ⟨h, hs _ (Nat.le_refl _) (by omega), hs _ (by omega) (by omega)⟩
  · have hb' : b = true := by
      cases b
      · exfalso
        have := hbf rfl
        omega
      · rfl
    have hinl := hb hb'
    have hip' : s.inp = s1.inl + 1 := by omega
    refine Or.inr ⟨hip', hs _ (by omega) (by omega), fun _ => ?_⟩
    unfold Source.byte
    rw [hsent _ (by omega) (by omega), hb']
    rfl

theorem grown_sent {s s1 : Source} (hg : Grown s s1) (h0 : sent (s.byte s.inl))
    (h1 : sent (s.byte (s.inl + 1))) :
    sent (s1.byte s1.inl) ∧ sent (s1.byte (s1.inl + 1)) := by
  rcases hg.2.2.2.2 with ⟨h, h'⟩ | h
  · unfold Source.byte at h0 h1 ⊢
    rw [h, h']
    exact ⟨h0, h1⟩
  · exact ⟨h _ (Nat.le_refl _) (by omega), h _ (by omega) (by omega)⟩

theorem not_sent_of_ne {b : Nat} (h1 : b ≠ 253) (h2 : b ≠ 254) : ¬ sent b := by
  rintro (h | h)
  · exact h2 h
  · exact h1 h

/-- On a byte that is no sentinel the cursor is below `inl`. -/
theorem buf_lt {s : Source} {ip state : Nat} (hb : Buf s ip state) (h1 : s.byte ip ≠ 253)
    (h2 : s.byte ip ≠ 254) :
    ip < s.inl ∧ sent (s.byte s.inl) ∧ sent (s.byte (s.inl + 1)) := by
  rcases hb with ⟨hle, hs0, hs1⟩ | ⟨-, hs, -⟩
  · refine ⟨?_, hs0, hs1⟩
    rcases Nat.lt_or_ge ip s.inl with h | h
    · exact h
    · have : ip = s.inl := by omega
      subst this
      exact absurd hs0 (not_sent_of_ne h1 h2)
  · exact absurd hs (not_sent_of_ne h1 h2)

/-- The source that `trigraph` or `foldline` leaves when it finds no match. -/
theorem base_grown {st : Scan} {s2 : Source} (hb : Base st s2)
    (hbuf : Buf st.s st.ip st.state) : Grown st.s s2 := by
  rcases hb with h | ⟨hc, hf⟩ | ⟨hc, hf⟩
  · subst h; exact Grown.refl _
  · have hlt := (buf_lt hbuf (by rw [hc]; decide) (by rw [hc]; decide)).1
    obtain ⟨s1, hg, -, h | h⟩ := trigraph_spec { st.s with inp := st.ip } s2 0 hlt
      (by show st.s.byte st.ip ≠ EOB; rw [hc]; decide) hf
    · rw [h.2]; exact hg
    · exact absurd rfl h.1
  · have hlt := (buf_lt hbuf (by rw [hc]; decide) (by rw [hc]; decide)).1
    obtain ⟨s1, hg, -, h | h⟩ := foldline_spec { st.s with inp := st.ip } s2 0 hlt
      (by show st.s.byte st.ip ≠ EOB; rw [hc]; decide) hf
    · rw [h.2]; exact hg
    · exact absurd h.1 (by decide)

theorem base_byte {st : Scan} {s2 : Source} (hb : Base st s2)
    (hbuf : Buf st.s st.ip st.state) (i : Nat) (hi : i ≤ st.ip) : s2.inb i = st.s.inb i := by
  rcases hb with h | ⟨hc, hf⟩ | ⟨hc, hf⟩
  · subst h; rfl
  · have hlt := (buf_lt hbuf (by rw [hc]; decide) (by rw [hc]; decide)).1
    exact (base_grown (Or.inr (Or.inl ⟨hc, hf⟩)) hbuf).2.2.1 i (by omega)
  · have hlt := (buf_lt hbuf (by rw [hc]; decide) (by rw [hc]; decide)).1
    exact (base_grown (Or.inr (Or.inr ⟨hc, hf⟩)) hbuf).2.2.1 i (by omega)

/-- After a pass that leaves the cursor where it is and ends a token. -/
theorem base_buf {st : Scan} {s2 : Source} (hb : Base st s2)
    (hbuf : Buf st.s st.ip st.state) (h254 : st.s.byte st.ip ≠ 254) : Buf s2 st.ip START := by
  have hg := base_grown hb hbuf
  rcases hbuf with ⟨hle, hs0, hs1⟩ | ⟨hip, hs, -⟩
  · have := grown_sent hg hs0 hs1
    exact Or.inl ⟨by have := hg.2.1; omega, this.1, this.2⟩
  · have hc : st.s.byte st.ip = 253 := by
      rcases hs with h | h
      · exact absurd h h254
      · exact h
    rcases hb with h | ⟨hc', -⟩ | ⟨hc', -⟩
    · subst h
      exact Or.inr ⟨hip, Or.inr hc, fun _ => hc⟩
    · rw [hc] at hc'; cases hc'
    · rw [hc] at hc'; cases hc'

/-- After a pass that consumes a byte that is no sentinel. -/
theorem base_buf_succ {st : Scan} {s2 : Source} (hb : Base st s2)
    (hbuf : Buf st.s st.ip st.state) (h253 : st.s.byte st.ip ≠ 253)
    (h254 : st.s.byte st.ip ≠ 254) (state : Nat) : Buf s2 (st.ip + 1) state := by
  have hg := base_grown hb hbuf
  obtain ⟨hlt, hs0, hs1⟩ := buf_lt hbuf h253 h254
  have := grown_sent hg hs0 hs1
  exact Or.inl ⟨by have := hg.2.1; omega, this.1, this.2⟩

/-! ## The invariant of the loop -/

theorem Inv.t_le {st : Scan} (h : Inv st) : st.t ≤ st.ip := by
  by_cases hs : st.state = START
  · have := h.t_eq hs; omega
  · have := h.t_lt hs; omega

theorem typeOK_spec {code : Nat} (h : typeOK code = true) :
    GETACT code ≠ NL ∧ GETACT code ≠ END ∧ GETACT code ≠ NAME := by
  unfold typeOK at h
  simp only [Bool.and_eq_true, bne_iff_ne, ne_eq] at h
  exact ⟨h.1.2, h.1.1, h.2⟩

theorem row_emit {st : Scan} (h : Inv st) (ip type : Nat) (hip : st.ip ≤ ip)
    (h1 : type ≠ NL) (h2 : type ≠ END) (h3 : type = NAME → st.t < ip) :
    ∀ tok ∈ st.row ++ [Token.mk type 0 0 st.wslen (ip - st.t) st.t],
      tok.t + tok.len ≤ ip ∧ tok.type ≠ NL ∧ tok.type ≠ END ∧ (tok.type = NAME → 1 ≤ tok.len) := by
  intro tok hmem
  have hle := h.t_le
  rcases List.mem_append.mp hmem with hm | hm
  · obtain ⟨a, b, c, d⟩ := h.row tok hm
    exact ⟨by omega, b, c, d⟩
  · rw [List.mem_singleton] at hm
    subst hm
    refine ⟨?_, h1, h2, ?_⟩
    · show st.t + (ip - st.t) ≤ ip
      omega
    · intro hn
      have := h3 hn
      show 1 ≤ ip - st.t
      omega

theorem NAME_ne_NL : NAME ≠ NL := by decide

theorem NAME_ne_END : NAME ≠ END := by decide

theorem START_lt : START < 31 := by decide

theorem START_ne : START ≠ SLASH1 := by decide

theorem COM2_lt : COM2 < 31 := by decide

theorem COM2_ne : COM2 ≠ SLASH1 := by decide

theorem COM2_ne_START : COM2 ≠ START := by decide

/-- The invariant holds after every pass of the loop. -/
theorem stepR_inv (q : Nat → Nat → Nat) (trp : List Token) (st st1 : Scan) (h : Inv st)
    (hr : StepR q trp st (.next st1)) : Inv st1 := by
  have hle := h.t_le
  cases hr with
  | cont s2 k hb hk hc =>
    exact ⟨hk.2.1, hk.2.2, fun h0 => by
        have h0' : k = START := h0
        rw [h0'] at hk; exact absurd hk.1 (by decide),
      fun _ => by show st.t < st.ip + 1; omega,
      base_buf_succ hb h.buf hc.1 hc.2.1 k, h.row⟩
  | self s2 code hb ht hc =>
    obtain ⟨t1, t2, t3⟩ := typeOK_spec ht
    exact ⟨START_lt, START_ne, fun _ => rfl, fun h0 => absurd rfl h0,
      base_buf_succ hb h.buf hc.1 hc.2.1 START,
      row_emit h (st.ip + 1) _ (by omega) t1 t2 (fun hn => absurd hn t3)⟩
  | selfb s2 code hb ht hs hc =>
    obtain ⟨t1, t2, t3⟩ := typeOK_spec ht
    exact ⟨START_lt, START_ne, fun _ => rfl, fun h0 => absurd rfl h0,
      @base_buf st s2 hb h.buf hc,
      row_emit h st.ip _ (Nat.le_refl _) t1 t2 (fun hn => absurd hn t3)⟩
  | name s2 hb hs hc =>
    exact ⟨START_lt, START_ne, fun _ => rfl, fun h0 => absurd rfl h0,
      @base_buf st s2 hb h.buf hc,
      row_emit h st.ip NAME (Nat.le_refl _) NAME_ne_NL NAME_ne_END (fun _ => h.t_lt hs)⟩
  | ws s2 hb hs hc =>
    refine ⟨START_lt, START_ne, fun _ => rfl, fun h0 => absurd rfl h0, @base_buf st s2 hb h.buf hc, ?_⟩
    intro tok hm
    obtain ⟨a, b, c, d⟩ := h.row tok hm
    exact ⟨by show tok.t + tok.len ≤ st.ip; omega, b, c, d⟩
  | eob s1 b hc hf =>
    have hip : st.ip ≤ st.s.inl + 1 := by
      rcases h.buf with h1 | h1
      · omega
      · omega
    exact ⟨h.state_lt, h.state_ne, h.t_eq, h.t_lt,
      fillbuf_buf { st.s with inp := st.ip } s1 b st.state hf hip, h.row⟩
  | comnl hc hs hlt =>
    obtain ⟨hl, hs0, hs1⟩ := buf_lt h.buf (by rw [hc]; decide) (by rw [hc]; decide)
    exact ⟨COM2_lt, COM2_ne, fun h0 => absurd h0 COM2_ne_START,
      fun _ => by show st.t < st.ip + 1; omega,
      Or.inl ⟨by show st.ip + 1 ≤ st.s.inl; omega, hs0, hs1⟩, h.row⟩
  | compact hc hs hge =>
    obtain ⟨hl, hs0, hs1⟩ := buf_lt h.buf (by rw [hc]; decide) (by rw [hc]; decide)
    have htl := h.t_lt hs
    refine ⟨COM2_lt, COM2_ne, fun h0 => absurd h0 COM2_ne_START,
      fun _ => by show st.t < st.t + 1; omega, ?_, h.row⟩
    by_cases hend : st.ip + 1 < st.s.inl
    · left
      refine ⟨by show st.t + 1 ≤ st.s.inl - (st.ip + 1 - st.t); omega, ?_, ?_⟩
      · show sent (memmove st.s.inb st.t (st.ip + 1) (4 + st.s.inl - (st.ip + 1))
          (st.s.inl - (st.ip + 1 - st.t)) % 256)
        rw [memmove_apply, if_pos (by omega)]
        have : st.ip + 1 + (st.s.inl - (st.ip + 1 - st.t) - st.t) = st.s.inl := by omega
        rw [this]; exact hs0
      · show sent (memmove st.s.inb st.t (st.ip + 1) (4 + st.s.inl - (st.ip + 1))
          (st.s.inl - (st.ip + 1 - st.t) + 1) % 256)
        rw [memmove_apply, if_pos (by omega)]
        have : st.ip + 1 + (st.s.inl - (st.ip + 1 - st.t) + 1 - st.t) = st.s.inl + 1 := by omega
        rw [this]; exact hs1
    · right
      refine ⟨by show st.t + 1 = st.s.inl - (st.ip + 1 - st.t) + 1; omega, ?_,
        fun h0 => absurd h0 COM2_ne_START⟩
      show sent (memmove st.s.inb st.t (st.ip + 1) (4 + st.s.inl - (st.ip + 1)) (st.t + 1) % 256)
      rw [memmove_apply, if_pos (by omega)]
      have : st.ip + 1 + (st.t + 1 - st.t) = st.s.inl + 1 := by omega
      rw [this]; exact hs1
  | eofcom hc hs =>
    have htl := h.t_lt hs
    have hne : st.ip ≠ 0 := by omega
    refine ⟨START_lt, START_ne, fun _ => rfl, fun h0 => absurd rfl h0, ?_, ?_⟩
    · rcases h.buf with ⟨h1, h2, h3⟩ | ⟨h1, h2, h3⟩
      · left
        refine ⟨h1, ?_, ?_⟩
        · show sent ((if st.ip = 0 then st.s.inb else poke st.s.inb (st.ip - 1) 32) st.s.inl % 256)
          rw [if_neg hne, poke_apply, if_neg (by omega)]; exact h2
        · show sent ((if st.ip = 0 then st.s.inb else poke st.s.inb (st.ip - 1) 32)
            (st.s.inl + 1) % 256)
          rw [if_neg hne, poke_apply, if_neg (by omega)]; exact h3
      · right
        have e : (if st.ip = 0 then st.s.inb else poke st.s.inb (st.ip - 1) 32) st.ip % 256
            = 253 := by
          rw [if_neg hne, poke_apply, if_neg (by omega)]; exact hc
        exact ⟨h1, Or.inr e, fun _ => e⟩
    · intro tok hm
      obtain ⟨a, b, c, d⟩ := h.row tok hm
      exact ⟨by show tok.t + tok.len ≤ st.ip; omega, b, c, d⟩
  | comment hc hs =>
    obtain ⟨hl, hs0, hs1⟩ := buf_lt h.buf (by rw [hc]; decide) (by rw [hc]; decide)
    refine ⟨START_lt, START_ne, fun _ => rfl, fun h0 => absurd rfl h0, ?_, ?_⟩
    · left
      refine ⟨by show st.ip + 1 ≤ st.s.inl; omega, ?_, ?_⟩
      · show sent (poke st.s.inb st.ip 32 st.s.inl % 256)
        rw [poke_apply, if_neg (by omega)]; exact hs0
      · show sent (poke st.s.inb st.ip 32 (st.s.inl + 1) % 256)
        rw [poke_apply, if_neg (by omega)]; exact hs1
    · intro tok hm
      obtain ⟨a, b, c, d⟩ := h.row tok hm
      exact ⟨by show tok.t + tok.len ≤ st.ip + 1; omega, b, c, d⟩
  | tri s2 r hc hf hr =>
    obtain ⟨hl, hs0, hs1⟩ := buf_lt h.buf (by rw [hc]; decide) (by rw [hc]; decide)
    obtain ⟨s1, hg, hinp, hres | ⟨-, hin, -, -, he⟩⟩ := trigraph_spec { st.s with inp := st.ip } s2 r
      hl (by show st.s.byte st.ip ≠ EOB; rw [hc]; decide) hf
    · exact absurd hres.1 hr
    · have hinp' : s1.inp = st.ip := hinp
      have hse := grown_sent hg hs0 hs1
      rw [hinp'] at he hin
      refine ⟨h.state_lt, h.state_ne, h.t_eq, h.t_lt, Or.inl ⟨?_, ?_, ?_⟩, h.row⟩
      · show st.ip ≤ s2.inl
        rw [he]; show st.ip ≤ s1.inl - 2; omega
      · rw [he]
        show sent (memmove (poke s1.inb st.ip r) (st.ip + 1) (st.ip + 3) (s1.inl - st.ip + 2)
          (s1.inl - 2) % 256)
        rw [memmove_apply, if_pos (by omega)]
        have : st.ip + 3 + (s1.inl - 2 - (st.ip + 1)) = s1.inl := by omega
        rw [this, poke_apply, if_neg (by omega)]; exact hse.1
      · rw [he]
        show sent (memmove (poke s1.inb st.ip r) (st.ip + 1) (st.ip + 3) (s1.inl - st.ip + 2)
          (s1.inl - 2 + 1) % 256)
        rw [memmove_apply, if_pos (by omega)]
        have : st.ip + 3 + (s1.inl - 2 + 1 - (st.ip + 1)) = s1.inl + 1 := by omega
        rw [this, poke_apply, if_neg (by omega)]; exact hse.2
  | fold s2 r hc hf hr =>
    obtain ⟨hl, hs0, hs1⟩ := buf_lt h.buf (by rw [hc]; decide) (by rw [hc]; decide)
    obtain ⟨s1, hg, hinp, hres | ⟨-, hin, -, he⟩⟩ := foldline_spec { st.s with inp := st.ip } s2 r
      hl (by show st.s.byte st.ip ≠ EOB; rw [hc]; decide) hf
    · exact absurd hres.1 hr
    · have hinp' : s1.inp = st.ip := hinp
      have hse := grown_sent hg hs0 hs1
      rw [hinp'] at he hin
      refine ⟨h.state_lt, h.state_ne, h.t_eq, h.t_lt, Or.inl ⟨?_, ?_, ?_⟩, h.row⟩
      · show st.ip ≤ s2.inl
        rw [he]; show st.ip ≤ s1.inl - 2; omega
      · rw [he]
        show sent (memmove s1.inb st.ip (st.ip + 2) (s1.inl - st.ip + 3) (s1.inl - 2) % 256)
        rw [memmove_apply, if_pos (by omega)]
        have : st.ip + 2 + (s1.inl - 2 - st.ip) = s1.inl := by omega
        rw [this]; exact hse.1
      · rw [he]
        show sent (memmove s1.inb st.ip (st.ip + 2) (s1.inl - st.ip + 3) (s1.inl - 2 + 1) % 256)
        rw [memmove_apply, if_pos (by omega)]
        have : st.ip + 2 + (s1.inl - 2 + 1 - st.ip) = s1.inl + 1 := by omega
        rw [this]; exact hse.2

/-! ## Termination on string sources -/

theorem flag_le (p : Prop) [Decidable p] (n : Nat) : (if p then n else 0) ≤ n := by
  split <;> omega

theorem base_fd {st : Scan} {s2 : Source} (hb : Base st s2) (hbuf : Buf st.s st.ip st.state)
    (hfd : st.s.fd = none) : s2.fd = none ∧ s2.inl = st.s.inl :=
  (base_grown hb hbuf).2.2.2.1 hfd

theorem base_byte_ip {st : Scan} {s2 : Source} (hb : Base st s2)
    (hbuf : Buf st.s st.ip st.state) : s2.byte st.ip = st.s.byte st.ip := by
  unfold Source.byte
  rw [base_byte hb hbuf st.ip (Nat.le_refl _)]

/-- Every pass of the loop on a string source makes the measure smaller. -/
theorem stepR_measure (q : Nat → Nat → Nat) (trp : List Token) (st st1 : Scan) (h : Inv st)
    (hfd : st.s.fd = none) (hr : StepR q trp st (.next st1)) :
    measure st1 < measure st ∧ st1.s.fd = none := by
  have hle := h.t_le
  unfold measure
  cases hr with
  | cont s2 k hb hk hc =>
    obtain ⟨hl, -, -⟩ := buf_lt h.buf hc.1 hc.2.1
    obtain ⟨hf2, hi2⟩ := base_fd hb h.buf hfd
    refine ⟨?_, hf2⟩
    show 4 * (s2.inl + 2 - (st.ip + 1)) + (if s2.byte (st.ip + 1) = EOB then 2 else 0)
      + (if k = START then 0 else 1) < _
    have f1 := flag_le (s2.byte (st.ip + 1) = EOB) 2
    have f2 : (if k = START then 0 else 1) ≤ 1 := by split <;> omega
    rw [hi2]; omega
  | self s2 code hb ht hc =>
    obtain ⟨hl, -, -⟩ := buf_lt h.buf hc.1 hc.2.1
    obtain ⟨hf2, hi2⟩ := base_fd hb h.buf hfd
    refine ⟨?_, hf2⟩
    show 4 * (s2.inl + 2 - (st.ip + 1)) + (if s2.byte (st.ip + 1) = EOB then 2 else 0)
      + (if START = START then 0 else 1) < _
    have f1 := flag_le (s2.byte (st.ip + 1) = EOB) 2
    rw [hi2, if_pos rfl]; omega
  | selfb s2 code hb ht hs hc =>
    obtain ⟨hf2, hi2⟩ := base_fd hb h.buf hfd
    refine ⟨?_, hf2⟩
    show 4 * (s2.inl + 2 - st.ip) + (if s2.byte st.ip = EOB then 2 else 0)
      + (if START = START then 0 else 1) < _
    rw [hi2, if_pos rfl, base_byte_ip hb h.buf, if_neg hs]; omega
  | name s2 hb hs hc =>
    obtain ⟨hf2, hi2⟩ := base_fd hb h.buf hfd
    refine ⟨?_, hf2⟩
    show 4 * (s2.inl + 2 - st.ip) + (if s2.byte st.ip = EOB then 2 else 0)
      + (if START = START then 0 else 1) < _
    rw [hi2, if_pos rfl, base_byte_ip hb h.buf, if_neg hs]; omega
  | ws s2 hb hs hc =>
    obtain ⟨hf2, hi2⟩ := base_fd hb h.buf hfd
    refine ⟨?_, hf2⟩
    show 4 * (s2.inl + 2 - st.ip) + (if s2.byte st.ip = EOB then 2 else 0)
      + (if START = START then 0 else 1) < _
    rw [hi2, if_pos rfl, base_byte_ip hb h.buf, if_neg hs]; omega
  | eob s1 b hc hf =>
    obtain ⟨-, -, -, -, -, hinl, -, hnone⟩ := fillbuf_any { st.s with inp := st.ip } s1 b hf
    obtain ⟨hf1, hb1, hbyte⟩ := hnone hfd
    have hi1 : s1.inl = st.s.inl := hinl hb1
    have hby : s1.inb st.ip = EOFC := hbyte hc
    refine ⟨?_, hf1⟩
    show 4 * (s1.inl + 2 - st.ip) + (if s1.byte st.ip = EOB then 2 else 0)
      + (if st.state = START then 0 else 1) < _
    have e1 : s1.byte st.ip ≠ EOB := by
      unfold Source.byte; rw [hby]; decide
    have e2 : st.s.byte st.ip = EOB := hc
    rw [hi1, if_neg e1, if_pos e2]; omega
  | comnl hc hs hlt =>
    obtain ⟨hl, -, -⟩ := buf_lt h.buf (by rw [hc]; decide) (by rw [hc]; decide)
    refine ⟨?_, hfd⟩
    show 4 * (st.s.inl + 2 - (st.ip + 1)) + (if st.s.byte (st.ip + 1) = EOB then 2 else 0)
      + (if COM2 = START then 0 else 1) < _
    have f1 := flag_le (st.s.byte (st.ip + 1) = EOB) 2
    rw [if_neg COM2_ne_START, if_neg hs]; omega
  | compact hc hs hge =>
    obtain ⟨hl, -, -⟩ := buf_lt h.buf (by rw [hc]; decide) (by rw [hc]; decide)
    have htl := h.t_lt hs
    refine ⟨?_, hfd⟩
    generalize hm : memmove st.s.inb st.t (st.ip + 1) (4 + st.s.inl - (st.ip + 1)) = m
    show 4 * (st.s.inl - (st.ip + 1 - st.t) + 2 - (st.t + 1)) + (if m (st.t + 1) % 256 = EOB
      then 2 else 0) + (if COM2 = START then 0 else 1) < _
    have f1 := flag_le (m (st.t + 1) % 256 = EOB) 2
    rw [if_neg COM2_ne_START, if_neg hs]; omega
  | eofcom hc hs =>
    have htl := h.t_lt hs
    have hne : st.ip ≠ 0 := by omega
    refine ⟨?_, hfd⟩
    show 4 * (st.s.inl + 2 - st.ip)
      + (if (if st.ip = 0 then st.s.inb else poke st.s.inb (st.ip - 1) 32) st.ip % 256 = EOB
          then 2 else 0)
      + (if START = START then 0 else 1) < _
    have e : (if st.ip = 0 then st.s.inb else poke st.s.inb (st.ip - 1) 32) st.ip
        = st.s.inb st.ip := by
      rw [if_neg hne, poke_apply, if_neg (by omega)]
    rw [e, if_pos rfl, if_neg hs]
    show _ < 4 * (st.s.inl + 2 - st.ip) + (if st.s.inb st.ip % 256 = EOB then 2 else 0) + 1
    omega
  | comment hc hs =>
    obtain ⟨hl, -, -⟩ := buf_lt h.buf (by rw [hc]; decide) (by rw [hc]; decide)
    refine ⟨?_, hfd⟩
    show 4 * (st.s.inl + 2 - (st.ip + 1))
      + (if poke st.s.inb st.ip 32 (st.ip + 1) % 256 = EOB then 2 else 0)
      + (if START = START then 0 else 1) < _
    have f1 := flag_le (poke st.s.inb st.ip 32 (st.ip + 1) % 256 = EOB) 2
    rw [if_pos rfl]; omega
  | tri s2 r hc hf hr =>
    obtain ⟨hl, -, -⟩ := buf_lt h.buf (by rw [hc]; decide) (by rw [hc]; decide)
    obtain ⟨s1, hg, hinp, hres | ⟨-, hin, -, -, he⟩⟩ := trigraph_spec { st.s with inp := st.ip } s2 r
      hl (by show st.s.byte st.ip ≠ EOB; rw [hc]; decide) hf
    · exact absurd hres.1 hr
    · have hinp' : s1.inp = st.ip := hinp
      obtain ⟨hf1, hi1⟩ := hg.2.2.2.1 hfd
      have hi1' : s1.inl = st.s.inl := hi1
      rw [hinp'] at hin
      refine ⟨?_, by rw [he]; exact hf1⟩
      show 4 * (s2.inl + 2 - st.ip) + (if s2.byte st.ip = EOB then 2 else 0)
        + (if st.state = START then 0 else 1) < _
      have f1 := flag_le (s2.byte st.ip = EOB) 2
      have e2 : s2.inl = s1.inl - 2 := by rw [he]
      have e3 : ¬ (st.s.byte st.ip = EOB) := by rw [hc]; decide
      rw [e2, if_neg e3]; omega
  | fold s2 r hc hf hr =>
    obtain ⟨hl, -, -⟩ := buf_lt h.buf (by rw [hc]; decide) (by rw [hc]; decide)
    obtain ⟨s1, hg, hinp, hres | ⟨-, hin, -, he⟩⟩ := foldline_spec { st.s with inp := st.ip } s2 r
      hl (by show st.s.byte st.ip ≠ EOB; rw [hc]; decide) hf
    · exact absurd hres.1 hr
    · have hinp' : s1.inp = st.ip := hinp
      obtain ⟨hf1, hi1⟩ := hg.2.2.2.1 hfd
      have hi1' : s1.inl = st.s.inl := hi1
      rw [hinp'] at hin
      refine ⟨?_, by rw [he]; exact hf1⟩
      show 4 * (s2.inl - 0 + 2 - st.ip) + (if s2.byte st.ip = EOB then 2 else 0)
        + (if st.state = START then 0 else 1) < _
      have f1 := flag_le (s2.byte st.ip = EOB) 2
      have e2 : s2.inl = s1.inl - 2 := by rw [he]
      have e3 : ¬ (st.s.byte st.ip = EOB) := by rw [hc]; decide
      rw [e2, if_neg e3]; omega

theorem scanLoop_succ (T : Table) (q : Nat → Nat → Nat) (trp : List Token) (n : Nat) (st : Scan) :
    scanLoop T q trp (n + 1) st
      = match step T q trp st with
        | .done o => some o
        | .next st1 => scanLoop T q trp n st1 := rfl

/-- More fuel does not change a result. -/
theorem scanLoop_mono (T : Table) (q : Nat → Nat → Nat) (trp : List Token) :
    ∀ (n k : Nat) (st : Scan) (o : Outcome), scanLoop T q trp n st = some o →
      scanLoop T q trp (n + k) st = some o := by
  intro n
  induction n with
  | zero => intro k st o h; cases h
  | succ n ih =>
    intro k st o h
    rw [show n + 1 + k = (n + k) + 1 by omega, scanLoop_succ]
    rw [scanLoop_succ] at h
    cases hs : step T q trp st with
    | done o1 => rw [hs] at h; exact h
    | next st1 => rw [hs] at h; exact ih k st1 o h

/-- The loop on a string source ends: `measure st + 1` passes suffice. -/
theorem scanLoop_terminates (cplusplus : Bool) (q : Nat → Nat → Nat) (trp : List Token) :
    ∀ (m : Nat) (st : Scan), measure st ≤ m → Inv st → st.s.fd = none →
      ∃ o, scanLoop (entry cplusplus) q trp (m + 1) st = some o := by
  intro m
  induction m with
  | zero =>
    intro st hm h hfd
    rw [scanLoop_succ]
    have hr := step_spec cplusplus q trp st h.state_lt h.state_ne
    cases hs : step (entry cplusplus) q trp st with
    | done o => exact ⟨o, rfl⟩
    | next st1 =>
      rw [hs] at hr
      have := (stepR_measure q trp st st1 h hfd hr).1
      omega
  | succ m ih =>
    intro st hm h hfd
    rw [scanLoop_succ]
    have hr := step_spec cplusplus q trp st h.state_lt h.state_ne
    cases hs : step (entry cplusplus) q trp st with
    | done o => exact ⟨o, rfl⟩
    | next st1 =>
      rw [hs] at hr
      obtain ⟨hlt, hfd1⟩ := stepR_measure q trp st st1 h hfd hr
      exact ih st1 (by omega) (stepR_inv q trp st st1 h hr) hfd1

/-! ## Sources, the prologue of `gettokens`, and what holds of every call -/

/-- A source fresh from `setsource` is well formed. -/
theorem setsource_wf (fd : Option (List Nat)) (str : Option (List Nat)) (heap : Nat → Nat) :
    (setsource fd str heap).wf := by
  cases str with
  | none =>
    refine Or.inl ⟨Nat.le_refl _, Or.inl ?_, Or.inl ?_⟩ <;> rfl
  | some str =>
    refine Or.inl ⟨Nat.zero_le _, Or.inl ?_, Or.inl ?_⟩
    · show (if strlen str < strlen str then str.getD (strlen str) 0
        else if strlen str < strlen str + 2 then EOB else heap (strlen str)) % 256 = EOB
      rw [if_neg (by omega), if_pos (by omega)]; rfl
    · show (if strlen str + 1 < strlen str then str.getD (strlen str + 1) 0
        else if strlen str + 1 < strlen str + 2 then EOB else heap (strlen str + 1)) % 256 = EOB
      rw [if_neg (by omega), if_pos (by omega)]; rfl

/-- The prologue of `gettokens` keeps a source well formed, and a string
source a string source. -/
theorem rewind_wf (s s1 : Source) (reset : Bool) (hwf : s.wf) (h : rewind s reset = some s1) :
    s1.wf ∧ (s.fd = none → s1.fd = none) := by
  unfold rewind at h
  cases reset with
  | false =>
    rw [if_neg Bool.false_ne_true] at h
    injection h with h
    subst h
    exact ⟨hwf, id⟩
  | true =>
    rw [if_pos rfl] at h
    dsimp only at h
    by_cases h1 : s.inp ≥ s.inl
    · rw [if_pos h1] at h
      cases hf : fillbuf { s with lineinc := 0, inl := 0 } with
      | none => rw [hf] at h; cases h
      | some p =>
        obtain ⟨s2, b⟩ := p
        rw [hf] at h
        injection h with h
        subst h
        obtain ⟨-, -, -, hsent, -, -, -, hnone⟩ := fillbuf_any _ s2 b hf
        have hs : ∀ i, s2.inl ≤ i → i < s2.inl + 4 → sent (s2.byte i) := by
          intro i h1 h2
          refine sent_byte_of_eq (hsent i h1 h2) ?_
          cases b
          · exact sent_EOB
          · exact sent_EOFC
        have hs0 : sent (s2.byte s2.inl) := hs _ (Nat.le_refl _) (by omega)
        have hs1 : sent (s2.byte (s2.inl + 1)) := hs _ (by omega) (by omega)
        exact ⟨Or.inl ⟨Nat.zero_le _, hs0, hs1⟩, fun hfd => (hnone hfd).1⟩
    · rw [if_neg h1] at h
      have hlt : s.inp < s.inl := by omega
      rcases hwf with ⟨-, hs0, hs1⟩ | ⟨hip, -, -⟩
      · by_cases h2 : s.inp ≥ 3 * INS / 4
        · rw [if_pos h2] at h
          injection h with h
          subst h
          refine ⟨Or.inl ⟨Nat.zero_le _, ?_, ?_⟩, id⟩
          · show sent (memmove s.inb 0 s.inp (4 + s.inl - s.inp) (s.inl - s.inp) % 256)
            rw [memmove_apply, if_pos (by omega)]
            have : s.inp + (s.inl - s.inp - 0) = s.inl := by omega
            rw [this]; exact hs0
          · show sent (memmove s.inb 0 s.inp (4 + s.inl - s.inp) (s.inl - s.inp + 1) % 256)
            rw [memmove_apply, if_pos (by omega)]
            have : s.inp + (s.inl - s.inp + 1 - 0) = s.inl + 1 := by omega
            rw [this]; exact hs1
        · rw [if_neg h2] at h
          injection h with h
          subst h
          exact ⟨Or.inl ⟨Nat.le_of_lt hlt, hs0, hs1⟩, id⟩
      · omega

/-- The invariant holds when the loop is entered on a well-formed source. -/
theorem init_inv (s : Source) (hwf : s.wf) : Inv (Scan.init s) :=
  ⟨START_lt, START_ne, fun _ => rfl, fun h => absurd rfl h, hwf,
    fun tok hm => absurd hm (List.not_mem_nil tok)⟩

/-- A property that every pass of the loop keeps holds of the state from which
the call ends. -/
theorem scanLoop_final (cplusplus : Bool) (q : Nat → Nat → Nat) (trp : List Token)
    (P : Scan → Prop)
    (hP : ∀ st st1, Inv st → P st → StepR q trp st (.next st1) → P st1) :
    ∀ (n : Nat) (st : Scan) (o : Outcome), Inv st → P st →
      scanLoop (entry cplusplus) q trp n st = some o →
      ∃ st1, Inv st1 ∧ P st1 ∧ StepR q trp st1 (.done o) := by
  intro n
  induction n with
  | zero => intro st o _ _ h; cases h
  | succ n ih =>
    intro st o hinv hp h
    rw [scanLoop_succ] at h
    have hr := step_spec cplusplus q trp st hinv.state_lt hinv.state_ne
    cases hs : step (entry cplusplus) q trp st with
    | done o1 =>
      rw [hs] at h hr
      simp only [Option.some.injEq] at h
      subst h
      exact ⟨st, hinv, hp, hr⟩
    | next st1 =>
      rw [hs] at h hr
      exact ih st1 o (stepR_inv q trp st st1 hinv hr) (hP st st1 hinv hp hr) h

/-- A call of `gettokens` on a well-formed string source ends. -/
theorem gettokens_terminates (cplusplus : Bool) (q : Nat → Nat → Nat) (trp : List Token)
    (s : Source) (reset : Bool) (hwf : s.wf) (hfd : s.fd = none) :
    ∃ n o, gettokens (bigfsm cplusplus) q n s trp reset = some o := by
  rw [bigfsm_eq]
  unfold gettokens
  cases hr : rewind s reset with
  | none => exact ⟨0, _, rfl⟩
  | some s1 =>
    obtain ⟨hwf1, hfd1⟩ := rewind_wf s s1 reset hwf hr
    obtain ⟨o, ho⟩ := scanLoop_terminates cplusplus q trp (measure (Scan.init s1)) (Scan.init s1)
      (Nat.le_refl _) (init_inv s1 hwf1) (hfd1 hfd)
    exact ⟨_, o, ho⟩

/-- C1: a call of `gettokens` on a string-backed source ends, and when it
returns, the last token it appended has type `NL` or `END` (the row returned is
the stretch of tokens up to the new `trp->lp`, so `lp` is just past that token)
and no token appended before it has type `NL` or `END`. -/
theorem C1_row_ends_in_NL_or_END (cplusplus : Bool) (q : Nat → Nat → Nat) (trp : List Token)
    (s : Source) (reset : Bool) (hwf : s.wf) (hfd : s.fd = none) :
    (∃ n o, gettokens (bigfsm cplusplus) q n s trp reset = some o) ∧
    ∀ n nmac row s1 d,
      gettokens (bigfsm cplusplus) q n s trp reset = some (.returned nmac row s1 d) →
      ∃ pre last, row = pre ++ [last] ∧ (last.type = NL ∨ last.type = END)
        ∧ ∀ tok ∈ pre, tok.type ≠ NL ∧ tok.type ≠ END := by
  refine ⟨gettokens_terminates cplusplus q trp s reset hwf hfd, ?_⟩
  intro n nmac row s1 d h
  rw [bigfsm_eq] at h
  unfold gettokens at h
  cases hr : rewind s reset with
  | none => rw [hr] at h; cases h
  | some s0 =>
    rw [hr] at h
    obtain ⟨hwf0, -⟩ := rewind_wf s s0 reset hwf hr
    obtain ⟨st, hinv, -, hdone⟩ := scanLoop_final cplusplus q trp (fun _ => True)
      (fun _ _ _ _ _ => trivial) n (Scan.init s0) _ (init_inv s0 hwf0) trivial h
    cases hdone with
    | eof warn hc =>
      exact ⟨st.row, _, rfl, Or.inr rfl, fun tok hm => ⟨(hinv.row tok hm).2.1, (hinv.row tok hm).2.2.1⟩⟩
    | nl err hc =>
      exact ⟨st.row, _, rfl, Or.inl rfl, fun tok hm => ⟨(hinv.row tok hm).2.1, (hinv.row tok hm).2.2.1⟩⟩

/-- C1 at the source made from the string "a\n". -/
theorem C1_row_ends_in_NL_or_END_witness :
    (∃ n o, gettokens (bigfsm true) (fun _ _ => 0) n (setsource none (some [97, 10]) (fun _ => 0))
        [] true = some o) ∧
    ∀ n nmac row s1 d,
      gettokens (bigfsm true) (fun _ _ => 0) n (setsource none (some [97, 10]) (fun _ => 0))
        [] true = some (.returned nmac row s1 d) →
      ∃ pre last, row = pre ++ [last] ∧ (last.type = NL ∨ last.type = END)
        ∧ ∀ tok ∈ pre, tok.type ≠ NL ∧ tok.type ≠ END :=
  C1_row_ends_in_NL_or_END true (fun _ _ => 0) [] (setsource none (some [97, 10]) (fun _ => 0))
    true (setsource_wf _ _ _) rfl

/-! ## The value returned by `gettokens` -/

theorem nmacOf_append (q : Nat → Nat → Nat) (m : Nat → Nat) (a b : List Token) :
    nmacOf q m (a ++ b) = nmacOf q m a ||| nmacOf q m b := by
  induction a with
  | nil => simp [nmacOf]
  | cons tok rest ih =>
    rw [List.cons_append, nmacOf, nmacOf, ih, Nat.lor_assoc]

theorem nmacOf_congr (q : Nat → Nat → Nat) (m m1 : Nat → Nat) (t : Nat) (row : List Token)
    (hrow : ∀ tok ∈ row, tok.t + tok.len ≤ t ∧ (tok.type = NAME → 1 ≤ tok.len))
    (hm : ∀ i, i < t → m1 i = m i) : nmacOf q m1 row = nmacOf q m row := by
  induction row with
  | nil => rfl
  | cons tok rest ih =>
    rw [nmacOf, nmacOf, ih (fun tok h => hrow tok (List.mem_cons_of_mem _ h))]
    congr 1
    by_cases hn : tok.type = NAME
    · rw [if_pos hn, if_pos hn]
      obtain ⟨h1, h2⟩ := hrow tok (List.mem_cons_self _ _)
      have h2 := h2 hn
      unfold nameLook
      rw [hm tok.t (by omega)]
      by_cases hl : tok.len > 1
      · rw [if_pos hl, if_pos hl, hm (tok.t + 1) (by omega)]
      · rw [if_neg hl, if_neg hl]
    · rw [if_neg hn, if_neg hn]

theorem inv_row_below {st : Scan} (h : Inv st) :
    ∀ tok ∈ st.row, tok.t + tok.len ≤ st.t ∧ (tok.type = NAME → 1 ≤ tok.len) :=
  fun tok hm => ⟨(h.row tok hm).1, (h.row tok hm).2.2.2⟩

/-- No pass of the loop writes below the start of the token being scanned. -/
theorem stepR_frame (q : Nat → Nat → Nat) (trp : List Token) (st st1 : Scan) (h : Inv st)
    (hr : StepR q trp st (.next st1)) : ∀ i, i < st.t → st1.s.inb i = st.s.inb i := by
  have hle := h.t_le
  intro i hi
  cases hr with
  | cont s2 k hb hk hc => exact base_byte hb h.buf i (by omega)
  | self s2 code hb ht hc => exact base_byte hb h.buf i (by omega)
  | selfb s2 code hb ht hs hc => exact base_byte hb h.buf i (by omega)
  | name s2 hb hs hc => exact base_byte hb h.buf i (by omega)
  | ws s2 hb hs hc => exact base_byte hb h.buf i (by omega)
  | eob s1 b hc hf =>
    obtain ⟨-, -, -, -, hfr, -⟩ := fillbuf_any { st.s with inp := st.ip } s1 b hf
    have hil : i < st.s.inl := by
      rcases h.buf with ⟨h1, -, -⟩ | ⟨h1, -, h3⟩
      · omega
      · have hs : st.state ≠ START := by
          intro h0
          have := h3 h0
          rw [hc] at this
          revert this; decide
        have := h.t_lt hs
        omega
    exact hfr i hil (by show i ≠ st.ip; omega)
  | comnl hc hs hlt => rfl
  | compact hc hs hge =>
    show memmove st.s.inb st.t (st.ip + 1) (4 + st.s.inl - (st.ip + 1)) i = st.s.inb i
    rw [memmove_apply, if_neg (by omega)]
  | eofcom hc hs =>
    have := h.t_lt hs
    show (if st.ip = 0 then st.s.inb else poke st.s.inb (st.ip - 1) 32) i = st.s.inb i
    rw [if_neg (by omega), poke_apply, if_neg (by omega)]
  | comment hc hs =>
    show poke st.s.inb st.ip 32 i = st.s.inb i
    rw [poke_apply, if_neg (by omega)]
  | tri s2 r hc hf hr =>
    obtain ⟨hl, -, -⟩ := buf_lt h.buf (by rw [hc]; decide) (by rw [hc]; decide)
    obtain ⟨s1, hg, hinp, hres | ⟨-, hin, -, -, he⟩⟩ := trigraph_spec { st.s with inp := st.ip } s2 r
      hl (by show st.s.byte st.ip ≠ EOB; rw [hc]; decide) hf
    · exact absurd hres.1 hr
    · have hinp' : s1.inp = st.ip := hinp
      rw [hinp'] at he
      show s2.inb i = st.s.inb i
      rw [he]
      show memmove (poke s1.inb st.ip r) (st.ip + 1) (st.ip + 3) (s1.inl - st.ip + 2) i = _
      rw [memmove_apply, if_neg (by omega), poke_apply, if_neg (by omega)]
      exact hg.2.2.1 i (by show i < st.s.inl; omega)
  | fold s2 r hc hf hr =>
    obtain ⟨hl, -, -⟩ := buf_lt h.buf (by rw [hc]; decide) (by rw [hc]; decide)
    obtain ⟨s1, hg, hinp, hres | ⟨-, hin, -, he⟩⟩ := foldline_spec { st.s with inp := st.ip } s2 r
      hl (by show st.s.byte st.ip ≠ EOB; rw [hc]; decide) hf
    · exact absurd hres.1 hr
    · have hinp' : s1.inp = st.ip := hinp
      rw [hinp'] at he
      show s2.inb i = st.s.inb i
      rw [he]
      show memmove s1.inb st.ip (st.ip + 2) (s1.inl - st.ip + 3) i = _
      rw [memmove_apply, if_neg (by omega)]
      exact hg.2.2.1 i (by show i < st.s.inl; omega)

/-- The start of the token being scanned never moves back. -/
theorem stepR_t_mono (q : Nat → Nat → Nat) (trp : List Token) (st st1 : Scan) (h : Inv st)
    (hr : StepR q trp st (.next st1)) : st.t ≤ st1.t := by
  have hle := h.t_le
  cases hr with
  | cont s2 k hb hk hc => exact Nat.le_refl _
  | self s2 code hb ht hc => show st.t ≤ st.ip + 1; omega
  | selfb s2 code hb ht hs hc => exact hle
  | name s2 hb hs hc => exact hle
  | ws s2 hb hs hc => exact hle
  | eob s1 b hc hf => exact Nat.le_refl _
  | comnl hc hs hlt => exact Nat.le_refl _
  | compact hc hs hge => exact Nat.le_refl _
  | eofcom hc hs => exact hle
  | comment hc hs => show st.t ≤ st.ip + 1; omega
  | tri s2 r hc hf hr => exact Nat.le_refl _
  | fold s2 r hc hf hr => exact Nat.le_refl _

/-- The row of a pass that goes on is the old row, or the old row and one more
token that starts where the old token started. -/
theorem stepR_nmac (q : Nat → Nat → Nat) (trp : List Token) (st st1 : Scan) (h : Inv st)
    (hn : st.nmac = nmacOf q st.s.inb st.row) (hr : StepR q trp st (.next st1)) :
    st1.nmac = nmacOf q st1.s.inb st1.row := by
  have hfr := stepR_frame q trp st st1 h hr
  have hold : nmacOf q st1.s.inb st.row = nmacOf q st.s.inb st.row :=
    nmacOf_congr q st.s.inb st1.s.inb st.t st.row (inv_row_below h) hfr
  cases hr with
  | cont s2 k hb hk hc => exact hn.trans hold.symm
  | self s2 code hb ht hc =>
    show st.nmac = nmacOf q s2.inb (st.row ++ [_])
    rw [nmacOf_append, hn]
    have e : nmacOf q s2.inb st.row = nmacOf q st.s.inb st.row := hold
    rw [e, nmacOf, if_neg (typeOK_spec ht).2.2]
    simp [nmacOf]
  | selfb s2 code hb ht hs hc =>
    show st.nmac = nmacOf q s2.inb (st.row ++ [_])
    rw [nmacOf_append, hn]
    have e : nmacOf q s2.inb st.row = nmacOf q st.s.inb st.row := hold
    rw [e, nmacOf, if_neg (typeOK_spec ht).2.2]
    simp [nmacOf]
  | name s2 hb hs hc =>
    show st.nmac ||| _ = nmacOf q s2.inb (st.row ++ [_])
    rw [nmacOf_append, hn]
    have e : nmacOf q s2.inb st.row = nmacOf q st.s.inb st.row := hold
    rw [e, nmacOf, if_pos rfl]
    simp [nmacOf, nameLook, Source.byte]
  | ws s2 hb hs hc => exact hn.trans hold.symm
  | eob s1 b hc hf => exact hn.trans hold.symm
  | comnl hc hs hlt => exact hn.trans hold.symm
  | compact hc hs hge => exact hn.trans hold.symm
  | eofcom hc hs => exact hn.trans hold.symm
  | comment hc hs => exact hn.trans hold.symm
  | tri s2 r hc hf hr => exact hn.trans hold.symm
  | fold s2 r hc hf hr => exact hn.trans hold.symm

theorem nmacOf_no_name (q : Nat → Nat → Nat) (m : Nat → Nat) (row : List Token)
    (h : ∀ tok ∈ row, tok.type ≠ NAME) : nmacOf q m row = 0 := by
  induction row with
  | nil => rfl
  | cons tok rest ih =>
    rw [nmacOf, if_neg (h tok (List.mem_cons_self _ _)),
      ih (fun tok hm => h tok (List.mem_cons_of_mem _ hm))]
    rfl

/-- C10: the value returned by `gettokens` is the bitwise OR, over the `NAME`
tokens appended by the call, of `quicklook` of the first byte of the token and
of its second byte (0 when the token has one byte), whatever function
`quicklook` is; so it is 0 when no `NAME` token was appended. -/
theorem C10_nmac_is_or_of_quicklook (cplusplus : Bool) (q : Nat → Nat → Nat) (trp : List Token)
    (s : Source) (reset : Bool) (n nmac : Nat) (row : List Token) (s1 : Source) (d : List Diag)
    (hwf : s.wf)
    (h : gettokens (bigfsm cplusplus) q n s trp reset = some (.returned nmac row s1 d)) :
    nmac = nmacOf q s1.inb row ∧ ((∀ tok ∈ row, tok.type ≠ NAME) → nmac = 0) := by
  have key : nmac = nmacOf q s1.inb row := by
    rw [bigfsm_eq] at h
    unfold gettokens at h
    cases hr : rewind s reset with
    | none => rw [hr] at h; cases h
    | some s0 =>
      rw [hr] at h
      obtain ⟨hwf0, -⟩ := rewind_wf s s0 reset hwf hr
      obtain ⟨st, hinv, hp, hdone⟩ := scanLoop_final cplusplus q trp
        (fun st => st.nmac = nmacOf q st.s.inb st.row)
        (fun st st1 hi hp hr => stepR_nmac q trp st st1 hi hp hr) n (Scan.init s0) _
        (init_inv s0 hwf0) rfl h
      cases hdone with
      | eof warn hc =>
        show st.nmac = nmacOf q st.s.inb (st.row ++ [_])
        rw [nmacOf_append, hp]
        simp [nmacOf, END, NAME]
      | nl err hc =>
        show st.nmac = nmacOf q st.s.inb (st.row ++ [_])
        rw [nmacOf_append, hp]
        simp [nmacOf, NL, NAME]
  exact ⟨key, fun hno => by rw [key]; exact nmacOf_no_name q s1.inb row hno⟩

/-- C10 at the source made from the string "ab\n". -/
theorem C10_nmac_is_or_of_quicklook_witness :
    (195 : Nat) = nmacOf (fun a b => a + b)
        ({ setsource none (some [97, 98, 10]) (fun _ => 0) with lineinc := 1, inp := 3 }).inb
        [⟨NAME, 0, 0, 0, 2, 0⟩, ⟨NL, 0, 0, 0, 1, 2⟩]
      ∧ ((∀ tok ∈ [(⟨NAME, 0, 0, 0, 2, 0⟩ : Token), ⟨NL, 0, 0, 0, 1, 2⟩], tok.type ≠ NAME)
          → (195 : Nat) = 0) :=
  C10_nmac_is_or_of_quicklook true (fun a b => a + b) []
    (setsource none (some [97, 98, 10]) (fun _ => 0)) true 10 195
    [⟨NAME, 0, 0, 0, 2, 0⟩, ⟨NL, 0, 0, 0, 1, 2⟩]
    { setsource none (some [97, 98, 10]) (fun _ => 0) with lineinc := 1, inp := 3 } []
    (setsource_wf _ _ _) (by rw [bigfsm_eq]; rfl)

/-! ## Single passes of the loop and runs over plain bytes -/

theorem holds_cons (m : Nat → Nat) (p x : Nat) (l : List Nat) :
    Holds m p (x :: l) ↔ m p = x ∧ Holds m (p + 1) l := by
  constructor
  · intro h
    refine ⟨h 0 (by simp), ?_⟩
    intro j hj
    have := h (j + 1) (by simp; omega)
    rw [show p + 1 + j = p + (j + 1) by omega]
    simpa using this
  · rintro ⟨h0, h⟩ j hj
    cases j with
    | zero => simpa using h0
    | succ j =>
      have := h j (by simp at hj; omega)
      rw [show p + (j + 1) = p + 1 + j by omega]
      simpa using this

theorem holds_append (m : Nat → Nat) (p : Nat) (a b : List Nat) :
    Holds m p (a ++ b) ↔ Holds m p a ∧ Holds m (p + a.length) b := by
  induction a generalizing p with
  | nil => simp [Holds]
  | cons x a ih =>
    rw [List.cons_append, holds_cons, holds_cons, ih, List.length_cons, and_assoc]
    rw [show p + 1 + a.length = p + (a.length + 1) by omega]

theorem strlen_eq (str : List Nat) (h : CString str) : strlen str = str.length := by
  unfold strlen
  rw [List.takeWhile_eq_self_iff.mpr]
  intro b hb
  obtain ⟨h1, h2⟩ := h b hb
  have : b % 256 = b := Nat.mod_eq_of_lt h1
  simp [this, h2]

theorem strsource_holds (str : List Nat) (heap : Nat → Nat) (h : CString str) :
    Holds (strsource str heap).inb 0 str := by
  intro j hj
  show (if 0 + j < strlen str then str.getD (0 + j) 0
    else if 0 + j < strlen str + 2 then EOB else heap (0 + j)) = _
  rw [strlen_eq str h, if_pos (by omega), Nat.zero_add]

theorem strsource_inl (str : List Nat) (heap : Nat → Nat) (h : CString str) :
    (strsource str heap).inl = str.length := strlen_eq str h

/-- On a fresh string source that is not empty and shorter than three quarters
of `INS`, the prologue of `gettokens` changes nothing. -/
theorem rewind_strsource (str : List Nat) (heap : Nat → Nat) (reset : Bool) (h : CString str)
    (hne : str ≠ []) : rewind (strsource str heap) reset = some (strsource str heap) := by
  have hlen : 0 < (strsource str heap).inl := by
    rw [strsource_inl str heap h]
    exact List.length_pos.mpr hne
  unfold rewind
  cases reset with
  | false => rw [if_neg Bool.false_ne_true]
  | true =>
    rw [if_pos rfl]
    dsimp only
    have h0 : (strsource str heap).inp = 0 := rfl
    rw [if_neg (by show ¬ ((strsource str heap).inp ≥ (strsource str heap).inl); omega),
      if_neg (by show ¬ ((strsource str heap).inp ≥ 3 * INS / 4); rw [h0]; decide)]
    rfl

theorem scanLoop_next (T : Table) (q : Nat → Nat → Nat) (trp : List Token) (n : Nat)
    (st st1 : Scan) (h : step T q trp st = .next st1) :
    scanLoop T q trp (n + 1) st = scanLoop T q trp n st1 := by
  rw [scanLoop_succ, h]

theorem scanLoop_done (T : Table) (q : Nat → Nat → Nat) (trp : List Token) (n : Nat)
    (st : Scan) (o : Outcome) (h : step T q trp st = .done o) :
    scanLoop T q trp (n + 1) st = some o := by
  rw [scanLoop_succ, h]

/-- A pass on a continuation entry. -/
theorem step_cont (T : Table) (q : Nat → Nat → Nat) (trp : List Token) (st : Scan) (k : Nat)
    (h : T (st.s.byte st.ip) st.state = Int.ofNat k) :
    step T q trp st = .next { st with ip := st.ip + 1, state := k } := by
  unfold step
  dsimp only
  have hge : Int.ofNat k ≥ 0 := Int.ofNat_nonneg k
  rw [h, if_pos hge]
  rfl

/-- A pass on a negative entry: the switch on its complement. -/
theorem step_neg (T : Table) (q : Nat → Nat → Nat) (trp : List Token) (st : Scan) (code : Nat)
    (h : T (st.s.byte st.ip) st.state = Int.negSucc code) :
    step T q trp st
      = switchOn q trp st code (dfltCase q trp st (st.s.byte st.ip) code) := by
  unfold step
  dsimp only
  rw [h, if_neg (not_negSucc_ge code), cnot_negSucc]

theorem switchOn_SELF (q : Nat → Nat → Nat) (trp : List Token) (st : Scan) (code : Nat)
    (d : Step) (h : code &&& 0o177 = S_SELF) :
    switchOn q trp st code d = .next (emit st (st.ip + 1) (GETACT code)) := by
  unfold switchOn
  dsimp only
  rw [if_pos h]

theorem switchOn_SELFB (q : Nat → Nat → Nat) (trp : List Token) (st : Scan) (code : Nat)
    (d : Step) (h : code &&& 0o177 = S_SELFB) :
    switchOn q trp st code d = .next (emit st st.ip (GETACT code)) := by
  unfold switchOn
  dsimp only
  rw [if_neg (by rw [h]; decide), if_pos h]

theorem switchOn_NAME (q : Nat → Nat → Nat) (trp : List Token) (st : Scan) (code : Nat)
    (d : Step) (h : code &&& 0o177 = S_NAME) :
    switchOn q trp st code d = .next (emit
      { st with nmac := (st.nmac ||| q (st.s.byte st.t)
          (if st.ip - st.t > 1 then st.s.byte (st.t + 1) else 0)) } st.ip NAME) := by
  unfold switchOn
  dsimp only
  rw [if_neg (by rw [h]; decide), if_neg (by rw [h]; decide), if_pos h]

theorem switchOn_NL (q : Nat → Nat → Nat) (trp : List Token) (st : Scan) (code : Nat)
    (d : Step) (h : code &&& 0o177 = S_NL) :
    switchOn q trp st code d = .done (.returned st.nmac
      (st.row ++ [{ type := NL, flag := 0, hideset := 0, wslen := 0, len := 1, t := st.ip }])
      { st.s with lineinc := st.s.lineinc + 1, inp := st.ip + 1 } st.diags) := by
  unfold switchOn
  dsimp only
  rw [if_neg (by rw [h]; decide), if_neg (by rw [h]; decide), if_neg (by rw [h]; decide),
    if_neg (by rw [h]; decide), if_neg (by rw [h]; decide), if_neg (by rw [h]; decide),
    if_pos (Or.inr h), if_neg (by rw [h]; decide), List.append_nil]

theorem switchOn_STNL (q : Nat → Nat → Nat) (trp : List Token) (st : Scan) (code : Nat)
    (d : Step) (h : code &&& 0o177 = S_STNL) :
    switchOn q trp st code d = .done (.returned st.nmac
      (st.row ++ [{ type := NL, flag := 0, hideset := 0, wslen := 0, len := 1, t := st.ip }])
      { st.s with lineinc := st.s.lineinc + 1, inp := st.ip + 1 }
      (st.diags ++ [(errtype.ERROR, "Unterminated string or char const")])) := by
  unfold switchOn
  dsimp only
  rw [if_neg (by rw [h]; decide), if_neg (by rw [h]; decide), if_neg (by rw [h]; decide),
    if_neg (by rw [h]; decide), if_neg (by rw [h]; decide), if_neg (by rw [h]; decide),
    if_pos (Or.inl h), if_pos h]

theorem switchOn_EOFSTR (q : Nat → Nat → Nat) (trp : List Token) (st : Scan) (code : Nat)
    (d : Step) (h : code &&& 0o177 = S_EOFSTR) :
    switchOn q trp st code d = .done (.fatal st.row st.s
      (st.diags ++ [(errtype.FATAL, "EOF in string or char constant")])) := by
  unfold switchOn
  dsimp only
  rw [if_neg (by rw [h]; decide), if_neg (by rw [h]; decide), if_neg (by rw [h]; decide),
    if_neg (by rw [h]; decide), if_neg (by rw [h]; decide), if_neg (by rw [h]; decide),
    if_neg (by rw [h]; decide), if_pos h]

theorem switchOn_EOB (q : Nat → Nat → Nat) (trp : List Token) (st : Scan) (code : Nat)
    (d : Step) (h : code &&& 0o177 = S_EOB) :
    switchOn q trp st code d
      = match fillbuf { st.s with inp := st.ip } with
        | none => .done (.fatal st.row { st.s with inp := st.ip }
            (st.diags ++ [(errtype.FATAL, "Input buffer overflow")]))
        | some (s1, _) => .next { st with s := s1 } := by
  unfold switchOn
  dsimp only
  rw [if_neg (by rw [h]; decide), if_neg (by rw [h]; decide), if_neg (by rw [h]; decide),
    if_neg (by rw [h]; decide), if_pos h]

theorem byte_of_holds {m : Nat → Nat} {p : Nat} {x : Nat} {l : List Nat}
    (h : Holds m p (x :: l)) (hx : x < 256) : m p % 256 = x := by
  rw [((holds_cons m p x l).mp h).1]
  exact Nat.mod_eq_of_lt hx

/-- A run over bytes of a class on which a set of states is closed under the
continuations of the table. -/
theorem run_absorb (T : Table) (q : Nat → Nat → Nat) (trp : List Token) (A C : Nat → Prop)
    (hAC : ∀ s c, A s → C c → ∃ k, T c s = Int.ofNat k ∧ A k) :
    ∀ (l : List Nat) (st : Scan), A st.state → (∀ c ∈ l, C c ∧ c < 256) →
      Holds st.s.inb st.ip l →
      ∃ k, A k ∧ ∀ n, scanLoop T q trp (n + l.length) st
        = scanLoop T q trp n { st with ip := st.ip + l.length, state := k } := by
  intro l
  induction l with
  | nil =>
    intro st hA _ _
    exact ⟨st.state, hA, fun n => rfl⟩
  | cons x l ih =>
    intro st hA hl hh
    obtain ⟨hC, hx⟩ := hl x (List.mem_cons_self _ _)
    have hb : st.s.byte st.ip = x := byte_of_holds hh hx
    obtain ⟨k, hk, hAk⟩ := hAC st.state x hA hC
    have hstep := step_cont T q trp st k (by rw [hb]; exact hk)
    obtain ⟨k1, hA1, hrun⟩ := ih { st with ip := st.ip + 1, state := k } hAk
      (fun c hc => hl c (List.mem_cons_of_mem _ hc)) ((holds_cons _ _ _ _).mp hh).2
    refine ⟨k1, hA1, fun n => ?_⟩
    rw [List.length_cons, show n + (l.length + 1) = (n + l.length) + 1 by omega,
      scanLoop_next T q trp _ st _ hstep, hrun n]
    rw [show st.ip + 1 + l.length = st.ip + (l.length + 1) by omega]

/-! ## Rows of the table -/

/-- Outside the one entry that `fixlex` rewrites, the table does not depend on
`Cplusplus`. -/
theorem entry_row (cplusplus : Bool) (c s : Nat) (hs : s ≠ COM1) :
    entry cplusplus c s = entry true c s := by
  cases cplusplus with
  | true => rfl
  | false => exact entry_false c s (fun h => hs h.2)

set_option maxRecDepth 1000000 in
theorem num_rows_true : ∀ c < 256,
    ((48 ≤ c ∧ c ≤ 57) → entry true c START = Int.ofNat NUM1 ∧ entry true c NUM1 = Int.ofNat NUM1)
    ∧ ((c = 69 ∨ c = 101) → entry true c NUM1 = Int.ofNat NUM2)
    ∧ ((c = 43 ∨ c = 45) → entry true c NUM2 = Int.ofNat NUM1)
    ∧ (((48 ≤ c ∧ c ≤ 57) ∨ (97 ≤ c ∧ c ≤ 122) ∨ (65 ≤ c ∧ c ≤ 90)) →
        (entry true c NUM1 = Int.ofNat NUM1 ∨ entry true c NUM1 = Int.ofNat NUM2)
        ∧ entry true c NUM2 = Int.ofNat NUM1)
    ∧ (c = 10 → entry true c NUM1 = Int.negSucc (ACT NUMBER S_SELFB)
        ∧ entry true c NUM2 = Int.negSucc (ACT NUMBER S_SELFB)
        ∧ entry true c START = Int.negSucc S_NL) := by
  decide!

set_option maxRecDepth 1000000 in
theorem minus_rows_true : ∀ c < 256,
    (c = 45 → entry true c START = Int.ofNat MINUS1
      ∧ entry true c MINUS1 = Int.negSucc (ACT MMINUS S_SELF))
    ∧ (c = 61 → entry true c MINUS1 = Int.negSucc (ACT ASMINUS S_SELF))
    ∧ (c = 62 → entry true c MINUS1 = Int.negSucc (ACT ARROW S_SELF))
    ∧ (c ≠ 45 ∧ c ≠ 61 ∧ c ≠ 62 ∧ c ≠ 63 ∧ c ≠ 92 ∧ c ≠ 254 →
        entry true c MINUS1 = Int.negSucc (ACT MINUS S_SELFB)) := by
  decide!

set_option maxRecDepth 1000000 in
theorem lit_rows_true : ∀ c < 256,
    (c = 34 → entry true c START = Int.ofNat ST2)
    ∧ (c = 39 → entry true c START = Int.ofNat CC1)
    ∧ (c ≠ 34 ∧ c ≠ 92 ∧ c ≠ 63 ∧ c ≠ 10 ∧ c ≠ 253 ∧ c ≠ 254 → entry true c ST2 = Int.ofNat ST2)
    ∧ (c ≠ 39 ∧ c ≠ 92 ∧ c ≠ 63 ∧ c ≠ 10 ∧ c ≠ 253 ∧ c ≠ 254 →
        entry true c CC1 = Int.ofNat CC1) := by
  decide!

theorem lit_ends_true :
    (entry true 10 ST2 = Int.negSucc S_STNL ∧ entry true 10 CC1 = Int.negSucc S_STNL
      ∧ entry true 10 ST3 = Int.negSucc S_STNL ∧ entry true 10 CC2 = Int.negSucc S_STNL)
    ∧ (entry true 253 ST2 = Int.negSucc S_EOFSTR ∧ entry true 253 CC1 = Int.negSucc S_EOFSTR)
    ∧ (entry true 254 ST2 = Int.negSucc S_EOB ∧ entry true 254 CC1 = Int.negSucc S_EOB) := by
  decide!

/-! ## Numbers with a signed exponent -/

theorem num_rows (cplusplus : Bool) (c : Nat) (hc : c < 256) :
    ((48 ≤ c ∧ c ≤ 57) → entry cplusplus c START = Int.ofNat NUM1
        ∧ entry cplusplus c NUM1 = Int.ofNat NUM1)
    ∧ ((c = 69 ∨ c = 101) → entry cplusplus c NUM1 = Int.ofNat NUM2)
    ∧ ((c = 43 ∨ c = 45) → entry cplusplus c NUM2 = Int.ofNat NUM1)
    ∧ (((48 ≤ c ∧ c ≤ 57) ∨ (97 ≤ c ∧ c ≤ 122) ∨ (65 ≤ c ∧ c ≤ 90)) →
        (entry cplusplus c NUM1 = Int.ofNat NUM1 ∨ entry cplusplus c NUM1 = Int.ofNat NUM2)
        ∧ entry cplusplus c NUM2 = Int.ofNat NUM1)
    ∧ (c = 10 → entry cplusplus c NUM1 = Int.negSucc (ACT NUMBER S_SELFB)
        ∧ entry cplusplus c NUM2 = Int.negSucc (ACT NUMBER S_SELFB)
        ∧ entry cplusplus c START = Int.negSucc S_NL) := by
  rw [entry_row cplusplus c START (by decide), entry_row cplusplus c NUM1 (by decide),
    entry_row cplusplus c NUM2 (by decide)]
  exact num_rows_true c hc

/-- The scan of the tail of a number up to the newline that ends it: the
letters and digits are consumed, the newline ends the token and then the row. -/
theorem number_tail (cplusplus : Bool) (q : Nat → Nat → Nat) (trp : List Token)
    (w : List Nat) (st : Scan) (hst : st.state = NUM1 ∨ st.state = NUM2)
    (hw : ∀ c ∈ w, (48 ≤ c ∧ c ≤ 57) ∨ (97 ≤ c ∧ c ≤ 122) ∨ (65 ≤ c ∧ c ≤ 90))
    (hh : Holds st.s.inb st.ip (w ++ [10])) :
    scanLoop (entry cplusplus) q trp (w.length + 2) st
      = some (.returned st.nmac
          (st.row ++ [Token.mk NUMBER 0 0 st.wslen (st.ip + w.length - st.t) st.t,
            Token.mk NL 0 0 0 1 (st.ip + w.length)])
          { st.s with lineinc := st.s.lineinc + 1, inp := st.ip + w.length + 1 } st.diags) := by
  obtain ⟨hhw, hhn⟩ := (holds_append _ _ _ _).mp hh
  obtain ⟨k, hk, hrun⟩ := run_absorb (entry cplusplus) q trp
    (fun s => s = NUM1 ∨ s = NUM2)
    (fun c => (48 ≤ c ∧ c ≤ 57) ∨ (97 ≤ c ∧ c ≤ 122) ∨ (65 ≤ c ∧ c ≤ 90))
    (by
      intro s c hs hc
      have hc256 : c < 256 := by omega
      have := (num_rows cplusplus c hc256).2.2.2.1 hc
      rcases hs with hs | hs
      · rw [hs]
        rcases this.1 with h | h
        · exact ⟨NUM1, h, Or.inl rfl⟩
        · exact ⟨NUM2, h, Or.inr rfl⟩
      · rw [hs]
        exact ⟨NUM1, this.2, Or.inl rfl⟩)
    w st hst (fun c hc => ⟨hw c hc, by have := hw c hc; omega⟩) hhw
  rw [show w.length + 2 = 2 + w.length by omega, hrun 2]
  have hb : (st.s.inb (st.ip + w.length)) % 256 = 10 := byte_of_holds hhn (by decide)
  have hrow := (num_rows cplusplus 10 (by decide)).2.2.2.2 rfl
  have hent : entry cplusplus 10 k = Int.negSucc (ACT NUMBER S_SELFB) := by
    rcases hk with h | h
    · rw [h]; exact hrow.1
    · rw [h]; exact hrow.2.1
  have hstep1 : step (entry cplusplus) q trp { st with ip := st.ip + w.length, state := k }
      = .next (emit { st with ip := st.ip + w.length, state := k } (st.ip + w.length)
          (GETACT (ACT NUMBER S_SELFB))) := by
    rw [step_neg (entry cplusplus) q trp _ (ACT NUMBER S_SELFB)
      (by show entry cplusplus (st.s.inb (st.ip + w.length) % 256) k = _; rw [hb]; exact hent)]
    exact switchOn_SELFB q trp _ _ _ (by decide)
  rw [scanLoop_next _ q trp 1 _ _ hstep1]
  have hstep2 : step (entry cplusplus) q trp
      (emit { st with ip := st.ip + w.length, state := k } (st.ip + w.length)
        (GETACT (ACT NUMBER S_SELFB)))
      = .done (.returned st.nmac
          (st.row ++ [Token.mk NUMBER 0 0 st.wslen (st.ip + w.length - st.t) st.t,
            Token.mk NL 0 0 0 1 (st.ip + w.length)])
          { st.s with lineinc := st.s.lineinc + 1, inp := st.ip + w.length + 1 } st.diags) := by
    rw [step_neg (entry cplusplus) q trp _ S_NL
      (by show entry cplusplus (st.s.inb (st.ip + w.length) % 256) START = _; rw [hb]
          exact hrow.2.2)]
    rw [switchOn_NL q trp _ _ _ (by decide)]
    show Step.done (Outcome.returned st.nmac ((st.row ++ [_]) ++ [_]) _ st.diags) = _
    rw [List.append_assoc]
    rfl
  exact scanLoop_done _ q trp 0 _ _ hstep2

/-- C7: on a string source that holds decimal digits, `e` or `E`, a sign,
letters and digits, and a newline, `gettokens` appends one `NUMBER` token as
long as all the text before the newline, and `NL`: the sign after the exponent
letter does not end the number. -/
theorem C7_number_with_signed_exponent (cplusplus : Bool) (q : Nat → Nat → Nat)
    (trp : List Token) (heap : Nat → Nat) (reset : Bool) (d w : List Nat) (e sg : Nat)
    (hd : d ≠ []) (hdig : ∀ c ∈ d, 48 ≤ c ∧ c ≤ 57) (he : e = 101 ∨ e = 69)
    (hsg : sg = 43 ∨ sg = 45)
    (hw : ∀ c ∈ w, (48 ≤ c ∧ c ≤ 57) ∨ (97 ≤ c ∧ c ≤ 122) ∨ (65 ≤ c ∧ c ≤ 90)) :
    ∃ n, gettokens (bigfsm cplusplus) q n (strsource (d ++ e :: sg :: (w ++ [10])) heap) trp reset
      = some (.returned 0
          [Token.mk NUMBER 0 0 0 (d.length + 2 + w.length) 0,
            Token.mk NL 0 0 0 1 (d.length + 2 + w.length)]
          { strsource (d ++ e :: sg :: (w ++ [10])) heap with
            lineinc := 1, inp := d.length + 2 + w.length + 1 } []) := by
  have hcs : CString (d ++ e :: sg :: (w ++ [10])) := by
    intro b hb
    rcases List.mem_append.mp hb with h | h
    · have := hdig b h; omega
    · rcases List.mem_cons.mp h with h | h
      · omega
      · rcases List.mem_cons.mp h with h | h
        · omega
        · rcases List.mem_append.mp h with h | h
          · have := hw b h; omega
          · rw [List.mem_singleton] at h; omega
  have hne : d ++ e :: sg :: (w ++ [10]) ≠ [] := by
    intro h
    exact hd (List.append_eq_nil.mp h).1
  have hh := strsource_holds _ heap hcs
  rw [bigfsm_eq]
  unfold gettokens
  rw [rewind_strsource _ heap reset hcs hne]
  dsimp only
  generalize hsrc : strsource (d ++ e :: sg :: (w ++ [10])) heap = src at hh ⊢
  have hl0 : src.lineinc = 0 := by rw [← hsrc]; rfl
  have hi0 : src.inp = 0 := by rw [← hsrc]; rfl
  obtain ⟨hhd, hhr⟩ := (holds_append _ _ _ _).mp hh
  obtain ⟨hhe, hhr⟩ := (holds_cons _ _ _ _).mp hhr
  obtain ⟨hhs, hhw⟩ := (holds_cons _ _ _ _).mp hhr
  cases d with
  | nil => exact absurd rfl hd
  | cons x d' =>
    obtain ⟨hhx, hhd'⟩ := (holds_cons _ _ _ _).mp hhd
    have hx := hdig x (List.mem_cons_self _ _)
    have hinit : Scan.init src = ⟨src, 0, START, 0, 0, [], 0, []⟩ := by
      unfold Scan.init; rw [hi0]
    rw [hinit]
    -- the first digit
    have hstep0 : step (entry cplusplus) q trp ⟨src, 0, START, 0, 0, [], 0, []⟩
        = .next ⟨src, 0 + 1, NUM1, 0, 0, [], 0, []⟩ :=
      step_cont _ q trp _ NUM1 (by
        show entry cplusplus (src.inb 0 % 256) START = _
        rw [hhx, Nat.mod_eq_of_lt (by omega)]
        exact ((num_rows cplusplus x (by omega)).1 hx).1)
    -- the other digits
    obtain ⟨k, hk, hrun⟩ := run_absorb (entry cplusplus) q trp
      (fun s => s = NUM1) (fun c => 48 ≤ c ∧ c ≤ 57)
      (by
        intro s c hs hc
        rw [hs]
        exact ⟨NUM1, ((num_rows cplusplus c (by omega)).1 hc).2, rfl⟩)
      d' ⟨src, 0 + 1, NUM1, 0, 0, [], 0, []⟩ rfl
      (fun c hc => ⟨hdig c (List.mem_cons_of_mem _ hc),
        by have := hdig c (List.mem_cons_of_mem _ hc); omega⟩) hhd'
    have hk : k = NUM1 := hk
    subst hk
    -- the exponent letter and the sign
    have hstep1 : step (entry cplusplus) q trp ⟨src, 0 + 1 + d'.length, NUM1, 0, 0, [], 0, []⟩
        = .next ⟨src, 0 + 1 + d'.length + 1, NUM2, 0, 0, [], 0, []⟩ :=
      step_cont _ q trp _ NUM2 (by
        show entry cplusplus (src.inb (0 + 1 + d'.length) % 256) NUM1 = _
        rw [show 0 + 1 + d'.length = 0 + (x :: d').length by simp; omega, hhe,
          Nat.mod_eq_of_lt (by omega)]
        exact (num_rows cplusplus e (by omega)).2.1 (by omega))
    have hstep2 : step (entry cplusplus) q trp
        ⟨src, 0 + 1 + d'.length + 1, NUM2, 0, 0, [], 0, []⟩
        = .next ⟨src, 0 + 1 + d'.length + 1 + 1, NUM1, 0, 0, [], 0, []⟩ :=
      step_cont _ q trp _ NUM1 (by
        show entry cplusplus (src.inb (0 + 1 + d'.length + 1) % 256) NUM2 = _
        rw [show 0 + 1 + d'.length + 1 = 0 + (x :: d').length + 1 by simp; omega, hhs,
          Nat.mod_eq_of_lt (by omega)]
        exact (num_rows cplusplus sg (by omega)).2.2.1 (by omega))
    have htail := number_tail cplusplus q trp w
      ⟨src, 0 + 1 + d'.length + 1 + 1, NUM1, 0, 0, [], 0, []⟩ (Or.inl rfl) hw
      (by
        show Holds src.inb (0 + 1 + d'.length + 1 + 1) (w ++ [10])
        rw [show 0 + 1 + d'.length + 1 + 1 = 0 + (x :: d').length + 1 + 1 by simp; omega]
        exact hhw)
    refine ⟨(((w.length + 2) + 1) + 1) + d'.length + 1, ?_⟩
    rw [scanLoop_next _ q trp _ _ _ hstep0, hrun, scanLoop_next _ q trp _ _ _ hstep1,
      scanLoop_next _ q trp _ _ _ hstep2, htail]
    simp only [List.nil_append, List.length_cons, hl0]
    have e1 : 0 + 1 + d'.length + 1 + 1 + w.length - 0 = d'.length + 1 + 2 + w.length := by omega
    have e2 : 0 + 1 + d'.length + 1 + 1 + w.length = d'.length + 1 + 2 + w.length := by omega
    rw [e1, e2]

/-- C7 at the string "123e+5f\n". -/
theorem C7_number_with_signed_exponent_witness :
    ∃ n, gettokens (bigfsm true) (fun _ _ => 0) n
        (strsource ([49, 50, 51] ++ 101 :: 43 :: ([53, 102] ++ [10])) (fun _ => 0)) [] true
      = some (.returned 0
          [Token.mk NUMBER 0 0 0 ([49, 50, 51].length + 2 + [53, 102].length) 0,
            Token.mk NL 0 0 0 1 ([49, 50, 51].length + 2 + [53, 102].length)]
          { strsource ([49, 50, 51] ++ 101 :: 43 :: ([53, 102] ++ [10])) (fun _ => 0) with
            lineinc := 1, inp := [49, 50, 51].length + 2 + [53, 102].length + 1 } []) :=
  C7_number_with_signed_exponent true (fun _ _ => 0) [] (fun _ => 0) true [49, 50, 51] [53, 102]
    101 43 (by decide) (by decide) (by decide) (by decide) (by decide)

/-! ## The first token of a row that begins with `-` -/

theorem stepR_row (q : Nat → Nat → Nat) (trp : List Token) (st st1 : Scan)
    (hr : StepR q trp st (.next st1)) : ∃ more, st1.row = st.row ++ more := by
  cases hr with
  | cont s2 k hb hk hc => exact ⟨[], (List.append_nil _).symm⟩
  | self s2 code hb ht hc => exact ⟨_, rfl⟩
  | selfb s2 code hb ht hs hc => exact ⟨_, rfl⟩
  | name s2 hb hs hc => exact ⟨_, rfl⟩
  | ws s2 hb hs hc => exact ⟨[], (List.append_nil _).symm⟩
  | eob s1 b hc hf => exact ⟨[], (List.append_nil _).symm⟩
  | comnl hc hs hlt => exact ⟨[], (List.append_nil _).symm⟩
  | compact hc hs hge => exact ⟨[], (List.append_nil _).symm⟩
  | eofcom hc hs => exact ⟨[], (List.append_nil _).symm⟩
  | comment hc hs => exact ⟨[], (List.append_nil _).symm⟩
  | tri s2 r hc hf hr => exact ⟨[], (List.append_nil _).symm⟩
  | fold s2 r hc hf hr => exact ⟨[], (List.append_nil _).symm⟩

theorem stepR_done_row (q : Nat → Nat → Nat) (trp : List Token) (st : Scan) (o : Outcome)
    (hr : StepR q trp st (.done o)) : ∃ more, o.row = st.row ++ more := by
  cases hr with
  | eobFatal hc hf => exact ⟨[], (List.append_nil _).symm⟩
  | eof warn hc => exact ⟨_, rfl⟩
  | nl err hc => exact ⟨_, rfl⟩
  | eofstr hc => exact ⟨[], (List.append_nil _).symm⟩
  | escFatal hf => exact ⟨[], (List.append_nil _).symm⟩

/-- The tokens that a state of the loop holds are the first tokens of the row
of the call. -/
theorem scanLoop_row_prefix (cplusplus : Bool) (q : Nat → Nat → Nat) (trp : List Token)
    (n : Nat) (st : Scan) (o : Outcome) (hinv : Inv st)
    (h : scanLoop (entry cplusplus) q trp n st = some o) : ∃ more, o.row = st.row ++ more := by
  obtain ⟨st1, -, ⟨m1, hm1⟩, hdone⟩ := scanLoop_final cplusplus q trp
    (fun st1 => ∃ more, st1.row = st.row ++ more)
    (fun a b _ hp hr => by
      obtain ⟨m, hm⟩ := hp
      obtain ⟨m', hm'⟩ := stepR_row q trp a b hr
      exact ⟨m ++ m', by rw [hm', hm, List.append_assoc]⟩)
    n st o hinv ⟨[], (List.append_nil _).symm⟩ h
  obtain ⟨m2, hm2⟩ := stepR_done_row q trp st1 o hdone
  exact ⟨m1 ++ m2, by rw [hm2, hm1, List.append_assoc]⟩

theorem minus_rows (cplusplus : Bool) (c : Nat) (hc : c < 256) :
    (c = 45 → entry cplusplus c START = Int.ofNat MINUS1
      ∧ entry cplusplus c MINUS1 = Int.negSucc (ACT MMINUS S_SELF))
    ∧ (c = 61 → entry cplusplus c MINUS1 = Int.negSucc (ACT ASMINUS S_SELF))
    ∧ (c = 62 → entry cplusplus c MINUS1 = Int.negSucc (ACT ARROW S_SELF))
    ∧ (c ≠ 45 ∧ c ≠ 61 ∧ c ≠ 62 ∧ c ≠ 63 ∧ c ≠ 92 ∧ c ≠ 254 →
        entry cplusplus c MINUS1 = Int.negSucc (ACT MINUS S_SELFB)) := by
  rw [entry_row cplusplus c START (by decide), entry_row cplusplus c MINUS1 (by decide)]
  exact minus_rows_true c hc

/-- From two passes that are known to the first token of every way the call
can end. -/
theorem beginsWith_of_steps (cplusplus : Bool) (q : Nat → Nat → Nat) (trp : List Token)
    (str : List Nat) (heap : Nat → Nat) (reset : Bool) (hcs : CString str) (hne : str ≠ [])
    (st1 : Scan) (tok : Token) (ip : Nat)
    (h1 : step (entry cplusplus) q trp (Scan.init (strsource str heap)) = .next st1)
    (h2 : step (entry cplusplus) q trp st1
      = .next ⟨strsource str heap, ip, START, ip, 0, [tok], 0, []⟩) :
    BeginsWith (bigfsm cplusplus) q trp (strsource str heap) reset tok ip := by
  have hinv0 := init_inv (strsource str heap) (setsource_wf _ _ _)
  have hr1 := step_spec cplusplus q trp _ hinv0.state_lt hinv0.state_ne
  rw [h1] at hr1
  have hinv1 := stepR_inv q trp _ _ hinv0 hr1
  have hr2 := step_spec cplusplus q trp _ hinv1.state_lt hinv1.state_ne
  rw [h2] at hr2
  have hinv2 := stepR_inv q trp _ _ hinv1 hr2
  have hrun : ∀ n, gettokens (bigfsm cplusplus) q (n + 2) (strsource str heap) trp reset
      = scanLoop (bigfsm cplusplus) q trp n ⟨strsource str heap, ip, START, ip, 0, [tok], 0, []⟩ := by
    intro n
    rw [bigfsm_eq]
    unfold gettokens
    rw [rewind_strsource str heap reset hcs hne]
    dsimp only
    rw [scanLoop_next _ q trp _ _ _ h1, scanLoop_next _ q trp _ _ _ h2]
  refine ⟨hrun, ?_⟩
  intro n o ho
  match n, ho with
  | 0, ho =>
    rw [bigfsm_eq] at ho
    unfold gettokens at ho
    rw [rewind_strsource str heap reset hcs hne] at ho
    cases ho
  | 1, ho =>
    rw [bigfsm_eq] at ho
    unfold gettokens at ho
    rw [rewind_strsource str heap reset hcs hne] at ho
    dsimp only at ho
    rw [scanLoop_next _ q trp 0 _ _ h1] at ho
    cases ho
  | n + 2, ho =>
    rw [hrun n, bigfsm_eq] at ho
    exact scanLoop_row_prefix cplusplus q trp n _ o hinv2 ho

/-- C6: a row that begins with `-` and a byte `c` begins with the token `--`,
`-=` or `->` of two bytes when `c` is `-`, `=` or `>`, and the next token is
scanned from the third byte on; when `c` is any other byte but `?`, backslash
and `EOB`, it begins with the token `-` of one byte and `c` is the first byte
scanned for the next token. -/
theorem C6_minus_maximal_munch (cplusplus : Bool) (q : Nat → Nat → Nat) (trp : List Token)
    (heap : Nat → Nat) (reset : Bool) (c : Nat) (rest : List Nat)
    (hcs : CString (45 :: c :: rest)) :
    (∃ n o, gettokens (bigfsm cplusplus) q n (strsource (45 :: c :: rest) heap) trp reset = some o)
    ∧ (c = 45 → BeginsWith (bigfsm cplusplus) q trp (strsource (45 :: c :: rest) heap) reset
        (Token.mk MMINUS 0 0 0 2 0) 2)
    ∧ (c = 61 → BeginsWith (bigfsm cplusplus) q trp (strsource (45 :: c :: rest) heap) reset
        (Token.mk ASMINUS 0 0 0 2 0) 2)
    ∧ (c = 62 → BeginsWith (bigfsm cplusplus) q trp (strsource (45 :: c :: rest) heap) reset
        (Token.mk ARROW 0 0 0 2 0) 2)
    ∧ (c ≠ 45 ∧ c ≠ 61 ∧ c ≠ 62 ∧ c ≠ 63 ∧ c ≠ 92 ∧ c ≠ 254 →
        BeginsWith (bigfsm cplusplus) q trp (strsource (45 :: c :: rest) heap) reset
          (Token.mk MINUS 0 0 0 1 0) 1) := by
  have hne : (45 :: c :: rest) ≠ [] := List.cons_ne_nil _ _
  have hh := strsource_holds _ heap hcs
  obtain ⟨hh0, hh1⟩ := (holds_cons _ _ _ _).mp hh
  obtain ⟨hh1, -⟩ := (holds_cons _ _ _ _).mp hh1
  have hc := (hcs c (List.mem_cons_of_mem _ (List.mem_cons_self _ _))).1
  have hb0 : (strsource (45 :: c :: rest) heap).inb 0 % 256 = 45 := by rw [hh0]
  have hb1 : (strsource (45 :: c :: rest) heap).inb 1 % 256 = c := by
    rw [hh1]; exact Nat.mod_eq_of_lt hc
  have h1 : step (entry cplusplus) q trp (Scan.init (strsource (45 :: c :: rest) heap))
      = .next ⟨strsource (45 :: c :: rest) heap, 1, MINUS1, 0, 0, [], 0, []⟩ :=
    step_cont _ q trp _ MINUS1 (by
      show entry cplusplus ((strsource (45 :: c :: rest) heap).inb 0 % 256) START = _
      rw [hb0]
      exact ((minus_rows cplusplus 45 (by decide)).1 rfl).1)
  have hself : ∀ code : Nat, code &&& 0o177 = S_SELF →
      entry cplusplus c MINUS1 = Int.negSucc code →
      step (entry cplusplus) q trp ⟨strsource (45 :: c :: rest) heap, 1, MINUS1, 0, 0, [], 0, []⟩
        = .next ⟨strsource (45 :: c :: rest) heap, 2, START, 2, 0,
            [Token.mk (GETACT code) 0 0 0 2 0], 0, []⟩ := by
    intro code hcode hent
    rw [step_neg _ q trp _ code (by
      show entry cplusplus ((strsource (45 :: c :: rest) heap).inb 1 % 256) MINUS1 = _
      rw [hb1]; exact hent)]
    rw [switchOn_SELF q trp _ _ _ hcode]
    rfl
  refine ⟨gettokens_terminates cplusplus q trp _ reset (setsource_wf _ _ _) rfl, ?_, ?_, ?_, ?_⟩
  · intro h
    exact beginsWith_of_steps cplusplus q trp _ heap reset hcs hne _ _ _ h1
      (hself (ACT MMINUS S_SELF) (by decide) (by rw [h]; exact ((minus_rows cplusplus 45
        (by decide)).1 rfl).2))
  · intro h
    exact beginsWith_of_steps cplusplus q trp _ heap reset hcs hne _ _ _ h1
      (hself (ACT ASMINUS S_SELF) (by decide) (by rw [h]; exact ((minus_rows cplusplus 61
        (by decide)).2.left rfl)))
  · intro h
    exact beginsWith_of_steps cplusplus q trp _ heap reset hcs hne _ _ _ h1
      (hself (ACT ARROW S_SELF) (by decide) (by rw [h]; exact ((minus_rows cplusplus 62
        (by decide)).right.right.left rfl)))
  · intro h
    refine beginsWith_of_steps cplusplus q trp _ heap reset hcs hne _ _ _ h1 ?_
    rw [step_neg _ q trp _ (ACT MINUS S_SELFB) (by
      show entry cplusplus ((strsource (45 :: c :: rest) heap).inb 1 % 256) MINUS1 = _
      rw [hb1]; exact (minus_rows cplusplus c hc).right.right.right h)]
    rw [switchOn_SELFB q trp _ _ _ (by decide)]
    rfl

/-- C6 at the string "-->x\n", with the whole row it yields: `--`, `>`, the
name `x`, and `NL`. -/
theorem C6_minus_maximal_munch_witness :
    ((∃ n o, gettokens (bigfsm true) (fun _ _ => 0) n (strsource [45, 45, 62, 120, 10] (fun _ => 0))
        [] true = some o)
      ∧ ((45 : Nat) = 45 → BeginsWith (bigfsm true) (fun _ _ => 0) []
          (strsource [45, 45, 62, 120, 10] (fun _ => 0)) true (Token.mk MMINUS 0 0 0 2 0) 2)
      ∧ ((45 : Nat) = 61 → BeginsWith (bigfsm true) (fun _ _ => 0) []
          (strsource [45, 45, 62, 120, 10] (fun _ => 0)) true (Token.mk ASMINUS 0 0 0 2 0) 2)
      ∧ ((45 : Nat) = 62 → BeginsWith (bigfsm true) (fun _ _ => 0) []
          (strsource [45, 45, 62, 120, 10] (fun _ => 0)) true (Token.mk ARROW 0 0 0 2 0) 2)
      ∧ ((45 : Nat) ≠ 45 ∧ (45 : Nat) ≠ 61 ∧ (45 : Nat) ≠ 62 ∧ (45 : Nat) ≠ 63 ∧ (45 : Nat) ≠ 92
          ∧ (45 : Nat) ≠ 254 →
          BeginsWith (bigfsm true) (fun _ _ => 0) []
            (strsource [45, 45, 62, 120, 10] (fun _ => 0)) true (Token.mk MINUS 0 0 0 1 0) 1))
    ∧ gettokens (entry true) (fun _ _ => 0) 10 (strsource [45, 45, 62, 120, 10] (fun _ => 0))
        [] true
      = some (.returned 0
          [Token.mk MMINUS 0 0 0 2 0, Token.mk GT 0 0 0 1 2, Token.mk NAME 0 0 0 1 3,
            Token.mk NL 0 0 0 1 4]
          { strsource [45, 45, 62, 120, 10] (fun _ => 0) with lineinc := 1, inp := 5 } []) :=
  ⟨C6_minus_maximal_munch true (fun _ _ => 0) [] (fun _ => 0) true 45 [62, 120, 10]
      (by intro b hb; simp only [List.mem_cons, List.mem_singleton, List.mem_nil_iff, or_false] at hb
          rcases hb with h | h | h | h | h <;> subst h <;> decide),
    rfl⟩

/-! ## Well-formed entries; the states a call passes through -/

set_option maxRecDepth 1000000 in
theorem idle_rows_true : ∀ c < 256,
    entry true c SLASH1
      = (if c = 254 then Int.negSucc S_EOB else if c = 253 then Int.negSucc S_EOF else 0)
    ∧ entry true c 31
      = (if c = 254 then Int.negSucc S_EOB else if c = 253 then Int.negSucc S_EOF else 0) := by
  decide!

theorem wellFormed_ofNat (b k : Nat) (hk : k < 32) : WellFormed b (Int.ofNat k) :=
  Or.inl ⟨Int.ofNat_nonneg k, by
    show (k : Int) < ((32 : Nat) : Int)
    exact Int.ofNat_lt.mpr hk⟩

theorem wellFormed_negSucc (b code : Nat)
    (h : (S_SELF ≤ unmarked code &&& 0o177 ∧ unmarked code &&& 0o177 ≤ S_NAME)
          ∨ (code &&& QBSBIT ≠ 0 ∧ unmarked code &&& 0o177 < MAXSTATE))
    (hm : code &&& QBSBIT ≠ 0 → b = 63 ∨ b = 92) : WellFormed b (Int.negSucc code) := by
  refine Or.inr ⟨Int.negSucc_lt_zero code, ?_, ?_⟩
  · rw [cnot_negSucc]; exact h
  · rw [cnot_negSucc]; exact hm

/-- Every entry of the table is well formed. -/
theorem entry_wellFormed (cplusplus : Bool) (b s : Nat) (hb : b < 256) (hs : s < 32) :
    WellFormed b (entry cplusplus b s) := by
  by_cases h18 : s = SLASH1
  · rw [h18, entry_row cplusplus b SLASH1 (by decide), (idle_rows_true b hb).1]
    by_cases h1 : b = 254
    · rw [if_pos h1]
      exact wellFormed_negSucc b S_EOB (Or.inl (by decide)) (fun h => absurd (by decide) h)
    · rw [if_neg h1]
      by_cases h2 : b = 253
      · rw [if_pos h2]
        exact wellFormed_negSucc b S_EOF (Or.inl (by decide)) (fun h => absurd (by decide) h)
      · rw [if_neg h2]
        exact wellFormed_ofNat b 0 (by decide)
  by_cases h31 : s = 31
  · rw [h31, entry_row cplusplus b 31 (by decide), (idle_rows_true b hb).2]
    by_cases h1 : b = 254
    · rw [if_pos h1]
      exact wellFormed_negSucc b S_EOB (Or.inl (by decide)) (fun h => absurd (by decide) h)
    · rw [if_neg h1]
      by_cases h2 : b = 253
      · rw [if_pos h2]
        exact wellFormed_negSucc b S_EOF (Or.inl (by decide)) (fun h => absurd (by decide) h)
      · rw [if_neg h2]
        exact wellFormed_ofNat b 0 (by decide)
  rcases entry_cases cplusplus b s hb (by omega) h18 with
    ⟨k, he, -, hk, -⟩ | ⟨code, he, hm, hq, hok⟩ | ⟨code, he, hm, ⟨h32, h43, -, -⟩, -⟩
  · rw [he]; exact wellFormed_ofNat b k (by omega)
  · rw [he]
    refine wellFormed_negSucc b code ?_ (fun _ => hq)
    rcases hok with ⟨-, hlt, -, hst⟩ | ⟨hact, -, -⟩
    · right
      refine ⟨hm, ?_⟩
      show (code - (code &&& QBSBIT)) &&& 0o177 < MAXSTATE
      rw [hst]; show _ < 32; omega
    · left
      show S_SELF ≤ (code - (code &&& QBSBIT)) &&& 0o177 ∧ (code - (code &&& QBSBIT)) &&& 0o177 ≤ S_NAME
      rcases hact with h | ⟨h | h | h, -⟩ <;> rw [h] <;> decide
  · rw [he]
    have hu : unmarked code = code := by
      unfold unmarked; rw [hm]; rfl
    refine wellFormed_negSucc b code (Or.inl ?_) (fun h => absurd hm h)
    rw [hu]
    exact ⟨h32, h43⟩

/-- The invariant of the loop holds in every state a run passes through. -/
theorem reach_inv (cplusplus : Bool) (q : Nat → Nat → Nat) (trp : List Token) (st0 st : Scan)
    (h0 : Inv st0) (hr : Reach (entry cplusplus) q trp st0 st) : Inv st := by
  induction hr with
  | start => exact h0
  | pass a b _ hs ih =>
    have hr := step_spec cplusplus q trp a ih.state_lt ih.state_ne
    rw [hs] at hr
    exact stepR_inv q trp a b ih hr

/-- No pass of the loop reports the diagnostic of the last branch of the
`default` case. -/
theorem stepR_botch (q : Nat → Nat → Nat) (trp : List Token) (st st1 : Scan)
    (hr : StepR q trp st (.next st1)) (h : botch ∉ st.diags) : botch ∉ st1.diags := by
  cases hr with
  | cont s2 k hb hk hc => exact h
  | self s2 code hb ht hc => exact h
  | selfb s2 code hb ht hs hc => exact h
  | name s2 hb hs hc => exact h
  | ws s2 hb hs hc => exact h
  | eob s1 b hc hf => exact h
  | comnl hc hs hlt => exact h
  | compact hc hs hge => exact h
  | eofcom hc hs =>
    intro hm
    rcases List.mem_append.mp hm with hm | hm
    · exact h hm
    · simp only [List.mem_singleton] at hm
      exact absurd hm (by decide)
  | comment hc hs => exact h
  | tri s2 r hc hf hr => exact h
  | fold s2 r hc hf hr => exact h

theorem stepR_done_botch (q : Nat → Nat → Nat) (trp : List Token) (st : Scan) (o : Outcome)
    (hr : StepR q trp st (.done o)) (h : botch ∉ st.diags) : botch ∉ o.diags := by
  have key : ∀ d : Diag, d ≠ botch → botch ∉ st.diags ++ [d] := by
    intro d hd hm
    rcases List.mem_append.mp hm with hm | hm
    · exact h hm
    · simp only [List.mem_singleton] at hm
      exact hd hm.symm
  cases hr with
  | eobFatal hc hf => exact key _ (by decide)
  | eof warn hc hw =>
    intro hm
    rcases List.mem_append.mp hm with hm | hm
    · exact h hm
    · exact absurd (hw _ hm) (by decide)
  | nl err hc he =>
    intro hm
    rcases List.mem_append.mp hm with hm | hm
    · exact h hm
    · exact absurd (he _ hm) (by decide)
  | eofstr hc => exact key _ (by decide)
  | escFatal hf => exact key _ (by decide)

theorem reach_botch (cplusplus : Bool) (q : Nat → Nat → Nat) (trp : List Token) (st0 st : Scan)
    (h0 : Inv st0) (hd : botch ∉ st0.diags) (hr : Reach (entry cplusplus) q trp st0 st) :
    botch ∉ st.diags := by
  induction hr with
  | start => exact hd
  | pass a b ha hs ih =>
    have hinv := reach_inv cplusplus q trp st0 a h0 ha
    have hr := step_spec cplusplus q trp a hinv.state_lt hinv.state_ne
    rw [hs] at hr
    exact stepR_botch q trp a b hr ih

/-- C11: every entry of the table that `expandlex` builds, and of the table
`gettokens` uses after `fixlex`, is well formed: a continuation state below
`MAXSTATE`, or negative with a complement that, the marker bit removed, has an
action code or (marked only) a state in its low seven bits, the marker being set
only for `?` and backslash.  So in every state that a call of `gettokens` on a
well-formed source passes through the lookup `bigfsm[c][state]` is in range,
and neither such a state nor the outcome of the call carries the diagnostic
"Lexical botch in cpp". -/
theorem C11_entries_well_formed (cplusplus : Bool) (q : Nat → Nat → Nat) (trp : List Token)
    (src : Source) (reset : Bool) (hwf : src.wf) :
    (∀ b < 256, ∀ s < MAXSTATE,
      WellFormed b (expandlex zeroTable b s) ∧ WellFormed b (bigfsm cplusplus b s))
    ∧ (∀ s1 st, rewind src reset = some s1 →
        Reach (bigfsm cplusplus) q trp (Scan.init s1) st →
        st.s.byte st.ip < 256 ∧ st.state < MAXSTATE ∧ botch ∉ st.diags)
    ∧ (∀ n o, gettokens (bigfsm cplusplus) q n src trp reset = some o → botch ∉ o.diags) := by
  refine ⟨?_, ?_, ?_⟩
  · intro b hb s hs
    refine ⟨?_, ?_⟩
    · have h : expandlex zeroTable b s = entry true b s := by rw [expandlex_apply]; rfl
      rw [h]
      exact entry_wellFormed true b s hb hs
    · rw [bigfsm_eq]
      exact entry_wellFormed cplusplus b s hb hs
  · intro s1 st hrw hreach
    rw [bigfsm_eq] at hreach
    obtain ⟨hwf1, -⟩ := rewind_wf src s1 reset hwf hrw
    have hinv0 := init_inv s1 hwf1
    have hinv := reach_inv cplusplus q trp _ st hinv0 hreach
    refine ⟨st.s.byte_lt st.ip, ?_, ?_⟩
    · have := hinv.state_lt
      show st.state < 32
      omega
    · exact reach_botch cplusplus q trp _ st hinv0 (List.not_mem_nil _) hreach
  · intro n o h
    rw [bigfsm_eq] at h
    unfold gettokens at h
    cases hr : rewind src reset with
    | none =>
      rw [hr] at h
      simp only [Option.some.injEq] at h
      subst h
      intro hm
      simp only [Outcome.diags, List.mem_singleton] at hm
      exact absurd hm (by decide)
    | some s0 =>
      rw [hr] at h
      obtain ⟨hwf0, -⟩ := rewind_wf src s0 reset hwf hr
      obtain ⟨st, -, hp, hdone⟩ := scanLoop_final cplusplus q trp (fun st => botch ∉ st.diags)
        (fun a b _ hp hr => stepR_botch q trp a b hr hp) n (Scan.init s0) _
        (init_inv s0 hwf0) (List.not_mem_nil _) h
      exact stepR_done_botch q trp st o hdone hp

/-- C11 at the source made from the string "a\n". -/
theorem C11_entries_well_formed_witness :
    (∀ b < 256, ∀ s < MAXSTATE,
      WellFormed b (expandlex zeroTable b s) ∧ WellFormed b (bigfsm true b s))
    ∧ (∀ s1 st, rewind (strsource [97, 10] (fun _ => 0)) true = some s1 →
        Reach (bigfsm true) (fun _ _ => 0) [] (Scan.init s1) st →
        st.s.byte st.ip < 256 ∧ st.state < MAXSTATE ∧ botch ∉ st.diags)
    ∧ (∀ n o, gettokens (bigfsm true) (fun _ _ => 0) n (strsource [97, 10] (fun _ => 0)) [] true
        = some o → botch ∉ o.diags) :=
  C11_entries_well_formed true (fun _ _ => 0) [] (strsource [97, 10] (fun _ => 0)) true
    (setsource_wf _ _ _)

/-! ## The rule pass and the override rule -/

theorem trigger_iff_covers (c ch : Nat) : trigger c ch = true ↔ covers ch c := by
  unfold covers
  by_cases h1 : ch = C_XX
  · rw [if_pos h1, h1, trigger_C_XX, decide_eq_true_eq]
  rw [if_neg h1]
  by_cases h2 : ch = C_ALPH
  · rw [if_pos h2, h2, trigger_C_ALPH, decide_eq_true_eq]
  rw [if_neg h2]
  by_cases h3 : ch = C_NUM
  · rw [if_pos h3, h3, trigger_C_NUM, decide_eq_true_eq]
    omega
  rw [if_neg h3, trigger_byte c ch h1 h2 h3, decide_eq_true_eq]

theorem trigger_covers (c ch : Nat) : trigger c ch = decide (covers ch c) := by
  rw [Bool.eq_iff_iff, decide_eq_true_eq]
  exact trigger_iff_covers c ch

theorem any_trigger (c : Nat) (chs : List Nat) :
    (chs.any (trigger c) = true) ↔ ∃ ch ∈ chs, covers ch c := by
  rw [List.any_eq_true]
  constructor
  · rintro ⟨ch, hm, h⟩
    rw [trigger_covers] at h
    exact ⟨ch, hm, of_decide_eq_true h⟩
  · rintro ⟨ch, hm, h⟩
    exact ⟨ch, hm, by rw [trigger_covers]; exact decide_eq_true h⟩

/-- The rule pass, seen from one entry, finds the last matching rule. -/
theorem foldl_hitStep_last (c s : Nat) (rules : List fsmRule) (a : Option Nat) :
    rules.foldl (hitStep c s) a
      = match (matching rules s c).getLast? with
        | some fp => some fp.nextstate
        | none => a := by
  induction rules generalizing a with
  | nil => rfl
  | cons fp rest ih =>
    rw [List.foldl_cons, ih]
    unfold matching
    rw [List.filter_cons]
    by_cases hp : fp.state = s ∧ ∃ ch ∈ fp.ch, covers ch c
    · rw [if_pos (decide_eq_true hp)]
      have hh : hitStep c s a fp = some fp.nextstate := by
        unfold hitStep
        rw [if_pos ⟨hp.1, (any_trigger c fp.ch).mpr hp.2⟩]
      rw [hh]
      cases hl : (List.filter (fun fp => decide (fp.state = s ∧ ∃ ch ∈ fp.ch, covers ch c)) rest)
        with
      | nil => rfl
      | cons x xs =>
        rw [List.getLast?_cons_cons]
        cases hx : (x :: xs).getLast? with
        | none => exact absurd hx (by simp)
        | some y => rfl
    · have hd : decide (fp.state = s ∧ ∃ ch ∈ fp.ch, covers ch c) = false := decide_eq_false hp
      rw [hd]
      have hh : hitStep c s a fp = a := by
        unfold hitStep
        rw [if_neg (fun h => hp ⟨h.1, (any_trigger c fp.ch).mp h.2⟩)]
      rw [hh]
      rfl

theorem encode_stored (n : Nat) : encode n = stored n := by
  unfold encode stored
  by_cases h : n < S_SELF
  · rw [if_pos h, if_neg (by omega)]
  · rw [if_neg h, if_pos (by omega)]

theorem override_rows_true :
    entry true 95 NUM1 = Int.negSucc (ACT NUMBER S_SELFB) ∧ entry true 97 NUM1 = Int.ofNat NUM1 := by
  decide!

/-- C12: after `expandlex` on the zero-initialised table, the entry of a state
`s` below `MAXSTATE` and a byte `b` other than `?`, backslash, `EOB` and `EOFC`
is the stored form of the target of the last rule of `fsm[]` for `s` one of
whose triggers stands for `b`, and `0` when there is no such rule; so the entry
of `_` in `NUM1` is the terminal `NUMBER`/`S_SELFB` while that of `a` is the
continuation `NUM1`. -/
theorem C12_last_rule_wins :
    (∀ s < MAXSTATE, ∀ b < 256, b ≠ 63 → b ≠ 92 → b ≠ EOB → b ≠ EOFC →
      expandlex zeroTable b s = lastRuleEntry s b)
    ∧ expandlex zeroTable 95 NUM1 = cnot (ACT NUMBER S_SELFB)
    ∧ expandlex zeroTable 97 NUM1 = NUM1 := by
  refine ⟨?_, ?_, ?_⟩
  · intro s hs b hb h1 h2 h3 h4
    rw [expandlex_apply]
    unfold expanded
    have hlt : Nat.blt s MAXSTATE = true := by rw [Nat.blt_eq]; exact hs
    have h3' : b ≠ 254 := h3
    have h4' : b ≠ 253 := h4
    rw [hlt, cond_true, special_eq, if_neg h3', if_neg h4', if_neg (not_or.mpr ⟨h1, h2⟩)]
    unfold ruleEntry lastRuleEntry rowRules
    rw [rowHit_filter, foldl_hitStep_last]
    cases (matching fsm s b).getLast? with
    | none => rfl
    | some fp => exact encode_stored fp.nextstate
  · rw [expandlex_apply]
    exact override_rows_true.1
  · rw [expandlex_apply]
    exact override_rows_true.2

/-- C12 at the entry of `_` in the state `NUM1`. -/
theorem C12_last_rule_wins_witness : expandlex zeroTable 95 NUM1 = lastRuleEntry NUM1 95 :=
  C12_last_rule_wins.1 NUM1 (by decide) 95 (by decide) (by decide) (by decide) (by decide)
    (by decide)

/-! ## The sentinel bytes in the table -/

theorem expandlex_lt (c s : Nat) (hs : s < MAXSTATE) :
    expandlex zeroTable c s = special c (expandRules fsm zeroTable c s) := by
  have hlt : Nat.blt s MAXSTATE = true := by rw [Nat.blt_eq]; exact hs
  rw [expandlex_apply, expandRules_fsm]
  unfold expanded
  rw [hlt, cond_true]

theorem cnot_neg (n : Nat) : cnot (n : Int) < 0 := by
  unfold cnot
  have : (0 : Int) ≤ (n : Int) := Int.ofNat_nonneg n
  omega

theorem bigfsm_sentinel (cplusplus : Bool) (c s : Nat) (hc : c ≠ 47) :
    bigfsm cplusplus c s = expandlex zeroTable c s := by
  rw [bigfsm_eq, expandlex_apply]
  cases cplusplus with
  | true => rfl
  | false => rw [entry_false c s (fun h => hc h.1)]; rfl

/-- C13: after `expandlex`, in every state `s` below `MAXSTATE` the entry of
`EOB` is `~S_EOB`, and the entry of `EOFC` is negative: it is `~S_EOF` when the
entry the rules gave was not negative, and the entry the rules gave otherwise
(in `START` the rules themselves give `~S_EOF`).  So the entries of both
sentinel bytes are negative in the table `gettokens` uses, and the test for a
plain continuation fails on them. -/
theorem C13_sentinel_entries (cplusplus : Bool) :
    ∀ s < MAXSTATE,
      expandlex zeroTable EOB s = cnot S_EOB
      ∧ expandlex zeroTable EOFC s < 0
      ∧ (expandRules fsm zeroTable EOFC s ≥ 0 → expandlex zeroTable EOFC s = cnot S_EOF)
      ∧ (expandRules fsm zeroTable EOFC s < 0 →
          expandlex zeroTable EOFC s = expandRules fsm zeroTable EOFC s)
      ∧ bigfsm cplusplus EOB s < 0 ∧ bigfsm cplusplus EOFC s < 0 := by
  intro s hs
  have h1 : expandlex zeroTable EOB s = cnot S_EOB := by
    rw [expandlex_lt EOB s hs, special_eq]
    exact if_pos rfl
  have h2 : expandlex zeroTable EOFC s
      = if expandRules fsm zeroTable EOFC s ≥ 0 then cnot S_EOF
        else expandRules fsm zeroTable EOFC s := by
    rw [expandlex_lt EOFC s hs, special_eq]
    have e1 : EOFC ≠ 254 := by decide
    have e2 : EOFC = 253 := rfl
    rw [if_neg e1, if_pos e2]
  have h3 : expandlex zeroTable EOFC s < 0 := by
    rw [h2]
    by_cases h : expandRules fsm zeroTable EOFC s ≥ 0
    · rw [if_pos h]; exact cnot_neg S_EOF
    · rw [if_neg h]; omega
  refine ⟨h1, h3, ?_, ?_, ?_, ?_⟩
  · intro h; rw [h2, if_pos h]
  · intro h
    have h' : ¬ (expandRules fsm zeroTable EOFC s ≥ 0) := by omega
    rw [h2, if_neg h']
  · rw [bigfsm_sentinel cplusplus EOB s (by decide), h1]; exact cnot_neg S_EOB
  · rw [bigfsm_sentinel cplusplus EOFC s (by decide)]; exact h3

/-- C13 at the state `COM3`, which has no rule for `EOFC`. -/
theorem C13_sentinel_entries_witness :
    expandlex zeroTable EOB COM3 = cnot S_EOB
      ∧ expandlex zeroTable EOFC COM3 < 0
      ∧ (expandRules fsm zeroTable EOFC COM3 ≥ 0 → expandlex zeroTable EOFC COM3 = cnot S_EOF)
      ∧ (expandRules fsm zeroTable EOFC COM3 < 0 →
          expandlex zeroTable EOFC COM3 = expandRules fsm zeroTable EOFC COM3)
      ∧ bigfsm true EOB COM3 < 0 ∧ bigfsm true EOFC COM3 < 0 :=
  C13_sentinel_entries true COM3 (by decide)

/-! ## The marker bit on `?` and backslash -/

theorem cnot_cnot (x : Int) : cnot (cnot x) = x := by
  unfold cnot; omega

/-- What the post-pass makes of the entries of `?` and backslash. -/
theorem expandlex_marked (b s : Nat) (hs : s < MAXSTATE) (hb : b = 63 ∨ b = 92) :
    expandlex zeroTable b s
      = clearQBS (if expandRules fsm zeroTable b s > 0 then cnot (expandRules fsm zeroTable b s)
          else expandRules fsm zeroTable b s) := by
  have h1 : b ≠ 254 := by omega
  have h2 : b ≠ 253 := by omega
  rw [expandlex_lt b s hs, special_eq, if_neg h1, if_neg h2, if_pos hb]

theorem quest_rows_true :
    ruleEntry 63 START 0 = Int.negSucc (ACT QUEST S_SELF)
    ∧ entry true 63 START = Int.negSucc (ACT QUEST S_SELF ||| QBSBIT)
    ∧ ruleEntry 63 ID1 0 = Int.negSucc (ACT NAME S_NAME)
    ∧ entry true 63 ID1 = Int.negSucc (ACT NAME S_NAME ||| QBSBIT)
    ∧ ruleEntry 63 ST2 0 = Int.ofNat ST2
    ∧ entry true 63 ST2 = Int.negSucc (ST2 ||| QBSBIT) := by
  decide!

/-- C14, refuted at `START` on `?`: the rules give the terminal `QUEST`/`S_SELF`,
and yet the post-pass sets the marker bit in the complement of the entry, which
is therefore not the value that the rules encoded. -/
theorem C14_terminal_entries_marked :
    expandRules fsm zeroTable 63 START = cnot (ACT QUEST S_SELF)
    ∧ expandRules fsm zeroTable 63 START < 0
    ∧ (cnot (expandlex zeroTable 63 START)).toNat &&& QBSBIT ≠ 0
    ∧ expandlex zeroTable 63 START ≠ expandRules fsm zeroTable 63 START := by
  have hr : expandRules fsm zeroTable 63 START = Int.negSucc (ACT QUEST S_SELF) := by
    rw [expandRules_fsm]; exact quest_rows_true.1
  have he : expandlex zeroTable 63 START = Int.negSucc (ACT QUEST S_SELF ||| QBSBIT) := by
    rw [expandlex_apply]; exact quest_rows_true.2.1
  refine ⟨?_, ?_, ?_, ?_⟩
  · rw [hr]; rfl
  · rw [hr]; exact Int.negSucc_lt_zero _
  · rw [he, cnot_negSucc]; decide
  · rw [hr, he]; decide

/-- C14 as amended: in every state `s` below `MAXSTATE` and for `?` and
backslash, the post-pass sets the marker bit in the complement of every entry
that is not `0`: an entry that the rules made a continuation to a state other
than `START` becomes the complement of that state with the marker, an entry
that the rules made terminal keeps every bit of its complement and has the
marker added, and an entry `0` stays `0`.  So the entries of `?` in `START`
and in `ID1` are the marked `QUEST`/`S_SELF` and the marked `NAME`/`S_NAME`. -/
theorem C14_marker_on_every_entry :
    (∀ s < MAXSTATE, ∀ b, (b = 63 ∨ b = 92) →
      (expandRules fsm zeroTable b s = 0 → expandlex zeroTable b s = 0)
      ∧ (expandRules fsm zeroTable b s > 0 → expandlex zeroTable b s
          = cnot (((expandRules fsm zeroTable b s).toNat ||| QBSBIT : Nat) : Int))
      ∧ (expandRules fsm zeroTable b s < 0 → expandlex zeroTable b s
          = cnot (((cnot (expandRules fsm zeroTable b s)).toNat ||| QBSBIT : Nat) : Int)))
    ∧ expandlex zeroTable 63 START = cnot ((ACT QUEST S_SELF ||| QBSBIT : Nat) : Int)
    ∧ expandlex zeroTable 63 ID1 = cnot ((ACT NAME S_NAME ||| QBSBIT : Nat) : Int)
    ∧ expandlex zeroTable 63 ST2 = cnot ((ST2 ||| QBSBIT : Nat) : Int) := by
  refine ⟨?_, ?_, ?_, ?_⟩
  · intro s hs b hb
    have h := expandlex_marked b s hs hb
    refine ⟨?_, ?_, ?_⟩
    · intro h0
      rw [h, h0]; rfl
    · intro hpos
      rw [h, if_pos hpos]
      unfold clearQBS
      have hneg : ¬ (0 ≤ cnot (expandRules fsm zeroTable b s)) := by unfold cnot; omega
      rw [if_neg hneg, cnot_cnot]
    · intro hneg
      have h1 : ¬ (expandRules fsm zeroTable b s > 0) := by omega
      have h2 : ¬ (0 ≤ expandRules fsm zeroTable b s) := by omega
      rw [h, if_neg h1]
      unfold clearQBS
      rw [if_neg h2]
  · rw [expandlex_apply]; exact quest_rows_true.2.1
  · rw [expandlex_apply]; exact quest_rows_true.2.2.2.1
  · rw [expandlex_apply]; exact quest_rows_true.2.2.2.2.2

/-- The amended C14 at `START` on `?`. -/
theorem C14_marker_on_every_entry_witness :
    (expandRules fsm zeroTable 63 START = 0 → expandlex zeroTable 63 START = 0)
      ∧ (expandRules fsm zeroTable 63 START > 0 → expandlex zeroTable 63 START
          = cnot (((expandRules fsm zeroTable 63 START).toNat ||| QBSBIT : Nat) : Int))
      ∧ (expandRules fsm zeroTable 63 START < 0 → expandlex zeroTable 63 START
          = cnot (((cnot (expandRules fsm zeroTable 63 START)).toNat ||| QBSBIT : Nat) : Int)) :=
  C14_marker_on_every_entry.1 START (by decide) 63 (Or.inl rfl)

/-! ## Running `expandlex` twice -/

theorem clearQBS_neg (x : Int) (hx : x < 0) : clearQBS x < 0 := by
  unfold clearQBS
  rw [if_neg (by omega)]
  exact cnot_neg _

theorem clearQBS_clearQBS (x : Int) (hx : x < 0) : clearQBS (clearQBS x) = clearQBS x := by
  have h1 := clearQBS_neg x hx
  have h2 : ¬ (0 ≤ clearQBS x) := by omega
  have h3 : ¬ (0 ≤ x) := by omega
  have e : clearQBS x = cnot (((cnot x).toNat ||| QBSBIT : Nat) : Int) := by
    unfold clearQBS; rw [if_neg h3]
  have e2 : clearQBS (clearQBS x)
      = cnot (((cnot (clearQBS x)).toNat ||| QBSBIT : Nat) : Int) := by
    have h := h2
    unfold clearQBS at h ⊢
    rw [if_neg h]
  rw [e2, e, cnot_cnot, Int.toNat_ofNat, Nat.lor_assoc, Nat.or_self]

/-- The post-pass leaves alone what it has made. -/
theorem special_special (c : Nat) (v : Int) : special c (special c v) = special c v := by
  rw [special_eq, special_eq]
  by_cases h1 : c = 254
  · rw [if_pos h1, if_pos h1]
  rw [if_neg h1, if_neg h1]
  by_cases h2 : c = 253
  · rw [if_pos h2, if_pos h2]
    by_cases hv : v ≥ 0
    · rw [if_pos hv]
      have : ¬ (cnot (S_EOF : Int) ≥ 0) := by have := cnot_neg S_EOF; omega
      rw [if_neg this]
    · rw [if_neg hv, if_neg hv]
  rw [if_neg h2, if_neg h2]
  by_cases h3 : c = 63 ∨ c = 92
  · rw [if_pos h3, if_pos h3]
    by_cases hv : v > 0
    · rw [if_pos hv]
      have hn : cnot v < 0 := by unfold cnot; omega
      have hq := clearQBS_neg _ hn
      rw [if_neg (by omega), clearQBS_clearQBS _ hn]
    · rw [if_neg hv]
      by_cases h0 : v = 0
      · rw [h0]; rfl
      · have hn : v < 0 := by omega
        have hq := clearQBS_neg _ hn
        rw [if_neg (by omega), clearQBS_clearQBS _ hn]
  · rw [if_neg h3, if_neg h3]

/-- The rule pass either leaves an entry alone or sets it to a value that does
not depend on what it was. -/
theorem ruleEntry_cases (c s : Nat) :
    (∀ w, ruleEntry c s w = w) ∨ (∃ e, ∀ w, ruleEntry c s w = e) := by
  unfold ruleEntry
  cases rowHit c (rowRules s) with
  | none => exact Or.inl (fun _ => rfl)
  | some n => exact Or.inr ⟨encode n, fun _ => rfl⟩

theorem expandlex_below (t : Table) (c s : Nat) (hs : s < MAXSTATE) :
    expandlex t c s = special c (ruleEntry c s (t c s)) := by
  have hlt : Nat.blt s MAXSTATE = true := by rw [Nat.blt_eq]; exact hs
  rw [expandlex_apply]
  unfold expanded
  rw [hlt, cond_true]

theorem expandlex_above (t : Table) (c s : Nat) (hs : ¬ s < MAXSTATE) :
    expandlex t c s = ruleEntry c s (t c s) := by
  have hlt : Nat.blt s MAXSTATE = false := by
    cases hq : Nat.blt s MAXSTATE
    · rfl
    · rw [Nat.blt_eq] at hq; exact absurd hq hs
  rw [expandlex_apply]
  unfold expanded
  rw [hlt, cond_false]

/-- C15: a second run of `expandlex` on the table that a first run has made,
from the zero-initialised table or from any other, leaves every entry as it
is. -/
theorem C15_expandlex_idempotent :
    expandlex (expandlex zeroTable) = expandlex zeroTable
    ∧ ∀ t : Table, expandlex (expandlex t) = expandlex t := by
  have key : ∀ t : Table, expandlex (expandlex t) = expandlex t := by
    intro t
    funext c s
    by_cases hs : s < MAXSTATE
    · rw [expandlex_below (expandlex t) c s hs]
      generalize hv : expandlex t c s = v
      rw [expandlex_below t c s hs] at hv
      rcases ruleEntry_cases c s with h | ⟨e, h⟩
      · rw [h] at hv ⊢
        rw [← hv, special_special]
      · rw [h] at hv ⊢
        exact hv
    · rw [expandlex_above (expandlex t) c s hs]
      generalize hv : expandlex t c s = v
      rw [expandlex_above t c s hs] at hv
      rcases ruleEntry_cases c s with h | ⟨e, h⟩
      · rw [h]
      · rw [h] at hv ⊢
        exact hv
  exact ⟨key zeroTable, key⟩

/-! ## End of input inside a comment -/

/-- C16 at the input "/* a *": the end of input finds the scanner in `COM3`,
where the entry of `EOFC` is `~S_EOF`, and the call appends `END` without any
diagnostic; at "/* a ", in `COM2`, it reports "EOF inside comment" first. -/
theorem C16_eof_after_star_is_silent (cplusplus : Bool) :
    (gettokens (bigfsm cplusplus) (fun _ _ => 0) 8
        (strsource [47, 42, 32, 97, 32, 42] (fun _ => 0)) [] true).map
        (fun o => (o.row, o.diags))
      = some ([Token.mk END 0 0 0 0 0], [])
    ∧ bigfsm cplusplus EOFC COM3 = cnot S_EOF
    ∧ (gettokens (bigfsm cplusplus) (fun _ _ => 0) 8
        (strsource [47, 42, 32, 97, 32] (fun _ => 0)) [] true).map
        (fun o => (o.row, o.diags))
      = some ([Token.mk END 0 0 1 0 5], [(errtype.WARNING, "EOF inside comment")]) := by
  rw [bigfsm_eq]
  cases cplusplus
  · exact ⟨rfl, by decide!, rfl⟩
  · exact ⟨rfl, by decide!, rfl⟩

/-! ## The end of an identifier -/

/-- C18, refuted at the input "a+\n": the `+` that ends the identifier is not
part of the `NAME` token, which has length 1, and is the first byte of the next
token, `PLUS` at offset 1. -/
theorem C18_name_keeps_lookahead :
    (gettokens (bigfsm true) (fun _ _ => 0) 8 (strsource [97, 43, 10] (fun _ => 0))
        [] true).map Outcome.row
      = some [Token.mk NAME 0 0 0 1 0, Token.mk PLUS 0 0 0 1 1, Token.mk NL 0 0 0 1 2]
    ∧ (gettokens (bigfsm false) (fun _ _ => 0) 8 (strsource [97, 43, 10] (fun _ => 0))
        [] true).map Outcome.row
      = some [Token.mk NAME 0 0 0 1 0, Token.mk PLUS 0 0 0 1 1, Token.mk NL 0 0 0 1 2] := by
  rw [bigfsm_eq, bigfsm_eq]
  exact ⟨rfl, rfl⟩

/-- C18 as amended: the action `S_NAME` does what `S_SELFB` does, with the
type `NAME` and the `quicklook` check: the byte that made the transition is not
consumed.  The token runs from its start up to the cursor, without that byte,
the cursor stays where it is, and the next token begins on that byte in the
state `START`. -/
theorem C18_name_like_selfb (cplusplus : Bool) (q : Nat → Nat → Nat) (trp : List Token)
    (st : Scan) (code : Nat)
    (he : bigfsm cplusplus (st.s.byte st.ip) st.state = Int.negSucc code)
    (ha : code &&& 0o177 = S_NAME) :
    step (bigfsm cplusplus) q trp st
      = .next { st with
          ip := st.ip, state := START, t := st.ip, wslen := 0,
          row := st.row ++ [Token.mk NAME 0 0 st.wslen (st.ip - st.t) st.t],
          nmac := (st.nmac ||| q (st.s.byte st.t)
            (if st.ip - st.t > 1 then st.s.byte (st.t + 1) else 0)) }
    ∧ ∀ (code1 : Nat) (d : Step), code1 &&& 0o177 = S_SELFB →
        switchOn q trp st code1 d
          = .next { st with
              ip := st.ip, state := START, t := st.ip, wslen := 0,
              row := st.row ++ [Token.mk (GETACT code1) 0 0 st.wslen (st.ip - st.t) st.t] } := by
  refine ⟨?_, ?_⟩
  · rw [step_neg _ q trp st code he, switchOn_NAME q trp st code _ ha]
    rfl
  · intro code1 d h1
    rw [switchOn_SELFB q trp st code1 d h1]
    rfl

/-- The amended C18 at the end of the identifier of "a+\n". -/
theorem C18_name_like_selfb_witness :
    step (bigfsm true) (fun _ _ => 0) []
        ⟨strsource [97, 43, 10] (fun _ => 0), 1, ID1, 0, 0, [], 0, []⟩
      = .next ⟨strsource [97, 43, 10] (fun _ => 0), 1, START, 1, 0,
          [Token.mk NAME 0 0 0 1 0], 0, []⟩ :=
  (C18_name_like_selfb true (fun _ _ => 0) []
    ⟨strsource [97, 43, 10] (fun _ => 0), 1, ID1, 0, 0, [], 0, []⟩ (ACT NAME S_NAME)
    (by rw [bigfsm_eq]; rfl) (by decide)).1

/-! ## Termination -/

/-- How a call can end: it has returned and the row ends in `NL` or `END`, or
a FATAL error has stopped it. -/
theorem gettokens_ends (cplusplus : Bool) (q : Nat → Nat → Nat) (trp : List Token)
    (s : Source) (reset : Bool) (hwf : s.wf) (n : Nat) (o : Outcome)
    (h : gettokens (bigfsm cplusplus) q n s trp reset = some o) :
    (∃ nmac pre last s1 d, o = .returned nmac (pre ++ [last]) s1 d
        ∧ (last.type = NL ∨ last.type = END))
    ∨ (∃ row s1 d msg, o = .fatal row s1 d ∧ (errtype.FATAL, msg) ∈ d) := by
  rw [bigfsm_eq] at h
  unfold gettokens at h
  cases hr : rewind s reset with
  | none =>
    rw [hr] at h
    simp only [Option.some.injEq] at h
    subst h
    exact Or.inr ⟨_, _, _, _, rfl, List.mem_singleton.mpr rfl⟩
  | some s0 =>
    rw [hr] at h
    obtain ⟨hwf0, -⟩ := rewind_wf s s0 reset hwf hr
    obtain ⟨st, -, -, hdone⟩ := scanLoop_final cplusplus q trp (fun _ => True)
      (fun _ _ _ _ _ => trivial) n (Scan.init s0) _ (init_inv s0 hwf0) trivial h
    cases hdone with
    | eobFatal hc hf =>
      exact Or.inr ⟨_, _, _, _, rfl, List.mem_append_right _ (List.mem_singleton.mpr rfl)⟩
    | eof warn hc hw => exact Or.inl ⟨_, st.row, _, _, _, rfl, Or.inr rfl⟩
    | nl err hc he => exact Or.inl ⟨_, st.row, _, _, _, rfl, Or.inl rfl⟩
    | eofstr hc =>
      exact Or.inr ⟨_, _, _, _, rfl, List.mem_append_right _ (List.mem_singleton.mpr rfl)⟩
    | escFatal hf =>
      exact Or.inr ⟨_, _, _, _, rfl, List.mem_append_right _ (List.mem_singleton.mpr rfl)⟩

/-- Every state that a run on a string source passes through keeps the
invariant and is on a string source. -/
theorem reach_string (cplusplus : Bool) (q : Nat → Nat → Nat) (trp : List Token) (st0 st : Scan)
    (h0 : Inv st0) (hfd : st0.s.fd = none) (hr : Reach (entry cplusplus) q trp st0 st) :
    Inv st ∧ st.s.fd = none := by
  induction hr with
  | start => exact ⟨h0, hfd⟩
  | pass a b _ hs ih =>
    have hr := step_spec cplusplus q trp a ih.1.state_lt ih.1.state_ne
    rw [hs] at hr
    exact ⟨stepR_inv q trp a b ih.1 hr, (stepR_measure q trp a b ih.1 ih.2 hr).2⟩

/-- The number of passes that the loop of `trigraph` and `foldline` can still
make. -/
theorem refill_fuel (d : Nat) : ∀ (k1 k2 : Nat) (s : Source),
    s.inp + d + 1 - s.inl ≤ k1 → s.inp + d + 1 - s.inl ≤ k2 → refill d k1 s = refill d k2 s := by
  intro k1
  induction k1 with
  | zero =>
    intro k2 s h1 _
    have hc : ¬ (s.inp + d ≥ s.inl) := by omega
    cases k2 with
    | zero => rfl
    | succ k2 => rw [refill, refill, if_neg hc]
  | succ k1 ih =>
    intro k2 s h1 h2
    by_cases hc : s.inp + d ≥ s.inl
    · cases k2 with
      | zero => omega
      | succ k2 =>
        rw [refill, refill, if_pos hc, if_pos hc]
        cases hf : fillbuf s with
        | none => rfl
        | some p =>
          obtain ⟨s1, b⟩ := p
          cases b with
          | true => rfl
          | false =>
            obtain ⟨-, -, hinp, -, -, -, hgrow, -⟩ := fillbuf_any s s1 false hf
            have := hgrow rfl
            exact ih k2 s1 (by omega) (by omega)
    · cases k2 with
      | zero => rw [refill, refill, if_neg hc]
      | succ k2 => rw [refill, refill, if_neg hc, if_neg hc]

/-- When the loop of `trigraph` and `foldline` has ended without FATAL, its
condition is false or `fillbuf` has returned `EOF`. -/
theorem refill_ends (d : Nat) : ∀ (k : Nat) (s s1 : Source),
    s.inp + d + 1 - s.inl ≤ k → refill d k s = some s1 →
    ¬ (s1.inp + d ≥ s1.inl) ∨ ∃ s0, fillbuf s0 = some (s1, true) := by
  intro k
  induction k with
  | zero =>
    intro s s1 hk h
    simp only [refill, Option.some.injEq] at h
    subst h
    left; omega
  | succ k ih =>
    intro s s1 hk h
    rw [refill] at h
    by_cases hc : s.inp + d ≥ s.inl
    · rw [if_pos hc] at h
      cases hf : fillbuf s with
      | none => rw [hf] at h; cases h
      | some p =>
        obtain ⟨s', b⟩ := p
        rw [hf] at h
        cases b with
        | true =>
          simp only [Option.some.injEq] at h
          subst h
          exact Or.inr ⟨s, hf⟩
        | false =>
          dsimp only at h
          obtain ⟨-, -, hinp, -, -, -, hgrow, -⟩ := fillbuf_any s s' false hf
          have := hgrow rfl
          exact ih s' s1 (by omega) h
    · rw [if_neg hc] at h
      simp only [Option.some.injEq] at h
      subst h
      left; exact hc

/-- C19: a call of `gettokens` on a well-formed string source, with either
value of `reset`, ends: there is a number of passes of the loop after which it
has returned, the row ending in `NL` or `END`, or has been stopped by a FATAL
error.  Every pass of the loop from a state the call passes through makes
`measure` smaller.  The loop of `trigraph` and `foldline` ends too: the passes
it can make are bounded by `inp + d + 1 - inl`, more fuel does not change its
result, and when it has ended its condition is false or `fillbuf` has returned
`EOF`. -/
theorem C19_scan_terminates (cplusplus : Bool) (q : Nat → Nat → Nat) (trp : List Token)
    (s : Source) (reset : Bool) (hwf : s.wf) (hfd : s.fd = none) :
    (∃ n o, gettokens (bigfsm cplusplus) q n s trp reset = some o
      ∧ ((∃ nmac pre last s1 d, o = .returned nmac (pre ++ [last]) s1 d
            ∧ (last.type = NL ∨ last.type = END))
          ∨ (∃ row s1 d msg, o = .fatal row s1 d ∧ (errtype.FATAL, msg) ∈ d)))
    ∧ (∀ s1 st st1, rewind s reset = some s1 →
        Reach (bigfsm cplusplus) q trp (Scan.init s1) st →
        step (bigfsm cplusplus) q trp st = .next st1 → measure st1 < measure st)
    ∧ (∀ (d k : Nat) (s0 : Source), s0.inp + d + 1 - s0.inl ≤ k →
        refill d k s0 = refill d (s0.inp + d + 1 - s0.inl) s0
        ∧ ∀ s1, refill d k s0 = some s1 →
            ¬ (s1.inp + d ≥ s1.inl) ∨ ∃ s2, fillbuf s2 = some (s1, true)) := by
  refine ⟨?_, ?_, ?_⟩
  · obtain ⟨n, o, h⟩ := gettokens_terminates cplusplus q trp s reset hwf hfd
    exact ⟨n, o, h, gettokens_ends cplusplus q trp s reset hwf n o h⟩
  · intro s1 st st1 hrw hreach hstep
    rw [bigfsm_eq] at hreach hstep
    obtain ⟨hwf1, hfd1⟩ := rewind_wf s s1 reset hwf hrw
    obtain ⟨hinv, hf⟩ := reach_string cplusplus q trp _ st (init_inv s1 hwf1) (hfd1 hfd) hreach
    have hr := step_spec cplusplus q trp st hinv.state_lt hinv.state_ne
    rw [hstep] at hr
    exact (stepR_measure q trp st st1 hinv hf hr).1
  · intro d k s0 hk
    exact ⟨refill_fuel d k _ s0 hk (Nat.le_refl _), fun s1 h => refill_ends d k s0 s1 hk h⟩

/-- C19 at the source made from the string "a\n". -/
theorem C19_scan_terminates_witness :
    (∃ n o, gettokens (bigfsm true) (fun _ _ => 0) n (strsource [97, 10] (fun _ => 0)) [] true
        = some o
      ∧ ((∃ nmac pre last s1 d, o = .returned nmac (pre ++ [last]) s1 d
            ∧ (last.type = NL ∨ last.type = END))
          ∨ (∃ row s1 d msg, o = .fatal row s1 d ∧ (errtype.FATAL, msg) ∈ d)))
    ∧ (∀ s1 st st1, rewind (strsource [97, 10] (fun _ => 0)) true = some s1 →
        Reach (bigfsm true) (fun _ _ => 0) [] (Scan.init s1) st →
        step (bigfsm true) (fun _ _ => 0) [] st = .next st1 → measure st1 < measure st)
    ∧ (∀ (d k : Nat) (s0 : Source), s0.inp + d + 1 - s0.inl ≤ k →
        refill d k s0 = refill d (s0.inp + d + 1 - s0.inl) s0
        ∧ ∀ s1, refill d k s0 = some s1 →
            ¬ (s1.inp + d ≥ s1.inl) ∨ ∃ s2, fillbuf s2 = some (s1, true)) :=
  C19_scan_terminates true (fun _ _ => 0) [] (strsource [97, 10] (fun _ => 0)) true
    (setsource_wf _ _ _) rfl

/-! ## The buffer indices that the substitutions touch -/

/-- Where the bounds-checked `memmove` goes through, it is `memmove`. -/
theorem memmoveIn_some (size : Nat) (m : Nat → Nat) (dst src n : Nat) (r : Nat → Nat)
    (h : memmoveIn size m dst src n = some r) : r = memmove m dst src n := by
  unfold memmoveIn at h
  split at h
  · exact (Option.some.inj h).symm
  · cases h

/-- The bounds-checked `memmove` fails exactly when a range leaves the buffer. -/
theorem memmoveIn_none (size : Nat) (m : Nat → Nat) (dst src n : Nat) :
    memmoveIn size m dst src n = none ↔ 0 < n ∧ (size < dst + n ∨ size < src + n) := by
  unfold memmoveIn
  constructor
  · intro h
    split at h
    · cases h
    · omega
  · intro h
    rw [if_neg (by omega)]

/-- C20 at the inputs "??=\n" and backslash, newline, "x\n": the source range
of the `memmove` of `trigraph` and of `foldline` is `inp+3 .. inl+4` and
`inp+2 .. inl+4`, and on a string source that has not shrunk yet `inl + 4` is
`len + 4`, one past the last index of the buffer.  With bounds-checked
indexing in `len + 4` bytes the access fails; in `len + 5` bytes it does not,
and the functions do what `trigraph` and `foldline` do. -/
theorem C20_memmove_reads_past_buffer :
    strsize [63, 63, 61, 10] = 8
    ∧ trigraphIn 8 (strsource [63, 63, 61, 10] (fun _ => 0)) = none
    ∧ memmoveIn 8 (poke (strsource [63, 63, 61, 10] (fun _ => 0)).inb 0 35) 1 3 6 = none
    ∧ trigraphIn 9 (strsource [63, 63, 61, 10] (fun _ => 0))
        = trigraph (strsource [63, 63, 61, 10] (fun _ => 0))
    ∧ (trigraph (strsource [63, 63, 61, 10] (fun _ => 0))).map Prod.snd = some 35
    ∧ strsize [92, 10, 120, 10] = 8
    ∧ foldlineIn 8 (strsource [92, 10, 120, 10] (fun _ => 0)) = none
    ∧ memmoveIn 8 (strsource [92, 10, 120, 10] (fun _ => 0)).inb 0 2 7 = none
    ∧ foldlineIn 9 (strsource [92, 10, 120, 10] (fun _ => 0))
        = foldline (strsource [92, 10, 120, 10] (fun _ => 0))
    ∧ (foldline (strsource [92, 10, 120, 10] (fun _ => 0))).map Prod.snd = some 1 :=
  ⟨rfl, rfl, rfl, rfl, rfl, rfl, rfl, rfl, rfl, rfl⟩

/-! ## The compaction of a long comment -/

theorem switchOn_COMNL (q : Nat → Nat → Nat) (trp : List Token) (st : Scan) (code : Nat)
    (d : Step) (h : code &&& 0o177 = S_COMNL) :
    switchOn q trp st code d
      = if st.ip + 1 ≥ 7 * INS / 8 then
          .next { st with
            s := { st.s with
                   lineinc := st.s.lineinc + 1,
                   inb := memmove st.s.inb st.t (st.ip + 1) (4 + st.s.inl - (st.ip + 1)),
                   inl := st.s.inl - (st.ip + 1 - st.t) },
            ip := st.t + 1, state := COM2 }
        else .next { st with
            s := { st.s with lineinc := st.s.lineinc + 1 }, ip := st.ip + 1, state := COM2 } := by
  unfold switchOn
  dsimp only
  rw [if_neg (by rw [h]; decide), if_neg (by rw [h]; decide), if_neg (by rw [h]; decide),
    if_neg (by rw [h]; decide), if_neg (by rw [h]; decide), if_neg (by rw [h]; decide),
    if_neg (by rw [h]; decide), if_neg (by rw [h]; decide), if_pos h]

/-- C17, what the code does: when the compaction of `S_COMNL` fires, the
unread bytes, from the byte after the newline up to the sentinels, are moved to
the start `t` of the token, and the cursor is set to `t + 1`.  So the first
unread byte lies below the new cursor and is never scanned: the bytes from the
new cursor on are the old unread bytes without the first. -/
theorem C17_compaction_skips_a_byte (cplusplus : Bool) (q : Nat → Nat → Nat) (trp : List Token)
    (st : Scan) (code : Nat)
    (he : bigfsm cplusplus (st.s.byte st.ip) st.state = Int.negSucc code)
    (ha : code &&& 0o177 = S_COMNL) (hge : st.ip + 1 ≥ 7 * INS / 8)
    (ht : st.t ≤ st.ip) (hin : st.ip + 1 ≤ st.s.inl) :
    ∃ st1, step (bigfsm cplusplus) q trp st = .next st1
      ∧ st1.ip = st.t + 1
      ∧ st1.s.inl = st.s.inl - (st.ip + 1 - st.t)
      ∧ st1.s.inb (st1.ip - 1) = st.s.inb (st.ip + 1)
      ∧ ∀ j, st1.ip + j < st1.s.inl + 4 → st1.s.inb (st1.ip + j) = st.s.inb (st.ip + 1 + 1 + j) := by
  rw [step_neg _ q trp st code he, switchOn_COMNL q trp st code _ ha, if_pos hge]
  refine ⟨_, rfl, rfl, rfl, ?_, ?_⟩
  · show memmove st.s.inb st.t (st.ip + 1) (4 + st.s.inl - (st.ip + 1)) (st.t + 1 - 1) = _
    rw [memmove_apply, if_pos (by omega)]
    congr 1
    omega
  · intro j hj
    have hj' : st.t + 1 + j < st.s.inl - (st.ip + 1 - st.t) + 4 := hj
    show memmove st.s.inb st.t (st.ip + 1) (4 + st.s.inl - (st.ip + 1)) (st.t + 1 + j) = _
    rw [memmove_apply, if_pos (by omega)]
    congr 1
    omega

/-- C17 at a state in a comment whose newline stands at offset `7*INS/8 - 1`,
followed by `*/` and the sentinels: after the pass the cursor stands on the
`/`, and the `*` is below it. -/
theorem C17_compaction_skips_a_byte_witness :
    ∃ st1, step (bigfsm true) (fun _ _ => 0) []
        ⟨⟨fun i => if i = 28671 then 10 else if i = 28672 then 42 else if i = 28673 then 47
            else if i < 28671 then 97 else 254, 0, 28674, 0, none⟩,
          28671, COM2, 0, 0, [], 0, []⟩ = .next st1
      ∧ st1.ip = 0 + 1
      ∧ st1.s.inl = 28674 - (28671 + 1 - 0)
      ∧ st1.s.inb (st1.ip - 1) = 42
      ∧ ∀ j, st1.ip + j < st1.s.inl + 4 → st1.s.inb (st1.ip + j)
          = (fun i => if i = 28671 then 10 else if i = 28672 then 42 else if i = 28673 then 47
              else if i < 28671 then 97 else 254) (28671 + 1 + 1 + j) :=
  C17_compaction_skips_a_byte true (fun _ _ => 0) []
    ⟨⟨fun i => if i = 28671 then 10 else if i = 28672 then 42 else if i = 28673 then 47
        else if i < 28671 then 97 else 254, 0, 28674, 0, none⟩,
      28671, COM2, 0, 0, [], 0, []⟩ S_COMNL (by rw [bigfsm_eq]; rfl) (by decide) (by decide)
    (by decide) (by decide)

/-! ## Literals that are not closed -/

theorem lit_rows (cplusplus : Bool) (c : Nat) (hc : c < 256) :
    (c = 34 → entry cplusplus c START = Int.ofNat ST2)
    ∧ (c = 39 → entry cplusplus c START = Int.ofNat CC1)
    ∧ (c ≠ 34 ∧ c ≠ 92 ∧ c ≠ 63 ∧ c ≠ 10 ∧ c ≠ 253 ∧ c ≠ 254 →
        entry cplusplus c ST2 = Int.ofNat ST2)
    ∧ (c ≠ 39 ∧ c ≠ 92 ∧ c ≠ 63 ∧ c ≠ 10 ∧ c ≠ 253 ∧ c ≠ 254 →
        entry cplusplus c CC1 = Int.ofNat CC1) := by
  rw [entry_row cplusplus c START (by decide), entry_row cplusplus c ST2 (by decide),
    entry_row cplusplus c CC1 (by decide)]
  exact lit_rows_true c hc

theorem lit_ends (cplusplus : Bool) :
    (entry cplusplus 10 ST2 = Int.negSucc S_STNL ∧ entry cplusplus 10 CC1 = Int.negSucc S_STNL
      ∧ entry cplusplus 10 ST3 = Int.negSucc S_STNL ∧ entry cplusplus 10 CC2 = Int.negSucc S_STNL)
    ∧ (entry cplusplus 253 ST2 = Int.negSucc S_EOFSTR
      ∧ entry cplusplus 253 CC1 = Int.negSucc S_EOFSTR)
    ∧ (entry cplusplus 254 ST2 = Int.negSucc S_EOB ∧ entry cplusplus 254 CC1 = Int.negSucc S_EOB) := by
  rw [entry_row cplusplus 10 ST2 (by decide), entry_row cplusplus 10 CC1 (by decide),
    entry_row cplusplus 10 ST3 (by decide), entry_row cplusplus 10 CC2 (by decide),
    entry_row cplusplus 253 ST2 (by decide), entry_row cplusplus 253 CC1 (by decide),
    entry_row cplusplus 254 ST2 (by decide), entry_row cplusplus 254 CC1 (by decide)]
  exact lit_ends_true

theorem quote_rows (cplusplus : Bool) (qt L : Nat) (hq : Quote qt L) :
    entry cplusplus qt START = Int.ofNat L
    ∧ (∀ c, Plain qt c → entry cplusplus c L = Int.ofNat L)
    ∧ entry cplusplus 10 L = Int.negSucc S_STNL
    ∧ entry cplusplus 253 L = Int.negSucc S_EOFSTR
    ∧ entry cplusplus 254 L = Int.negSucc S_EOB := by
  have he := lit_ends cplusplus
  rcases hq with ⟨h1, h2⟩ | ⟨h1, h2⟩
  · subst h1; subst h2
    refine ⟨(lit_rows cplusplus 34 (by decide)).1 rfl, ?_, he.1.1, he.2.1.1, he.2.2.1⟩
    intro c hc
    obtain ⟨h256, -, hq, h92, h63, h10, h253, h254⟩ := hc
    exact (lit_rows cplusplus c h256).2.2.1 ⟨hq, h92, h63, h10, h253, h254⟩
  · subst h1; subst h2
    refine ⟨(lit_rows cplusplus 39 (by decide)).2.1 rfl, ?_, he.1.2.1, he.2.1.2, he.2.2.2⟩
    intro c hc
    obtain ⟨h256, -, hq, h92, h63, h10, h253, h254⟩ := hc
    exact (lit_rows cplusplus c h256).2.2.2 ⟨hq, h92, h63, h10, h253, h254⟩

/-- The scan of an opening quote and of the body of the literal. -/
theorem literal_run (cplusplus : Bool) (q : Nat → Nat → Nat) (trp : List Token)
    (qt L : Nat) (hq : Quote qt L) (body : List Nat) (hbody : ∀ c ∈ body, Plain qt c)
    (src : Source) (hi : src.inp = 0) (hh : Holds src.inb 0 (qt :: body)) (n : Nat) :
    scanLoop (entry cplusplus) q trp (n + body.length + 1) (Scan.init src)
      = scanLoop (entry cplusplus) q trp n ⟨src, body.length + 1, L, 0, 0, [], 0, []⟩ := by
  obtain ⟨hstart, hplain, -⟩ := quote_rows cplusplus qt L hq
  obtain ⟨hh0, hhb⟩ := (holds_cons _ _ _ _).mp hh
  have hq256 : qt < 256 := by rcases hq with ⟨h, -⟩ | ⟨h, -⟩ <;> omega
  have hinit : Scan.init src = ⟨src, 0, START, 0, 0, [], 0, []⟩ := by
    unfold Scan.init; rw [hi]
  have hstep0 : step (entry cplusplus) q trp ⟨src, 0, START, 0, 0, [], 0, []⟩
      = .next ⟨src, 0 + 1, L, 0, 0, [], 0, []⟩ :=
    step_cont _ q trp _ L (by
      show entry cplusplus (src.inb 0 % 256) START = _
      rw [hh0, Nat.mod_eq_of_lt hq256]
      exact hstart)
  obtain ⟨k, hk, hrun⟩ := run_absorb (entry cplusplus) q trp
    (fun s => s = L) (fun c => Plain qt c)
    (by
      intro s c hs hc
      rw [hs]
      exact ⟨L, hplain c hc, rfl⟩)
    body ⟨src, 0 + 1, L, 0, 0, [], 0, []⟩ rfl (fun c hc => ⟨hbody c hc, (hbody c hc).1⟩) hhb
  have hk : k = L := hk
  subst hk
  rw [hinit, scanLoop_next _ q trp _ _ _ hstep0, hrun]
  have e : 0 + 1 + body.length = body.length + 1 := by omega
  show scanLoop (entry cplusplus) q trp n ⟨src, 0 + 1 + body.length, k, 0, 0, [], 0, []⟩ = _
  rw [e]

theorem cstring_literal (qt L : Nat) (hq : Quote qt L) (body rest : List Nat)
    (hbody : ∀ c ∈ body, Plain qt c) (hrest : CString rest) : CString (qt :: body ++ rest) := by
  intro b hb
  rcases List.mem_cons.mp hb with h | h
  · rcases hq with ⟨h1, -⟩ | ⟨h1, -⟩ <;> omega
  · rcases List.mem_append.mp h with h | h
    · exact ⟨(hbody b h).1, (hbody b h).2.1⟩
    · exact hrest b h

/-- A newline in a literal: the call reports the ERROR and returns the row
with the token `NL` alone. -/
theorem literal_newline (cplusplus : Bool) (q : Nat → Nat → Nat) (trp : List Token)
    (heap : Nat → Nat) (reset : Bool) (qt L : Nat) (hq : Quote qt L) (body rest : List Nat)
    (hbody : ∀ c ∈ body, Plain qt c) (hrest : CString rest) :
    gettokens (bigfsm cplusplus) q (body.length + 2) (strsource (qt :: body ++ 10 :: rest) heap)
        trp reset
      = some (.returned 0 [Token.mk NL 0 0 0 1 (body.length + 1)]
          { strsource (qt :: body ++ 10 :: rest) heap with
            lineinc := 1, inp := body.length + 2 }
          [(errtype.ERROR, "Unterminated string or char const")]) := by
  have hcs : CString (qt :: body ++ 10 :: rest) :=
    cstring_literal qt L hq body (10 :: rest) hbody (by
      intro b hb
      rcases List.mem_cons.mp hb with h | h
      · omega
      · exact hrest b h)
  have hh := strsource_holds _ heap hcs
  rw [bigfsm_eq]
  unfold gettokens
  rw [rewind_strsource _ heap reset hcs (List.cons_ne_nil _ _)]
  dsimp only
  generalize hsrc : strsource (qt :: body ++ 10 :: rest) heap = src at hh ⊢
  have hl0 : src.lineinc = 0 := by rw [← hsrc]; rfl
  have hi0 : src.inp = 0 := by rw [← hsrc]; rfl
  have hh' : Holds src.inb 0 ((qt :: body) ++ 10 :: rest) := hh
  obtain ⟨hhq, hhn⟩ := (holds_append _ _ _ _).mp hh'
  rw [show body.length + 2 = 1 + body.length + 1 by omega,
    literal_run cplusplus q trp qt L hq body hbody src hi0 hhq 1]
  have hb : src.inb (body.length + 1) % 256 = 10 := by
    have := byte_of_holds hhn (by decide)
    rw [show 0 + (qt :: body).length = body.length + 1 by simp] at this
    exact this
  have hstep : step (entry cplusplus) q trp ⟨src, body.length + 1, L, 0, 0, [], 0, []⟩
      = .done (.returned 0 ([] ++ [Token.mk NL 0 0 0 1 (body.length + 1)])
          { src with lineinc := src.lineinc + 1, inp := body.length + 1 + 1 }
          ([] ++ [(errtype.ERROR, "Unterminated string or char const")])) := by
    rw [step_neg (entry cplusplus) q trp _ S_STNL
      (by show entry cplusplus (src.inb (body.length + 1) % 256) L = _; rw [hb]
          exact (quote_rows cplusplus qt L hq).2.2.1)]
    exact switchOn_STNL q trp _ _ _ (by decide)
  rw [scanLoop_done _ q trp 0 _ _ hstep, hl0,
    show 1 + body.length + 1 = body.length + 1 + 1 by omega]
  rfl

theorem strsource_EOB (str : List Nat) (heap : Nat → Nat) (h : CString str) :
    (strsource str heap).inb str.length = EOB := by
  show (if str.length < strlen str then str.getD str.length 0
    else if str.length < strlen str + 2 then EOB else heap str.length) = _
  rw [strlen_eq str h, if_neg (by omega), if_pos (by omega)]

theorem fillbuf_room (s : Source) (h : ¬ (s.inl + INS / 8 > INS)) :
    ∃ s1 b, fillbuf s = some (s1, b) := by
  unfold fillbuf
  rw [if_neg h]
  dsimp only
  split
  · exact ⟨_, _, rfl⟩
  · exact ⟨_, _, rfl⟩

/-- The end of input in a literal of a text of at most `7 * INS / 8` bytes:
the call stops at the FATAL "EOF in string or char constant". -/
theorem literal_eof (cplusplus : Bool) (q : Nat → Nat → Nat) (trp : List Token)
    (heap : Nat → Nat) (reset : Bool) (qt L : Nat) (hq : Quote qt L) (body : List Nat)
    (hbody : ∀ c ∈ body, Plain qt c) (hlen : body.length + 1 ≤ 7 * INS / 8) :
    ∃ s1, gettokens (bigfsm cplusplus) q (body.length + 3) (strsource (qt :: body) heap)
        trp reset
      = some (.fatal [] s1 [(errtype.FATAL, "EOF in string or char constant")]) := by
  have hcs : CString (qt :: body) := by
    have := cstring_literal qt L hq body [] hbody (fun b hb => absurd hb (List.not_mem_nil b))
    rw [List.append_nil] at this
    exact this
  have hh := strsource_holds _ heap hcs
  have hinl := strsource_inl _ heap hcs
  have heob := strsource_EOB _ heap hcs
  have hfd : (strsource (qt :: body) heap).fd = none := rfl
  rw [bigfsm_eq]
  unfold gettokens
  rw [rewind_strsource _ heap reset hcs (List.cons_ne_nil _ _)]
  dsimp only
  generalize hsrc : strsource (qt :: body) heap = src at hh hinl heob hfd ⊢
  have hi0 : src.inp = 0 := by rw [← hsrc]; rfl
  rw [List.length_cons] at hinl heob
  rw [show body.length + 3 = 2 + body.length + 1 by omega,
    literal_run cplusplus q trp qt L hq body hbody src hi0 hh 2]
  have hb : src.byte (body.length + 1) = 254 := by
    unfold Source.byte; rw [heob]; rfl
  obtain ⟨-, -, -, heofstr, heobrow⟩ := quote_rows cplusplus qt L hq
  have hov : ¬ ((Source.mk src.inb (body.length + 1) src.inl src.lineinc src.fd).inl
      + INS / 8 > INS) := by
    show ¬ (src.inl + INS / 8 > INS)
    rw [hinl]
    have : INS = 32768 := rfl
    omega
  obtain ⟨s1, b, hf⟩ := fillbuf_room _ hov
  have hmain : ∃ s1, scanLoop (entry cplusplus) q trp 2
      ⟨src, body.length + 1, L, 0, 0, [], 0, []⟩
      = some (.fatal [] s1 [(errtype.FATAL, "EOF in string or char constant")]) := by
    obtain ⟨-, -, -, -, -, -, -, hstr⟩ := fillbuf_any _ s1 b hf
    obtain ⟨-, -, hpoke⟩ := hstr hfd
    have hb1 : s1.byte (body.length + 1) = 253 := by
      unfold Source.byte
      rw [hpoke hb]; rfl
    have hstep1 : step (entry cplusplus) q trp ⟨src, body.length + 1, L, 0, 0, [], 0, []⟩
        = .next ⟨s1, body.length + 1, L, 0, 0, [], 0, []⟩ := by
      rw [step_neg (entry cplusplus) q trp _ S_EOB
        (by show entry cplusplus (src.byte (body.length + 1)) L = _; rw [hb]; exact heobrow)]
      rw [switchOn_EOB q trp _ _ _ (by decide)]
      dsimp only
      rw [hf]
    have hstep2 : step (entry cplusplus) q trp ⟨s1, body.length + 1, L, 0, 0, [], 0, []⟩
        = .done (.fatal [] s1 ([] ++ [(errtype.FATAL, "EOF in string or char constant")])) := by
      rw [step_neg (entry cplusplus) q trp _ S_EOFSTR
        (by show entry cplusplus (s1.byte (body.length + 1)) L = _; rw [hb1]; exact heofstr)]
      exact switchOn_EOFSTR q trp _ _ _ (by decide)
    refine ⟨s1, ?_⟩
    rw [scanLoop_next _ q trp 1 _ _ hstep1, scanLoop_done _ q trp 0 _ _ hstep2]
    rfl
  exact hmain

/-- The end of input in a literal of a text of more than `7 * INS / 8` bytes:
`fillbuf` finds no room for a chunk and the call stops at the FATAL "Input
buffer overflow". -/
theorem literal_overflow (cplusplus : Bool) (q : Nat → Nat → Nat) (trp : List Token)
    (heap : Nat → Nat) (reset : Bool) (qt L : Nat) (hq : Quote qt L) (body : List Nat)
    (hbody : ∀ c ∈ body, Plain qt c) (hlen : 7 * INS / 8 < body.length + 1) :
    gettokens (bigfsm cplusplus) q (body.length + 2) (strsource (qt :: body) heap) trp reset
      = some (.fatal [] { strsource (qt :: body) heap with inp := body.length + 1 }
          [(errtype.FATAL, "Input buffer overflow")]) := by
  have hcs : CString (qt :: body) := by
    have := cstring_literal qt L hq body [] hbody (fun b hb => absurd hb (List.not_mem_nil b))
    rw [List.append_nil] at this
    exact this
  have hh := strsource_holds _ heap hcs
  have hinl := strsource_inl _ heap hcs
  have heob := strsource_EOB _ heap hcs
  rw [bigfsm_eq]
  unfold gettokens
  rw [rewind_strsource _ heap reset hcs (List.cons_ne_nil _ _)]
  dsimp only
  generalize hsrc : strsource (qt :: body) heap = src at hh hinl heob ⊢
  have hi0 : src.inp = 0 := by rw [← hsrc]; rfl
  rw [List.length_cons] at hinl heob
  rw [show body.length + 2 = 1 + body.length + 1 by omega,
    literal_run cplusplus q trp qt L hq body hbody src hi0 hh 1]
  have hb : src.byte (body.length + 1) = 254 := by
    unfold Source.byte; rw [heob]; rfl
  obtain ⟨-, -, -, -, heobrow⟩ := quote_rows cplusplus qt L hq
  have hov : (Source.mk src.inb (body.length + 1) src.inl src.lineinc src.fd).inl
      + INS / 8 > INS := by
    show src.inl + INS / 8 > INS
    rw [hinl]
    have : INS = 32768 := rfl
    omega
  have hf : fillbuf (Source.mk src.inb (body.length + 1) src.inl src.lineinc src.fd) = none := by
    unfold fillbuf
    rw [if_pos hov]
  have hstep1 : step (entry cplusplus) q trp ⟨src, body.length + 1, L, 0, 0, [], 0, []⟩
      = .done (.fatal [] (Source.mk src.inb (body.length + 1) src.inl src.lineinc src.fd)
          ([] ++ [(errtype.FATAL, "Input buffer overflow")])) := by
    rw [step_neg (entry cplusplus) q trp _ S_EOB
      (by show entry cplusplus (src.byte (body.length + 1)) L = _; rw [hb]; exact heobrow)]
    rw [switchOn_EOB q trp _ _ _ (by decide)]
    dsimp only
    rw [hf]
  rw [scanLoop_done _ q trp 0 _ _ hstep1]
  rfl

/-! ## What a call makes of a literal that is not closed -/

theorem plain_replicate (qt c n : Nat) (hc : Plain qt c) : ∀ b ∈ List.replicate n c, Plain qt b := by
  intro b hb
  rw [List.eq_of_mem_replicate hb]
  exact hc

/-- C8, refuted at two inputs.  At a quote followed by 28672 bytes `a` and the
end of input the only diagnostic is the FATAL "Input buffer overflow" of
`fillbuf`, not "EOF in string or char constant".  At a quote, the byte `0xFD`
and a newline, the byte is taken for the end of input: the call stops at the
FATAL "EOF in string or char constant" although a newline follows the body. -/
theorem C8_literal_counterexamples :
    gettokens (bigfsm true) (fun _ _ => 0) 28674
        (strsource (39 :: List.replicate 28672 97) (fun _ => 0)) [] true
      = some (.fatal [] { strsource (39 :: List.replicate 28672 97) (fun _ => 0) with inp := 28673 }
          [(errtype.FATAL, "Input buffer overflow")])
    ∧ (gettokens (bigfsm true) (fun _ _ => 0) 8 (strsource [39, 253, 10] (fun _ => 0))
        [] true).map (fun o => (o.row, o.diags))
      = some ([], [(errtype.FATAL, "EOF in string or char constant")]) := by
  refine ⟨?_, ?_⟩
  · have h := literal_overflow true (fun _ _ => 0) [] (fun _ => 0) true 39 CC1 (Or.inr ⟨rfl, rfl⟩)
      (List.replicate 28672 97)
      (plain_replicate 39 97 28672 (by unfold Plain; decide))
      (by rw [List.length_replicate]; decide)
    rw [List.length_replicate] at h
    exact h
  · rw [bigfsm_eq]
    rfl

/-- C8 as amended: on a string source whose text is a quote (`"` or `'`)
followed by a body without the same quote, `?`, backslash, newline and
sentinel bytes: if a newline follows the body, `gettokens` reports the one
diagnostic ERROR "Unterminated string or char const" and returns the row with
the token `NL` of length 1 on that newline, the cursor just past it; if the end
of input follows the body and the text has at most `7 * INS / 8` bytes, it
stops at the FATAL "EOF in string or char constant"; and if the text is longer,
at the FATAL "Input buffer overflow" of `fillbuf`. -/
theorem C8_unterminated_literal (cplusplus : Bool) (q : Nat → Nat → Nat) (trp : List Token)
    (heap : Nat → Nat) (reset : Bool) (qt L : Nat) (hq : Quote qt L) (body rest : List Nat)
    (hbody : ∀ c ∈ body, Plain qt c) (hrest : CString rest) :
    gettokens (bigfsm cplusplus) q (body.length + 2) (strsource (qt :: body ++ 10 :: rest) heap)
        trp reset
      = some (.returned 0 [Token.mk NL 0 0 0 1 (body.length + 1)]
          { strsource (qt :: body ++ 10 :: rest) heap with
            lineinc := 1, inp := body.length + 2 }
          [(errtype.ERROR, "Unterminated string or char const")])
    ∧ (body.length + 1 ≤ 7 * INS / 8 →
        ∃ s1, gettokens (bigfsm cplusplus) q (body.length + 3) (strsource (qt :: body) heap)
            trp reset
          = some (.fatal [] s1 [(errtype.FATAL, "EOF in string or char constant")]))
    ∧ (7 * INS / 8 < body.length + 1 →
        gettokens (bigfsm cplusplus) q (body.length + 2) (strsource (qt :: body) heap) trp reset
          = some (.fatal [] { strsource (qt :: body) heap with inp := body.length + 1 }
              [(errtype.FATAL, "Input buffer overflow")])) :=
  ⟨literal_newline cplusplus q trp heap reset qt L hq body rest hbody hrest,
    literal_eof cplusplus q trp heap reset qt L hq body hbody,
    literal_overflow cplusplus q trp heap reset qt L hq body hbody⟩

/-- The amended C8 at the texts "'a\n" and "'a". -/
theorem C8_unterminated_literal_witness :
    gettokens (bigfsm true) (fun _ _ => 0) ([97].length + 2)
        (strsource (39 :: [97] ++ 10 :: []) (fun _ => 0)) [] true
      = some (.returned 0 [Token.mk NL 0 0 0 1 ([97].length + 1)]
          { strsource (39 :: [97] ++ 10 :: []) (fun _ => 0) with
            lineinc := 1, inp := [97].length + 2 }
          [(errtype.ERROR, "Unterminated string or char const")])
    ∧ ([97].length + 1 ≤ 7 * INS / 8 →
        ∃ s1, gettokens (bigfsm true) (fun _ _ => 0) ([97].length + 3)
            (strsource (39 :: [97]) (fun _ => 0)) [] true
          = some (.fatal [] s1 [(errtype.FATAL, "EOF in string or char constant")]))
    ∧ (7 * INS / 8 < [97].length + 1 →
        gettokens (bigfsm true) (fun _ _ => 0) ([97].length + 2)
            (strsource (39 :: [97]) (fun _ => 0)) [] true
          = some (.fatal [] { strsource (39 :: [97]) (fun _ => 0) with inp := [97].length + 1 }
              [(errtype.FATAL, "Input buffer overflow")])) :=
  C8_unterminated_literal true (fun _ _ => 0) [] (fun _ => 0) true 39 CC1 (Or.inr ⟨rfl, rfl⟩)
    [97] []
    (by intro c hc; rw [List.mem_singleton] at hc; subst hc; unfold Plain; decide)
    (fun b hb => absurd hb (List.not_mem_nil b))

/-! ## A newline in a literal -/

/-- C9, refuted at the input "'a\n": the row that the call returns is the
token `NL` alone, on the newline at offset 2; no token holds the two bytes of
the literal. -/
theorem C9_literal_is_dropped :
    (gettokens (bigfsm true) (fun _ _ => 0) 8 (strsource [39, 97, 10] (fun _ => 0))
        [] true).map (fun o => (o.row, o.diags))
      = some ([Token.mk NL 0 0 0 1 2],
          [(errtype.ERROR, "Unterminated string or char const")]) := by
  rw [bigfsm_eq]
  rfl

/-- C9 as amended: when a newline arrives inside an open string or character
literal (state `ST2`, `ST3`, `CC1` or `CC2`), the call reports the ERROR
"Unterminated string or char const" and returns; the token that was being
scanned is not emitted with the bytes of the literal but becomes the token `NL`
itself, of length 1 and without whitespace prefix, on the newline; the tokens
appended before it are kept, and the cursor is left just past the newline. -/
theorem C9_newline_in_literal (cplusplus : Bool) (q : Nat → Nat → Nat) (trp : List Token)
    (st : Scan)
    (hs : st.state = ST2 ∨ st.state = ST3 ∨ st.state = CC1 ∨ st.state = CC2)
    (hb : st.s.byte st.ip = 10) :
    step (bigfsm cplusplus) q trp st
      = .done (.returned st.nmac (st.row ++ [Token.mk NL 0 0 0 1 st.ip])
          { st.s with lineinc := st.s.lineinc + 1, inp := st.ip + 1 }
          (st.diags ++ [(errtype.ERROR, "Unterminated string or char const")])) := by
  have he : entry cplusplus (st.s.byte st.ip) st.state = Int.negSucc S_STNL := by
    rw [hb]
    have h := (lit_ends cplusplus).1
    rcases hs with h1 | h1 | h1 | h1 <;> rw [h1]
    · exact h.1
    · exact h.2.2.1
    · exact h.2.1
    · exact h.2.2.2
  rw [bigfsm_eq, step_neg _ q trp st S_STNL he]
  exact switchOn_STNL q trp st _ _ (by decide)

/-- The amended C9 at the newline of "'a\n". -/
theorem C9_newline_in_literal_witness :
    step (bigfsm true) (fun _ _ => 0) []
        ⟨strsource [39, 97, 10] (fun _ => 0), 2, CC1, 0, 0, [], 0, []⟩
      = .done (.returned 0 ([] ++ [Token.mk NL 0 0 0 1 2])
          { strsource [39, 97, 10] (fun _ => 0) with lineinc := 0 + 1, inp := 2 + 1 }
          ([] ++ [(errtype.ERROR, "Unterminated string or char const")])) :=
  C9_newline_in_literal true (fun _ _ => 0) []
    ⟨strsource [39, 97, 10] (fun _ => 0), 2, CC1, 0, 0, [], 0, []⟩ (Or.inr (Or.inr (Or.inl rfl)))
    rfl

/-! ## Comments -/

set_option maxRecDepth 1000000 in
theorem com_rows_true : ∀ c < 256,
    (c = 42 → entry true c COM1 = Int.ofNat COM2 ∧ entry true c COM2 = Int.ofNat COM3
        ∧ entry true c COM3 = Int.ofNat COM3)
    ∧ (c ≠ 42 ∧ c ≠ 10 ∧ c ≠ 63 ∧ c ≠ 92 ∧ c ≠ 253 ∧ c ≠ 254 → entry true c COM2 = Int.ofNat COM2)
    ∧ (c ≠ 42 ∧ c ≠ 47 ∧ c ≠ 10 ∧ c ≠ 63 ∧ c ≠ 92 ∧ c ≠ 253 ∧ c ≠ 254 →
        entry true c COM3 = Int.ofNat COM2) := by
  decide!

theorem com_ends_true :
    (entry true 47 START = Int.ofNat COM1 ∧ entry true 47 COM3 = Int.negSucc S_COMMENT)
    ∧ (entry true 10 COM2 = Int.negSucc S_COMNL ∧ entry true 10 COM3 = Int.negSucc S_COMNL)
    ∧ (entry true 254 COM2 = Int.negSucc S_EOB ∧ entry true 254 START = Int.negSucc S_EOB)
    ∧ (entry true 253 COM2 = Int.negSucc S_EOFCOM ∧ entry true 253 START = Int.negSucc S_EOF) := by
  decide!

theorem entry_byte (cplusplus : Bool) (c s : Nat) (hc : c ≠ 47) :
    entry cplusplus c s = entry true c s := by
  cases cplusplus with
  | true => rfl
  | false => exact entry_false c s (fun h => hc h.1)

theorem com_rows (cplusplus : Bool) (c : Nat) (hc : c < 256) :
    (c = 42 → entry cplusplus c COM1 = Int.ofNat COM2 ∧ entry cplusplus c COM2 = Int.ofNat COM3
        ∧ entry cplusplus c COM3 = Int.ofNat COM3)
    ∧ (c ≠ 42 ∧ c ≠ 10 ∧ c ≠ 63 ∧ c ≠ 92 ∧ c ≠ 253 ∧ c ≠ 254 →
        entry cplusplus c COM2 = Int.ofNat COM2)
    ∧ (c ≠ 42 ∧ c ≠ 47 ∧ c ≠ 10 ∧ c ≠ 63 ∧ c ≠ 92 ∧ c ≠ 253 ∧ c ≠ 254 →
        entry cplusplus c COM3 = Int.ofNat COM2) := by
  have h := com_rows_true c hc
  rw [entry_row cplusplus c COM2 (by decide), entry_row cplusplus c COM3 (by decide)]
  refine ⟨?_, h.2⟩
  intro h42
  rw [entry_byte cplusplus c COM1 (by omega)]
  exact h.1 h42

theorem com_ends (cplusplus : Bool) :
    (entry cplusplus 47 START = Int.ofNat COM1 ∧ entry cplusplus 47 COM3 = Int.negSucc S_COMMENT)
    ∧ (entry cplusplus 10 COM2 = Int.negSucc S_COMNL ∧ entry cplusplus 10 COM3 = Int.negSucc S_COMNL)
    ∧ (entry cplusplus 254 COM2 = Int.negSucc S_EOB
      ∧ entry cplusplus 254 START = Int.negSucc S_EOB)
    ∧ (entry cplusplus 253 COM2 = Int.negSucc S_EOFCOM
      ∧ entry cplusplus 253 START = Int.negSucc S_EOF) := by
  rw [entry_row cplusplus 47 START (by decide), entry_row cplusplus 47 COM3 (by decide),
    entry_row cplusplus 10 COM2 (by decide), entry_row cplusplus 10 COM3 (by decide),
    entry_row cplusplus 254 COM2 (by decide), entry_row cplusplus 254 START (by decide),
    entry_row cplusplus 253 COM2 (by decide), entry_row cplusplus 253 START (by decide)]
  exact com_ends_true

theorem switchOn_EOFCOM (q : Nat → Nat → Nat) (trp : List Token) (st : Scan) (code : Nat)
    (d : Step) (h : code &&& 0o177 = S_EOFCOM) :
    switchOn q trp st code d
      = .next { st with
          s := { st.s with inb := if st.ip = 0 then st.s.inb else poke st.s.inb (st.ip - 1) 32 },
          ip := st.ip, t := st.ip, wslen := 1, state := START,
          diags := st.diags ++ [(errtype.WARNING, "EOF inside comment")] } := by
  unfold switchOn
  dsimp only
  rw [if_neg (by rw [h]; decide), if_neg (by rw [h]; decide), if_neg (by rw [h]; decide),
    if_neg (by rw [h]; decide), if_neg (by rw [h]; decide), if_neg (by rw [h]; decide),
    if_neg (by rw [h]; decide), if_neg (by rw [h]; decide), if_neg (by rw [h]; decide),
    if_pos (Or.inl h), if_pos h, if_pos h]

theorem switchOn_COMMENT (q : Nat → Nat → Nat) (trp : List Token) (st : Scan) (code : Nat)
    (d : Step) (h : code &&& 0o177 = S_COMMENT) :
    switchOn q trp st code d
      = .next { st with
          s := { st.s with inb := poke st.s.inb st.ip 32 },
          ip := st.ip + 1, t := st.ip + 1, wslen := 1, state := START } := by
  unfold switchOn
  dsimp only
  rw [if_neg (by rw [h]; decide), if_neg (by rw [h]; decide), if_neg (by rw [h]; decide),
    if_neg (by rw [h]; decide), if_neg (by rw [h]; decide), if_neg (by rw [h]; decide),
    if_neg (by rw [h]; decide), if_neg (by rw [h]; decide), if_neg (by rw [h]; decide),
    if_pos (Or.inr h)]
  have hne : ¬ (code &&& 0o177 = S_EOFCOM) := by rw [h]; decide
  simp only [if_neg hne, Nat.add_sub_cancel, List.append_nil, Nat.add_one_ne_zero, if_false]

theorem switchOn_EOF (q : Nat → Nat → Nat) (trp : List Token) (st : Scan) (code : Nat)
    (d : Step) (h : code &&& 0o177 = S_EOF) (hfd : st.s.fd = none) :
    switchOn q trp st code d
      = .done (.returned st.nmac
          (st.row ++ [Token.mk END 0 0 st.wslen 0 st.t]) { st.s with inp := st.ip } st.diags) := by
  unfold switchOn
  dsimp only
  rw [if_neg (by rw [h]; decide), if_neg (by rw [h]; decide), if_neg (by rw [h]; decide),
    if_neg (by rw [h]; decide), if_neg (by rw [h]; decide), if_pos h,
    if_neg (fun hh => hh.2.2 hfd), List.append_nil]

/-- The end of a scan that stands in a comment when the input runs out: the
warning, and `END` with the whitespace prefix of one byte. -/
theorem comment_eof (cplusplus : Bool) (q : Nat → Nat → Nat) (trp : List Token) (st : Scan)
    (hs : st.state = COM2) (hb : st.s.byte st.ip = 254) (hfd : st.s.fd = none)
    (hinl : st.s.inl + INS / 8 ≤ INS) :
    (scanLoop (entry cplusplus) q trp 3 st).map Outcome.view
      = some (true, st.row ++ [Token.mk END 0 0 1 0 st.ip],
          st.diags ++ [(errtype.WARNING, "EOF inside comment")], st.s.lineinc) := by
  obtain ⟨s, ip, state, t, wslen, row, nmac, diags⟩ := st
  dsimp only at hs hb hfd hinl ⊢
  subst hs
  have hr254 := (com_ends cplusplus).2.2.1
  have hr253 := (com_ends cplusplus).2.2.2
  have hov : ¬ ((Source.mk s.inb ip s.inl s.lineinc s.fd).inl + INS / 8 > INS) := by
    show ¬ (s.inl + INS / 8 > INS)
    omega
  obtain ⟨s1, b, hf⟩ := fillbuf_room _ hov
  obtain ⟨hline, -, -, -, -, -, -, hstr⟩ := fillbuf_any _ s1 b hf
  obtain ⟨hfd1, -, hpoke⟩ := hstr hfd
  have hb1 : s1.byte ip = 253 := by
    unfold Source.byte
    rw [hpoke hb]; rfl
  have hstep1 : step (entry cplusplus) q trp ⟨s, ip, COM2, t, wslen, row, nmac, diags⟩
      = .next ⟨s1, ip, COM2, t, wslen, row, nmac, diags⟩ := by
    rw [step_neg (entry cplusplus) q trp _ S_EOB
      (by show entry cplusplus (s.byte ip) COM2 = _; rw [hb]; exact hr254.1)]
    rw [switchOn_EOB q trp _ _ _ (by decide)]
    dsimp only
    rw [hf]
  have hstep2 : step (entry cplusplus) q trp ⟨s1, ip, COM2, t, wslen, row, nmac, diags⟩
      = .next ⟨{ s1 with inb := if ip = 0 then s1.inb else poke s1.inb (ip - 1) 32 }, ip, START,
          ip, 1, row, nmac, diags ++ [(errtype.WARNING, "EOF inside comment")]⟩ := by
    rw [step_neg (entry cplusplus) q trp _ S_EOFCOM
      (by show entry cplusplus (s1.byte ip) COM2 = _; rw [hb1]; exact hr253.1)]
    exact switchOn_EOFCOM q trp _ _ _ (by decide)
  have hb2 : (if ip = 0 then s1.inb else poke s1.inb (ip - 1) 32) ip % 256 = 253 := by
    by_cases h0 : ip = 0
    · rw [if_pos h0]; exact hb1
    · rw [if_neg h0, poke_apply, if_neg (by omega)]; exact hb1
  have hstep3 : step (entry cplusplus) q trp
      ⟨{ s1 with inb := if ip = 0 then s1.inb else poke s1.inb (ip - 1) 32 }, ip, START,
          ip, 1, row, nmac, diags ++ [(errtype.WARNING, "EOF inside comment")]⟩
      = .done (.returned nmac (row ++ [Token.mk END 0 0 1 0 ip])
          { inb := if ip = 0 then s1.inb else poke s1.inb (ip - 1) 32, inp := ip, inl := s1.inl,
            lineinc := s1.lineinc, fd := s1.fd }
          (diags ++ [(errtype.WARNING, "EOF inside comment")])) := by
    rw [step_neg (entry cplusplus) q trp _ S_EOF
      (by
        show entry cplusplus ((if ip = 0 then s1.inb else poke s1.inb (ip - 1) 32) ip % 256)
          START = _
        rw [hb2]; exact hr253.2)]
    exact switchOn_EOF q trp _ _ _ (by decide) hfd1
  rw [scanLoop_next _ q trp 2 _ _ hstep1, scanLoop_next _ q trp 1 _ _ hstep2,
    scanLoop_done _ q trp 0 _ _ hstep3]
  show some (true, _, _, s1.lineinc) = _
  rw [hline]

theorem holds_nil (m : Nat → Nat) (p : Nat) : Holds m p [] := by
  intro j hj
  exact absurd hj (Nat.not_lt_zero j)

theorem strsource_sentinels (str : List Nat) (heap : Nat → Nat) (h : CString str) :
    Holds (strsource str heap).inb str.length [254, 254] := by
  have key : ∀ i, str.length ≤ i → i < str.length + 2 → (strsource str heap).inb i = 254 := by
    intro i h1 h2
    show (if i < strlen str then str.getD i 0
      else if i < strlen str + 2 then EOB else heap i) = _
    rw [strlen_eq str h, if_neg (by omega), if_pos h2]
    rfl
  exact (holds_cons _ _ _ _).mpr ⟨key _ (Nat.le_refl _) (by omega),
    (holds_cons _ _ _ _).mpr ⟨key _ (by omega) (by omega), holds_nil _ _⟩⟩

/-- After `memmove` the destination holds what the source held. -/
theorem holds_memmove (m : Nat → Nat) (dst src n : Nat) (l : List Nat) (h : Holds m src l)
    (hl : l.length ≤ n) : Holds (memmove m dst src n) dst l := by
  intro j hj
  rw [memmove_apply, if_pos (by omega), Nat.add_sub_cancel_left]
  exact h j hj

theorem cstring_longComment : CString longComment := by
  intro b hb
  unfold longComment at hb
  rcases List.mem_cons.mp hb with h | h
  · omega
  rcases List.mem_cons.mp h with h | h
  · omega
  rcases List.mem_append.mp h with h | h
  · rw [List.eq_of_mem_replicate h]; omega
  · simp only [List.mem_cons, List.mem_singleton, List.mem_nil_iff, or_false] at h
    omega

theorem longComment_length : longComment.length = 28678 := by
  unfold longComment
  rw [List.length_cons, List.length_cons, List.length_append, List.length_replicate]
  rfl

/-- A pass on a negative entry, the byte under the cursor given. -/
theorem step_neg_byte (T : Table) (q : Nat → Nat → Nat) (trp : List Token) (st : Scan)
    (code c : Nat) (hb : st.s.inb st.ip = c) (hc : c < 256)
    (h : T c st.state = Int.negSucc code) :
    step T q trp st = switchOn q trp st code (dfltCase q trp st (st.s.byte st.ip) code) := by
  apply step_neg
  unfold Source.byte
  rw [hb, Nat.mod_eq_of_lt hc]
  exact h

/-- The run from the second byte of a line `*/foo` that ends the text, in a
comment: the line is scanned as a part of the comment, and the input ends in
the comment. -/
theorem second_line_run (cplusplus : Bool) (q : Nat → Nat → Nat) (trp : List Token)
    (s2 : Source) (hfd : s2.fd = none) (hinl : s2.inl = 6)
    (hh : Holds s2.inb (0 + 1) ([47, 102, 111, 111] ++ [10, 254, 254])) :
    (scanLoop (entry cplusplus) q trp 8 ⟨s2, 0 + 1, COM2, 0, 0, [], 0, []⟩).map Outcome.view
      = some (true, [Token.mk END 0 0 1 0 6], [(errtype.WARNING, "EOF inside comment")],
          s2.lineinc + 1) := by
  obtain ⟨hline, hend⟩ := (holds_append _ _ _ _).mp hh
  obtain ⟨hnl, hend⟩ := (holds_cons _ _ _ _).mp hend
  obtain ⟨heob, -⟩ := (holds_cons _ _ _ _).mp hend
  obtain ⟨k, hk, hrun2⟩ := run_absorb (entry cplusplus) q trp
    (fun s => s = COM2)
    (fun c => c < 256 ∧ c ≠ 42 ∧ c ≠ 10 ∧ c ≠ 63 ∧ c ≠ 92 ∧ c ≠ 253 ∧ c ≠ 254)
    (by
      intro s c hs hc
      rw [hs]
      exact ⟨COM2, (com_rows cplusplus c hc.1).2.1 hc.2, rfl⟩)
    [47, 102, 111, 111] ⟨s2, 0 + 1, COM2, 0, 0, [], 0, []⟩ rfl
    (by
      intro c hc
      simp only [List.mem_cons, List.mem_singleton, List.mem_nil_iff, or_false] at hc
      omega) hline
  have hk : k = COM2 := hk
  subst hk
  have hstep3 : step (entry cplusplus) q trp
      ⟨s2, 0 + 1 + [47, 102, 111, 111].length, COM2, 0, 0, [], 0, []⟩
      = .next ⟨{ s2 with lineinc := s2.lineinc + 1 }, 0 + 1 + [47, 102, 111, 111].length + 1,
          COM2, 0, 0, [], 0, []⟩ := by
    rw [step_neg_byte (entry cplusplus) q trp
      ⟨s2, 0 + 1 + [47, 102, 111, 111].length, COM2, 0, 0, [], 0, []⟩ S_COMNL 10 hnl (by decide)
      (com_ends cplusplus).2.1.1]
    rw [switchOn_COMNL q trp _ _ _ (by decide)]
    exact if_neg (show ¬ (0 + 1 + [47, 102, 111, 111].length + 1 ≥ 7 * INS / 8) by decide)
  have hend := comment_eof cplusplus q trp
    ⟨{ s2 with lineinc := s2.lineinc + 1 }, 0 + 1 + [47, 102, 111, 111].length + 1,
      COM2, 0, 0, [], 0, []⟩ rfl
    (by
      have hm : (254 : Nat) % 256 = 254 := rfl
      exact (congrArg (fun x => x % 256) heob).trans hm)
    hfd
    (by
      have e' : (6 : Nat) + INS / 8 ≤ INS := by decide
      exact hinl ▸ e')
  rw [show (8 : Nat) = ((3 + 1) + [47, 102, 111, 111].length) from rfl, hrun2,
    scanLoop_next _ q trp _ _ _ hstep3, hend]
  rfl

/-- The run of a call on a text that is a comment of one line of 28669 bytes,
closed on the next line and followed by `foo` and a newline. -/
theorem long_comment_run (cplusplus : Bool) (q : Nat → Nat → Nat)
    (trp : List Token) (heap : Nat → Nat) (str : List Nat) (hcs : CString str)
    (hlen : str.length = 28678)
    (hstr : str = 47 :: 42 :: (List.replicate 28669 97 ++ [10, 42, 47, 102, 111, 111, 10])) :
    ∃ n, (gettokens (bigfsm cplusplus) q n (strsource str heap) trp true).map Outcome.view
      = some (true, [Token.mk END 0 0 1 0 6], [(errtype.WARNING, "EOF inside comment")], 2) := by
  have hne : str ≠ [] := by rw [hstr]; exact List.cons_ne_nil _ _
  have hh := strsource_holds str heap hcs
  have hs := strsource_sentinels str heap hcs
  have hinl := strsource_inl str heap hcs
  have hfd : (strsource str heap).fd = none := rfl
  rw [hlen] at hs hinl
  have hget : ∀ n, gettokens (bigfsm cplusplus) q n (strsource str heap) trp true
      = scanLoop (entry cplusplus) q trp n (Scan.init (strsource str heap)) := by
    intro n
    rw [bigfsm_eq]
    unfold gettokens
    rw [rewind_strsource _ heap true hcs hne]
  simp only [hget]
  generalize hsrc : strsource str heap = src at hh hs hinl hfd ⊢
  have hl0 : src.lineinc = 0 := by rw [← hsrc]; rfl
  have hi0 : src.inp = 0 := by rw [← hsrc]; rfl
  rw [hstr] at hh
  obtain ⟨h0, hh⟩ := (holds_cons _ _ _ _).mp hh
  obtain ⟨h1, hh⟩ := (holds_cons _ _ _ _).mp hh
  obtain ⟨hha, hht⟩ := (holds_append _ _ _ _).mp hh
  rw [List.length_replicate] at hht
  have hht : Holds src.inb 28671 [10, 42, 47, 102, 111, 111, 10] := hht
  obtain ⟨h10, hrest⟩ := (holds_cons _ _ _ _).mp hht
  have hrest : Holds src.inb 28672 ([42, 47, 102, 111, 111, 10] ++ [254, 254]) :=
    (holds_append _ _ _ _).mpr ⟨hrest, hs⟩
  have hinit : Scan.init src = ⟨src, 0, START, 0, 0, [], 0, []⟩ := by
    unfold Scan.init; rw [hi0]
  -- the opening of the comment
  have hstep0 : step (entry cplusplus) q trp ⟨src, 0, START, 0, 0, [], 0, []⟩
      = .next ⟨src, 0 + 1, COM1, 0, 0, [], 0, []⟩ :=
    step_cont _ q trp _ COM1 (by
      show entry cplusplus (src.inb 0 % 256) START = _
      rw [h0]; exact (com_ends cplusplus).1.1)
  have hstep1 : step (entry cplusplus) q trp ⟨src, 0 + 1, COM1, 0, 0, [], 0, []⟩
      = .next ⟨src, 0 + 1 + 1, COM2, 0, 0, [], 0, []⟩ :=
    step_cont _ q trp _ COM2 (by
      show entry cplusplus (src.inb (0 + 1) % 256) COM1 = _
      rw [h1]; exact ((com_rows cplusplus 42 (by decide)).1 rfl).1)
  -- the first line
  obtain ⟨k, hk, hrun⟩ := run_absorb (entry cplusplus) q trp
    (fun s => s = COM2) (fun c => c = 97)
    (by
      intro s c hs hc
      rw [hs, hc]
      exact ⟨COM2, (com_rows cplusplus 97 (by decide)).2.1 (by decide), rfl⟩)
    (List.replicate 28669 97) ⟨src, 0 + 1 + 1, COM2, 0, 0, [], 0, []⟩ rfl
    (fun c hc => by rw [List.eq_of_mem_replicate hc]; exact ⟨rfl, by decide⟩) hha
  have hk : k = COM2 := hk
  subst hk
  rw [List.length_replicate] at hrun
  -- the newline and the compaction
  have hstep2 : step (entry cplusplus) q trp ⟨src, 28671, COM2, 0, 0, [], 0, []⟩
      = .next ⟨{ src with
            lineinc := src.lineinc + 1,
            inb := memmove src.inb 0 (28671 + 1) (4 + src.inl - (28671 + 1)),
            inl := src.inl - (28671 + 1 - 0) }, 0 + 1, COM2, 0, 0, [], 0, []⟩ := by
    rw [step_neg (entry cplusplus) q trp _ S_COMNL
      (by show entry cplusplus (src.inb 28671 % 256) COM2 = _; rw [h10]
          exact (com_ends cplusplus).2.1.1)]
    rw [switchOn_COMNL q trp _ _ _ (by decide)]
    exact if_pos (show 28671 + 1 ≥ 7 * INS / 8 by decide)
  -- the second line, from its second byte on
  have hbuf : Holds (memmove src.inb 0 (28671 + 1) (4 + src.inl - (28671 + 1))) 0
      ([42, 47, 102, 111, 111, 10] ++ [254, 254]) :=
    holds_memmove src.inb 0 (28671 + 1) _ _ hrest (by rw [hinl]; decide)
  obtain ⟨-, hbuf⟩ := (holds_cons _ _ _ _).mp hbuf
  have hend := second_line_run cplusplus q trp
    { src with
      lineinc := src.lineinc + 1,
      inb := memmove src.inb 0 (28671 + 1) (4 + src.inl - (28671 + 1)),
      inl := src.inl - (28671 + 1 - 0) } hfd (by show src.inl - (28671 + 1 - 0) = 6; rw [hinl])
    hbuf
  refine ⟨(8 + 1) + 28669 + 1 + 1, ?_⟩
  rw [hinit, scanLoop_next _ q trp _ _ _ hstep0, scanLoop_next _ q trp _ _ _ hstep1, hrun]
  dsimp only
  rw [scanLoop_next _ q trp _ _ _ hstep2, hend]
  show some (true, _, _, src.lineinc + 1 + 1) = _
  rw [hl0]

/-- C4 at the text `longComment`, a comment whose only newline stands at the
offset `7 * INS / 8 - 1`, then `*/foo` and a newline: the compaction of
`S_COMNL` puts the `*` of the closing `*/` below the cursor, the comment is
never closed, and the call returns the row with the token `END` alone after
the warning "EOF inside comment", with a pending line increment of 2. -/
theorem C4_long_comment_swallows_the_rest (cplusplus : Bool) (q : Nat → Nat → Nat)
    (trp : List Token) (heap : Nat → Nat) :
    ∃ n, (gettokens (bigfsm cplusplus) q n (strsource longComment heap) trp true).map Outcome.view
      = some (true, [Token.mk END 0 0 1 0 6], [(errtype.WARNING, "EOF inside comment")], 2) :=
  long_comment_run cplusplus q trp heap longComment cstring_longComment longComment_length rfl

/-! ## Identifiers -/

set_option maxRecDepth 1000000 in
theorem id_rows_true : ∀ c < 256,
    (Alpha c → (c ≠ 76 → entry true c START = Int.ofNat ID1)
      ∧ (c = 76 → entry true c START = Int.ofNat ST1))
    ∧ (Word c → entry true c ID1 = Int.ofNat ID1 ∧ entry true c ST1 = Int.ofNat ID1) := by
  unfold Alpha Word
  decide!

theorem id_ends_true :
    (entry true 10 ID1 = Int.negSucc (ACT NAME S_NAME)
      ∧ entry true 10 ST1 = Int.negSucc (ACT NAME S_NAME))
    ∧ (entry true 254 ID1 = Int.negSucc S_EOB ∧ entry true 254 ST1 = Int.negSucc S_EOB)
    ∧ entry true 10 START = Int.negSucc S_NL := by
  decide!

theorem id_rows (cplusplus : Bool) (c : Nat) (hc : c < 256) :
    (Alpha c → (c ≠ 76 → entry cplusplus c START = Int.ofNat ID1)
      ∧ (c = 76 → entry cplusplus c START = Int.ofNat ST1))
    ∧ (Word c → entry cplusplus c ID1 = Int.ofNat ID1 ∧ entry cplusplus c ST1 = Int.ofNat ID1) := by
  rw [entry_row cplusplus c START (by decide), entry_row cplusplus c ID1 (by decide),
    entry_row cplusplus c ST1 (by decide)]
  exact id_rows_true c hc

theorem id_ends (cplusplus : Bool) :
    (entry cplusplus 10 ID1 = Int.negSucc (ACT NAME S_NAME)
      ∧ entry cplusplus 10 ST1 = Int.negSucc (ACT NAME S_NAME))
    ∧ (entry cplusplus 254 ID1 = Int.negSucc S_EOB ∧ entry cplusplus 254 ST1 = Int.negSucc S_EOB)
    ∧ entry cplusplus 10 START = Int.negSucc S_NL := by
  rw [entry_row cplusplus 10 ID1 (by decide), entry_row cplusplus 10 ST1 (by decide),
    entry_row cplusplus 254 ID1 (by decide), entry_row cplusplus 254 ST1 (by decide),
    entry_row cplusplus 10 START (by decide)]
  exact id_ends_true

theorem word_lt {c : Nat} (h : Word c) : c < 256 := by unfold Word at h; omega

theorem word_plain {c : Nat} (h : Word c) : c ≠ 254 ∧ c ≠ 10 ∧ c ≠ 0 := by
  unfold Word at h; omega

/-! ## Buffers (continued) -/

theorem holds_congr {m m' : Nat → Nat} {p : Nat} {l : List Nat}
    (h : ∀ i, p ≤ i → i < p + l.length → m' i = m i) (hh : Holds m p l) : Holds m' p l := by
  intro j hj
  rw [h (p + j) (by omega) (by omega)]
  exact hh j hj

theorem holds_drop {m : Nat → Nat} {p : Nat} {l : List Nat} (k : Nat) (hh : Holds m p l) :
    Holds m (p + k) (l.drop k) := by
  intro j hj
  rw [List.length_drop] at hj
  have := hh (k + j) (by omega)
  rw [Nat.add_assoc, this]
  simp only [List.getD_eq_getElem?_getD, List.getElem?_drop]

theorem holds_take {m : Nat → Nat} {p : Nat} {l : List Nat} (k : Nat) (hh : Holds m p l) :
    Holds m p (l.take k) := by
  have h := hh
  rw [← List.take_append_drop k l] at h
  exact ((holds_append _ _ _ _).mp h).1

/-- A refill of a file source whose cursor stands at the end of the valid
bytes, when the file still holds bytes and the first of them is not `EOB`: the
next chunk is appended to the valid bytes and the `EOB` sentinels follow it. -/
theorem fillbuf_file (s : Source) (done rest : List Nat) (hfd : s.fd = some rest)
    (hne : rest ≠ []) (hroom : s.inl + INS / 8 ≤ INS) (hinl : s.inl = done.length)
    (hinp : s.inp = s.inl) (hh : Holds s.inb 0 done) (hfirst : rest.getD 0 0 % 256 ≠ EOB) :
    ∃ s1, fillbuf s = some (s1, false)
      ∧ s1.fd = some (rest.drop (INS / 8))
      ∧ s1.inl = (done ++ rest.take (INS / 8)).length
      ∧ Holds s1.inb 0 (done ++ rest.take (INS / 8))
      ∧ s1.inb s1.inl = EOB ∧ s1.inp = s.inp ∧ s1.lineinc = s.lineinc := by
  have hov : ¬ (s.inl + INS / 8 > INS) := by omega
  have hpos : 0 < INS / 8 := by decide
  unfold fillbuf
  rw [if_neg hov, hfd]
  dsimp only
  generalize INS / 8 = chunk at hroom hov hpos ⊢
  have hlen : 0 < (rest.take chunk).length := by
    rw [List.length_take]
    have := List.length_pos.mpr hne
    omega
  have hm1 : fread s.inb s.inl (rest.take chunk) s.inp = rest.getD 0 0 := by
    rw [fread_apply, if_pos (by omega), hinp, Nat.sub_self]
    cases rest with
    | nil => exact absurd rfl hne
    | cons x xs =>
      cases chunk with
      | zero => omega
      | succ c => rfl
  rw [if_neg (by omega), if_neg (by rw [hm1]; exact hfirst)]
  refine ⟨_, rfl, rfl, ?_, ?_, ?_, rfl, rfl⟩
  · show s.inl + (rest.take chunk).length = _
    rw [List.length_append, hinl]
  · show Holds (sentinels (fread s.inb s.inl (rest.take chunk)) (s.inl + (rest.take chunk).length)
      EOB) 0 (done ++ rest.take chunk)
    refine (holds_append _ _ _ _).mpr ⟨?_, ?_⟩
    · refine holds_congr ?_ hh
      intro i _ hi
      rw [sentinels_apply, if_neg (by omega), fread_apply, if_neg (by omega)]
    · intro j hj
      rw [sentinels_apply, if_neg (by omega), fread_apply, if_pos (by omega)]
      congr 1
      omega
  · show sentinels (fread s.inb s.inl (rest.take chunk)) (s.inl + (rest.take chunk).length) EOB
      (s.inl + (rest.take chunk).length) = EOB
    rw [sentinels_apply, if_pos (by omega)]

/-- The scan of the rest of an identifier up to the newline that ends it. -/
theorem ident_tail (cplusplus : Bool) (q : Nat → Nat → Nat) (trp : List Token)
    (w : List Nat) (st : Scan) (hst : st.state = ID1 ∨ st.state = ST1)
    (hw : ∀ c ∈ w, Word c) (hh : Holds st.s.inb st.ip (w ++ [10])) :
    scanLoop (entry cplusplus) q trp (w.length + 2) st
      = some (.returned
          (st.nmac ||| q (st.s.byte st.t)
            (if st.ip + w.length - st.t > 1 then st.s.byte (st.t + 1) else 0))
          (st.row ++ [Token.mk NAME 0 0 st.wslen (st.ip + w.length - st.t) st.t,
            Token.mk NL 0 0 0 1 (st.ip + w.length)])
          { st.s with lineinc := st.s.lineinc + 1, inp := st.ip + w.length + 1 } st.diags) := by
  obtain ⟨hhw, hhn⟩ := (holds_append _ _ _ _).mp hh
  obtain ⟨k, hk, hrun⟩ := run_absorb (entry cplusplus) q trp
    (fun s => s = ID1 ∨ s = ST1) Word
    (by
      intro s c hs hc
      have := (id_rows cplusplus c (word_lt hc)).2 hc
      rcases hs with hs | hs
      · rw [hs]; exact ⟨ID1, this.1, Or.inl rfl⟩
      · rw [hs]; exact ⟨ID1, this.2, Or.inl rfl⟩)
    w st hst (fun c hc => ⟨hw c hc, word_lt (hw c hc)⟩) hhw
  rw [show w.length + 2 = 2 + w.length by omega, hrun 2]
  have hb : (st.s.inb (st.ip + w.length)) % 256 = 10 := byte_of_holds hhn (by decide)
  have hent : entry cplusplus 10 k = Int.negSucc (ACT NAME S_NAME) := by
    rcases hk with h | h
    · rw [h]; exact (id_ends cplusplus).1.1
    · rw [h]; exact (id_ends cplusplus).1.2
  have hstep1 : step (entry cplusplus) q trp { st with ip := st.ip + w.length, state := k }
      = .next (emit (Scan.mk st.s (st.ip + w.length) k st.t st.wslen st.row
          (st.nmac ||| q (st.s.byte st.t)
            (if st.ip + w.length - st.t > 1 then st.s.byte (st.t + 1) else 0)) st.diags)
          (st.ip + w.length) NAME) := by
    rw [step_neg (entry cplusplus) q trp _ (ACT NAME S_NAME)
      (by show entry cplusplus (st.s.inb (st.ip + w.length) % 256) k = _; rw [hb]; exact hent)]
    exact switchOn_NAME q trp _ _ _ (by decide)
  rw [scanLoop_next _ q trp 1 _ _ hstep1]
  have hstep2 : step (entry cplusplus) q trp
      (emit (Scan.mk st.s (st.ip + w.length) k st.t st.wslen st.row
          (st.nmac ||| q (st.s.byte st.t)
            (if st.ip + w.length - st.t > 1 then st.s.byte (st.t + 1) else 0)) st.diags)
          (st.ip + w.length) NAME)
      = .done (.returned
          (st.nmac ||| q (st.s.byte st.t)
            (if st.ip + w.length - st.t > 1 then st.s.byte (st.t + 1) else 0))
          (st.row ++ [Token.mk NAME 0 0 st.wslen (st.ip + w.length - st.t) st.t,
            Token.mk NL 0 0 0 1 (st.ip + w.length)])
          { st.s with lineinc := st.s.lineinc + 1, inp := st.ip + w.length + 1 } st.diags) := by
    rw [step_neg (entry cplusplus) q trp _ S_NL
      (by show entry cplusplus (st.s.inb (st.ip + w.length) % 256) START = _; rw [hb]
          exact (id_ends cplusplus).2.2)]
    rw [switchOn_NL q trp _ _ _ (by decide)]
    show Step.done (Outcome.returned _ ((st.row ++ [_]) ++ [_]) _ st.diags) = _
    rw [List.append_assoc]
    rfl
  exact scanLoop_done _ q trp 0 _ _ hstep2

/-- In an identifier that a file source delivers, the scan up to the end of the
valid bytes and the refill that follows: the state of the identifier is kept
and the next chunk of the file is appended to the buffer. -/
theorem ident_refill (cplusplus : Bool) (q : Nat → Nat → Nat) (trp : List Token)
    (st : Scan) (done rest : List Nat) (hst : st.state = ID1 ∨ st.state = ST1)
    (hfd : st.s.fd = some rest) (hne : rest ≠ []) (hfirst : rest.getD 0 0 % 256 ≠ EOB)
    (hinl : st.s.inl = done.length) (hip : st.ip ≤ done.length)
    (hh : Holds st.s.inb 0 done) (heob : st.s.inb done.length = EOB)
    (hw : ∀ c ∈ done.drop st.ip, Word c) (hroom : done.length + INS / 8 ≤ INS) :
    ∃ k s1, (k = ID1 ∨ k = ST1)
      ∧ (∀ n, scanLoop (entry cplusplus) q trp (n + 1 + (done.drop st.ip).length) st
          = scanLoop (entry cplusplus) q trp n { st with s := s1, ip := done.length, state := k })
      ∧ s1.fd = some (rest.drop (INS / 8))
      ∧ s1.inl = (done ++ rest.take (INS / 8)).length
      ∧ Holds s1.inb 0 (done ++ rest.take (INS / 8))
      ∧ s1.inb s1.inl = EOB ∧ s1.lineinc = st.s.lineinc := by
  have hhw : Holds st.s.inb st.ip (done.drop st.ip) := by
    have := holds_drop st.ip hh
    rw [Nat.zero_add] at this
    exact this
  obtain ⟨k, hk, hrun⟩ := run_absorb (entry cplusplus) q trp
    (fun s => s = ID1 ∨ s = ST1) Word
    (by
      intro s c hs hc
      have := (id_rows cplusplus c (word_lt hc)).2 hc
      rcases hs with hs | hs
      · rw [hs]; exact ⟨ID1, this.1, Or.inl rfl⟩
      · rw [hs]; exact ⟨ID1, this.2, Or.inl rfl⟩)
    (done.drop st.ip) st hst (fun c hc => ⟨hw c hc, word_lt (hw c hc)⟩) hhw
  have hlen : st.ip + (done.drop st.ip).length = done.length := by
    rw [List.length_drop]; omega
  rw [hlen] at hrun
  obtain ⟨s1, hf, hfd1, hinl1, hh1, heob1, -, hline1⟩ := fillbuf_file
    { st.s with inp := done.length } done rest hfd hne (by rw [← hinl] at hroom; exact hroom)
    hinl hinl.symm hh hfirst
  have hent : entry cplusplus 254 k = Int.negSucc S_EOB := by
    rcases hk with h | h
    · rw [h]; exact (id_ends cplusplus).2.1.1
    · rw [h]; exact (id_ends cplusplus).2.1.2
  have hstep : step (entry cplusplus) q trp { st with ip := done.length, state := k }
      = .next { st with s := s1, ip := done.length, state := k } := by
    rw [step_neg_byte (entry cplusplus) q trp { st with ip := done.length, state := k } S_EOB 254
      heob (by decide) hent]
    rw [switchOn_EOB q trp _ _ _ (by decide)]
    dsimp only
    rw [hf]
  refine ⟨k, s1, hk, ?_, hfd1, hinl1, hh1, heob1, hline1⟩
  intro n
  rw [hrun (n + 1), scanLoop_next _ q trp n _ _ hstep]

theorem first_not_EOB (u : List Nat) (hu : ∀ c ∈ u, Word c) :
    (u ++ [10]).getD 0 0 % 256 ≠ EOB := by
  cases u with
  | nil => decide
  | cons x xs =>
    have h := hu x (List.mem_cons_self _ _)
    have h2 := word_plain h
    have h3 := word_lt h
    show x % 256 ≠ 254
    rw [Nat.mod_eq_of_lt h3]
    exact h2.1

/-- The last refill in an identifier: the chunk holds the rest of the
identifier and the newline. -/
theorem ident_last_chunk (cplusplus : Bool) (q : Nat → Nat → Nat) (trp : List Token)
    (st : Scan) (done u : List Nat) (hst : st.state = ID1 ∨ st.state = ST1)
    (hfd : st.s.fd = some (u ++ [10])) (hinl : st.s.inl = done.length)
    (hip : st.ip ≤ done.length) (hh : Holds st.s.inb 0 done)
    (heob : st.s.inb done.length = EOB) (hw : ∀ c ∈ done.drop st.ip, Word c)
    (hu : ∀ c ∈ u, Word c) (hroom : done.length + INS / 8 ≤ INS) (hlast : u.length < INS / 8) :
    ∃ n s1, scanLoop (entry cplusplus) q trp n st
        = some (.returned
            (st.nmac ||| q (s1.byte st.t)
              (if done.length + u.length - st.t > 1 then s1.byte (st.t + 1) else 0))
            (st.row ++ [Token.mk NAME 0 0 st.wslen (done.length + u.length - st.t) st.t,
              Token.mk NL 0 0 0 1 (done.length + u.length)])
            s1 st.diags)
      ∧ Holds s1.inb 0 (done ++ u ++ [10]) ∧ s1.lineinc = st.s.lineinc + 1
      ∧ s1.inp = done.length + u.length + 1 := by
  obtain ⟨k, s1, hk, hrun, -, -, hh1, -, hline1⟩ := ident_refill cplusplus q trp st done
    (u ++ [10]) hst hfd (by simp) (first_not_EOB u hu) hinl hip hh heob hw hroom
  have htake : (u ++ [10]).take (INS / 8) = u ++ [10] :=
    List.take_of_length_le (by rw [List.length_append, List.length_singleton]; omega)
  rw [htake] at hh1
  have hh2 : Holds s1.inb done.length (u ++ [10]) := by
    have := ((holds_append _ _ _ _).mp hh1).2
    rw [Nat.zero_add] at this
    exact this
  have htail := ident_tail cplusplus q trp u
    { st with s := s1, ip := done.length, state := k } hk hu hh2
  refine ⟨(u.length + 2) + 1 + (done.drop st.ip).length,
    { s1 with lineinc := s1.lineinc + 1, inp := done.length + u.length + 1 }, ?_, ?_, ?_, rfl⟩
  · rw [hrun, htail]
    rfl
  · rw [List.append_assoc]; exact hh1
  · show s1.lineinc + 1 = _
    rw [hline1]

/-- The scan of an identifier that a file source delivers chunk by chunk, from
a state inside it: whatever the number of refills, one `NAME` token that runs
from the start of the token to the newline, then `NL`. -/
theorem ident_file_run (cplusplus : Bool) (q : Nat → Nat → Nat) (trp : List Token) :
    ∀ (m : Nat) (st : Scan) (done u : List Nat), u.length ≤ m →
      (st.state = ID1 ∨ st.state = ST1) →
      st.s.fd = some (u ++ [10]) → st.s.inl = done.length → st.ip ≤ done.length →
      Holds st.s.inb 0 done → st.s.inb done.length = EOB →
      (∀ c ∈ done.drop st.ip, Word c) → (∀ c ∈ u, Word c) →
      done.length + INS / 8 ≤ INS → (u.length ≥ INS / 8 → done.length + u.length < 7 * INS / 8) →
      ∃ n s1, scanLoop (entry cplusplus) q trp n st
          = some (.returned
              (st.nmac ||| q (s1.byte st.t)
                (if done.length + u.length - st.t > 1 then s1.byte (st.t + 1) else 0))
              (st.row ++ [Token.mk NAME 0 0 st.wslen (done.length + u.length - st.t) st.t,
                Token.mk NL 0 0 0 1 (done.length + u.length)])
              s1 st.diags)
        ∧ Holds s1.inb 0 (done ++ u ++ [10]) ∧ s1.lineinc = st.s.lineinc + 1
        ∧ s1.inp = done.length + u.length + 1 := by
  intro m
  induction m with
  | zero =>
    intro st done u hm hst hfd hinl hip hh heob hw hu hroom hbound
    have hpos : 0 < INS / 8 := by decide
    exact ident_last_chunk cplusplus q trp st done u hst hfd hinl hip hh heob hw hu hroom
      (by omega)
  | succ m ih =>
    intro st done u hm hst hfd hinl hip hh heob hw hu hroom hbound
    have hpos : 0 < INS / 8 := by decide
    by_cases hlast : u.length < INS / 8
    · exact ident_last_chunk cplusplus q trp st done u hst hfd hinl hip hh heob hw hu hroom hlast
    have hge : INS / 8 ≤ u.length := by omega
    have hb := hbound hge
    obtain ⟨k, s1, hk, hrun, hfd1, hinl1, hh1, heob1, hline1⟩ := ident_refill cplusplus q trp st
      done (u ++ [10]) hst hfd (by simp) (first_not_EOB u hu) hinl hip hh heob hw hroom
    have htake : (u ++ [10]).take (INS / 8) = u.take (INS / 8) :=
      List.take_append_of_le_length hge
    have hdrop : (u ++ [10]).drop (INS / 8) = u.drop (INS / 8) ++ [10] :=
      List.drop_append_of_le_length hge
    rw [htake] at hinl1 hh1
    rw [hdrop] at hfd1
    have hlt : (u.take (INS / 8)).length = INS / 8 := by
      rw [List.length_take]; omega
    have hld : (u.drop (INS / 8)).length = u.length - INS / 8 := List.length_drop _ _
    have hsum : (done ++ u.take (INS / 8)).length + (u.drop (INS / 8)).length
        = done.length + u.length := by
      rw [List.length_append, hlt, hld]; omega
    have h78 : 7 * INS / 8 + INS / 8 ≤ INS := by decide
    obtain ⟨n, s2, hres, hh2, hline2, hinp2⟩ := ih
      { st with s := s1, ip := done.length, state := k } (done ++ u.take (INS / 8))
      (u.drop (INS / 8)) (by rw [hld]; omega) hk hfd1 hinl1
      (by show done.length ≤ _; rw [List.length_append]; omega) hh1
      (by rw [← hinl1]; exact heob1)
      (by
        intro c hc
        have hc' : c ∈ (done ++ u.take (INS / 8)).drop done.length := hc
        rw [List.drop_left] at hc'
        exact hu c (List.mem_of_mem_take hc'))
      (fun c hc => hu c (List.mem_of_mem_drop hc))
      (by rw [List.length_append, hlt]; omega)
      (fun _ => by rw [hsum]; exact hb)
    rw [hsum] at hres hinp2
    refine ⟨n + 1 + (done.drop st.ip).length, s2, ?_, ?_, ?_, hinp2⟩
    · rw [hrun, hres]
    · have e : done ++ u.take (INS / 8) ++ u.drop (INS / 8) ++ [10] = done ++ u ++ [10] := by
        rw [List.append_assoc done, List.take_append_drop]
      rw [← e]; exact hh2
    · rw [hline2]; show s1.lineinc + 1 = _; rw [hline1]

/-! ## An identifier that spans refills of a file source -/

theorem alpha_word {c : Nat} (h : Alpha c) : Word c := by
  unfold Alpha at h; unfold Word; omega

/-- The text of a token that the buffer holds. -/
theorem text_of_holds (m : Nat → Nat) : ∀ (l : List Nat) (t : Nat), Holds m t l →
    (∀ c ∈ l, c < 256) →
    Token.text m (Token.mk NAME 0 0 0 l.length t) = l := by
  intro l
  induction l with
  | nil => intro t _ _; rfl
  | cons x xs ih =>
    intro t hh hl
    obtain ⟨h0, hrest⟩ := (holds_cons _ _ _ _).mp hh
    have ih' : List.map (fun i => m (t + 1 + i) % 256) (List.range xs.length) = xs :=
      ih (t + 1) hrest (fun c hc => hl c (List.mem_cons_of_mem _ hc))
    show List.map (fun i => m (t + i) % 256) (List.range (xs.length + 1)) = x :: xs
    rw [List.range_succ_eq_map, List.map_cons, List.map_map, Nat.add_zero, h0,
      Nat.mod_eq_of_lt (hl x (List.mem_cons_self _ _))]
    congr 1
    refine Eq.trans ?_ ih'
    apply List.map_congr_left
    intro i _
    show m (t + (i + 1)) % 256 = m (t + 1 + i) % 256
    rw [Nat.add_assoc, Nat.add_comm 1 i]

/-- C5: on a file source whose content is an identifier of more than `INS/8`
and fewer than `INS - INS/8` bytes followed by a newline, read in chunks of
`INS/8` bytes, `gettokens` with `reset` set appends one `NAME` token whose
length is the length of the identifier and whose text is the identifier, and
then `NL`: the refills in the middle of the token do not split it. -/
theorem C5_identifier_across_refills (cplusplus : Bool) (q : Nat → Nat → Nat)
    (trp : List Token) (heap : Nat → Nat) (c0 : Nat) (rest : List Nat)
    (hc0 : Alpha c0) (hrest : ∀ c ∈ rest, Word c)
    (hlo : INS / 8 < (c0 :: rest).length) (hhi : (c0 :: rest).length < INS - INS / 8) :
    ∃ n nmac s1,
      gettokens (bigfsm cplusplus) q n (filesource (c0 :: rest ++ [10]) heap) trp true
        = some (.returned nmac
            [Token.mk NAME 0 0 0 (c0 :: rest).length 0, Token.mk NL 0 0 0 1 (c0 :: rest).length]
            s1 [])
      ∧ Token.text s1.inb (Token.mk NAME 0 0 0 (c0 :: rest).length 0) = c0 :: rest := by
  have hword : ∀ c ∈ c0 :: rest, Word c := by
    intro c hc
    rcases List.mem_cons.mp hc with h | h
    · rw [h]; exact alpha_word hc0
    · exact hrest c h
  have hpos : 0 < INS / 8 := by decide
  have h18 : INS / 8 + INS / 8 ≤ INS := by decide
  have h78 : INS - INS / 8 = 7 * INS / 8 := by decide
  -- the prologue reads the first chunk
  obtain ⟨s1, hf, hfd1, hinl1, hh1, heob1, hinp1, hline1⟩ := fillbuf_file
    { filesource (c0 :: rest ++ [10]) heap with lineinc := 0, inl := 0 } []
    (c0 :: rest ++ [10]) rfl (List.cons_ne_nil _ _) (show 0 + INS / 8 ≤ INS by decide) rfl rfl
    (holds_nil _ _)
    (by
      show c0 % 256 ≠ 254
      have := word_plain (alpha_word hc0)
      rw [Nat.mod_eq_of_lt (word_lt (alpha_word hc0))]
      exact this.1)
  have hrw : rewind (filesource (c0 :: rest ++ [10]) heap) true = some { s1 with inp := 0 } := by
    unfold rewind
    rw [if_pos rfl]
    dsimp only
    rw [if_pos (show (filesource (c0 :: rest ++ [10]) heap).inp
      ≥ (filesource (c0 :: rest ++ [10]) heap).inl from Nat.le_refl 0)]
    have e : ({ inb := (filesource (c0 :: rest ++ [10]) heap).inb,
                inp := (filesource (c0 :: rest ++ [10]) heap).inp, inl := 0, lineinc := 0,
                fd := (filesource (c0 :: rest ++ [10]) heap).fd } : Source)
        = { filesource (c0 :: rest ++ [10]) heap with lineinc := 0, inl := 0 } := rfl
    rw [e, hf]
  have hlen : INS / 8 ≤ (c0 :: rest).length := by omega
  have htake : (c0 :: rest ++ [10]).take (INS / 8) = (c0 :: rest).take (INS / 8) :=
    List.take_append_of_le_length hlen
  have hdrop : (c0 :: rest ++ [10]).drop (INS / 8) = (c0 :: rest).drop (INS / 8) ++ [10] :=
    List.drop_append_of_le_length hlen
  rw [List.nil_append, htake] at hinl1 hh1
  rw [hdrop] at hfd1
  have hlt : ((c0 :: rest).take (INS / 8)).length = INS / 8 := by
    rw [List.length_take]; omega
  have hsum : ((c0 :: rest).take (INS / 8)).length + ((c0 :: rest).drop (INS / 8)).length
      = (c0 :: rest).length := by
    rw [hlt, List.length_drop]; omega
  have hsucc : INS / 8 = (INS / 8 - 1) + 1 := by decide
  have hcons : (c0 :: rest).take (INS / 8) = c0 :: rest.take (INS / 8 - 1) :=
    (congrArg (fun k => (c0 :: rest).take k) hsucc).trans rfl
  have hb0 : s1.inb 0 = c0 := by
    have := hh1
    rw [hcons] at this
    exact ((holds_cons _ _ _ _).mp this).1
  have hc256 := word_lt (alpha_word hc0)
  -- the first byte of the identifier
  obtain ⟨k0, hk0, hent0⟩ : ∃ k0, (k0 = ID1 ∨ k0 = ST1)
      ∧ entry cplusplus c0 START = Int.ofNat k0 := by
    by_cases h76 : c0 = 76
    · exact ⟨ST1, Or.inr rfl, ((id_rows cplusplus c0 hc256).1 hc0).2 h76⟩
    · exact ⟨ID1, Or.inl rfl, ((id_rows cplusplus c0 hc256).1 hc0).1 h76⟩
  have hstep0 : step (entry cplusplus) q trp (Scan.init { s1 with inp := 0 })
      = .next ⟨{ s1 with inp := 0 }, 0 + 1, k0, 0, 0, [], 0, []⟩ :=
    step_cont _ q trp _ k0 (by
      show entry cplusplus (s1.inb 0 % 256) START = _
      rw [hb0, Nat.mod_eq_of_lt hc256]
      exact hent0)
  -- the rest of the identifier, across the refills
  obtain ⟨n, s2, hres, hh2, -, -⟩ := ident_file_run cplusplus q trp
    ((c0 :: rest).drop (INS / 8)).length ⟨{ s1 with inp := 0 }, 0 + 1, k0, 0, 0, [], 0, []⟩
    ((c0 :: rest).take (INS / 8)) ((c0 :: rest).drop (INS / 8)) (Nat.le_refl _) hk0 hfd1 hinl1
    (by show 0 + 1 ≤ _; rw [hlt]; omega) hh1 (by rw [← hinl1]; exact heob1)
    (fun c hc => hword c (List.mem_of_mem_take (List.mem_of_mem_drop hc)))
    (fun c hc => hword c (List.mem_of_mem_drop hc))
    (by rw [hlt]; exact h18)
    (fun _ => by rw [hsum, ← h78]; exact hhi)
  rw [hsum] at hres
  refine ⟨n + 1,
    0 ||| q (s2.byte 0) (if (c0 :: rest).length - 0 > 1 then s2.byte (0 + 1) else 0), s2, ?_, ?_⟩
  · rw [bigfsm_eq]
    unfold gettokens
    rw [hrw]
    dsimp only
    rw [scanLoop_next _ q trp n _ _ hstep0, hres]
    rfl
  · rw [List.take_append_drop] at hh2
    exact text_of_holds s2.inb (c0 :: rest) 0 ((holds_append _ _ _ _).mp hh2).1
      (fun c hc => word_lt (hword c hc))

/-- C5 at an identifier of 4097 bytes `a`. -/
theorem C5_identifier_across_refills_witness :
    ∃ n nmac s1,
      gettokens (bigfsm true) (fun _ _ => 0) n
          (filesource (97 :: List.replicate 4096 97 ++ [10]) (fun _ => 0)) [] true
        = some (.returned nmac
            [Token.mk NAME 0 0 0 (97 :: List.replicate 4096 97).length 0,
              Token.mk NL 0 0 0 1 (97 :: List.replicate 4096 97).length]
            s1 [])
      ∧ Token.text s1.inb (Token.mk NAME 0 0 0 (97 :: List.replicate 4096 97).length 0)
          = 97 :: List.replicate 4096 97 :=
  C5_identifier_across_refills true (fun _ _ => 0) [] (fun _ => 0) 97 (List.replicate 4096 97)
    (by unfold Alpha; decide)
    (fun c hc => by rw [List.eq_of_mem_replicate hc]; unfold Word; decide)
    (by rw [List.length_cons, List.length_replicate]; decide)
    (by rw [List.length_cons, List.length_replicate]; decide)

/-! ## Alike sources stay alike -/

theorem text_congr (m m1 : Nat → Nat) (tok : Token)
    (h : ∀ i, i < tok.t + tok.len → m1 i = m i) : Token.text m1 tok = Token.text m tok := by
  unfold Token.text
  apply List.map_congr_left
  intro i hi
  rw [List.mem_range] at hi
  show m1 (tok.t + i) % 256 = m (tok.t + i) % 256
  rw [h (tok.t + i) (by omega)]

theorem sentinels_congr (m m1 : Nat → Nat) (p v i : Nat)
    (h : ¬ (p ≤ i ∧ i < p + 4) → m i = m1 i) : sentinels m p v i = sentinels m1 p v i := by
  rw [sentinels_apply, sentinels_apply]
  by_cases hc : p ≤ i ∧ i < p + 4
  · rw [if_pos hc, if_pos hc]
  · rw [if_neg hc, if_neg hc]; exact h hc

/-- The function `fillbuf`, the chunk that the read delivers given. -/
theorem fillbuf_chunk (s : Source) (chunk : List Nat)
    (hc : chunk = match s.fd with
      | none => []
      | some rest => rest.take (INS / 8)) :
    fillbuf s =
      if s.inl + INS / 8 > INS then none
      else if chunk.length = 0 then
        some ({ s with
          inb := sentinels (sentinels
            (if fread s.inb s.inl chunk s.inp % 256 = EOB then
              poke (fread s.inb s.inl chunk) s.inp EOFC else fread s.inb s.inl chunk)
            (s.inl + chunk.length) EOB) (s.inl + chunk.length) EOFC,
          inl := s.inl + chunk.length,
          fd := s.fd.map (fun rest => rest.drop (INS / 8)) }, true)
      else
        some ({ s with
          inb := sentinels
            (if fread s.inb s.inl chunk s.inp % 256 = EOB then
              poke (fread s.inb s.inl chunk) s.inp EOFC else fread s.inb s.inl chunk)
            (s.inl + chunk.length) EOB,
          inl := s.inl + chunk.length,
          fd := s.fd.map (fun rest => rest.drop (INS / 8)) }, false) := by
  subst hc
  rfl

/-- What `fillbuf` does to alike sources whose cursors are the same. -/
theorem fillbuf_alike (k : Nat) (a b : Source) (h : Alike k a b) (hinp : a.inp = b.inp)
    (hlt : b.inp < b.inl + 2) :
    (fillbuf a = none ∧ fillbuf b = none)
    ∨ ∃ a1 b1 f, fillbuf a = some (a1, f) ∧ fillbuf b = some (b1, f) ∧ Alike k a1 b1
        ∧ a1.inp = b1.inp ∧ b1.inp = b.inp ∧ b.inl ≤ b1.inl
        ∧ ∀ i, i < b1.inl + 4 → a1.inb i = b1.inb i := by
  obtain ⟨hinl, hfd, hline, hag⟩ := h
  obtain ⟨chunk, hcb⟩ : ∃ chunk : List Nat, chunk = match b.fd with
      | none => []
      | some rest => rest.take (INS / 8) := ⟨_, rfl⟩
  have hca : chunk = match a.fd with
      | none => []
      | some rest => rest.take (INS / 8) := by rw [hfd]; exact hcb
  rw [fillbuf_chunk a chunk hca, fillbuf_chunk b chunk hcb, hinl, hfd, hinp]
  by_cases hov : b.inl + INS / 8 > INS
  · rw [if_pos hov, if_pos hov]
    exact Or.inl ⟨rfl, rfl⟩
  rw [if_neg hov, if_neg hov]
  right
  have hm1 : ∀ i, i < b.inl + chunk.length ∨ i < b.inl + 2 →
      fread a.inb b.inl chunk i = fread b.inb b.inl chunk i := by
    intro i hi
    rw [fread_apply, fread_apply]
    by_cases hc : b.inl ≤ i ∧ i < b.inl + chunk.length
    · rw [if_pos hc, if_pos hc]
    · rw [if_neg hc, if_neg hc]
      exact hag i (by omega)
  have hcond : fread a.inb b.inl chunk b.inp = fread b.inb b.inl chunk b.inp :=
    hm1 b.inp (Or.inr hlt)
  rw [hcond]
  have hm2 : ∀ i, i < b.inl + chunk.length ∨ i < b.inl + 2 →
      (if fread b.inb b.inl chunk b.inp % 256 = EOB then
          poke (fread a.inb b.inl chunk) b.inp EOFC else fread a.inb b.inl chunk) i
      = (if fread b.inb b.inl chunk b.inp % 256 = EOB then
          poke (fread b.inb b.inl chunk) b.inp EOFC else fread b.inb b.inl chunk) i := by
    intro i hi
    split
    · rw [poke_apply, poke_apply, hm1 i hi]
    · exact hm1 i hi
  by_cases hn : chunk.length = 0
  · rw [if_pos hn, if_pos hn]
    refine ⟨_, _, true, rfl, rfl, ⟨rfl, rfl, hline, ?_⟩, rfl, rfl, Nat.le_add_right _ _, ?_⟩
    · intro i hi
      have hi' : i < b.inl + chunk.length + 2 := hi
      exact sentinels_congr _ _ _ _ i (fun _ => sentinels_congr _ _ _ _ i
        (fun _ => hm2 i (Or.inr (by omega))))
    · intro i hi
      have hi' : i < b.inl + chunk.length + 4 := hi
      exact sentinels_congr _ _ _ _ i (fun _ => sentinels_congr _ _ _ _ i
        (fun hh => hm2 i (Or.inl (by omega))))
  · rw [if_neg hn, if_neg hn]
    refine ⟨_, _, false, rfl, rfl, ⟨rfl, rfl, hline, ?_⟩, rfl, rfl, Nat.le_add_right _ _, ?_⟩
    · intro i hi
      have hi' : i < b.inl + chunk.length + 2 := hi
      exact sentinels_congr _ _ _ _ i (fun hh => hm2 i (Or.inl (by omega)))
    · intro i hi
      have hi' : i < b.inl + chunk.length + 4 := hi
      exact sentinels_congr _ _ _ _ i (fun hh => hm2 i (Or.inl (by omega)))

/-- What the refill loop of `trigraph` and `foldline` does to alike sources. -/
theorem refill_alike (k d : Nat) (hd : d ≤ 2) : ∀ (fuel : Nat) (a b : Source), Alike k a b →
    a.inp = b.inp → b.inp < b.inl + 2 → b.inp + d + 1 ≤ b.inl + fuel →
    (refill d fuel a = none ∧ refill d fuel b = none)
    ∨ ∃ a1 b1, refill d fuel a = some a1 ∧ refill d fuel b = some b1 ∧ Alike k a1 b1
        ∧ a1.inp = b1.inp ∧ b1.inp = b.inp
        ∧ ∀ i, i ≤ b1.inp + d → a1.inb i = b1.inb i := by
  intro fuel
  induction fuel with
  | zero =>
    intro a b h hinp hlt hfuel
    exact Or.inr ⟨a, b, rfl, rfl, h, hinp, rfl, fun i hi => h.2.2.2 i (by omega)⟩
  | succ fuel ih =>
    intro a b h hinp hlt hfuel
    rw [refill, refill, h.1, hinp]
    by_cases hc : b.inp + d ≥ b.inl
    · rw [if_pos hc, if_pos hc]
      rcases fillbuf_alike k a b h hinp hlt with ⟨ha, hb⟩ | ⟨a1, b1, f, ha, hb, h1, hinp1, hinpb, hle, hag4⟩
      · rw [ha, hb]; exact Or.inl ⟨rfl, rfl⟩
      · rw [ha, hb]
        cases f with
        | true =>
          exact Or.inr ⟨a1, b1, rfl, rfl, h1, hinp1, hinpb,
            fun i hi => hag4 i (by omega)⟩
        | false =>
          dsimp only
          obtain ⟨-, -, -, -, -, -, hgrow, -⟩ := fillbuf_any b b1 false hb
          have hg := hgrow rfl
          rcases ih a1 b1 h1 hinp1 (by omega) (by omega) with ⟨h2a, h2b⟩ |
            ⟨a2, b2, h2a, h2b, h2, hinp2, hinpb2, hag2⟩
          · exact Or.inl ⟨h2a, h2b⟩
          · exact Or.inr ⟨a2, b2, h2a, h2b, h2, hinp2, hinpb2.trans hinpb, hag2⟩
    · rw [if_neg hc, if_neg hc]
      exact Or.inr ⟨a, b, rfl, rfl, h, hinp, rfl, fun i hi => h.2.2.2 i (by omega)⟩

/-- What `trigraph` does to alike sources whose cursors stand on the same valid
byte. -/
theorem trigraph_alike (k : Nat) (a b : Source) (h : Alike k a b) (hinp : a.inp = b.inp)
    (hlt : b.inp < b.inl) (hb : b.byte b.inp ≠ EOB) :
    (trigraph a = none ∧ trigraph b = none)
    ∨ ∃ a1 b1 r, trigraph a = some (a1, r) ∧ trigraph b = some (b1, r) ∧ Alike k a1 b1 := by
  unfold trigraph
  rw [h.1, hinp]
  rcases refill_alike k 2 (Nat.le_refl 2) (b.inp + 3 - b.inl) a b h hinp (by omega) (by omega)
    with ⟨ha, hb'⟩ | ⟨a1, b1, ha, hb', h1, hinp1, hinpb, hag⟩
  · rw [ha, hb']; exact Or.inl ⟨rfl, rfl⟩
  rw [ha, hb']
  right
  dsimp only
  obtain ⟨hg, -, hroom⟩ := refill_grown 2 _ b b1 hlt hb (by omega) hb'
  have hb1 : a1.byte (a1.inp + 1) = b1.byte (b1.inp + 1) := by
    unfold Source.byte; rw [hinp1, hag (b1.inp + 1) (by omega)]
  have hb2 : a1.byte (a1.inp + 2) = b1.byte (b1.inp + 2) := by
    unfold Source.byte; rw [hinp1, hag (b1.inp + 2) (by omega)]
  rw [hb1, hb2]
  by_cases h63 : b1.byte (b1.inp + 1) ≠ 63
  · rw [if_pos h63, if_pos h63]
    exact ⟨a1, b1, 0, rfl, rfl, h1⟩
  rw [if_neg h63, if_neg h63]
  by_cases hc : trigraphChar (b1.byte (b1.inp + 2)) ≠ 0
  · rw [if_pos hc, if_pos hc]
    have h63' : b1.byte (b1.inp + 1) = 63 := by
      by_cases hq : b1.byte (b1.inp + 1) = 63
      · exact hq
      · exact absurd hq h63
    -- a substitution is made in the valid bytes only
    have hin : b1.inp + 2 < b1.inl := by
      rcases hroom with hr | hr
      · exact hr
      · rcases Nat.lt_or_ge (b1.inp + 2) b1.inl with hlt2 | hge2
        · exact hlt2
        · exfalso
          have hle1 : b1.inp < b1.inl := by
            have := hg.2.1
            omega
          by_cases h1 : b1.inp + 1 < b1.inl
          · have : b1.inb (b1.inp + 2) = EOFC := hr _ (by omega) (by omega)
            apply hc
            unfold Source.byte
            rw [this]
            decide
          · have : b1.inb (b1.inp + 1) = EOFC := hr _ (by omega) (by omega)
            unfold Source.byte at h63'
            rw [this] at h63'
            revert h63'
            decide
    refine ⟨_, _, _, rfl, rfl, ⟨?_, h1.2.1, h1.2.2.1, ?_⟩⟩
    · show a1.inl - 2 = b1.inl - 2
      rw [h1.1]
    · intro i hi
      have hi' : i < b1.inl - 2 + 2 := hi
      show memmove (poke a1.inb a1.inp _) (a1.inp + 1) (a1.inp + 3) (a1.inl - a1.inp + 2) i
        = memmove (poke b1.inb b1.inp _) (b1.inp + 1) (b1.inp + 3) (b1.inl - b1.inp + 2) i
      rw [hinp1, h1.1, memmove_apply, memmove_apply]
      by_cases hr : b1.inp + 1 ≤ i ∧ i < b1.inp + 1 + (b1.inl - b1.inp + 2)
      · rw [if_pos hr, if_pos hr, poke_apply, poke_apply, if_neg (by omega), if_neg (by omega)]
        exact h1.2.2.2 _ (by omega)
      · rw [if_neg hr, if_neg hr, poke_apply, poke_apply]
        by_cases hp : i = b1.inp
        · rw [if_pos hp, if_pos hp]
        · rw [if_neg hp, if_neg hp]
          exact h1.2.2.2 i (by omega)
  · rw [if_neg hc, if_neg hc]
    have h0 : trigraphChar (b1.byte (b1.inp + 2)) = 0 := by
      by_cases hq : trigraphChar (b1.byte (b1.inp + 2)) = 0
      · exact hq
      · exact absurd hq hc
    exact ⟨a1, b1, _, rfl, rfl, h1⟩

/-- What `foldline` does to alike sources whose cursors stand on the same valid
byte. -/
theorem foldline_alike (k : Nat) (a b : Source) (h : Alike k a b) (hinp : a.inp = b.inp)
    (hlt : b.inp < b.inl) (hb : b.byte b.inp ≠ EOB) :
    (foldline a = none ∧ foldline b = none)
    ∨ ∃ a1 b1 r, foldline a = some (a1, r) ∧ foldline b = some (b1, r) ∧ Alike k a1 b1 := by
  unfold foldline
  rw [h.1, hinp]
  rcases refill_alike k 1 (by decide) (b.inp + 2 - b.inl) a b h hinp (by omega) (by omega)
    with ⟨ha, hb'⟩ | ⟨a1, b1, ha, hb', h1, hinp1, hinpb, hag⟩
  · rw [ha, hb']; exact Or.inl ⟨rfl, rfl⟩
  rw [ha, hb']
  right
  dsimp only
  obtain ⟨hg, -, hroom⟩ := refill_grown 1 _ b b1 hlt hb (by omega) hb'
  have hb1 : a1.byte (a1.inp + 1) = b1.byte (b1.inp + 1) := by
    unfold Source.byte; rw [hinp1, hag (b1.inp + 1) (by omega)]
  rw [hb1]
  by_cases h10 : b1.byte (b1.inp + 1) = 10
  · rw [if_pos h10, if_pos h10]
    have hin : b1.inp + 1 < b1.inl := by
      rcases hroom with hr | hr
      · exact hr
      · rcases Nat.lt_or_ge (b1.inp + 1) b1.inl with hlt2 | hge2
        · exact hlt2
        · exfalso
          have hle1 : b1.inp < b1.inl := by
            have := hg.2.1
            omega
          have : b1.inb (b1.inp + 1) = EOFC := hr _ (by omega) (by omega)
          unfold Source.byte at h10
          rw [this] at h10
          revert h10
          decide
    refine ⟨_, _, _, rfl, rfl, ⟨?_, h1.2.1, h1.2.2.1, ?_⟩⟩
    · show a1.inl - 2 = b1.inl - 2
      rw [h1.1]
    · intro i hi
      have hi' : i < b1.inl - 2 + 2 := hi
      show memmove a1.inb a1.inp (a1.inp + 2) (a1.inl - a1.inp + 3) i
        = memmove b1.inb b1.inp (b1.inp + 2) (b1.inl - b1.inp + 3) i
      rw [hinp1, h1.1, memmove_apply, memmove_apply]
      by_cases hr : b1.inp ≤ i ∧ i < b1.inp + (b1.inl - b1.inp + 3)
      · rw [if_pos hr, if_pos hr]
        exact h1.2.2.2 _ (by omega)
      · rw [if_neg hr, if_neg hr]
        exact h1.2.2.2 i (by omega)
  · rw [if_neg h10, if_neg h10]
    exact ⟨a1, b1, _, rfl, rfl, h1⟩

/-! ## Alike states make alike passes -/

theorem row_texts (ma mb : Nat → Nat) (row : List Token) (n : Nat)
    (hag : ∀ i, i < n → ma i = mb i) (hrow : ∀ tok ∈ row, tok.t + tok.len ≤ n) :
    row.map (fun tok => (tok.type, tok.len, Token.text ma tok, tok.wslen))
      = row.map (fun tok => (tok.type, tok.len, Token.text mb tok, tok.wslen)) := by
  apply List.map_congr_left
  intro tok hm
  rw [text_congr mb ma tok (fun i hi => hag i (by have := hrow tok hm; omega))]

theorem returned_alike (k nmaca nmacb : Nat) (row : List Token) (sa sb : Source) (d : List Diag)
    (n : Nat) (hag : ∀ i, i < n → sa.inb i = sb.inb i) (hrow : ∀ tok ∈ row, tok.t + tok.len ≤ n)
    (hline : sa.lineinc = sb.lineinc + k) :
    Outcome.alike k (.returned nmaca row sa d) (.returned nmacb row sb d) := by
  refine ⟨?_, hline⟩
  show (true, List.map (fun tok => (tok.type, tok.len, Token.text sa.inb tok, tok.wslen)) row, d)
    = (true, List.map (fun tok => (tok.type, tok.len, Token.text sb.inb tok, tok.wslen)) row, d)
  rw [row_texts sa.inb sb.inb row n hag hrow]

theorem fatal_alike (k : Nat) (row : List Token) (sa sb : Source) (d : List Diag)
    (n : Nat) (hag : ∀ i, i < n → sa.inb i = sb.inb i) (hrow : ∀ tok ∈ row, tok.t + tok.len ≤ n)
    (hline : sa.lineinc = sb.lineinc + k) :
    Outcome.alike k (.fatal row sa d) (.fatal row sb d) := by
  refine ⟨?_, hline⟩
  show (false, List.map (fun tok => (tok.type, tok.len, Token.text sa.inb tok, tok.wslen)) row, d)
    = (false, List.map (fun tok => (tok.type, tok.len, Token.text sb.inb tok, tok.wslen)) row, d)
  rw [row_texts sa.inb sb.inb row n hag hrow]

/-- The cases of the switch on alike states. -/
theorem switchOn_alike (k : Nat) (qa qb : Nat → Nat → Nat) (trp : List Token) (sa sb : Source)
    (ip state t wslen : Nat) (row : List Token) (nmaca nmacb : Nat) (diags : List Diag)
    (code : Nat)
    (dx dy : Step) (hs : Alike k sa sb) (hip : ip < sb.inl + 2) (ht : t ≤ ip)
    (hrow : ∀ tok ∈ row, tok.t + tok.len ≤ t)
    (hcom : code &&& 0o177 = S_COMNL → ip < sb.inl)
    (hd : Step.alike k dx dy) :
    Step.alike k (switchOn qa trp ⟨sa, ip, state, t, wslen, row, nmaca, diags⟩ code dx)
      (switchOn qb trp ⟨sb, ip, state, t, wslen, row, nmacb, diags⟩ code dy) := by
  obtain ⟨hinl, hfd, hline, hag⟩ := hs
  have hrow2 : ∀ tok ∈ row, tok.t + tok.len ≤ sb.inl + 2 := fun tok hm => by
    have := hrow tok hm; omega
  unfold switchOn
  dsimp only
  by_cases h1 : code &&& 0o177 = S_SELF
  · rw [if_pos h1, if_pos h1]
    exact .next _ _ ⟨⟨hinl, hfd, hline, hag⟩, rfl, rfl, rfl, rfl, rfl, rfl⟩
  rw [if_neg h1, if_neg h1]
  by_cases h2 : code &&& 0o177 = S_SELFB
  · rw [if_pos h2, if_pos h2]
    exact .next _ _ ⟨⟨hinl, hfd, hline, hag⟩, rfl, rfl, rfl, rfl, rfl, rfl⟩
  rw [if_neg h2, if_neg h2]
  by_cases h3 : code &&& 0o177 = S_NAME
  · rw [if_pos h3, if_pos h3]
    exact .next _ _ ⟨⟨hinl, hfd, hline, hag⟩, rfl, rfl, rfl, rfl, rfl, rfl⟩
  rw [if_neg h3, if_neg h3]
  by_cases h4 : code &&& 0o177 = S_WS
  · rw [if_pos h4, if_pos h4]
    exact .next _ _ ⟨⟨hinl, hfd, hline, hag⟩, rfl, rfl, rfl, rfl, rfl, rfl⟩
  rw [if_neg h4, if_neg h4]
  by_cases h5 : code &&& 0o177 = S_EOB
  · rw [if_pos h5, if_pos h5]
    have hal : Alike k { sa with inp := ip } { sb with inp := ip } := ⟨hinl, hfd, hline, hag⟩
    have hip' : ({ sb with inp := ip } : Source).inp < ({ sb with inp := ip } : Source).inl + 2 := by
      dsimp only
      exact hip
    have hfa := fillbuf_alike k { sa with inp := ip } { sb with inp := ip } hal rfl hip'
    refine hfa.elim (fun h => ?_) (fun h => ?_)
    · rw [h.1, h.2]
      exact .done _ _ (fatal_alike k row _ _ _ (sb.inl + 2) hag hrow2 hline)
    · obtain ⟨a1, b1, f, ha, hb, h1', -⟩ := h
      rw [ha, hb]
      exact .next _ _ ⟨h1', rfl, rfl, rfl, rfl, rfl, rfl⟩
  rw [if_neg h5, if_neg h5]
  by_cases h6 : code &&& 0o177 = S_EOF
  · rw [if_pos h6, if_pos h6, hfd]
    refine .done _ _ (returned_alike k nmaca nmacb _ _ _ _ (sb.inl + 2) hag ?_ hline)
    intro tok hm
    rcases List.mem_append.mp hm with hm | hm
    · exact hrow2 tok hm
    · rw [List.mem_singleton] at hm
      rw [hm]
      show t + 0 ≤ sb.inl + 2
      omega
  rw [if_neg h6, if_neg h6]
  by_cases h7 : code &&& 0o177 = S_STNL ∨ code &&& 0o177 = S_NL
  · rw [if_pos h7, if_pos h7]
    refine .done _ _ (returned_alike k nmaca nmacb _ _ _ _ (sb.inl + 2) hag ?_ ?_)
    · intro tok hm
      rcases List.mem_append.mp hm with hm | hm
      · exact hrow2 tok hm
      · rw [List.mem_singleton] at hm
        rw [hm]
        show ip + 1 ≤ sb.inl + 2
        omega
    · show sa.lineinc + 1 = sb.lineinc + 1 + k
      omega
  rw [if_neg h7, if_neg h7]
  by_cases h8 : code &&& 0o177 = S_EOFSTR
  · rw [if_pos h8, if_pos h8]
    exact .done _ _ (fatal_alike k row _ _ _ (sb.inl + 2) hag hrow2 hline)
  rw [if_neg h8, if_neg h8]
  by_cases h9 : code &&& 0o177 = S_COMNL
  · rw [if_pos h9, if_pos h9]
    have hlt := hcom h9
    by_cases hge : ip + 1 ≥ 7 * INS / 8
    · rw [if_pos hge, if_pos hge]
      refine .next _ _ ⟨⟨?_, hfd, ?_, ?_⟩, rfl, rfl, rfl, rfl, rfl, rfl⟩
      · show sa.inl - (ip + 1 - t) = sb.inl - (ip + 1 - t)
        rw [hinl]
      · show sa.lineinc + 1 = sb.lineinc + 1 + k
        omega
      · intro i hi
        have hi' : i < sb.inl - (ip + 1 - t) + 2 := hi
        show memmove sa.inb t (ip + 1) (4 + sa.inl - (ip + 1)) i
          = memmove sb.inb t (ip + 1) (4 + sb.inl - (ip + 1)) i
        rw [hinl, memmove_apply, memmove_apply]
        by_cases hr : t ≤ i ∧ i < t + (4 + sb.inl - (ip + 1))
        · rw [if_pos hr, if_pos hr]
          exact hag _ (by omega)
        · rw [if_neg hr, if_neg hr]
          exact hag i (by omega)
    · rw [if_neg hge, if_neg hge]
      refine .next _ _ ⟨⟨hinl, hfd, ?_, hag⟩, rfl, rfl, rfl, rfl, rfl, rfl⟩
      show sa.lineinc + 1 = sb.lineinc + 1 + k
      omega
  rw [if_neg h9, if_neg h9]
  by_cases h10 : code &&& 0o177 = S_EOFCOM ∨ code &&& 0o177 = S_COMMENT
  · rw [if_pos h10, if_pos h10]
    refine .next _ _ ⟨⟨hinl, hfd, hline, ?_⟩, rfl, rfl, rfl, rfl, rfl, rfl⟩
    intro i hi
    have hi' : i < sb.inl + 2 := hi
    show (if (if code &&& 0o177 = S_EOFCOM then ip else ip + 1) = 0 then sa.inb
        else poke sa.inb ((if code &&& 0o177 = S_EOFCOM then ip else ip + 1) - 1) 32) i
      = (if (if code &&& 0o177 = S_EOFCOM then ip else ip + 1) = 0 then sb.inb
        else poke sb.inb ((if code &&& 0o177 = S_EOFCOM then ip else ip + 1) - 1) 32) i
    generalize (if code &&& 0o177 = S_EOFCOM then ip else ip + 1) = j
    by_cases hj : j = 0
    · rw [if_pos hj, if_pos hj]
      exact hag i hi'
    · rw [if_neg hj, if_neg hj, poke_apply, poke_apply, hag i hi']
  rw [if_neg h10, if_neg h10]
  exact hd

/-- The default case of the switch on alike states. -/
theorem dfltCase_alike (k : Nat) (qa qb : Nat → Nat → Nat) (trp : List Token) (sa sb : Source)
    (ip state t wslen : Nat) (row : List Token) (nmaca nmacb : Nat) (diags : List Diag)
    (c code : Nat)
    (hs : Alike k sa sb) (hip : ip < sb.inl + 2) (ht : t ≤ ip)
    (hrow : ∀ tok ∈ row, tok.t + tok.len ≤ t)
    (hesc : c = 63 ∨ c = 92 → ip < sb.inl ∧ sb.byte ip ≠ EOB)
    (hm : code &&& QBSBIT ≠ 0 → (code - (code &&& QBSBIT)) &&& 0o177 ≠ S_COMNL) :
    Step.alike k (dfltCase qa trp ⟨sa, ip, state, t, wslen, row, nmaca, diags⟩ c code)
      (dfltCase qb trp ⟨sb, ip, state, t, wslen, row, nmacb, diags⟩ c code) := by
  have hrow2 : ∀ tok ∈ row, tok.t + tok.len ≤ sb.inl + 2 := fun tok hm => by
    have := hrow tok hm; omega
  have hal : Alike k { sa with inp := ip } { sb with inp := ip } := hs
  unfold dfltCase
  dsimp only
  by_cases h0 : code &&& QBSBIT = 0
  · rw [if_pos h0, if_pos h0]
    exact .next _ _ ⟨hs, rfl, rfl, rfl, rfl, rfl, rfl⟩
  rw [if_neg h0, if_neg h0]
  by_cases h63 : c = 63
  · rw [if_pos h63, if_pos h63]
    obtain ⟨hlt, hne⟩ := hesc (Or.inl h63)
    have hlt' : ({ sb with inp := ip } : Source).inp < ({ sb with inp := ip } : Source).inl := hlt
    have hne' : ({ sb with inp := ip } : Source).byte ({ sb with inp := ip } : Source).inp ≠ EOB :=
      hne
    have htr := trigraph_alike k { sa with inp := ip } { sb with inp := ip } hal rfl hlt' hne'
    refine htr.elim (fun h => ?_) (fun h => ?_)
    · rw [h.1, h.2]
      exact .done _ _ (fatal_alike k row _ _ _ (sb.inl + 2) hs.2.2.2 hrow2 hs.2.2.1)
    · obtain ⟨a1, b1, r, ha, hb, h1⟩ := h
      rw [ha, hb]
      dsimp only
      by_cases hr : r ≠ 0
      · rw [if_pos hr, if_pos hr]
        exact .next _ _ ⟨h1, rfl, rfl, rfl, rfl, rfl, rfl⟩
      · rw [if_neg hr, if_neg hr]
        obtain ⟨s1, hg, -, hcase⟩ := trigraph_spec _ b1 r hlt' hne' hb
        have hb1 : b1 = s1 := by
          rcases hcase with ⟨-, h⟩ | ⟨h, -⟩
          · exact h
          · exact absurd h hr
        have hinl : sb.inl ≤ b1.inl := by rw [hb1]; exact hg.2.1
        exact switchOn_alike k qa qb trp a1 b1 ip state t wslen row nmaca nmacb diags _ _ _ h1
          (by omega) ht hrow (fun h => absurd h (hm h0))
          (.next _ _ ⟨h1, rfl, rfl, rfl, rfl, rfl, rfl⟩)
  rw [if_neg h63, if_neg h63]
  by_cases h92 : c = 92
  · rw [if_pos h92, if_pos h92]
    obtain ⟨hlt, hne⟩ := hesc (Or.inr h92)
    have hlt' : ({ sb with inp := ip } : Source).inp < ({ sb with inp := ip } : Source).inl := hlt
    have hne' : ({ sb with inp := ip } : Source).byte ({ sb with inp := ip } : Source).inp ≠ EOB :=
      hne
    have htr := foldline_alike k { sa with inp := ip } { sb with inp := ip } hal rfl hlt' hne'
    refine htr.elim (fun h => ?_) (fun h => ?_)
    · rw [h.1, h.2]
      exact .done _ _ (fatal_alike k row _ _ _ (sb.inl + 2) hs.2.2.2 hrow2 hs.2.2.1)
    · obtain ⟨a1, b1, r, ha, hb, h1⟩ := h
      rw [ha, hb]
      dsimp only
      by_cases hr : r ≠ 0
      · rw [if_pos hr, if_pos hr]
        refine .next _ _ ⟨⟨h1.1, h1.2.1, ?_, h1.2.2.2⟩, rfl, rfl, rfl, rfl, rfl, rfl⟩
        show a1.lineinc + 1 = b1.lineinc + 1 + k
        have := h1.2.2.1
        omega
      · rw [if_neg hr, if_neg hr]
        obtain ⟨s1, hg, -, hcase⟩ := foldline_spec _ b1 r hlt' hne' hb
        have hb1 : b1 = s1 := by
          rcases hcase with ⟨-, h⟩ | ⟨h, -⟩
          · exact h
          · exact absurd (by rw [h]; decide) hr
        have hinl : sb.inl ≤ b1.inl := by rw [hb1]; exact hg.2.1
        exact switchOn_alike k qa qb trp a1 b1 ip state t wslen row nmaca nmacb diags _ _ _ h1
          (by omega) ht hrow (fun h => absurd h (hm h0))
          (.next _ _ ⟨h1, rfl, rfl, rfl, rfl, rfl, rfl⟩)
  rw [if_neg h92, if_neg h92]
  exact .next _ _ ⟨hal, rfl, rfl, rfl, rfl, rfl, rfl⟩

/-- One pass of the loop on alike states has alike results. -/
theorem step_alike (cplusplus : Bool) (k : Nat) (qa qb : Nat → Nat → Nat) (trp : List Token)
    (x y : Scan) (h : Scan.alike k x y) (hinv : Inv y) :
    Step.alike k (step (entry cplusplus) qa trp x) (step (entry cplusplus) qb trp y) := by
  obtain ⟨sa, ipa, statea, ta, wslena, rowa, nmaca, diagsa⟩ := x
  obtain ⟨sb, ip, state, t, wslen, row, nmac, diags⟩ := y
  obtain ⟨hs, h1, h2, h3, h4, h5, h7⟩ := h
  dsimp only at h1 h2 h3 h4 h5 h7 hs
  subst h1 h2 h3 h4 h5 h7
  have hbuf : Buf sb ipa statea := hinv.buf
  have hip : ipa < sb.inl + 2 := by
    rcases hbuf with ⟨h, -⟩ | ⟨h, -⟩
    · omega
    · omega
  have ht : ta ≤ ipa := hinv.t_le
  have hrow : ∀ tok ∈ rowa, tok.t + tok.len ≤ ta := fun tok hm => (hinv.row tok hm).1
  have hbyte : sa.byte ipa = sb.byte ipa := by
    unfold Source.byte; rw [hs.2.2.2 ipa hip]
  have hesc : sb.byte ipa = 63 ∨ sb.byte ipa = 92 → ipa < sb.inl ∧ sb.byte ipa ≠ EOB := by
    intro hc
    have h253 : sb.byte ipa ≠ 253 := by rcases hc with hc | hc <;> rw [hc] <;> decide
    have h254 : sb.byte ipa ≠ 254 := by rcases hc with hc | hc <;> rw [hc] <;> decide
    exact ⟨(buf_lt hbuf h253 h254).1, h254⟩
  rcases entry_cases cplusplus (sb.byte ipa) statea (Source.byte_lt sb ipa) hinv.state_lt
      hinv.state_ne with ⟨j, he, -⟩ | ⟨code, he, hq, hm⟩ | ⟨code, he, hq, hn⟩
  · rw [step_cont (entry cplusplus) qa trp ⟨sa, ipa, statea, ta, wslena, rowa, nmaca, diagsa⟩ j
        (by rw [← he]; exact congrArg (fun b => entry cplusplus b statea) hbyte),
      step_cont (entry cplusplus) qb trp ⟨sb, ipa, statea, ta, wslena, rowa, nmac, diagsa⟩ j he]
    exact .next _ _ ⟨hs, rfl, rfl, rfl, rfl, rfl, rfl⟩
  · rw [step_neg (entry cplusplus) qa trp ⟨sa, ipa, statea, ta, wslena, rowa, nmaca, diagsa⟩ code
        (by rw [← he]; exact congrArg (fun b => entry cplusplus b statea) hbyte),
      step_neg (entry cplusplus) qb trp ⟨sb, ipa, statea, ta, wslena, rowa, nmac, diagsa⟩ code he,
      switchOn_marked qa trp _ code _ hq, switchOn_marked qb trp _ code _ hq]
    have hb' : (Scan.mk sa ipa statea ta wslena rowa nmaca diagsa).s.byte
        (Scan.mk sa ipa statea ta wslena rowa nmaca diagsa).ip = sb.byte ipa := hbyte
    rw [hb']
    refine dfltCase_alike k qa qb trp sa sb ipa statea ta wslena rowa nmaca nmac diagsa _ code hs hip ht
      hrow hesc (fun _ => ?_)
    rcases hm.2 with ⟨-, hlt, -, hand⟩ | ⟨hcase, -⟩
    · rw [hand]
      intro h38
      rw [h38] at hlt
      exact absurd hlt (by decide)
    · intro h38
      rw [h38] at hcase
      rcases hcase with h | ⟨h | h | h, -⟩ <;> exact absurd h (by decide)
  · rw [step_neg (entry cplusplus) qa trp ⟨sa, ipa, statea, ta, wslena, rowa, nmaca, diagsa⟩ code
        (by rw [← he]; exact congrArg (fun b => entry cplusplus b statea) hbyte),
      step_neg (entry cplusplus) qb trp ⟨sb, ipa, statea, ta, wslena, rowa, nmac, diagsa⟩ code he]
    have hb' : (Scan.mk sa ipa statea ta wslena rowa nmaca diagsa).s.byte
        (Scan.mk sa ipa statea ta wslena rowa nmaca diagsa).ip = sb.byte ipa := hbyte
    rw [hb']
    refine switchOn_alike k qa qb trp sa sb ipa statea ta wslena rowa nmaca nmac diagsa code _ _ hs hip ht
      hrow (fun h38 => ?_) ?_
    · have h10 : sb.byte ipa = 10 := hn.2.2.2.2.2.2.2.1 (Or.inr (Or.inr h38))
      exact (buf_lt hbuf (by rw [h10]; decide) (by rw [h10]; decide)).1
    · exact dfltCase_alike k qa qb trp sa sb ipa statea ta wslena rowa nmaca nmac diagsa _ code hs hip ht
        hrow hesc (fun h => absurd hq h)

/-- The loop on alike states: when the second run ends, the first ends after
as many passes, and the two outcomes are alike. -/
theorem scanLoop_alike (cplusplus : Bool) (k : Nat) (qa qb : Nat → Nat → Nat)
    (trp : List Token) :
    ∀ (n : Nat) (x y : Scan), Scan.alike k x y → Inv y → ∀ ob,
      scanLoop (entry cplusplus) qb trp n y = some ob →
      ∃ oa, scanLoop (entry cplusplus) qa trp n x = some oa ∧ Outcome.alike k oa ob := by
  intro n
  induction n with
  | zero =>
    intro x y _ _ ob hb
    exact absurd hb (by simp [scanLoop])
  | succ n ih =>
    intro x y h hinv ob hb
    have hst := step_alike cplusplus k qa qb trp x y h hinv
    have hsp := step_spec cplusplus qb trp y hinv.state_lt hinv.state_ne
    rw [scanLoop_succ] at hb ⊢
    generalize step (entry cplusplus) qa trp x = rx at hst ⊢
    generalize step (entry cplusplus) qb trp y = ry at hst hsp hb
    cases hst with
    | next x1 y1 h1 =>
      exact ih x1 y1 h1 (stepR_inv qb trp y y1 hinv hsp) ob hb
    | done oa ob1 h1 =>
      have : ob1 = ob := by
        injection hb
      subst this
      exact ⟨oa, rfl, h1⟩

/-! ## The passes before a substitution -/

theorem switchOn_WS (q : Nat → Nat → Nat) (trp : List Token) (st : Scan) (code : Nat)
    (d : Step) (h : code &&& 0o177 = S_WS) :
    switchOn q trp st code d
      = .next { st with wslen := st.ip - st.t, t := st.ip, state := START } := by
  unfold switchOn
  dsimp only
  rw [if_neg (by rw [h]; decide), if_neg (by rw [h]; decide), if_neg (by rw [h]; decide),
    if_pos h]

theorem pre_same {L : Nat} {ta tb : List Nat} {sa sb : Source} {ip0 state0 t0 wslen0 : Nat}
    {row0 : List Token} {nmac0 : Nat} {diags0 : List Diag}
    (h : Pre L ta tb ⟨sa, ip0, state0, t0, wslen0, row0, nmac0, diags0⟩
      ⟨sb, ip0, state0, t0, wslen0, row0, nmac0, diags0⟩)
    (ip state t wslen : Nat) (row : List Token) (nmac : Nat) (diags : List Diag)
    (hle : ip ≤ L) :
    Pre L ta tb ⟨sa, ip, state, t, wslen, row, nmac, diags⟩
      ⟨sb, ip, state, t, wslen, row, nmac, diags⟩ :=
  ⟨rfl, rfl, rfl, rfl, rfl, rfl, rfl, hle, h.agree, h.quiet, h.holdsa, h.holdsb, h.inla, h.inlb,
    h.fd, h.lineinc⟩

/-- Before the substitution, on a byte below `L`, the two runs make the same
pass. -/
theorem plain_step (cplusplus : Bool) (q : Nat → Nat → Nat) (trp : List Token) (L : Nat)
    (ta tb : List Nat) (x y : Scan) (h : Pre L ta tb x y) (hlt : y.ip < L) (hinv : Inv y) :
    ∃ x1 y1, step (entry cplusplus) q trp x = .next x1
      ∧ step (entry cplusplus) q trp y = .next y1 ∧ Pre L ta tb x1 y1 := by
  obtain ⟨sa, ipa, statea, ta', wslena, rowa, nmaca, diagsa⟩ := x
  obtain ⟨sb, ip, state, t, wslen, row, nmac, diags⟩ := y
  have h1 := h.ip
  have h2 := h.state
  have h3 := h.t
  have h4 := h.wslen
  have h5 := h.row
  have h6 := h.nmac
  have h7 := h.diags
  dsimp only at h1 h2 h3 h4 h5 h6 h7 hlt
  subst h1 h2 h3 h4 h5 h6 h7
  have ht : ta' ≤ ipa := hinv.t_le
  have hag : ∀ i, i < L → sa.inb i = sb.inb i := h.agree
  have hbyte : sa.byte ipa = sb.byte ipa := by
    unfold Source.byte; rw [hag ipa hlt]
  obtain ⟨q10, q63, q92, q253, q254⟩ : Quiet (sb.byte ipa) := h.quiet ipa hlt
  have hea : ∀ e, entry cplusplus (sb.byte ipa) statea = e →
      entry cplusplus ((Scan.mk sa ipa statea ta' wslena rowa nmaca diagsa).s.byte
        (Scan.mk sa ipa statea ta' wslena rowa nmaca diagsa).ip)
        (Scan.mk sa ipa statea ta' wslena rowa nmaca diagsa).state = e := by
    intro e he
    rw [← he]
    exact congrArg (fun b => entry cplusplus b statea) hbyte
  rcases entry_cases cplusplus (sb.byte ipa) statea (Source.byte_lt sb ipa) hinv.state_lt
      hinv.state_ne with ⟨j, he, -⟩ | ⟨code, he, hq, hm⟩ | ⟨code, he, hq, hn⟩
  · exact ⟨_, _, step_cont (entry cplusplus) q trp _ j (hea _ he),
      step_cont (entry cplusplus) q trp _ j he, pre_same h _ _ _ _ _ _ _ hlt⟩
  · rcases hm.1 with h | h
    · exact absurd h q63
    · exact absurd h q92
  · obtain ⟨⟨hlo, hhi, -, -⟩, -, -, -, heob, heof, -, hnl, -, -⟩ := hn
    have hsa := step_neg (entry cplusplus) q trp
      (Scan.mk sa ipa statea ta' wslena rowa nmaca diagsa) code (hea _ he)
    have hsb := step_neg (entry cplusplus) q trp
      (Scan.mk sb ipa statea ta' wslena rowa nmaca diagsa) code he
    have n34 : code &&& 0o177 ≠ S_EOF := fun h => q253 (heof (Or.inl h))
    have n36 : code &&& 0o177 ≠ S_EOFSTR := fun h => q253 (heof (Or.inr (Or.inl h)))
    have n39 : code &&& 0o177 ≠ S_EOFCOM := fun h => q253 (heof (Or.inr (Or.inr h)))
    have n35 : code &&& 0o177 ≠ S_NL := fun h => q10 (hnl (Or.inl h))
    have n37 : code &&& 0o177 ≠ S_STNL := fun h => q10 (hnl (Or.inr (Or.inl h)))
    have n38 : code &&& 0o177 ≠ S_COMNL := fun h => q10 (hnl (Or.inr (Or.inr h)))
    have n41 : code &&& 0o177 ≠ S_EOB := fun h => q254 (heob.mp h)
    have hcases : code &&& 0o177 = S_SELF ∨ code &&& 0o177 = S_SELFB
        ∨ code &&& 0o177 = S_COMMENT ∨ code &&& 0o177 = S_WS ∨ code &&& 0o177 = S_NAME := by
      unfold S_EOF at n34
      unfold S_EOFSTR at n36
      unfold S_EOFCOM at n39
      unfold S_NL at n35
      unfold S_STNL at n37
      unfold S_COMNL at n38
      unfold S_EOB at n41
      unfold S_SELF S_SELFB S_COMMENT S_WS S_NAME
      omega
    rcases hcases with hc | hc | hc | hc | hc
    · exact ⟨_, _, hsa.trans (switchOn_SELF q trp _ code _ hc),
        hsb.trans (switchOn_SELF q trp _ code _ hc), pre_same h _ _ _ _ _ _ _ hlt⟩
    · exact ⟨_, _, hsa.trans (switchOn_SELFB q trp _ code _ hc),
        hsb.trans (switchOn_SELFB q trp _ code _ hc), pre_same h _ _ _ _ _ _ _ (Nat.le_of_lt hlt)⟩
    · refine ⟨_, _, hsa.trans (switchOn_COMMENT q trp _ code _ hc),
        hsb.trans (switchOn_COMMENT q trp _ code _ hc), ?_⟩
      refine ⟨rfl, rfl, rfl, rfl, rfl, rfl, rfl, hlt, ?_, ?_, ?_, ?_, h.inla, h.inlb, h.fd,
        h.lineinc⟩
      · intro i hi
        show poke sa.inb ipa 32 i = poke sb.inb ipa 32 i
        rw [poke_apply, poke_apply, hag i hi]
      · intro i hi
        show Quiet (poke sb.inb ipa 32 i % 256)
        rw [poke_apply]
        by_cases hii : i = ipa
        · rw [if_pos hii]
          exact ⟨by decide, by decide, by decide, by decide, by decide⟩
        · rw [if_neg hii]
          exact h.quiet i hi
      · refine holds_congr (fun i hi _ => ?_) h.holdsa
        show poke sa.inb ipa 32 i = sa.inb i
        rw [poke_apply, if_neg (by omega)]
      · refine holds_congr (fun i hi _ => ?_) h.holdsb
        show poke sb.inb ipa 32 i = sb.inb i
        rw [poke_apply, if_neg (by omega)]
    · exact ⟨_, _, hsa.trans (switchOn_WS q trp _ code _ hc),
        hsb.trans (switchOn_WS q trp _ code _ hc), pre_same h _ _ _ _ _ _ _ (Nat.le_of_lt hlt)⟩
    · have e1 : sa.byte ta' = sb.byte ta' := by
        unfold Source.byte; rw [hag ta' (by omega)]
      have e2 : (if ipa - ta' > 1 then sa.byte (ta' + 1) else 0)
          = (if ipa - ta' > 1 then sb.byte (ta' + 1) else 0) := by
        by_cases hl : ipa - ta' > 1
        · rw [if_pos hl, if_pos hl]
          unfold Source.byte; rw [hag (ta' + 1) (by omega)]
        · rw [if_neg hl, if_neg hl]
      refine ⟨_, _, hsa.trans (switchOn_NAME q trp _ code _ hc),
        hsb.trans (switchOn_NAME q trp _ code _ hc), ?_⟩
      show Pre L ta tb
        (emit ⟨sa, ipa, statea, ta', wslena, rowa,
          nmaca ||| q (sa.byte ta') (if ipa - ta' > 1 then sa.byte (ta' + 1) else 0), diagsa⟩
          ipa NAME)
        (emit ⟨sb, ipa, statea, ta', wslena, rowa,
          nmaca ||| q (sb.byte ta') (if ipa - ta' > 1 then sb.byte (ta' + 1) else 0), diagsa⟩
          ipa NAME)
      rw [e1, e2]
      exact pre_same h _ _ _ _ _ _ _ (Nat.le_of_lt hlt)

/-! ## The pass that makes the substitution -/

theorem holds_agree {ma mb : Nat → Nat} {pa pb : Nat} {w : List Nat} (h1 : Holds ma pa w)
    (h2 : Holds mb pb w) (j : Nat) (hj : j < w.length) : ma (pa + j) = mb (pb + j) :=
  (h1 j hj).trans (h2 j hj).symm

/-- At the offset `L` the first run meets the trigraph and replaces it; after
that pass its state is alike the state of the second run, which has not
moved. -/
theorem tri_junction (cplusplus : Bool) (q : Nat → Nat → Nat) (trp : List Token) (L c r : Nat)
    (tail : List Nat) (x y : Scan) (h : Pre L (63 :: 63 :: c :: tail) (r :: tail) x y)
    (hip : y.ip = L) (hinv : Inv y) (hc : c < 256) (hr : trigraphChar c = r) (hr0 : r ≠ 0) :
    ∃ x1, step (entry cplusplus) q trp x = .next x1 ∧ Scan.alike 0 x1 y := by
  obtain ⟨sa, ipa, statea, ta', wslena, rowa, nmaca, diagsa⟩ := x
  obtain ⟨sb, ip, state, t, wslen, row, nmac, diags⟩ := y
  have h1 := h.ip
  have h2 := h.state
  have h3 := h.t
  have h4 := h.wslen
  have h5 := h.row
  have h6 := h.nmac
  have h7 := h.diags
  dsimp only at h1 h2 h3 h4 h5 h6 h7 hip
  subst h1 h2 h3 h4 h5 h6 h7
  subst hip
  have hag : ∀ i, i < ipa → sa.inb i = sb.inb i := h.agree
  have ha : Holds sa.inb ipa (63 :: 63 :: c :: (tail ++ [254, 254])) := h.holdsa
  have hb : Holds sb.inb ipa (r :: (tail ++ [254, 254])) := h.holdsb
  have hinla : sa.inl = ipa + (tail.length + 3) := h.inla
  have hinlb : sb.inl = ipa + (tail.length + 1) := h.inlb
  rw [holds_cons, holds_cons, holds_cons] at ha
  rw [holds_cons] at hb
  obtain ⟨a0, a1, a2, atl⟩ := ha
  obtain ⟨b0, btl⟩ := hb
  have hb63 : sa.byte ipa = 63 := by unfold Source.byte; rw [a0]
  have hb1 : sa.byte (ipa + 1) = 63 := by unfold Source.byte; rw [a1]
  have hb2 : sa.byte (ipa + 1 + 1) = c := by unfold Source.byte; rw [a2]; exact Nat.mod_eq_of_lt hc
  have htri : trigraph { sa with inp := ipa }
      = some ({ sa with
          inp := ipa,
          inb := memmove (poke sa.inb ipa r) (ipa + 1) (ipa + 3) (sa.inl - ipa + 2),
          inl := sa.inl - 2 }, r) := by
    unfold trigraph
    dsimp only
    have h0 : ipa + 3 - sa.inl = 0 := by omega
    rw [h0]
    show (if ({ sa with inp := ipa } : Source).byte (ipa + 1) ≠ 63 then _ else _) = _
    have e1 : ({ sa with inp := ipa } : Source).byte (ipa + 1) = 63 := hb1
    have e2 : ({ sa with inp := ipa } : Source).byte (ipa + 2) = c := hb2
    rw [if_neg (not_not.mpr e1)]
    dsimp only
    rw [e2, hr, if_pos hr0]
  have hstep : ∀ code, code &&& QBSBIT ≠ 0 →
      dfltCase q trp ⟨sa, ipa, statea, ta', wslena, rowa, nmaca, diagsa⟩ (sa.byte ipa) code
        = .next ⟨{ sa with
            inp := ipa,
            inb := memmove (poke sa.inb ipa r) (ipa + 1) (ipa + 3) (sa.inl - ipa + 2),
            inl := sa.inl - 2 }, ipa, statea, ta', wslena, rowa, nmaca, diagsa⟩ := by
    intro code hq
    unfold dfltCase
    dsimp only
    rw [if_neg hq, if_pos hb63, htri]
    dsimp only
    rw [if_pos hr0]
  have hea : ∀ e, entry cplusplus 63 statea = e →
      entry cplusplus ((Scan.mk sa ipa statea ta' wslena rowa nmaca diagsa).s.byte
        (Scan.mk sa ipa statea ta' wslena rowa nmaca diagsa).ip)
        (Scan.mk sa ipa statea ta' wslena rowa nmaca diagsa).state = e := by
    intro e he
    rw [← he]
    exact congrArg (fun b => entry cplusplus b statea) hb63
  rcases entry_cases cplusplus 63 statea (by decide) hinv.state_lt
      hinv.state_ne with ⟨j, -, hk⟩ | ⟨code, he, hq, -⟩ | ⟨code, -, -, hn⟩
  · exact absurd rfl hk.2.2.2.2.2.2.1
  · refine ⟨_, ((step_neg (entry cplusplus) q trp _ code (hea _ he)).trans
      (switchOn_marked q trp _ code _ hq)).trans (hstep code hq), ?_⟩
    refine ⟨⟨?_, h.fd, ?_, ?_⟩, rfl, rfl, rfl, rfl, rfl, rfl⟩
    · show sa.inl - 2 = sb.inl
      omega
    · show sa.lineinc = sb.lineinc + 0
      exact h.lineinc
    · intro i hi
      have hi' : i < sb.inl + 2 := hi
      show memmove (poke sa.inb ipa r) (ipa + 1) (ipa + 3) (sa.inl - ipa + 2) i = sb.inb i
      rw [memmove_apply]
      by_cases hlo : ipa + 1 ≤ i
      · rw [if_pos ⟨hlo, by omega⟩, poke_apply, if_neg (by omega)]
        have hj : i - (ipa + 1) < (tail ++ [254, 254]).length := by
          rw [List.length_append]
          show i - (ipa + 1) < tail.length + 2
          omega
        have := holds_agree atl btl (i - (ipa + 1)) hj
        have e1 : ipa + 3 + (i - (ipa + 1)) = ipa + 1 + 1 + 1 + (i - (ipa + 1)) := by omega
        have e2 : ipa + 1 + (i - (ipa + 1)) = i := by omega
        rw [e1, this, e2]
      · rw [if_neg (fun hh => hlo hh.1), poke_apply]
        by_cases hii : i = ipa
        · rw [if_pos hii, hii, b0]
        · rw [if_neg hii]
          exact hag i (by omega)
  · exact absurd rfl hn.1.2.2.1

/-- At the offset `L` the first run meets the backslash before the newline and
deletes the two bytes; after that pass its state is alike the state of the
second run, which has not moved, with one more pending line. -/
theorem fold_junction (cplusplus : Bool) (q : Nat → Nat → Nat) (trp : List Token) (L : Nat)
    (tail : List Nat) (x y : Scan) (h : Pre L (92 :: 10 :: tail) tail x y)
    (hip : y.ip = L) (hinv : Inv y) :
    ∃ x1, step (entry cplusplus) q trp x = .next x1 ∧ Scan.alike 1 x1 y := by
  obtain ⟨sa, ipa, statea, ta', wslena, rowa, nmaca, diagsa⟩ := x
  obtain ⟨sb, ip, state, t, wslen, row, nmac, diags⟩ := y
  have h1 := h.ip
  have h2 := h.state
  have h3 := h.t
  have h4 := h.wslen
  have h5 := h.row
  have h6 := h.nmac
  have h7 := h.diags
  dsimp only at h1 h2 h3 h4 h5 h6 h7 hip
  subst h1 h2 h3 h4 h5 h6 h7
  subst hip
  have hag : ∀ i, i < ipa → sa.inb i = sb.inb i := h.agree
  have ha : Holds sa.inb ipa (92 :: 10 :: (tail ++ [254, 254])) := h.holdsa
  have hb : Holds sb.inb ipa (tail ++ [254, 254]) := h.holdsb
  have hinla : sa.inl = ipa + (tail.length + 2) := h.inla
  have hinlb : sb.inl = ipa + tail.length := h.inlb
  rw [holds_cons, holds_cons] at ha
  obtain ⟨a0, a1, atl⟩ := ha
  have hb92 : sa.byte ipa = 92 := by unfold Source.byte; rw [a0]
  have hb1 : sa.byte (ipa + 1) = 10 := by unfold Source.byte; rw [a1]
  have hfold : foldline { sa with inp := ipa }
      = some ({ sa with
          inp := ipa,
          inb := memmove sa.inb ipa (ipa + 2) (sa.inl - ipa + 3),
          inl := sa.inl - 2 }, 1) := by
    unfold foldline
    dsimp only
    have h0 : ipa + 2 - sa.inl = 0 := by omega
    rw [h0]
    show (if ({ sa with inp := ipa } : Source).byte (ipa + 1) = 10 then _ else _) = _
    have e1 : ({ sa with inp := ipa } : Source).byte (ipa + 1) = 10 := hb1
    rw [if_pos e1]
  have hstep : ∀ code, code &&& QBSBIT ≠ 0 →
      dfltCase q trp ⟨sa, ipa, statea, ta', wslena, rowa, nmaca, diagsa⟩ (sa.byte ipa) code
        = .next ⟨{ sa with
            inp := ipa,
            inb := memmove sa.inb ipa (ipa + 2) (sa.inl - ipa + 3),
            inl := sa.inl - 2,
            lineinc := sa.lineinc + 1 }, ipa, statea, ta', wslena, rowa, nmaca, diagsa⟩ := by
    intro code hq
    unfold dfltCase
    dsimp only
    rw [if_neg hq, if_neg (by rw [hb92]; decide), if_pos hb92, hfold]
    dsimp only
    rw [if_pos (by decide)]
  have hea : ∀ e, entry cplusplus 92 statea = e →
      entry cplusplus ((Scan.mk sa ipa statea ta' wslena rowa nmaca diagsa).s.byte
        (Scan.mk sa ipa statea ta' wslena rowa nmaca diagsa).ip)
        (Scan.mk sa ipa statea ta' wslena rowa nmaca diagsa).state = e := by
    intro e he
    rw [← he]
    exact congrArg (fun b => entry cplusplus b statea) hb92
  rcases entry_cases cplusplus 92 statea (by decide) hinv.state_lt
      hinv.state_ne with ⟨j, -, hk⟩ | ⟨code, he, hq, -⟩ | ⟨code, -, -, hn⟩
  · exact absurd rfl hk.2.2.2.2.2.2.2
  · refine ⟨_, ((step_neg (entry cplusplus) q trp _ code (hea _ he)).trans
      (switchOn_marked q trp _ code _ hq)).trans (hstep code hq), ?_⟩
    refine ⟨⟨?_, h.fd, ?_, ?_⟩, rfl, rfl, rfl, rfl, rfl, rfl⟩
    · show sa.inl - 2 = sb.inl
      omega
    · show sa.lineinc + 1 = sb.lineinc + 1
      rw [h.lineinc]
    · intro i hi
      have hi' : i < sb.inl + 2 := hi
      show memmove sa.inb ipa (ipa + 2) (sa.inl - ipa + 3) i = sb.inb i
      rw [memmove_apply]
      by_cases hlo : ipa ≤ i
      · rw [if_pos ⟨hlo, by omega⟩]
        have hj : i - ipa < (tail ++ [254, 254]).length := by
          rw [List.length_append]
          show i - ipa < tail.length + 2
          omega
        have := holds_agree atl hb (i - ipa) hj
        have e1 : ipa + 2 + (i - ipa) = ipa + 1 + 1 + (i - ipa) := by omega
        have e2 : ipa + (i - ipa) = i := by omega
        rw [e1, this, e2]
      · rw [if_neg (fun hh => hlo hh.1)]
        exact hag i (by omega)
  · exact absurd rfl hn.1.2.2.2

/-- The two runs from states before the substitution: when the second ends
after `n` passes, the first ends after one pass more, and the outcomes are
alike. -/
theorem prefix_run (cplusplus : Bool) (k : Nat) (q : Nat → Nat → Nat) (trp : List Token)
    (L : Nat) (ta tb : List Nat)
    (hj : ∀ x y, Pre L ta tb x y → y.ip = L → Inv y →
      ∃ x1, step (entry cplusplus) q trp x = .next x1 ∧ Scan.alike k x1 y) :
    ∀ (n : Nat) (x y : Scan), Pre L ta tb x y → Inv y → ∀ ob,
      scanLoop (entry cplusplus) q trp n y = some ob →
      ∃ oa, scanLoop (entry cplusplus) q trp (n + 1) x = some oa ∧ Outcome.alike k oa ob := by
  intro n
  induction n with
  | zero =>
    intro x y _ _ ob hb
    exact absurd hb (by simp [scanLoop])
  | succ n ih =>
    intro x y h hinv ob hb
    by_cases hlt : y.ip < L
    · obtain ⟨x1, y1, hx, hy, h1⟩ := plain_step cplusplus q trp L ta tb x y h hlt hinv
      have hsp := step_spec cplusplus q trp y hinv.state_lt hinv.state_ne
      rw [hy] at hsp
      rw [scanLoop_next _ _ _ _ _ _ hy] at hb
      rw [scanLoop_next _ _ _ _ _ _ hx]
      exact ih x1 y1 h1 (stepR_inv q trp y y1 hinv hsp) ob hb
    · have hip : y.ip = L := Nat.le_antisymm h.le (Nat.le_of_not_lt hlt)
      obtain ⟨x1, hx, h1⟩ := hj x y h hip hinv
      rw [scanLoop_next _ _ _ _ _ _ hx]
      exact scanLoop_alike cplusplus k q q trp (n + 1) x1 y h1 hinv ob hb

/-- The loop is entered on two string sources with a common prefix in states
that stand before the substitution. -/
theorem pre_init (p ta tb : List Nat) (heapa heapb : Nat → Nat) (hp : ∀ c ∈ p, Inert c)
    (hta : CString ta) (htb : CString tb) :
    Pre p.length ta tb (Scan.init (strsource (p ++ ta) heapa))
      (Scan.init (strsource (p ++ tb) heapb)) := by
  have hcp : CString p := fun c hc => ⟨(hp c hc).1.1, (hp c hc).1.2.1⟩
  have hca : CString (p ++ ta) := fun c hc => by
    rcases List.mem_append.mp hc with h | h
    · exact hcp c h
    · exact hta c h
  have hcb : CString (p ++ tb) := fun c hc => by
    rcases List.mem_append.mp hc with h | h
    · exact hcp c h
    · exact htb c h
  have ha := (holds_append _ 0 p ta).mp (strsource_holds (p ++ ta) heapa hca)
  have hb := (holds_append _ 0 p tb).mp (strsource_holds (p ++ tb) heapb hcb)
  have hsa := strsource_sentinels (p ++ ta) heapa hca
  have hsb := strsource_sentinels (p ++ tb) heapb hcb
  rw [List.length_append] at hsa hsb
  rw [Nat.zero_add] at ha hb
  refine ⟨rfl, rfl, rfl, rfl, rfl, rfl, rfl, Nat.zero_le _, ?_, ?_, ?_, ?_, ?_, ?_, rfl, rfl⟩
  · intro i hi
    have e1 := ha.1 i hi
    have e2 := hb.1 i hi
    rw [Nat.zero_add] at e1 e2
    exact e1.trans e2.symm
  · intro i hi
    have e2 := hb.1 i hi
    rw [Nat.zero_add] at e2
    have hmem : p.getD i 0 ∈ p := by
      rw [List.getD_eq_getElem p 0 hi]
      exact List.getElem_mem hi
    obtain ⟨⟨h256, -, h253, h254⟩, h10, h63, h92⟩ := hp _ hmem
    show Quiet ((strsource (p ++ tb) heapb).inb i % 256)
    rw [e2, Nat.mod_eq_of_lt h256]
    exact ⟨h10, h63, h92, h253, h254⟩
  · exact (holds_append _ _ ta [254, 254]).mpr ⟨ha.2, hsa⟩
  · exact (holds_append _ _ tb [254, 254]).mpr ⟨hb.2, hsb⟩
  · show (strsource (p ++ ta) heapa).inl = p.length + ta.length
    rw [strsource_inl _ _ hca, List.length_append]
  · show (strsource (p ++ tb) heapb).inl = p.length + tb.length
    rw [strsource_inl _ _ hcb, List.length_append]

/-! ## Trigraphs and line splices leave the same tokens -/

theorem seen_tokens (o : Outcome) : o.seen.2.1 = o.tokens := by
  cases o <;> rfl

theorem trigraphs_true :
    ∀ pr ∈ trigraphs, pr.1 < 256 ∧ trigraphChar pr.1 = pr.2 ∧ pr.2 ≠ 0 ∧ pr.2 < 256 := by
  decide

theorem trigraphs_spec (x r : Nat) (h : (x, r) ∈ trigraphs) :
    x < 256 ∧ trigraphChar x = r ∧ r ≠ 0 ∧ r < 256 :=
  trigraphs_true (x, r) h

theorem cstring_tail (qs : List Nat) (hq : ∀ c ∈ qs, Clean c) : CString (qs ++ [10]) := by
  intro c hc
  rcases List.mem_append.mp hc with h | h
  · exact ⟨(hq c h).1, (hq c h).2.1⟩
  · rw [List.mem_singleton] at h
    rw [h]
    decide

theorem cstring_cons (c : Nat) (l : List Nat) (h1 : c < 256) (h0 : c ≠ 0) (hl : CString l) :
    CString (c :: l) := by
  intro b hb
  rcases List.mem_cons.mp hb with h | h
  · rw [h]; exact ⟨h1, h0⟩
  · exact hl b h

/-- Two string sources with a common prefix `p` of inert bytes, on which the
pass at the end of `p` makes the states of the two runs alike: both calls end,
with alike outcomes. -/
theorem substitution_run (cplusplus : Bool) (k : Nat) (q : Nat → Nat → Nat) (trp : List Token)
    (reset : Bool) (p ta tb : List Nat) (heapa heapb : Nat → Nat) (hp : ∀ c ∈ p, Inert c)
    (hta : CString ta) (htb : CString tb) (hna : ta ≠ []) (hnb : tb ≠ [])
    (hj : ∀ x y, Pre p.length ta tb x y → y.ip = p.length → Inv y →
      ∃ x1, step (entry cplusplus) q trp x = .next x1 ∧ Scan.alike k x1 y) :
    ∃ n oa ob,
      gettokens (bigfsm cplusplus) q n (strsource (p ++ ta) heapa) trp reset = some oa
      ∧ gettokens (bigfsm cplusplus) q n (strsource (p ++ tb) heapb) trp reset = some ob
      ∧ Outcome.alike k oa ob := by
  have hcp : CString p := fun c hc => ⟨(hp c hc).1.1, (hp c hc).1.2.1⟩
  have hca : CString (p ++ ta) := fun c hc => by
    rcases List.mem_append.mp hc with h | h
    · exact hcp c h
    · exact hta c h
  have hcb : CString (p ++ tb) := fun c hc => by
    rcases List.mem_append.mp hc with h | h
    · exact hcp c h
    · exact htb c h
  have hnea : p ++ ta ≠ [] := fun h => hna (List.append_eq_nil.mp h).2
  have hneb : p ++ tb ≠ [] := fun h => hnb (List.append_eq_nil.mp h).2
  obtain ⟨n, ob, hb⟩ := gettokens_terminates cplusplus q trp (strsource (p ++ tb) heapb) reset
    (setsource_wf none (some (p ++ tb)) heapb) rfl
  rw [bigfsm_eq] at hb ⊢
  have hb1 : scanLoop (entry cplusplus) q trp n (Scan.init (strsource (p ++ tb) heapb))
      = some ob := by
    unfold gettokens at hb
    rw [rewind_strsource _ _ _ hcb hneb] at hb
    exact hb
  obtain ⟨oa, ha, hal⟩ := prefix_run cplusplus k q trp p.length ta tb hj n _ _
    (pre_init p ta tb heapa heapb hp hta htb)
    (init_inv _ (setsource_wf none (some (p ++ tb)) heapb)) ob hb1
  refine ⟨n + 1, oa, ob, ?_, ?_, hal⟩
  · unfold gettokens
    rw [rewind_strsource _ _ _ hca hnea]
    exact ha
  · unfold gettokens
    rw [rewind_strsource _ _ _ hcb hneb]
    exact scanLoop_mono _ _ _ n 1 _ _ hb1

/-- String sources made from the same string are alike, whatever the buffer
held before. -/
theorem strsource_alike (str : List Nat) (heapa heapb : Nat → Nat) :
    Alike 0 (strsource str heapa) (strsource str heapb) := by
  refine ⟨rfl, rfl, rfl, ?_⟩
  intro i hi
  have hi' : i < strlen str + 2 := hi
  show (if i < strlen str then str.getD i 0 else if i < strlen str + 2 then EOB else heapa i)
    = (if i < strlen str then str.getD i 0 else if i < strlen str + 2 then EOB else heapb i)
  by_cases h : i < strlen str
  · rw [if_pos h, if_pos h]
  · rw [if_neg h, if_neg h, if_pos hi', if_pos hi']

/-- The tokens that a call on a string source appends depend neither on what
the buffer held before nor on `quicklook`. -/
theorem gettokens_tokens (cplusplus : Bool) (qa qb : Nat → Nat → Nat) (trp : List Token)
    (reset : Bool) (str : List Nat) (heapa heapb : Nat → Nat) (hc : CString str)
    (hne : str ≠ []) (n : Nat) (toks : List (Nat × Nat × List Nat × Nat))
    (h : (gettokens (entry cplusplus) qb n (strsource str heapb) trp reset).map Outcome.tokens
      = some toks) :
    (gettokens (entry cplusplus) qa n (strsource str heapa) trp reset).map Outcome.tokens
      = some toks := by
  unfold gettokens at h ⊢
  rw [rewind_strsource _ _ _ hc hne] at h ⊢
  dsimp only at h ⊢
  cases hb : scanLoop (entry cplusplus) qb trp n (Scan.init (strsource str heapb)) with
  | none =>
    rw [hb] at h
    exact absurd h (by simp)
  | some ob =>
    obtain ⟨oa, ha, hal⟩ := scanLoop_alike cplusplus 0 qa qb trp n
      (Scan.init (strsource str heapa)) (Scan.init (strsource str heapb))
      ⟨strsource_alike str heapa heapb, rfl, rfl, rfl, rfl, rfl, rfl⟩
      (init_inv _ (setsource_wf none (some str) heapb)) ob hb
    rw [hb] at h
    rw [ha]
    show some oa.tokens = some toks
    rw [← seen_tokens oa, hal.1, seen_tokens ob]
    exact h

/-- C2: for each of the nine trigraphs `??x` with replacement `r`, every
string `p` free of NUL, the sentinel bytes, newline, `?` and backslash, and
every string `qs` free of NUL and the sentinel bytes, the calls of `gettokens`
on the string sources `p ++ "??x" ++ qs ++ "\n"` and `p ++ r ++ qs ++ "\n"`
both end, and they append the same tokens: the same types, lengths, text bytes
and whitespace lengths.  And on "ab??=cd\n" the call appends `NAME` "ab",
`SHARP` "#", `NAME` "cd" and `NL`. -/
theorem C2_trigraph_same_tokens (cplusplus : Bool) (q : Nat → Nat → Nat) (trp : List Token)
    (reset : Bool) (heap heap1 : Nat → Nat) :
    (∀ x r p qs, (x, r) ∈ trigraphs → (∀ c ∈ p, Inert c) → (∀ c ∈ qs, Clean c) →
      ∃ n oa ob,
        gettokens (bigfsm cplusplus) q n (strsource (p ++ [63, 63, x] ++ qs ++ [10]) heap)
          trp reset = some oa
        ∧ gettokens (bigfsm cplusplus) q n (strsource (p ++ [r] ++ qs ++ [10]) heap1)
          trp reset = some ob
        ∧ oa.tokens = ob.tokens)
    ∧ (gettokens (bigfsm cplusplus) q 12 (strsource [97, 98, 63, 63, 61, 99, 100, 10] heap)
          trp reset).map Outcome.tokens
        = some [(NAME, 2, [97, 98], 0), (SHARP, 1, [35], 0), (NAME, 2, [99, 100], 0),
            (NL, 1, [10], 0)] := by
  constructor
  · intro x r p qs hx hp hq
    obtain ⟨hx256, hr, hr0, hr256⟩ := trigraphs_spec x r hx
    have e1 : p ++ [63, 63, x] ++ qs ++ [10] = p ++ (63 :: 63 :: x :: (qs ++ [10])) := by
      rw [List.append_assoc, List.append_assoc]
      rfl
    have e2 : p ++ [r] ++ qs ++ [10] = p ++ (r :: (qs ++ [10])) := by
      rw [List.append_assoc, List.append_assoc]
      rfl
    rw [e1, e2]
    have hct := cstring_tail qs hq
    obtain ⟨n, oa, ob, ha, hb, hal⟩ := substitution_run cplusplus 0 q trp reset p
      (63 :: 63 :: x :: (qs ++ [10])) (r :: (qs ++ [10])) heap heap1 hp
      (cstring_cons 63 _ (by decide) (by decide) (cstring_cons 63 _ (by decide) (by decide)
        (cstring_cons x _ hx256 (fun h0 => by rw [h0] at hr; exact hr0 hr.symm) hct)))
      (cstring_cons r _ hr256 hr0 hct) (List.cons_ne_nil _ _) (List.cons_ne_nil _ _)
      (fun a b hpre hip hinv =>
        tri_junction cplusplus q trp p.length x r (qs ++ [10]) a b hpre hip hinv hx256 hr hr0)
    exact ⟨n, oa, ob, ha, hb, by rw [← seen_tokens oa, ← seen_tokens ob, hal.1]⟩
  · rw [bigfsm_eq]
    refine gettokens_tokens cplusplus q (fun _ _ => 0) trp reset _ heap (fun _ => 0)
      (by decide) (by decide) 12 _ ?_
    cases cplusplus <;> cases reset <;> rfl

theorem C2_trigraph_same_tokens_witness :
    (61, 35) ∈ trigraphs ∧ (∀ c ∈ [97, 98], Inert c) ∧ (∀ c ∈ [99, 100], Clean c)
    ∧ ∃ n oa ob,
        gettokens (bigfsm true) (fun _ _ => 0) n
          (strsource ([97, 98] ++ [63, 63, 61] ++ [99, 100] ++ [10]) (fun _ => 0)) [] true
            = some oa
        ∧ gettokens (bigfsm true) (fun _ _ => 0) n
          (strsource ([97, 98] ++ [35] ++ [99, 100] ++ [10]) (fun _ => 0)) [] true = some ob
        ∧ oa.tokens = ob.tokens :=
  ⟨by decide, by decide, by decide,
    (C2_trigraph_same_tokens true (fun _ _ => 0) [] true (fun _ => 0) (fun _ => 0)).1 61 35
      [97, 98] [99, 100] (by decide) (by decide) (by decide)⟩

/-- C3: for every string `p` free of NUL, the sentinel bytes, newline, `?` and
backslash, and every string `qs` free of NUL and the sentinel bytes, the calls
of `gettokens` on the string sources `p ++ "\\\n" ++ qs ++ "\n"` (a backslash
and a newline after `p`) and `p ++ qs ++ "\n"` both end; they append the same
tokens (types, lengths and text bytes, and the whitespace lengths as well), and
the first leaves a pending line increment that is one greater.  And on "x",
backslash, newline, "y\n" the call appends `NAME` "xy" and `NL`. -/
theorem C3_line_splice_same_tokens (cplusplus : Bool) (q : Nat → Nat → Nat) (trp : List Token)
    (reset : Bool) (heap heap1 : Nat → Nat) :
    (∀ p qs, (∀ c ∈ p, Inert c) → (∀ c ∈ qs, Clean c) →
      ∃ n oa ob,
        gettokens (bigfsm cplusplus) q n (strsource (p ++ [92, 10] ++ qs ++ [10]) heap)
          trp reset = some oa
        ∧ gettokens (bigfsm cplusplus) q n (strsource (p ++ qs ++ [10]) heap1)
          trp reset = some ob
        ∧ oa.tokens = ob.tokens ∧ oa.src.lineinc = ob.src.lineinc + 1)
    ∧ (gettokens (bigfsm cplusplus) q 8 (strsource [120, 92, 10, 121, 10] heap)
          trp reset).map Outcome.tokens
        = some [(NAME, 2, [120, 121], 0), (NL, 1, [10], 0)] := by
  constructor
  · intro p qs hp hq
    have e1 : p ++ [92, 10] ++ qs ++ [10] = p ++ (92 :: 10 :: (qs ++ [10])) := by
      rw [List.append_assoc, List.append_assoc]
      rfl
    have e2 : p ++ qs ++ [10] = p ++ (qs ++ [10]) := List.append_assoc _ _ _
    rw [e1, e2]
    have hct := cstring_tail qs hq
    obtain ⟨n, oa, ob, ha, hb, hal⟩ := substitution_run cplusplus 1 q trp reset p
      (92 :: 10 :: (qs ++ [10])) (qs ++ [10]) heap heap1 hp
      (cstring_cons 92 _ (by decide) (by decide) (cstring_cons 10 _ (by decide) (by decide) hct))
      hct (List.cons_ne_nil _ _) (fun h => by simp at h)
      (fun a b hpre hip hinv =>
        fold_junction cplusplus q trp p.length (qs ++ [10]) a b hpre hip hinv)
    exact ⟨n, oa, ob, ha, hb, by rw [← seen_tokens oa, ← seen_tokens ob, hal.1], hal.2⟩
  · rw [bigfsm_eq]
    refine gettokens_tokens cplusplus q (fun _ _ => 0) trp reset _ heap (fun _ => 0)
      (by decide) (by decide) 8 _ ?_
    cases cplusplus <;> cases reset <;> rfl

theorem C3_line_splice_same_tokens_witness :
    (∀ c ∈ [120], Inert c) ∧ (∀ c ∈ [121], Clean c)
    ∧ ∃ n oa ob,
        gettokens (bigfsm true) (fun _ _ => 0) n
          (strsource ([120] ++ [92, 10] ++ [121] ++ [10]) (fun _ => 0)) [] true = some oa
        ∧ gettokens (bigfsm true) (fun _ _ => 0) n
          (strsource ([120] ++ [121] ++ [10]) (fun _ => 0)) [] true = some ob
        ∧ oa.tokens = ob.tokens ∧ oa.src.lineinc = ob.src.lineinc + 1 :=
  ⟨by decide, by decide,
    (C3_line_splice_same_tokens true (fun _ _ => 0) [] true (fun _ => 0) (fun _ => 0)).1
      [120] [121] (by decide) (by decide)⟩

end Lex
